import Mathlib

/-! The-Pendulum : PCA driver and SVD engine (pca.c, xzsvdc.c, pcaRed.c)

A shallow embedding of the generated C sources and the properties proved of it.

Modelling conventions:

* A C `double` is a `Dbl`: either `nan` or an exact rational number.  Every finite
  double is a rational, so every NaN-or-finite table is representable.  Arithmetic is
  exact (no rounding, no overflow).  Infinities are not part of the value type: a
  division of a non-zero number by zero, which IEEE maps to an infinity, is mapped to
  `nan` (for zero by zero IEEE itself gives NaN).
* `emxArray_real_T` is a `Mat`: the two `size` fields and the `data` buffer, stored
  column-major, element `(i, j)` at offset `i + size0 * j` as in the C code.
* Reading a buffer at an offset that was never written yields `Host.junk`, an
  arbitrary value fixed by the host; the library `sqrt` is `Host.sqrt`.  Theorems
  quantify over every host.
* C `int` indices are natural numbers; the places where the C code lets an index
  run below zero (`m` in `xzsvdc`) are translated with the value shifted by one and
  say so.  No table of the declared input type (at most 1000000 x 12) overflows a
  32-bit index.  The fixed 12- and 144-element scratch arrays are modelled as lists
  of the length the code uses; the subscripts the code applies to them are listed
  separately, as integers (section "The subscripts into the fixed-size buffers").
* The `while` loop of `xzsvdc` is run with a fuel that bounds its number of passes
  (`xzsvdc_fuel`); every other loop is a fold over its index range.
* The bodies of `xnrm2`, `xaxpy` and `xrotg` are not among the sources; they are
  modelled from the specification and marked so.
-/

set_option autoImplicit false

/-! ## Values -/

/-- A C `double` in exact arithmetic: NaN or a rational number. -/
inductive Dbl where
  | nan : Dbl
  | num (q : ℚ) : Dbl
deriving DecidableEq

/-- What the sources leave to their environment: the library square root and the
content of memory that was never written. -/
structure Host where
  sqrt : ℚ → ℚ
  junk : Dbl

namespace Dbl

/-- Test of `rtIsNaN`. -/
def isNaN : Dbl → Bool
  | nan => true
  | num _ => false

/-- Addition of doubles: NaN is absorbing. -/
def add : Dbl → Dbl → Dbl
  | num a, num b => num (a + b)
  | _, _ => nan

/-- Subtraction of doubles. -/
def sub : Dbl → Dbl → Dbl
  | num a, num b => num (a - b)
  | _, _ => nan

/-- Multiplication of doubles. -/
def mul : Dbl → Dbl → Dbl
  | num a, num b => num (a * b)
  | _, _ => nan

/-- Division of doubles; a zero divisor gives a non-finite result, here `nan`. -/
def div : Dbl → Dbl → Dbl
  | num a, num b => if b = 0 then nan else num (a / b)
  | _, _ => nan

/-- Unary minus. -/
def neg : Dbl → Dbl
  | num a => num (-a)
  | nan => nan

/-- The C function `fabs`. -/
def abs : Dbl → Dbl
  | num a => num |a|
  | nan => nan

/-- The C comparison `a < b`: false as soon as one side is NaN. -/
def lt : Dbl → Dbl → Bool
  | num a, num b => decide (a < b)
  | _, _ => false

/-- The C comparison `a <= b`. -/
def le : Dbl → Dbl → Bool
  | num a, num b => decide (a ≤ b)
  | _, _ => false

/-- The C comparison `a > b`. -/
def gt (a b : Dbl) : Bool := lt b a

/-- The C comparison `a >= b`. -/
def ge (a b : Dbl) : Bool := le b a

/-- The C comparison `a == b`: false as soon as one side is NaN. -/
def eq : Dbl → Dbl → Bool
  | num a, num b => decide (a = b)
  | _, _ => false

/-- The C comparison `a != b`: true as soon as one side is NaN. -/
def ne (a b : Dbl) : Bool := !(eq a b)

/-- The C function `fmax`: a NaN argument is ignored in favour of the other one. -/
def fmax : Dbl → Dbl → Dbl
  | nan, b => b
  | a, nan => a
  | num a, num b => num (max a b)

/-- The C function `sqrt`, through the host; negative arguments give NaN. -/
def sqrt (h : Host) : Dbl → Dbl
  | num a => if a < 0 then nan else num (h.sqrt a)
  | nan => nan

/-- Conversion `(double)k` of a non-negative `int`. -/
def ofNat (k : Nat) : Dbl := num (k : ℚ)

end Dbl

instance : Add Dbl := ⟨Dbl.add⟩
instance : Sub Dbl := ⟨Dbl.sub⟩
instance : Mul Dbl := ⟨Dbl.mul⟩
instance : Div Dbl := ⟨Dbl.div⟩
instance : Neg Dbl := ⟨Dbl.neg⟩

/-! ## Buffers and matrices -/

/-- Read `a[k]`; an offset outside the written part of the buffer yields the host's
junk value. -/
def rd (h : Host) (a : List Dbl) (k : Nat) : Dbl := a.getD k h.junk

/-- Write `a[k] = v`. -/
def wr (a : List Dbl) (k : Nat) (v : Dbl) : List Dbl := a.set k v

/-- The loop `for (i = lo; i < lo + len; i++) s = body(i, s)`. -/
def forUp {σ : Type} (lo len : Nat) (body : Nat → σ → σ) (s : σ) : σ :=
  (List.range' lo len).foldl (fun acc i => body i acc) s

/-- The loop `for (i = lo + len - 1; i >= lo; i--) s = body(i, s)`. -/
def forDown {σ : Type} (lo len : Nat) (body : Nat → σ → σ) (s : σ) : σ :=
  (List.range' lo len).reverse.foldl (fun acc i => body i acc) s

/-- An `emxArray_real_T` with two dimensions, column-major. -/
structure Mat where
  size0 : Nat
  size1 : Nat
  data : List Dbl
deriving DecidableEq

namespace Mat

/-- Element `M_data[i + M->size[0] * j]`. -/
def get (h : Host) (M : Mat) (i j : Nat) : Dbl := rd h M.data (i + M.size0 * j)

/-- A freshly sized `r x c` array whose every element `(i, j)` is then assigned
`f i j` (the result of a pair of nested loops over all rows and columns). -/
def build (r c : Nat) (f : Nat → Nat → Dbl) : Mat :=
  ⟨r, c, (List.range (r * c)).map (fun k => f (k % r) (k / r))⟩

end Mat

instance (k : Nat) : OfNat Dbl k := ⟨Dbl.num (k : ℚ)⟩

/-! ## Vector primitives -/

/-- Source `xdotc.c`: the inner product of two length-`n` segments, accumulated from
`k = 0` upward; the offsets `ix0`, `iy0` are 1-based. -/
def xdotc (h : Host) (n : Int) (x : List Dbl) (ix0 : Nat) (y : List Dbl) (iy0 : Nat) : Dbl :=
  if 1 ≤ n then
    forUp 0 n.toNat (fun k d => d + rd h x (ix0 + k - 1) * rd h y (iy0 + k - 1)) 0
  else 0

/-- Source `xrot.c`: apply the plane rotation `(c, s)` to two segments of `x`. -/
def xrot (h : Host) (n : Int) (x : List Dbl) (ix0 iy0 : Nat) (c s : Dbl) : List Dbl :=
  if 1 ≤ n then
    forUp 0 n.toNat (fun k x =>
      let temp_tmp_tmp := iy0 + k - 1
      let temp_tmp := rd h x temp_tmp_tmp
      let b_temp_tmp_tmp := ix0 + k - 1
      let b_temp_tmp := rd h x b_temp_tmp_tmp
      let x := wr x temp_tmp_tmp (c * temp_tmp - s * b_temp_tmp)
      wr x b_temp_tmp_tmp (c * b_temp_tmp + s * temp_tmp)) x
  else x

/-- Source `xswap.c`: exchange two segments of `x` element by element. -/
def xswap (h : Host) (n : Int) (x : List Dbl) (ix0 iy0 : Nat) : List Dbl :=
  forUp 0 n.toNat (fun k x =>
    let temp_tmp := ix0 + k - 1
    let temp := rd h x temp_tmp
    let i := iy0 + k - 1
    let x := wr x temp_tmp (rd h x i)
    wr x i temp) x

/-- Modelled from the spec: `b_xaxpy` (declared in `xaxpy.h`, body not in the
sources), section 4.1 `axpy(n, a, x, ix, y, iy)`: `y[iy+k] += a * x[ix+k]` for `k`
in `[0, n)`, nothing when `a == 0` or `n < 1`.  Offsets are 1-based as in `xdotc`. -/
def b_xaxpy (h : Host) (n : Int) (a : Dbl) (x : List Dbl) (ix0 : Nat) (y : List Dbl)
    (iy0 : Nat) : List Dbl :=
  if n < 1 ∨ Dbl.eq a 0 = true then y
  else forUp 0 n.toNat (fun k y =>
    wr y (iy0 + k - 1) (rd h y (iy0 + k - 1) + a * rd h x (ix0 + k - 1))) y

/-- Modelled from the spec: `xaxpy` (declared in `xaxpy.h`, body not in the sources),
the variant of `axpy` whose two segments lie in the same buffer `y`. -/
def xaxpy (h : Host) (n : Int) (a : Dbl) (ix0 : Nat) (y : List Dbl) (iy0 : Nat) : List Dbl :=
  if n < 1 ∨ Dbl.eq a 0 = true then y
  else forUp 0 n.toNat (fun k y =>
    wr y (iy0 + k - 1) (rd h y (iy0 + k - 1) + a * rd h y (ix0 + k - 1))) y

/-- Modelled from the spec: `xnrm2` and `b_xnrm2` (declared in `xnrm2.h`, bodies not in
the sources), section 4.1 `norm(v, offset, n)`: `|v|` for `n = 1`, `0` for `n <= 0`,
otherwise the largest magnitude `mx` of the segment is tracked, the squares of the
values divided by `mx` are summed, and the result is `sqrt(mx^2 * sum)`; an all-zero
segment gives `0` (a segment of zeros and NaNs gives NaN). -/
def xnrm2 (h : Host) (n : Int) (x : List Dbl) (ix0 : Nat) : Dbl :=
  if n < 1 then 0
  else if n = 1 then Dbl.abs (rd h x (ix0 - 1))
  else
    let mx := forUp 0 n.toNat (fun k mx =>
      let absxk := Dbl.abs (rd h x (ix0 + k - 1))
      if Dbl.gt absxk mx then absxk else mx) 0
    if Dbl.eq mx 0 then
      forUp 0 n.toNat (fun k y => y + Dbl.abs (rd h x (ix0 + k - 1))) 0
    else
      let y := forUp 0 n.toNat (fun k y =>
        let t := rd h x (ix0 + k - 1) / mx
        y + t * t) 0
      Dbl.sqrt h (mx * mx * y)

/-- Result of `xrotg`: the returned cosine, the new `*a`, the new `*b`, and `*s`. -/
structure Givens where
  c : Dbl
  a : Dbl
  b : Dbl
  s : Dbl

/-- Modelled from the spec: `xrotg` (header `xrotg.h` and body not in the sources),
section 4.1 `rotg(a, b)`: the classic BLAS `drotg`.  `a` receives the combined
magnitude `r` (signed like the larger of the two), `b` the reconstruction value `z`;
`a = b = 0` gives `c = 1`, `s = 0`. -/
def xrotg (h : Host) (a b : Dbl) : Givens :=
  let absa := Dbl.abs a
  let absb := Dbl.abs b
  let roe := if Dbl.gt absa absb then a else b
  let scale := absa + absb
  if Dbl.eq scale 0 then ⟨1, 0, 0, 0⟩
  else
    let ads := absa / scale
    let bds := absb / scale
    let r := scale * Dbl.sqrt h (ads * ads + bds * bds)
    let r := if Dbl.lt roe 0 then -r else r
    let c := a / r
    let s := b / r
    let z := if Dbl.gt absa absb then s else if Dbl.ne c 0 then 1 / c else 1
    ⟨c, r, z, s⟩

/-! ## The SVD engine (`xzsvdc.c`) -/

/-- The literal `2.2204460492503131E-16`. -/
def EPS : Dbl := Dbl.num (22204460492503131 / 10 ^ 32)

/-- The literal `1.0020841800044864E-292`. -/
def TINY : Dbl := Dbl.num (10020841800044864 / 10 ^ 308)

/-- The buffers `xzsvdc` works on: the copy `A` of the input, `U`, the `p x p` array `x`
that accumulates `V`, the diagonal `s_data`, the superdiagonal `e_data` and `work`. -/
structure SvdWork where
  A : List Dbl
  U : List Dbl
  x : List Dbl
  s : List Dbl
  e : List Dbl
  work : List Dbl

/-- Source `xzsvdc.c` lines 141-166: the column reflection for pivot `q`; the flag is
`apply_transform`. -/
def xzsvdc_colReflect (h : Host) (n nct q : Nat) (w : SvdWork) : SvdWork × Bool :=
  let qq := (q + n * q) + 1
  let nmq := n - q
  if q + 1 ≤ nct then
    let nrm := xnrm2 h nmq w.A qq
    if Dbl.gt nrm 0 then
      let nrm := if Dbl.lt (rd h w.A (qq - 1)) 0 then -nrm else nrm
      let s := wr w.s q nrm
      let A :=
        if Dbl.ge (Dbl.abs nrm) TINY then
          let r := 1 / nrm
          forUp qq nmq (fun qjj A => wr A (qjj - 1) (rd h A (qjj - 1) * r)) w.A
        else
          forUp qq nmq (fun qjj A => wr A (qjj - 1) (rd h A (qjj - 1) / rd h s q)) w.A
      let A := wr A (qq - 1) (rd h A (qq - 1) + 1)
      let s := wr s q (-(rd h s q))
      ({ w with A := A, s := s }, true)
    else ({ w with s := wr w.s q 0 }, false)
  else (w, false)

/-- Source `xzsvdc.c` lines 167-176: apply the reflection to the later columns and
store row `q` of `A` in `e_data`. -/
def xzsvdc_applyCols (h : Host) (n p q : Nat) (apply_transform : Bool) (w : SvdWork) :
    SvdWork :=
  let qp1 := q + 2
  let qq := (q + n * q) + 1
  let nmq := n - q
  forUp qp1 (p + 1 - qp1) (fun jj w =>
    let qjj := q + n * (jj - 1)
    let A :=
      if apply_transform then
        xaxpy h nmq (-(xdotc h nmq w.A qq w.A (qjj + 1) / rd h w.A (q + n * q))) qq w.A (qjj + 1)
      else w.A
    { w with A := A, e := wr w.e (jj - 1) (rd h A qjj) }) w

/-- Source `xzsvdc.c` lines 183-223: the row reflection for pivot `q`. -/
def xzsvdc_rowReflect (h : Host) (n p q : Nat) (w : SvdWork) : SvdWork :=
  let qp1 := q + 2
  let nmq := n - q
  let qq := p - q
  let nrm := xnrm2 h ((qq : Int) - 1) w.e (q + 2)
  if Dbl.eq nrm 0 then { w with e := wr w.e q 0 }
  else
    let e := if Dbl.lt (rd h w.e (q + 1)) 0 then wr w.e q (-nrm) else wr w.e q nrm
    let nrm := rd h e q
    let e :=
      if Dbl.ge (Dbl.abs (rd h e q)) TINY then
        let nrm := 1 / rd h e q
        forUp qp1 (q + qq + 1 - qp1) (fun qjj e => wr e (qjj - 1) (rd h e (qjj - 1) * nrm)) e
      else
        forUp qp1 (q + qq + 1 - qp1) (fun qjj e => wr e (qjj - 1) (rd h e (qjj - 1) / nrm)) e
    let e := wr e (q + 1) (rd h e (q + 1) + 1)
    let e := wr e q (-(rd h e q))
    if q + 2 ≤ n then
      let work := forUp qp1 (n + 1 - qp1) (fun ii work => wr work (ii - 1) 0) w.work
      let work := forUp qp1 (p + 1 - qp1) (fun jj work =>
        b_xaxpy h ((nmq : Int) - 1) (rd h e (jj - 1)) w.A ((q + n * (jj - 1)) + 2) work (q + 2)) work
      let A := forUp qp1 (p + 1 - qp1) (fun jj A =>
        b_xaxpy h ((nmq : Int) - 1) (-(rd h e (jj - 1)) / rd h e (q + 1)) work (q + 2) A
          ((q + n * (jj - 1)) + 2)) w.A
      { w with A := A, e := e, work := work }
    else { w with e := e }

/-- Source `xzsvdc.c` lines 135-228: the body of the bidiagonalization loop for one
pivot `q`. -/
def xzsvdc_bidiag (h : Host) (n p nct nrt q : Nat) (w : SvdWork) : SvdWork :=
  let qp1 := q + 2
  let w1 := xzsvdc_colReflect h n nct q w
  let w2 := xzsvdc_applyCols h n p q w1.2 w1.1
  -- lines 177-181
  let w3 :=
    if q + 1 ≤ nct then
      { w2 with U := forUp (q + 1) (n - q) (fun ii U =>
          wr U ((ii + n * q) - 1) (rd h w2.A ((ii + n * q) - 1))) w2.U }
    else w2
  -- lines 182-227
  if q + 1 ≤ nrt then
    let w4 := xzsvdc_rowReflect h n p q w3
    { w4 with x := forUp qp1 (p + 1 - qp1) (fun ii x =>
        wr x ((ii + p * q) - 1) (rd h w4.e (ii - 1))) w4.x }
  else w3

/-- Source `xzsvdc.c` lines 252-277: back-accumulation of `U` for one `q` (1-based). -/
def xzsvdc_genU (h : Host) (n S_size q : Nat) (s U : List Dbl) : List Dbl :=
  let qp1 := q + 1
  let ns := n - q
  let qq := (q + n * (q - 1)) - 1
  if Dbl.ne (rd h s (q - 1)) 0 then
    let U := forUp qp1 (S_size + 1 - qp1) (fun jj U =>
      let qjj := q + n * (jj - 1)
      xaxpy h ((ns : Int) + 1) (-(xdotc h ((ns : Int) + 1) U (qq + 1) U qjj / rd h U qq))
        (qq + 1) U qjj) U
    let U := forUp q (n + 1 - q) (fun ii U =>
      wr U ((ii + n * (q - 1)) - 1) (-(rd h U ((ii + n * (q - 1)) - 1)))) U
    let U := wr U qq (rd h U qq + 1)
    forUp 0 (q - 1) (fun ii U => wr U (ii + n * (q - 1)) 0) U
  else
    let U := forUp 0 n (fun ii U => wr U (ii + n * (q - 1)) 0) U
    wr U qq 1

/-- Source `xzsvdc.c` lines 278-293: back-accumulation of `V` for one `q` (1-based). -/
def xzsvdc_genV (h : Host) (p nrt q : Nat) (e x : List Dbl) : List Dbl :=
  let x :=
    if q ≤ nrt ∧ Dbl.ne (rd h e (q - 1)) 0 = true then
      let qp1 := q + 1
      let qq := p - q
      let ns := (q + p * (q - 1)) + 1
      forUp qp1 (p + 1 - qp1) (fun jj x =>
        let qjj := (q + p * (jj - 1)) + 1
        xaxpy h qq (-(xdotc h qq x ns x qjj / rd h x (ns - 1))) ns x qjj) x
    else x
  let x := forUp 0 p (fun ii x => wr x (ii + p * (q - 1)) 0) x
  wr x ((q + p * (q - 1)) - 1) 1

/-- The variables of the pre-scaling pass (lines 294-329). -/
structure SvdScale where
  U : List Dbl
  x : List Dbl
  s : List Dbl
  e : List Dbl
  snorm : Dbl

/-- Source `xzsvdc.c` lines 298-313: make `s[q]` non-negative, moving its sign into
`e[q]` and column `q` of `U`. -/
def xzsvdc_prescale_s (h : Host) (n m q : Nat) (w : SvdScale) : SvdScale :=
  let nrm := rd h w.s q
  if Dbl.ne nrm 0 then
    let rt := Dbl.abs nrm
    let nrm := nrm / rt
    { w with
      U := if q + 1 ≤ n then
          forUp (n * q + 1) n (fun qjj U => wr U (qjj - 1) (rd h U (qjj - 1) * nrm)) w.U
        else w.U
      s := wr w.s q rt
      e := if q < m then wr w.e q (rd h w.e q / nrm) else w.e }
  else w

/-- Source `xzsvdc.c` lines 314-327: make `e[q]` non-negative, moving its sign into
`s[q + 1]` and column `q + 1` of `V`. -/
def xzsvdc_prescale_e (h : Host) (p m q : Nat) (w : SvdScale) : SvdScale :=
  if q < m then
    let nrm := rd h w.e q
    if Dbl.ne nrm 0 then
      let rt := Dbl.abs nrm
      let nrm := rt / nrm
      { w with
        x := forUp (p * (q + 1) + 1) p (fun qjj x => wr x (qjj - 1) (rd h x (qjj - 1) * nrm)) w.x
        s := wr w.s (q + 1) (rd h w.s (q + 1) * nrm)
        e := wr w.e q rt }
    else w
  else w

/-- Source `xzsvdc.c` lines 297-329: the body of the pre-scaling loop for index `q`. -/
def xzsvdc_prescale (h : Host) (n p m q : Nat) (w : SvdScale) : SvdScale :=
  let w2 := xzsvdc_prescale_e h p m q (xzsvdc_prescale_s h n m q w)
  let snorm := Dbl.fmax w2.snorm (Dbl.fmax (Dbl.abs (rd h w2.s q)) (Dbl.abs (rd h w2.e q)))
  { w2 with snorm := snorm }

/-- The variables of the diagonalization loop (lines 330-494).  The C variable `m` runs
down to `-1`; the field `m1` holds `m + 1`. -/
structure SvdIter where
  U : List Dbl
  x : List Dbl
  s : List Dbl
  e : List Dbl
  m1 : Nat
  qq : Nat

/-- Source `xzsvdc.c` lines 332-345: the first scan.  Called with `ii = m`; returns the
final `ii` and `e_data`. -/
def xzsvdc_scanE (h : Host) (s : List Dbl) (qq : Nat) (snorm : Dbl) :
    Nat → List Dbl → Nat × List Dbl
  | 0, e => (0, e)
  | ii + 1, e =>
    let nrm := Dbl.abs (rd h e ii)
    if Dbl.le nrm (EPS * (Dbl.abs (rd h s ii) + Dbl.abs (rd h s (ii + 1)))) = true
        ∨ Dbl.le nrm TINY = true
        ∨ (20 < qq ∧ Dbl.le nrm (EPS * snorm) = true) then
      (ii + 1, wr e ii 0)
    else xzsvdc_scanE h s qq snorm ii e

/-- Source `xzsvdc.c` lines 349-373: the second scan.  The first argument is `ns - ii`
(called with `ns = m + 1`); returns the final `qjj` and `s_data`. -/
def xzsvdc_scanS (h : Host) (m ii : Nat) (e : List Dbl) : Nat → List Dbl → Nat × List Dbl
  | 0, s => (ii, s)
  | d + 1, s =>
    let ns := ii + d + 1
    let nrm : Dbl := if ns < m + 1 then Dbl.abs (rd h e (ns - 1)) else 0
    let nrm := if ns > ii + 1 then nrm + Dbl.abs (rd h e (ns - 2)) else nrm
    let rt := Dbl.abs (rd h s (ns - 1))
    if Dbl.le rt (EPS * nrm) = true ∨ Dbl.le rt TINY = true then (ns, wr s (ns - 1) 0)
    else xzsvdc_scanS h m ii e d s

/-- Loop variables of the rotation chains of cases 1 to 3. -/
structure SvdChase where
  U : List Dbl
  x : List Dbl
  s : List Dbl
  e : List Dbl
  rt : Dbl
  nrm : Dbl

/-- Source `xzsvdc.c` lines 384-399 (case 1). -/
def xzsvdc_case1 (h : Host) (p m ii : Nat) (w : SvdIter) : SvdIter :=
  let rt := rd h w.e (m - 1)
  let e := wr w.e (m - 1) 0
  let r := forDown (ii + 1) (m - ii) (fun qjj (c : SvdChase) =>
    let g := xrotg h (rd h c.s (qjj - 1)) c.rt
    let s := wr c.s (qjj - 1) g.a
    let sm := g.s
    let sqds := g.c
    let c1 : SvdChase :=
      if qjj > ii + 1 then
        let b := rd h c.e (qjj - 2)
        { c with s := s, rt := -sm * b, e := wr c.e (qjj - 2) (b * sqds) }
      else { c with s := s, rt := g.b }
    { c1 with x := xrot h p c1.x (p * (qjj - 1) + 1) (p * m + 1) sqds sm })
    ⟨w.U, w.x, w.s, e, rt, 0⟩
  { w with x := r.x, s := r.s, e := r.e }

/-- Source `xzsvdc.c` lines 400-412 (case 2); `ii` is the index found by the second
scan. -/
def xzsvdc_case2 (h : Host) (n m ii : Nat) (w : SvdIter) : SvdIter :=
  let rt := rd h w.e (ii - 1)
  let e := wr w.e (ii - 1) 0
  let r := forUp (ii + 1) (m + 1 - ii) (fun qjj (c : SvdChase) =>
    let g := xrotg h (rd h c.s (qjj - 1)) c.rt
    let s := wr c.s (qjj - 1) g.a
    let sm := g.s
    let sqds := g.c
    let b := rd h c.e (qjj - 1)
    { c with s := s, rt := -sm * b, e := wr c.e (qjj - 1) (b * sqds),
             U := xrot h n c.U (n * (qjj - 1) + 1) (n * (ii - 1) + 1) sqds sm })
    ⟨w.U, w.x, w.s, e, rt, 0⟩
  { w with U := r.U, s := r.s, e := r.e }

/-- Source `xzsvdc.c` lines 413-465 (case 3): one implicit-shift step. -/
def xzsvdc_case3 (h : Host) (n p m ii : Nat) (w : SvdIter) : SvdIter :=
  let nrm := rd h w.s (m - 1)
  let rt := rd h w.e (m - 1)
  let scale := Dbl.fmax (Dbl.fmax (Dbl.fmax (Dbl.fmax (Dbl.abs (rd h w.s m)) (Dbl.abs nrm))
    (Dbl.abs rt)) (Dbl.abs (rd h w.s ii))) (Dbl.abs (rd h w.e ii))
  let sm := rd h w.s m / scale
  let nrm := nrm / scale
  let rt := rt / scale
  let sqds := rd h w.s ii / scale
  let b := ((nrm + sm) * (nrm - sm) + rt * rt) / 2
  let nrm := sm * rt
  let nrm := nrm * nrm
  let rt : Dbl :=
    if Dbl.ne b 0 = true ∨ Dbl.ne nrm 0 = true then
      let rt := Dbl.sqrt h (b * b + nrm)
      let rt := if Dbl.lt b 0 then -rt else rt
      nrm / (b + rt)
    else 0
  let rt := rt + (sqds + sm) * (sqds - sm)
  let nrm := sqds * (rd h w.e ii / scale)
  let r := forUp (ii + 1) (m - ii) (fun qjj (c : SvdChase) =>
    let g := xrotg h c.rt c.nrm
    let sqds := g.c
    let rt := g.a
    let sm := g.s
    let e := if qjj > ii + 1 then wr c.e (qjj - 2) rt else c.e
    let nrm := rd h e (qjj - 1)
    let b := rd h c.s (qjj - 1)
    let e := wr e (qjj - 1) (sqds * nrm - sm * b)
    let rt := sm * rd h c.s qjj
    let s := wr c.s qjj (rd h c.s qjj * sqds)
    let x := xrot h p c.x (p * (qjj - 1) + 1) (p * qjj + 1) sqds sm
    let s := wr s (qjj - 1) (sqds * b + sm * nrm)
    let g := xrotg h (rd h s (qjj - 1)) rt
    let sqds := g.c
    let s := wr s (qjj - 1) g.a
    let sm := g.s
    let b := rd h e (qjj - 1)
    let rt := sqds * b + sm * rd h s qjj
    let s := wr s qjj (-sm * b + sqds * rd h s qjj)
    let nrm := sm * rd h e qjj
    let e := wr e qjj (rd h e qjj * sqds)
    let U := if qjj < n then xrot h n c.U (n * (qjj - 1) + 1) (n * qjj + 1) sqds sm else c.U
    ⟨U, x, s, e, rt, nrm⟩)
    ⟨w.U, w.x, w.s, w.e, rt, nrm⟩
  { w with U := r.U, x := r.x, s := r.s, e := wr r.e (m - 1) r.rt, qq := w.qq + 1 }

/-- Source `xzsvdc.c` lines 476-489: the insertion loop of case 4.  The first argument
is `nmq - ii`, the number of iterations the bound `ii + 1 < nmq + 1` still allows. -/
def xzsvdc_sort (h : Host) (n p : Nat) : Nat → Nat → SvdIter → SvdIter
  | 0, _, w => w
  | d + 1, ii, w =>
    let qp1 := ii + 1
    if Dbl.lt (rd h w.s ii) (rd h w.s qp1) then
      let rt := rd h w.s ii
      let s := wr w.s ii (rd h w.s qp1)
      let s := wr s qp1 rt
      let x := if ii + 1 < p then xswap h p w.x (p * ii + 1) (p * (ii + 1) + 1) else w.x
      let U := if ii + 1 < n then xswap h n w.U (n * ii + 1) (n * (ii + 1) + 1) else w.U
      xzsvdc_sort h n p d qp1 { w with U := U, x := x, s := s }
    else w

/-- Source `xzsvdc.c` lines 466-492 (case 4): isolate `s[ii]`. -/
def xzsvdc_case4 (h : Host) (n p nmq ii : Nat) (w : SvdIter) : SvdIter :=
  let w1 :=
    if Dbl.lt (rd h w.s ii) 0 then
      let s := wr w.s ii (-(rd h w.s ii))
      let ns := p * ii
      let x := forUp (ns + 1) p (fun qjj x => wr x (qjj - 1) (-(rd h x (qjj - 1)))) w.x
      { w with x := x, s := s }
    else w
  let w2 := xzsvdc_sort h n p (nmq - ii) ii w1
  { w2 with qq := 0, m1 := w.m1 - 1 }

/-- The case number `ns` selected by lines 332-382, with the index `ii` it is run on
and the buffers `s_data`, `e_data` after the two scans. -/
structure SvdCase where
  ns : Nat
  ii : Nat
  s : List Dbl
  e : List Dbl

/-- Source `xzsvdc.c` lines 332-382: the classification of one pass (`m = m1 - 1`). -/
def xzsvdc_classify (h : Host) (snorm : Dbl) (w : SvdIter) : SvdCase :=
  let m := w.m1 - 1
  let sc := xzsvdc_scanE h w.s w.qq snorm m w.e
  let ii := sc.1
  if ii = m then ⟨4, ii, w.s, sc.2⟩
  else
    let sc2 := xzsvdc_scanS h m ii sc.2 (m + 1 - ii) w.s
    let qjj := sc2.1
    if qjj = ii then ⟨3, ii, sc2.2, sc.2⟩
    else if qjj = m + 1 then ⟨1, ii, sc2.2, sc.2⟩
    else ⟨2, qjj, sc2.2, sc.2⟩

/-- Source `xzsvdc.c` lines 331-493: one pass of the diagonalization loop. -/
def xzsvdc_pass (h : Host) (n p nmq : Nat) (snorm : Dbl) (w : SvdIter) : SvdIter :=
  let m := w.m1 - 1
  let k := xzsvdc_classify h snorm w
  let w1 : SvdIter := { w with s := k.s, e := k.e }
  if k.ns = 1 then xzsvdc_case1 h p m k.ii w1
  else if k.ns = 2 then xzsvdc_case2 h n m k.ii w1
  else if k.ns = 3 then xzsvdc_case3 h n p m k.ii w1
  else xzsvdc_case4 h n p nmq k.ii w1

/-- Source `xzsvdc.c` line 330: `while ((m + 1 > 0) && (qq < 75))`, run for at most
`fuel` passes. -/
def xzsvdc_loop (h : Host) (n p nmq : Nat) (snorm : Dbl) : Nat → SvdIter → SvdIter
  | 0, w => w
  | fuel + 1, w =>
    if 0 < w.m1 ∧ w.qq < 75 then
      xzsvdc_loop h n p nmq snorm fuel (xzsvdc_pass h n p nmq snorm w)
    else w

/-- A number of passes the loop cannot exceed when started with `m + 1 = m1`: between
two decrements of `m` there are at most 75 shift steps, each preceded by at most
`m1` passes of cases 1 and 2. -/
def xzsvdc_fuel (m1 : Nat) : Nat := 76 * (m1 + 1) * (m1 + 1)

/-- What `xzsvdc` hands back: the return value `S_size`, `U`, the first `S_size`
entries of `S_data`, and `V` (`V_data` with `V_size`). -/
structure SvdOut where
  S_size : Nat
  U : Mat
  S : List Dbl
  V : Mat

/-- Source `xzsvdc.c` lines 115-123: the number `nrt` of row reflections,
`min(max(p - 2, 0), n)`. -/
def xzsvdc_nrt (n p : Nat) : Nat :=
  let qjj := if p ≥ 2 then p - 2 else 0
  if qjj ≤ n then qjj else n

/-- Source `xzsvdc.c` lines 124-128: the number `nct` of column reflections,
`min(n - 1, p)`. -/
def xzsvdc_nct (n p : Nat) : Nat :=
  let qjj := n - 1
  if qjj ≤ p then qjj else p

/-- Source `xzsvdc.c` lines 244-251: the columns `nct + 1 .. S_size` of `U` become
columns of the identity. -/
def xzsvdc_eyeU (n nct S_size : Nat) (U : List Dbl) : List Dbl :=
  let nctp1 := nct + 1
  if nct + 1 ≤ S_size then
    forUp nctp1 (S_size + 1 - nctp1) (fun jj U =>
      let U := forUp 0 n (fun ii U => wr U (ii + n * (jj - 1)) 0) U
      wr U ((jj + n * (jj - 1)) - 1) 1) U
  else U

/-- Source `xzsvdc.c` lines 106-494: the non-degenerate branch, from the zeroed buffers
to the buffers after the diagonalization loop. -/
def xzsvdc_main (h : Host) (n p S_size : Nat) (w0 : SvdWork) : SvdIter :=
  let nrt := xzsvdc_nrt n p
  let nct := xzsvdc_nct n p
  let i := if nct ≥ nrt then nct else nrt
  let w := forUp 0 i (xzsvdc_bidiag h n p nct nrt) w0
  let m := if p ≤ n + 1 then p - 1 else n
  let s := if nct < p then wr w.s nct (rd h w.A (nct + n * nct)) else w.s
  let s := if n < m + 1 then wr s m 0 else s
  let e := if nrt < m then wr w.e nrt (rd h w.A (nrt + n * m)) else w.e
  let e := wr e m 0
  let U := xzsvdc_eyeU n nct S_size w.U
  let U := forDown 1 nct (fun q U => xzsvdc_genU h n S_size q s U) U
  let x := forDown 1 p (fun q x => xzsvdc_genV h p nrt q e x) w.x
  let nmq := m
  let sc := forUp 0 (m + 1) (xzsvdc_prescale h n p m) ⟨U, x, s, e, 0⟩
  xzsvdc_loop h n p nmq sc.snorm (xzsvdc_fuel (m + 1)) ⟨sc.U, sc.x, sc.s, sc.e, m + 1, 0⟩

/-- Source `xzsvdc.c`: the singular value decomposition of `A`. -/
def xzsvdc (h : Host) (A : Mat) : SvdOut :=
  let n := A.size0
  let p := A.size1
  let S_size := if n ≤ p then n else p
  let s0 : List Dbl := List.replicate (if n + 1 ≤ p then n + 1 else p) 0
  let e0 : List Dbl := List.replicate p 0
  let work0 : List Dbl := List.replicate n 0
  let U0 : List Dbl := List.replicate (n * S_size) 0
  let x0 : List Dbl := List.replicate (p * p) 0
  let r : SvdIter :=
    if n = 0 ∨ p = 0 then
      let qjj := if n > S_size then S_size else n
      let U := forUp 0 qjj (fun ii U => wr U (ii + n * ii) 1) U0
      let x := forUp 0 p (fun ii x => wr x (ii + p * ii) 1) x0
      ⟨U, x, s0, e0, 0, 0⟩
    else xzsvdc_main h n p S_size ⟨A.data, U0, x0, s0, e0, work0⟩
  { S_size := S_size
    U := ⟨n, S_size, r.U⟩
    S := (List.range S_size).map (fun qjj => rd h r.s qjj)
    V := Mat.build p S_size (fun ns qjj => rd h r.x (ns + p * qjj)) }

/-! ## The PCA driver (`pca.c`) -/

/-- The nested loops `for (j = 0; j < cols; j++) for (i = 0; i < rows; i++)
d[i + stride * j] = f(i, j, d[i + stride * j])` that update a buffer in place. -/
def mapCells (h : Host) (stride rows cols : Nat) (f : Nat → Nat → Dbl → Dbl)
    (d : List Dbl) : List Dbl :=
  forUp 0 cols (fun j d =>
    forUp 0 rows (fun i d => wr d (i + stride * j) (f i j (rd h d (i + stride * j)))) d) d

/-- Source `pca.c` lines 171-179: the spacing `eps` of doubles at the magnitude of
`latent_data[0]`.  `frexp` yields the exponent `e` with `2^(e-1) <= absx < 2^e`. -/
def localTSquared_eps (latent0 : Dbl) : Dbl :=
  match Dbl.abs latent0 with
  | Dbl.nan => Dbl.nan
  | Dbl.num absx =>
    if absx < 44501477170144028 / 10 ^ 324 then Dbl.num (494065645841247 / 10 ^ 338)
    else Dbl.num ((2 : ℚ) ^ ((Int.log 2 absx + 1) - 53))

/-- Source `pca.c` lines 170-194: the number `q` of eigenvalues used by
`localTSquared`. -/
def localTSquared_q (h : Host) (latent_data : List Dbl) (latent_size DOF p : Nat) : Nat :=
  if DOF > 1 then
    let absx := localTSquared_eps (rd h latent_data 0)
    let exponent := if DOF ≥ p then DOF else p
    let absx := absx * Dbl.ofNat exponent
    forUp 0 latent_size (fun exponent q =>
      if Dbl.gt (rd h latent_data exponent) absx then q + 1 else q) 0
  else 0

/-- Source `pca.c` lines 147-214: Hotelling's T-squared. -/
def localTSquared (h : Host) (score : Mat) (latent_data : List Dbl) (latent_size DOF p : Nat) :
    Mat :=
  if score.size0 = 0 ∨ score.size1 = 0 then
    ⟨score.size0, score.size1,
      (List.range (score.size0 * score.size1)).map (fun i => rd h score.data i)⟩
  else
    let q := localTSquared_q h latent_data latent_size DOF p
    let m := score.size0
    let t0 : List Dbl := List.replicate m 0
    let t := forUp 0 q (fun exponent t =>
      let absx := Dbl.sqrt h (rd h latent_data exponent)
      forUp 0 m (fun i t =>
        let d := rd h score.data (i + score.size0 * exponent) / absx
        wr t i (rd h t i + d * d)) t) t0
    ⟨score.size0, 1, t⟩

/-- The intermediate results of `localSVD` after lines 66-79: the scaled `score` and
the squared and normalised `latent_data`, with the engine output they come from. -/
structure SvdScores where
  svd : SvdOut
  score : Mat
  latent : List Dbl

/-- Source `pca.c` lines 52-79: copy `x`, call the SVD engine, scale the columns of `U`
by the singular values and turn the singular values into eigenvalues. -/
def localSVD_scores (h : Host) (x : Mat) (DOF : Nat) : SvdScores :=
  let b_x : Mat := ⟨x.size0, x.size1,
    (List.range (x.size0 * x.size1)).map (fun j => rd h x.data j)⟩
  let o := xzsvdc h b_x
  let score : Mat := ⟨o.U.size0, o.U.size1,
    mapCells h o.U.size0 x.size0 o.U.size1 (fun _ j v => v * rd h o.S j) o.U.data⟩
  let latent := forUp 0 score.size1 (fun j l =>
    let y := rd h l j
    wr l j (y * y / Dbl.ofNat DOF)) o.S
  ⟨o, score, latent⟩

/-- The outputs of `localSVD`. -/
structure SvdPca where
  coeffOut : Mat
  scoreOut : Mat
  latentOut : List Dbl
  tsquared : Mat
  explained : List Dbl
  latentOut_size : Nat

/-- Source `pca.c` lines 32-145: `localSVD`. -/
def localSVD (h : Host) (x : Mat) (DOF : Nat) : SvdPca :=
  let r := localSVD_scores h x DOF
  let score := r.score
  let coeff := r.svd.V
  let ncols := x.size1
  let tsquared := localTSquared h score r.latent r.svd.S_size DOF x.size1
  let latentOut_size :=
    if DOF < x.size1 then (if DOF ≤ score.size1 then DOF else score.size1) else r.svd.S_size
  let scoreOut : Mat :=
    if DOF < x.size1 then
      Mat.build x.size0 latentOut_size (fun i j => rd h score.data (i + score.size0 * j))
    else
      ⟨score.size0, score.size1,
        (List.range (score.size0 * score.size1)).map (fun j => rd h score.data j)⟩
  let latentOut := (List.range latentOut_size).map (fun j => rd h r.latent j)
  let coeffOut : Mat :=
    if DOF < x.size1 then
      Mat.build ncols latentOut_size (fun i j => rd h coeff.data (i + coeff.size0 * j))
    else
      ⟨coeff.size0, coeff.size1,
        (List.range (coeff.size0 * coeff.size1)).map (fun j => rd h coeff.data j)⟩
  let y : Dbl :=
    if latentOut_size = 0 then 0
    else forUp 2 (latentOut_size - 1) (fun nsv y => y + rd h latentOut (nsv - 1))
      (rd h latentOut 0)
  let explained := (List.range latentOut_size).map (fun j => 100 * rd h latentOut j / y)
  ⟨coeffOut, scoreOut, latentOut, tsquared, explained, latentOut_size⟩

/-- Source `pca.c` lines 216-262: the column means, over the non-NaN entries when
`noNaNs` is false. -/
def wnanmean (h : Host) (X : Mat) (noNaNs : Bool) : List Dbl :=
  let M0 : List Dbl := List.replicate X.size1 0
  if !noNaNs then
    forUp 0 X.size1 (fun sz_idx_1 M =>
      let wx : Dbl × Dbl := forUp 0 X.size0 (fun i (wx : Dbl × Dbl) =>
        let d := rd h X.data (i + X.size0 * sz_idx_1)
        if !(d.isNaN) then (wx.1 + 1, wx.2 + d) else wx) (0, 0)
      wr M sz_idx_1 (wx.2 / wx.1)) M0
  else
    forUp 0 X.size1 (fun sz_idx_1 M =>
      let wx : Dbl × Dbl := forUp 0 X.size0 (fun i (wx : Dbl × Dbl) =>
        (wx.1 + 1, wx.2 + rd h X.data (i + X.size0 * sz_idx_1))) (0, 0)
      wr M sz_idx_1 (wx.2 / wx.1)) M0

/-- The counters filled by lines 298-326 of `local_pca`: the NaN count of every row and
the total NaN count (which the C code accumulates in `DOF`). -/
structure NanInfo where
  nNaNsInRow : List Nat
  total : Nat

/-- Source `pca.c` lines 298-326: the missing-value scan. -/
def local_pca_naninfo (h : Host) (x : Mat) : NanInfo :=
  let n := x.size0
  let p := x.size1
  let naninfo_isNaN : List Bool :=
    (List.range (n * p)).map (fun i1 => (rd h x.data i1).isNaN)
  forUp 0 p (fun j st =>
    forUp 0 n (fun b_i (st : NanInfo) =>
      if naninfo_isNaN.getD (b_i + n * j) false then
        ⟨st.nNaNsInRow.set b_i (st.nNaNsInRow.getD b_i 0 + 1), st.total + 1⟩
      else st) st) ⟨List.replicate n 0, 0⟩

/-- Source `pca.c` lines 328-332: the number of rows with at least one NaN. -/
def local_pca_nRowsWithNaNs (ni : NanInfo) (n : Nat) : Nat :=
  forUp 0 n (fun b_i c => if ni.nNaNsInRow.getD b_i 0 > 0 then c + 1 else c) 0

/-- Source `pca.c` line 333: `noNaNs = (DOF <= 0)`. -/
def local_pca_noNaNs (h : Host) (x : Mat) : Bool :=
  decide ((local_pca_naninfo h x).total ≤ 0)

/-- Source `pca.c` line 334: the number `b_n` of rows without NaN. -/
def local_pca_validRows (h : Host) (x : Mat) : Nat :=
  x.size0 - local_pca_nRowsWithNaNs (local_pca_naninfo h x) x.size0

/-- Source `pca.c` lines 335-338: the adjusted degrees of freedom. -/
def local_pca_DOF (h : Host) (x : Mat) : Nat :=
  let b_n := local_pca_validRows h x
  if b_n ≥ 1 then b_n - 1 else b_n

/-- Source `pca.c` lines 339-344: subtract the column means in place. -/
def local_pca_center (h : Host) (x : Mat) : Mat :=
  let mu_data := wnanmean h x (local_pca_noNaNs h x)
  ⟨x.size0, x.size1, mapCells h x.size0 x.size0 x.size1 (fun _ j v => v - rd h mu_data j) x.data⟩

/-- Source `pca.c` lines 352-367: gather the rows without NaN of the centered table `x`
into a `b_n x p` array. -/
def local_pca_gather (h : Host) (ni : NanInfo) (b_n : Nat) (x : Mat) : Mat :=
  let n := x.size0
  let p := x.size1
  let r : Nat × List Dbl := forUp 0 n (fun b_i (st : Nat × List Dbl) =>
    if ni.nNaNsInRow.getD b_i 0 = 0 then
      (st.1 + 1, forUp 0 p (fun j y => wr y (st.1 + b_n * j) (rd h x.data (b_i + x.size0 * j))) st.2)
    else st) (0, List.replicate (b_n * p) h.junk)
  ⟨b_n, p, r.2⟩

/-- Source `pca.c` lines 371-391: scatter the score rows back to full height; rows with
a NaN become NaN rows.  The first component of the loop state is `irow + 1`. -/
def local_pca_scatter (h : Host) (ni : NanInfo) (score : Mat) : Mat :=
  let n := ni.nNaNsInRow.length
  let r : Nat × List Dbl := forUp 0 n (fun b_i (st : Nat × List Dbl) =>
    if ni.nNaNsInRow.getD b_i 0 > 0 then
      (st.1, forUp 0 score.size1 (fun j y => wr y (b_i + n * j) Dbl.nan) st.2)
    else
      (st.1 + 1, forUp 0 score.size1 (fun j y =>
        wr y (b_i + n * j) (rd h score.data (st.1 + score.size0 * j))) st.2))
    (0, List.replicate (n * score.size1) h.junk)
  ⟨n, score.size1, r.2⟩

/-- The state of `local_pca` before truncation (line 395): the loadings `coeff_data`
with `coeff_size`, the full-height scores `y`, and `DOF`. -/
structure PcaFit where
  coeff : Mat
  y : Mat
  DOF : Nat

/-- Source `pca.c` lines 293-393: scan, centering and decomposition dispatch. -/
def local_pca_fit (h : Host) (x : Mat) : PcaFit :=
  let ni := local_pca_naninfo h x
  let noNaNs := local_pca_noNaNs h x
  let b_n := local_pca_validRows h x
  let DOF := local_pca_DOF h x
  let xc := local_pca_center h x
  if noNaNs then
    let r := localSVD h xc DOF
    ⟨r.coeffOut, r.scoreOut, DOF⟩
  else
    let y := local_pca_gather h ni b_n xc
    let r := localSVD h y DOF
    ⟨r.coeffOut, local_pca_scatter h ni r.scoreOut, DOF⟩

/-- The two arrays `local_pca` returns: `coeffOut` and `scoreOut`. -/
structure PcaOut where
  coeffOut : Mat
  scoreOut : Mat

/-- Source `pca.c` lines 396-435: truncation to the requested number of components.
The column loops run to `(unsigned char)NumComponents`; columns they do not reach keep
whatever the output buffer held. -/
def local_pca_truncate (h : Host) (f : PcaFit) (NumComponents : Nat) : PcaOut :=
  if NumComponents < f.DOF then
    let i := NumComponents % 256
    ⟨Mat.build f.coeff.size0 NumComponents (fun b_i j =>
        if j < i then rd h f.coeff.data (b_i + f.coeff.size0 * j) else h.junk),
      Mat.build f.y.size0 NumComponents (fun b_i j =>
        if j < i then rd h f.y.data (b_i + f.y.size0 * j) else h.junk)⟩
  else
    ⟨⟨f.coeff.size0, f.coeff.size1,
        (List.range (f.coeff.size0 * f.coeff.size1)).map (fun i => rd h f.coeff.data i)⟩,
      ⟨f.y.size0, f.y.size1,
        (List.range (f.y.size0 * f.y.size1)).map (fun i => rd h f.y.data i)⟩⟩

/-- Source `pca.c` lines 440-460: the sign `sgn` of the entry of largest magnitude of
column `j` of the loadings (the first such entry in row order). -/
def local_pca_sgn (h : Host) (coeffOut_data : List Dbl) (size0 j : Nat) : Dbl :=
  (forUp 0 size0 (fun b_i (ms : Dbl × Dbl) =>
    let d := rd h coeffOut_data (b_i + size0 * j)
    let absc := Dbl.abs d
    if Dbl.gt absc ms.1 then
      (absc, if !(d.isNaN) then (if Dbl.lt d 0 then -1 else (if Dbl.gt d 0 then 1 else 0)) else d)
    else ms) ((0 : Dbl), (1 : Dbl))).2

/-- Source `pca.c` lines 437-471: sign normalization of the loadings and scores. -/
def local_pca_signs (h : Host) (o : PcaOut) : PcaOut :=
  let size0 := o.coeffOut.size0
  let rows := o.scoreOut.size0
  let r : List Dbl × List Dbl := forUp 0 o.coeffOut.size1 (fun j (cs : List Dbl × List Dbl) =>
    if Dbl.lt (local_pca_sgn h cs.1 size0 j) 0 then
      (forUp 0 size0 (fun b_i c => wr c (b_i + size0 * j) (-(rd h c (b_i + size0 * j)))) cs.1,
       forUp 0 rows (fun b_i s =>
         wr s (b_i + o.scoreOut.size0 * j) (-(rd h s (b_i + o.scoreOut.size0 * j)))) cs.2)
    else cs) (o.coeffOut.data, o.scoreOut.data)
  ⟨⟨o.coeffOut.size0, o.coeffOut.size1, r.1⟩, ⟨o.scoreOut.size0, o.scoreOut.size1, r.2⟩⟩

/-- Source `pca.c` lines 264-472: `local_pca`. -/
def local_pca (h : Host) (x : Mat) (NumComponents : Nat) : PcaOut :=
  local_pca_signs h (local_pca_truncate h (local_pca_fit h x) NumComponents)

/-! ## The entry point (`pcaRed.c`) -/

/-- Source `pcaRed.c` lines 29-38: the copy `b_data` of the input table. -/
def pcaRed_copy (h : Host) (data : Mat) : Mat :=
  ⟨data.size0, data.size1,
    (List.range (data.size0 * data.size1)).map (fun i => rd h data.data i)⟩

/-- Source `pcaRed.c`: copy the table, run `local_pca` asking for as many components as
there are columns, and copy three score columns into the result. -/
def pcaRed (h : Host) (data : Mat) : Mat :=
  let b_dataRed := (local_pca h (pcaRed_copy h data) data.size1).scoreOut
  Mat.build b_dataRed.size0 3 (fun i1 i => rd h b_dataRed.data (i1 + b_dataRed.size0 * i))

/-! ## Vocabulary of the statements -/

/-- The rational value of a double, `none` for NaN. -/
def Dbl.toRat? : Dbl → Option ℚ
  | Dbl.nan => none
  | Dbl.num q => some q

namespace Mat

/-- The buffer of `M` holds exactly its `size0 * size1` elements. -/
def WellFormed (M : Mat) : Prop := M.data.length = M.size0 * M.size1

/-- Row `i` of `M` contains at least one NaN. -/
def rowHasNaN (h : Host) (M : Mat) (i : Nat) : Bool :=
  (List.range M.size1).any (fun j => (M.get h i j).isNaN)

/-- The number of NaN entries of `M`, counted column by column. -/
def nanCount (h : Host) (M : Mat) : Nat :=
  ((List.range M.size1).map (fun j =>
    ((List.range M.size0).filter (fun i => (M.get h i j).isNaN)).length)).sum

/-- The non-NaN entries of column `j` of `M`, in row order. -/
def colNonNaN (h : Host) (M : Mat) (j : Nat) : List ℚ :=
  (List.range M.size0).filterMap (fun i => (M.get h i j).toRat?)

end Mat

/-! ## Concrete hosts and tables used by the witnesses and counterexamples -/

/-- Bitwise integer square root: the bits of the root, from bit `k - 1` down. -/
def sqrtBits (n : Nat) : Nat → Nat → Nat
  | 0, r => r
  | k + 1, r => sqrtBits n k (if (r + 2 ^ k) * (r + 2 ^ k) ≤ n then r + 2 ^ k else r)

/-- The integer square root of `n` (rounded down). -/
def natSqrt (n : Nat) : Nat := sqrtBits n (n.log2 / 2 + 1) 0

/-- A square root on the rationals that is exact on squares of rationals. -/
def sqrtQ (q : ℚ) : ℚ := (natSqrt q.num.toNat : ℚ) / (natSqrt q.den : ℚ)

/-- A host whose `sqrt` is exact on squares and whose unwritten memory reads `0.0`. -/
def hostQ : Host := ⟨sqrtQ, Dbl.num 0⟩

/-- A 5 x 1 table whose first row is missing. -/
def table51 : Mat := ⟨5, 1, [Dbl.nan, Dbl.num 1, Dbl.num 3, Dbl.num 1, Dbl.num 3]⟩

/-- The 2 x 2 matrix `diag(2, 1)`. -/
def diag21 : Mat := ⟨2, 2, [Dbl.num 2, Dbl.num 0, Dbl.num 0, Dbl.num 1]⟩

/-- A 4 x 2 table with two incomplete rows; both column means over the non-NaN entries
are zero, and its two complete rows form `diag(2, 1)`. -/
def table42 : Mat := ⟨4, 2,
  [Dbl.num 2, Dbl.num 0, Dbl.nan, Dbl.num (-2), Dbl.num 0, Dbl.num 1, Dbl.num (-1), Dbl.nan]⟩

/-! ## Further hosts and inputs -/

/-- A host like `hostQ` whose unwritten memory reads `7.0`, a value no table below
contains. -/
def hostJ : Host := ⟨sqrtQ, Dbl.num 7⟩

/-- The 2 x 2 all-zero table that `main_pcaRed` of `examples/main.c` builds with
`argInit_d1000000xd12_real_T` and passes to `pcaRed`. -/
def zeros22 : Mat := ⟨2, 2, [Dbl.num 0, Dbl.num 0, Dbl.num 0, Dbl.num 0]⟩

/-- The 1 x 1 matrix `[-3]`. -/
def neg11 : Mat := ⟨1, 1, [Dbl.num (-3)]⟩

/-- A 2 x 2 table whose first column is all NaN: no row is without NaN. -/
def nancol22 : Mat := ⟨2, 2, [Dbl.nan, Dbl.nan, Dbl.num 1, Dbl.num 2]⟩

/-- The 1 x 2 matrix `[t, t]` with `t = 2^(-1000)`, a normal double (about `9.3e-302`)
below the literal `1.0020841800044864E-292` of the deflation tests. -/
def tiny12 : Mat := ⟨1, 2, [Dbl.num (1 / 2 ^ 1000), Dbl.num (1 / 2 ^ 1000)]⟩

/-- The 1 x 2 matrix `[3, 4]`. -/
def row34 : Mat := ⟨1, 2, [Dbl.num 3, Dbl.num 4]⟩

/-- The 4 x 3 all-zero table. -/
def zeros43 : Mat := ⟨4, 3, List.replicate 12 (Dbl.num 0)⟩

/-! ## Vocabulary for the SVD engine -/

/-- In column `j` of `M` every element of largest magnitude is non-negative. -/
def Mat.colDominantNonneg (h : Host) (M : Mat) (j : Nat) : Prop :=
  ∀ i, i < M.size0 →
    (∀ k, k < M.size0 → Dbl.le (Dbl.abs (M.get h k j)) (Dbl.abs (M.get h i j)) = true) →
    Dbl.le 0 (M.get h i j) = true

instance (h : Host) (M : Mat) (j : Nat) : Decidable (Mat.colDominantNonneg h M j) := by
  unfold Mat.colDominantNonneg
  infer_instance

/-- Source `xzsvdc.c` lines 467-474, the sign step of case 4: a negative `s_data[ii]` is
negated together with column `ii` of `x` (the array that becomes `V`). -/
def xzsvdc_flip (h : Host) (p ii : Nat) (w : SvdIter) : SvdIter :=
  if Dbl.lt (rd h w.s ii) 0 then
    let s := wr w.s ii (-(rd h w.s ii))
    let ns := p * ii
    let x := forUp (ns + 1) p (fun qjj x => wr x (qjj - 1) (-(rd h x (qjj - 1)))) w.x
    { w with x := x, s := s }
  else w

/-- A state of the diagonalization loop of a 1 x 1 matrix in which `s_data[0] = -3` is
negative, with `U = [1]` and `x = [1]`. -/
def iterNeg : SvdIter := ⟨[Dbl.num 1], [Dbl.num 1], [Dbl.num (-3)], [Dbl.num 0], 1, 0⟩

/-- Source `xzsvdc.c` lines 47-494: the loop variables with which `xzsvdc` leaves its
diagonalization loop (in the branch for an empty matrix, the placeholders of lines
94-105 with `m + 1 = 0`); `xzsvdc` reads `U`, `S` and `V` off them. -/
def xzsvdc_state (h : Host) (A : Mat) : SvdIter :=
  let n := A.size0
  let p := A.size1
  let S_size := if n ≤ p then n else p
  let s0 : List Dbl := List.replicate (if n + 1 ≤ p then n + 1 else p) 0
  let e0 : List Dbl := List.replicate p 0
  let work0 : List Dbl := List.replicate n 0
  let U0 : List Dbl := List.replicate (n * S_size) 0
  let x0 : List Dbl := List.replicate (p * p) 0
  if n = 0 ∨ p = 0 then
    let qjj := if n > S_size then S_size else n
    let U := forUp 0 qjj (fun ii U => wr U (ii + n * ii) 1) U0
    let x := forUp 0 p (fun ii x => wr x (ii + p * ii) 1) x0
    ⟨U, x, s0, e0, 0, 0⟩
  else xzsvdc_main h n p S_size ⟨A.data, U0, x0, s0, e0, work0⟩

/-- The index `ii` at which the first scan of the next pass stops (lines 332-345). -/
def xzsvdc_split (h : Host) (snorm : Dbl) (w : SvdIter) : Nat :=
  (xzsvdc_scanE h w.s w.qq snorm (w.m1 - 1) w.e).1

/-- A bound on the number of passes the diagonalization loop still makes from the state
`w`: lexicographically, the number `m + 1` of values not yet deflated, the shift steps
left before the counter reaches 75, and the distance of the split index from `m`. -/
def xzsvdc_rank (h : Host) (snorm : Dbl) (w : SvdIter) : Nat :=
  (76 * w.m1 + (75 - w.qq)) * (w.m1 + 1) + (w.m1 - 1 - xzsvdc_split h snorm w)

/-! ## Vocabulary for the diagonalization loop -/

/-- Source `xzsvdc.c` lines 336-340: the test the first scan applies at the 1-based index
`ii`, on `e_data[ii - 1]`, `s_data[ii - 1]` and `s_data[ii]`. -/
def xzsvdc_negligible (h : Host) (s e : List Dbl) (qq : Nat) (snorm : Dbl) (ii : Nat) : Prop :=
  Dbl.le (Dbl.abs (rd h e (ii - 1)))
      (EPS * (Dbl.abs (rd h s (ii - 1)) + Dbl.abs (rd h s ii))) = true
    ∨ Dbl.le (Dbl.abs (rd h e (ii - 1))) TINY = true
    ∨ (20 < qq ∧ Dbl.le (Dbl.abs (rd h e (ii - 1))) (EPS * snorm) = true)

/-- Source `xzsvdc.c` lines 330-493: the case numbers `ns` of the passes the
diagonalization loop makes from the state `w`, in order (at most `fuel` of them). -/
def xzsvdc_trace (h : Host) (n p nmq : Nat) (snorm : Dbl) : Nat → SvdIter → List Nat
  | 0, _ => []
  | fuel + 1, w =>
    if 0 < w.m1 ∧ w.qq < 75 then
      (xzsvdc_classify h snorm w).ns
        :: xzsvdc_trace h n p nmq snorm fuel (xzsvdc_pass h n p nmq snorm w)
    else []

/-! ## Vocabulary for the missing-value path -/

/-- The number of rows without NaN above row `i` of `X`: the position row `i` takes
among the fully-valid rows of `X`, counted from 0 in their original order. -/
def Mat.validIndex (h : Host) (X : Mat) (i : Nat) : Nat :=
  ((List.range i).filter (fun k => !(X.rowHasNaN h k))).length

/-- Source `pca.c` lines 352-370: the decomposition `local_pca` computes on the compact
submatrix of the rows without NaN (the missing-value path). -/
def local_pca_compact (h : Host) (X : Mat) : SvdPca :=
  localSVD h (local_pca_gather h (local_pca_naninfo h X) (local_pca_validRows h X)
    (local_pca_center h X)) (local_pca_DOF h X)

/-- Source `pca.c` lines 339-370: the matrix `local_pca` hands to `localSVD`, and through
it to the SVD engine: the centered table when the table has no NaN, otherwise the rows
without NaN of the centered table, gathered into a `b_n x p` array. -/
def local_pca_svdInput (h : Host) (X : Mat) : Mat :=
  if local_pca_noNaNs h X then local_pca_center h X
  else local_pca_gather h (local_pca_naninfo h X) (local_pca_validRows h X)
    (local_pca_center h X)

/-! ## Vocabulary for the pre-scaling pass -/

/-- All elements of a buffer are numbers (none is NaN). -/
def nanFree (l : List Dbl) : Prop := ∀ d, d ∈ l → d.isNaN = false

instance (l : List Dbl) : Decidable (nanFree l) := by
  unfold nanFree
  infer_instance

/-- Entry `(i, j)` of the product `U * B * V^T` of a state of `xzsvdc`, where `U` is
stored with `n` rows, `V` with `p` rows, and `B` is the bidiagonal matrix with diagonal
`s[0 .. m]` and superdiagonal `e[0 .. m - 1]`: the sum over the columns `q` of `U` of
`U[i, q] * s[q] * V[j, q]` and, for `q < m`, `U[i, q] * e[q] * V[j, q + 1]`. -/
def xzsvdc_product (h : Host) (n p m : Nat) (w : SvdScale) (i j : Nat) : Dbl :=
  ((List.range (min n (m + 1))).map (fun q =>
    rd h w.U (i + n * q) * rd h w.s q * rd h w.x (j + p * q)
      + (if q < m then rd h w.U (i + n * q) * rd h w.e q * rd h w.x (j + p * (q + 1))
         else 0))).foldl (fun a b => a + b) 0

/-- State `w` is state `w0` with signs moved between the bidiagonal and the columns of
`U` and `V`: column `q` of `U` is multiplied by the sign `α q`, column `q` of `V` by the
sign `β q`, `s[q]` by `α q * β q` and `e[q]` by `α q * β (q + 1)`. -/
structure SvdSignsMoved (h : Host) (n p m : Nat) (w0 w : SvdScale) (α β : Nat → ℚ) :
    Prop where
  alpha : ∀ q, α q = 1 ∨ α q = -1
  beta : ∀ q, β q = 1 ∨ β q = -1
  lenU : w.U.length = w0.U.length
  lenx : w.x.length = w0.x.length
  lens : w.s.length = w0.s.length
  lene : w.e.length = w0.e.length
  colU : ∀ i q, i < n → q < n → q ≤ m →
    rd h w.U (i + n * q) = rd h w0.U (i + n * q) * Dbl.num (α q)
  colV : ∀ j q, j < p → q ≤ m →
    rd h w.x (j + p * q) = rd h w0.x (j + p * q) * Dbl.num (β q)
  diag : ∀ q, q ≤ m → rd h w.s q = rd h w0.s q * Dbl.num (α q * β q)
  super : ∀ q, q < m → rd h w.e q = rd h w0.e q * Dbl.num (α q * β (q + 1))

/-- Source `xzsvdc.c` lines 297-329: the pre-scaling loop `for (q = 0; q <= m; q++)`,
as `xzsvdc_main` runs it. -/
def xzsvdc_prescaled (h : Host) (n p m : Nat) (w : SvdScale) : SvdScale :=
  forUp 0 (m + 1) (xzsvdc_prescale h n p m) w

/-- A bidiagonal state with negative entries: `s = [-2, 3]`, `e = [-1]`, and the
identity for `U` and `V`. -/
def scaleNeg : SvdScale :=
  ⟨[Dbl.num 1, Dbl.num 0, Dbl.num 0, Dbl.num 1], [Dbl.num 1, Dbl.num 0, Dbl.num 0, Dbl.num 1],
    [Dbl.num (-2), Dbl.num 3], [Dbl.num (-1), Dbl.num 0], Dbl.num 0⟩

/-! ## Vocabulary for the deflated singular values -/

/-- The values already deflated, `s[m + 1 .. nmq]` (the indices `m1 .. nmq`), are
non-negative numbers in non-increasing order. -/
def xzsvdc_tailSorted (h : Host) (nmq : Nat) (w : SvdIter) : Prop :=
  (∀ k, k ≤ nmq → w.m1 ≤ k → Dbl.le 0 (rd h w.s k) = true) ∧
  (∀ k, k < nmq → w.m1 ≤ k → Dbl.le (rd h w.s (k + 1)) (rd h w.s k) = true)

instance (h : Host) (nmq : Nat) (w : SvdIter) : Decidable (xzsvdc_tailSorted h nmq w) := by
  unfold xzsvdc_tailSorted
  infer_instance

/-- None of the values already deflated, `s[m + 1 .. nmq]`, is NaN. -/
def xzsvdc_tailNumbers (h : Host) (nmq : Nat) (w : SvdIter) : Prop :=
  ∀ k, k ≤ nmq → w.m1 ≤ k → (rd h w.s k).isNaN = false

instance (h : Host) (nmq : Nat) (w : SvdIter) : Decidable (xzsvdc_tailNumbers h nmq w) := by
  unfold xzsvdc_tailNumbers
  infer_instance

/-! ## Vocabulary for the state handed to the pre-scaling pass -/

/-- Source `xzsvdc.c` lines 47-296 (the branch for a non-empty matrix): the buffers
`U`, `x`, `s_data`, `e_data` as `xzsvdc_main` hands them to the pre-scaling loop, after
the bidiagonalization and the generation of `U` and `V`. -/
def xzsvdc_bidiagonal (h : Host) (A : Mat) : SvdScale :=
  let n := A.size0
  let p := A.size1
  let S_size := if n ≤ p then n else p
  let s0 : List Dbl := List.replicate (if n + 1 ≤ p then n + 1 else p) 0
  let e0 : List Dbl := List.replicate p 0
  let work0 : List Dbl := List.replicate n 0
  let U0 : List Dbl := List.replicate (n * S_size) 0
  let x0 : List Dbl := List.replicate (p * p) 0
  let nrt := xzsvdc_nrt n p
  let nct := xzsvdc_nct n p
  let i := if nct ≥ nrt then nct else nrt
  let w := forUp 0 i (xzsvdc_bidiag h n p nct nrt) ⟨A.data, U0, x0, s0, e0, work0⟩
  let m := if p ≤ n + 1 then p - 1 else n
  let s := if nct < p then wr w.s nct (rd h w.A (nct + n * nct)) else w.s
  let s := if n < m + 1 then wr s m 0 else s
  let e := if nrt < m then wr w.e nrt (rd h w.A (nrt + n * m)) else w.e
  let e := wr e m 0
  let U := xzsvdc_eyeU n nct S_size w.U
  let U := forDown 1 nct (fun q U => xzsvdc_genU h n S_size q s U) U
  let x := forDown 1 p (fun q x => xzsvdc_genV h p nrt q e x) w.x
  ⟨U, x, s, e, 0⟩

/-! ## Vocabulary for the plane rotation -/

/-- The squared Euclidean norm of the length-`n` segment of `x` at the 1-based offset
`i0`: the sum of `x[i0 + k - 1]^2` over `k < n`. -/
def segmentNormSq (h : Host) (x : List Dbl) (i0 n : Nat) : Dbl :=
  ((List.range n).map (fun k => rd h x (i0 + k - 1) * rd h x (i0 + k - 1))).foldl
    (· + ·) 0

/-! ## Further loop states -/

/-- A state of the diagonalization loop of a 3 x 3 matrix with `m = 0`: the values
`s[1] = 3` and `s[2] = 2` are deflated, `s[0] = -1` is not yet; `U` and `x` are the
identity.  The loop reaches it from `s = [-1, 3, 2]`, `e = 0`, `m = 2` by two passes of
case 4. -/
def iterSorted3 : SvdIter :=
  ⟨[Dbl.num 1, Dbl.num 0, Dbl.num 0, Dbl.num 0, Dbl.num 1, Dbl.num 0, Dbl.num 0, Dbl.num 0,
      Dbl.num 1],
    [Dbl.num 1, Dbl.num 0, Dbl.num 0, Dbl.num 0, Dbl.num 1, Dbl.num 0, Dbl.num 0, Dbl.num 0,
      Dbl.num 1],
    [Dbl.num (-1), Dbl.num 3, Dbl.num 2], [Dbl.num 0, Dbl.num 0, Dbl.num 0], 1, 0⟩

/-- The state `iterSorted3` two passes earlier: `m = 2`, nothing deflated yet. -/
def iterStart3 : SvdIter := { iterSorted3 with m1 := 3 }

/-- A state of the diagonalization loop for `n = 1`, `p = 2` with `m = n = 1` in which
`s[n]` is NaN instead of zero and `|s[0]| <= eps * |e[0]|`; the buffer `U` is one element
longer than the `n * n` elements the loop may use. -/
def iterWideNaN : SvdIter :=
  ⟨[Dbl.num 1, Dbl.num 5], [Dbl.num 1, Dbl.num 0, Dbl.num 0, Dbl.num 1],
    [Dbl.num 1, Dbl.nan], [Dbl.num (10 ^ 17), Dbl.num 0], 2, 0⟩

/-! ## Vocabulary for the reconstruction -/

/-- Entry `(i, j)` of `U * diag(S) * V^T` for a triple returned by `xzsvdc`: the sum over
`q < S_size` of `U[i, q] * S[q] * V[j, q]`. -/
def xzsvdc_reconstruct (h : Host) (r : SvdOut) (i j : Nat) : Dbl :=
  ((List.range r.S_size).map (fun q => r.U.get h i q * rd h r.S q * r.V.get h j q)).foldl
    (· + ·) 0

/-- The squared Frobenius norm of `A`, the sum of the squares of its entries (for a
matrix with one row or one column, the square of its 2-norm as well). -/
def Mat.normSq (h : Host) (A : Mat) : Dbl :=
  ((List.range (A.size0 * A.size1)).map (fun k =>
    A.get h (k % A.size0) (k / A.size0) * A.get h (k % A.size0) (k / A.size0))).foldl
    (· + ·) 0

/-- The squared Frobenius norm of `U * diag(S) * V^T - A` for the triple `r`. -/
def xzsvdc_residualSq (h : Host) (A : Mat) (r : SvdOut) : Dbl :=
  ((List.range (A.size0 * A.size1)).map (fun k =>
    (xzsvdc_reconstruct h r (k % A.size0) (k / A.size0) - A.get h (k % A.size0) (k / A.size0))
      * (xzsvdc_reconstruct h r (k % A.size0) (k / A.size0)
          - A.get h (k % A.size0) (k / A.size0)))).foldl (· + ·) 0

/-- The tolerance of the specification, `||U diag(S) V^T - A|| <= 1e-10 * ||A||`, for
the triple `xzsvdc` returns, compared on the squares of the two norms. -/
def xzsvdc_withinTolerance (h : Host) (A : Mat) : Prop :=
  Dbl.le (xzsvdc_residualSq h A (xzsvdc h A)) (Dbl.num (1 / 10 ^ 20) * A.normSq h) = true

instance (h : Host) (A : Mat) : Decidable (xzsvdc_withinTolerance h A) := by
  unfold xzsvdc_withinTolerance
  infer_instance

/-! ## The subscripts into the fixed-size buffers

`xzsvdc` declares `double e_data[12]` and `double s_data[12]` (lines 28-29) and fills the
caller's `S_data` and `V_data`, which `localSVD` declares as `double latent_data[12]`
and `double coeff_data[144]` (`pca.c` lines 39-40); `local_pca` declares
`coeff_data[144]`, `explained_data[12]`, `latent_data[12]` and `mu_data[12]` (lines
272-275), and `pcaRed` declares `coef_data[144]` (`pcaRed.c` line 20).

The definitions below list, region by region, the subscript expressions that the
statements of the source apply to these buffers, as integers (the C type is `int`), for
every value of the loop counters that the loop headers allow.  A statement under a test
on the data (`if (nrm > 0.0)`, an early exit of a scan) is listed whether or not the test
holds; a statement under a test on the counters or sizes is listed when that test holds.
The 12-element buffers share one list, as do the 144-element buffers. -/

/-- Source `xzsvdc.c` lines 59-65: the subscripts the two `memset` calls write,
`s_data[0 .. ns]` with `ns + 1 = n + 1` or `p`, and `e_data[0 .. p - 1]`. -/
def xzsvdc_subs_init (n p : Nat) : List Int :=
  (List.range (if n + 1 ≤ p then n + 1 else p)).map (fun (k : Nat) => (k : Int))
    ++ (List.range p).map (fun (k : Nat) => (k : Int))

/-- Source `xzsvdc.c` lines 135-228, the body of the bidiagonalization loop for the
pivot `q`: `s_data[q]` (lines 148-165, under `q + 1 <= nct`); `e_data[jj - 1]` for
`jj = qp1 .. p` (line 175); and under `q + 1 <= nrt` the `qq - 1` elements of `e_data`
from the 1-based offset `q + 2` that `b_xnrm2` reads (line 184), `e_data[q]` and
`e_data[q + 1]` (lines 186-207), `e_data[qjj - 1]` for `qjj = qp1 .. q + qq` (lines
198, 203), `e_data[jj - 1]` and `e_data[q + 1]` for `jj = qp1 .. p` (lines 213, 218,
under `q + 2 <= n`) and `e_data[ii - 1]` for `ii = qp1 .. p` (line 225). -/
def xzsvdc_subs_bidiag (n p nct nrt q : Nat) : List Int :=
  let qp1 := q + 2
  (if q + 1 ≤ nct then [(q : Int)] else [])
    ++ (List.range' qp1 (p + 1 - qp1)).map (fun (jj : Nat) => (jj : Int) - 1)
    ++ (if q + 1 ≤ nrt then
          let qq := p - q
          (List.range ((qq : Int) - 1).toNat).map (fun (k : Nat) => ((q + 2 + k : Nat) : Int) - 1)
            ++ [(q : Int), (q : Int) + 1]
            ++ (List.range' qp1 (q + qq + 1 - qp1)).map (fun (qjj : Nat) => (qjj : Int) - 1)
            ++ (if q + 2 ≤ n then
                  (List.range' qp1 (p + 1 - qp1)).flatMap
                    (fun (jj : Nat) => [(jj : Int) - 1, (q : Int) + 1])
                else [])
            ++ (List.range' qp1 (p + 1 - qp1)).map (fun (ii : Nat) => (ii : Int) - 1)
        else [])

/-- Source `xzsvdc.c` lines 234-243: `s_data[nct]` (under `nct < p`), `s_data[m]` (under
`n < m + 1`), `e_data[nrt]` (under `nrt < m`) and `e_data[m]`. -/
def xzsvdc_subs_mid (n p nct nrt m : Nat) : List Int :=
  (if nct < p then [(nct : Int)] else []) ++ (if n < m + 1 then [(m : Int)] else [])
    ++ (if nrt < m then [(nrt : Int)] else []) ++ [(m : Int)]

/-- Source `xzsvdc.c` lines 252-293: `s_data[q - 1]` for `q = nct .. 1` (line 256) and
`e_data[q - 1]` for the `q = p .. 1` with `q <= nrt` (line 279, where `&&` evaluates the
subscript only under `q <= nrt`). -/
def xzsvdc_subs_gen (p nct nrt : Nat) : List Int :=
  (List.range' 1 nct).map (fun (q : Nat) => (q : Int) - 1)
    ++ ((List.range' 1 p).filter (fun (q : Nat) => decide (q ≤ nrt))).map (fun (q : Nat) => (q : Int) - 1)

/-- Source `xzsvdc.c` lines 297-329, the body of the pre-scaling loop for the index `q`:
`s_data[q]` (lines 298, 302), `e_data[q]` and `s_data[q + 1]` under `q < m` (lines 304,
315-320), and `s_data[q]`, `e_data[q]` (line 328). -/
def xzsvdc_subs_prescale (m q : Nat) : List Int :=
  [(q : Int)] ++ (if q < m then [(q : Int), (q : Int) + 1] else []) ++ [(q : Int)]

/-- Source `xzsvdc.c` lines 332-373, the two scans of a pass: the first runs `ii` from
`m` down to 1 and uses `e_data[ii - 1]`, `s_data[ii - 1]` and `s_data[ii]`; the second,
entered when the first stopped at an `ii` other than `m`, runs `ns` from `m + 1` down to
`ii + 1` and uses `e_data[ns - 1]` (under `ns < m + 1`), `e_data[ns - 2]` (under
`ns > ii + 1`) and `s_data[ns - 1]`.  The argument `ii` is the stop of the first scan. -/
def xzsvdc_subs_scans (m ii : Nat) : List Int :=
  (List.range' 1 m).flatMap (fun (k : Nat) => [(k : Int) - 1, (k : Int)])
    ++ (if ii = m then []
        else (List.range' (ii + 1) (m + 1 - ii)).flatMap (fun (ns : Nat) =>
          (if ns < m + 1 then [(ns : Int) - 1] else [])
            ++ (if ns > ii + 1 then [(ns : Int) - 2] else [])
            ++ [(ns : Int) - 1]))

/-- Source `xzsvdc.c` lines 383-492, the case `ns` run on the index `ii`.
Case 1 (lines 384-399): `e_data[m - 1]`, and for `qjj = m .. ii + 1` `s_data[qjj - 1]`
and, under `qjj > ii + 1`, `e_data[qjj - 2]`.
Case 2 (lines 400-412): `e_data[ii - 1]`, and for `qjj = ii + 1 .. m + 1`
`s_data[qjj - 1]` and `e_data[qjj - 1]`.
Case 3 (lines 413-465): `s_data[m - 1]`, `e_data[m - 1]`, `s_data[m]`, `s_data[ii]`,
`e_data[ii]`, and for `qjj = ii + 1 .. m` `e_data[qjj - 2]` (under `qjj > ii + 1`),
`e_data[qjj - 1]`, `s_data[qjj - 1]`, `s_data[qjj]` and `e_data[qjj]`.
Case 4 (lines 466-492): `s_data[ii]`, and in the insertion loop `s_data[ii]` and
`s_data[qp1]` with `qp1 = ii + 1`, for the `ii` with `ii + 1 < nmq + 1`. -/
def xzsvdc_subs_case (nmq m ii ns : Nat) : List Int :=
  if ns = 1 then
    [(m : Int) - 1]
      ++ (List.range' (ii + 1) (m - ii)).flatMap (fun (qjj : Nat) =>
          [(qjj : Int) - 1] ++ (if qjj > ii + 1 then [(qjj : Int) - 2] else []))
  else if ns = 2 then
    [(ii : Int) - 1]
      ++ (List.range' (ii + 1) (m + 1 - ii)).map (fun (qjj : Nat) => (qjj : Int) - 1)
  else if ns = 3 then
    [(m : Int) - 1, (m : Int), (ii : Int)]
      ++ (List.range' (ii + 1) (m - ii)).flatMap (fun (qjj : Nat) =>
          (if qjj > ii + 1 then [(qjj : Int) - 2] else [])
            ++ [(qjj : Int) - 1, (qjj : Int)])
  else
    [(ii : Int)]
      ++ (List.range' ii (nmq - ii)).flatMap (fun (k : Nat) => [(k : Int), (k : Int) + 1])

/-- Source `xzsvdc.c` lines 331-493: the subscripts of one pass of the diagonalization
loop from the state `w` (`m = m1 - 1`), with the case and the index the classification
of the pass selects. -/
def xzsvdc_subs_pass (h : Host) (nmq : Nat) (snorm : Dbl) (w : SvdIter) : List Int :=
  xzsvdc_subs_scans (w.m1 - 1) (xzsvdc_split h snorm w)
    ++ xzsvdc_subs_case nmq (w.m1 - 1) (xzsvdc_classify h snorm w).ii
        (xzsvdc_classify h snorm w).ns

/-- Source `xzsvdc.c` lines 330-493: the subscripts of the passes the diagonalization
loop makes from the state `w` (at most `fuel` of them). -/
def xzsvdc_subs_loop (h : Host) (n p nmq : Nat) (snorm : Dbl) : Nat → SvdIter → List Int
  | 0, _ => []
  | fuel + 1, w =>
    if 0 < w.m1 ∧ w.qq < 75 then
      xzsvdc_subs_pass h nmq snorm w
        ++ xzsvdc_subs_loop h n p nmq snorm fuel (xzsvdc_pass h n p nmq snorm w)
    else []

/-- Source `xzsvdc.c`: the subscripts `xzsvdc` applies to `s_data`, `e_data` and
`S_data` on the matrix `A`: the two `memset` calls, in the branch for a non-empty matrix
the bidiagonalization, lines 234-243, the back-accumulation, the pre-scaling and the
diagonalization loop, and the final copy `S_data[qjj] = s_data[qjj]` for
`qjj < S_size` (line 500). -/
def xzsvdc_subs12 (h : Host) (A : Mat) : List Int :=
  let n := A.size0
  let p := A.size1
  let S_size := if n ≤ p then n else p
  let main : List Int :=
    if n = 0 ∨ p = 0 then []
    else
      let nrt := xzsvdc_nrt n p
      let nct := xzsvdc_nct n p
      let i := if nct ≥ nrt then nct else nrt
      let m := if p ≤ n + 1 then p - 1 else n
      let sc := xzsvdc_prescaled h n p m (xzsvdc_bidiagonal h A)
      (List.range i).flatMap (xzsvdc_subs_bidiag n p nct nrt)
        ++ xzsvdc_subs_mid n p nct nrt m
        ++ xzsvdc_subs_gen p nct nrt
        ++ (List.range (m + 1)).flatMap (xzsvdc_subs_prescale m)
        ++ xzsvdc_subs_loop h n p m sc.snorm (xzsvdc_fuel (m + 1))
            ⟨sc.U, sc.x, sc.s, sc.e, m + 1, 0⟩
  xzsvdc_subs_init n p ++ main ++ (List.range S_size).map (fun (qjj : Nat) => (qjj : Int))

/-- Source `xzsvdc.c` lines 497-503: the subscripts `ns + V_size[0] * qjj` of `V_data`,
for `qjj < S_size` and `ns < p`, with `V_size[0] = p`. -/
def xzsvdc_subs144 (A : Mat) : List Int :=
  let n := A.size0
  let p := A.size1
  let S_size := if n ≤ p then n else p
  (List.range S_size).flatMap (fun (qjj : Nat) =>
    (List.range p).map (fun (ns : Nat) => ((ns + p * qjj : Nat) : Int)))

/-- Source `pca.c` lines 216-262 and 339-344: the subscripts of `mu_data`: the `memset`
of `M_data[0 .. p - 1]` and `M_data[sz_idx_1]` for `sz_idx_1 = 0 .. n` in `wnanmean`
(where `n = p - 1`, so for `sz_idx_1 < p`), and `mu_data[j]` for `j < p` in the centering
loop. -/
def wnanmean_subs (X : Mat) : List Int :=
  (List.range X.size1).map (fun (k : Nat) => (k : Int))
    ++ (List.range X.size1).map (fun (sz_idx_1 : Nat) => (sz_idx_1 : Int))
    ++ (List.range X.size1).map (fun (j : Nat) => (j : Int))

/-- Source `pca.c` lines 147-214: the subscripts of `latent_data` in `localTSquared`, in
the branch for a non-empty score matrix: `latent_data[0]` and `latent_data[exponent]`
for `exponent < latent_size` (lines 171, 188, under `DOF > 1`), and
`latent_data[exponent]` for `exponent < q` (line 206). -/
def localTSquared_subs (h : Host) (score : Mat) (latent_data : List Dbl)
    (latent_size DOF p : Nat) : List Int :=
  if score.size0 = 0 ∨ score.size1 = 0 then []
  else
    (if DOF > 1 then (0 : Int) :: (List.range latent_size).map (fun (k : Nat) => (k : Int)) else [])
      ++ (List.range (localTSquared_q h latent_data latent_size DOF p)).map
          (fun (k : Nat) => (k : Int))

/-- Source `pca.c` lines 32-146: the subscripts `localSVD` applies to its
`latent_data`, to `latentOut_data` and to `explained_data`: those of the engine, which
receives `latent_data` as `S_data`; `latent_data[j]` for `j <= nsv` with
`nsv = score->size[1] - 1`, so for `j < score->size[1]` (lines 72, 76-78); those of `localTSquared`; the
`latentOut_size` elements the `memcpy` of lines 98 and 120 copies; `latentOut_data[0]`
and `latentOut_data[nsv - 1]` for `nsv = 2 .. latentOut_size` (lines 135-138, under
`latentOut_size != 0`); and `explained_data[j]`, `latentOut_data[j]` for
`j < latentOut_size` (line 142). -/
def localSVD_subs12 (h : Host) (x : Mat) (DOF : Nat) : List Int :=
  let b_x : Mat := ⟨x.size0, x.size1,
    (List.range (x.size0 * x.size1)).map (fun (j : Nat) => rd h x.data j)⟩
  let r := localSVD_scores h x DOF
  let latentOut_size :=
    if DOF < x.size1 then (if DOF ≤ r.score.size1 then DOF else r.score.size1)
    else r.svd.S_size
  xzsvdc_subs12 h b_x
    ++ (List.range r.score.size1).map (fun (j : Nat) => (j : Int))
    ++ localTSquared_subs h r.score r.latent r.svd.S_size DOF x.size1
    ++ (List.range latentOut_size).map (fun (k : Nat) => (k : Int))
    ++ (if latentOut_size = 0 then []
        else (0 : Int) :: (List.range' 2 (latentOut_size + 1 - 2)).map
          (fun (nsv : Nat) => (nsv : Int) - 1))
    ++ (List.range latentOut_size).map (fun (j : Nat) => (j : Int))

/-- Source `pca.c` lines 32-146: the subscripts `localSVD` applies to its `coeff_data`
and to `coeffOut_data`: those of the engine, which receives `coeff_data` as `V_data`;
under `DOF < x->size[1]` the subscripts `i + coeffOut_size[0] * j` and
`i + coeff_size[0] * j` for `j < latentOut_size` and `i < ncols` (lines 103-108, both
strides are `p`); otherwise the `coeff_size[0] * coeff_size[1]` elements the `memcpy`
of line 127 copies. -/
def localSVD_subs144 (h : Host) (x : Mat) (DOF : Nat) : List Int :=
  let b_x : Mat := ⟨x.size0, x.size1,
    (List.range (x.size0 * x.size1)).map (fun (j : Nat) => rd h x.data j)⟩
  let r := localSVD_scores h x DOF
  let coeff := r.svd.V
  let ncols := x.size1
  let latentOut_size := if DOF ≤ r.score.size1 then DOF else r.score.size1
  xzsvdc_subs144 b_x
    ++ (if DOF < x.size1 then
          (List.range latentOut_size).flatMap (fun (j : Nat) =>
            (List.range ncols).flatMap (fun (i : Nat) =>
              [((i + x.size1 * j : Nat) : Int), ((i + coeff.size0 * j : Nat) : Int)]))
        else (List.range (coeff.size0 * coeff.size1)).map (fun (k : Nat) => (k : Int)))

/-- Source `pca.c` lines 264-393: the subscripts `local_pca` and its callees apply to
`mu_data`, `latent_data` and `explained_data`: those of `wnanmean` and of the centering
loop, and those of `localSVD` on the matrix handed to it. -/
def local_pca_subs12 (h : Host) (x : Mat) : List Int :=
  wnanmean_subs x ++ localSVD_subs12 h (local_pca_svdInput h x) (local_pca_DOF h x)

/-- Source `pca.c` lines 264-472: the subscripts `local_pca` and its callees apply to
`coeff_data` and `coeffOut_data`: those of `localSVD`; in the truncation, under
`NumComponents < DOF`, `b_i + coeffOut_size[0] * j` and `b_i + coeff_size[0] * j` for
`j < (unsigned char)NumComponents` and `b_i < irow` (lines 401-407, both strides are
`coeff_size[0]`), otherwise the `coeff_size[0] * coeff_size[1]` elements the `memcpy`
of line 423 copies; and in the sign normalization `b_i + coeffOut_size[0] * j` for
`j < coeffOut_size[1]` and `b_i <= irow` with `irow = coeffOut_size[0] - 1`, so for
`b_i < coeffOut_size[0]` (lines 447, 463-464). -/
def local_pca_subs144 (h : Host) (x : Mat) (NumComponents : Nat) : List Int :=
  let f := local_pca_fit h x
  let o := local_pca_truncate h f NumComponents
  localSVD_subs144 h (local_pca_svdInput h x) (local_pca_DOF h x)
    ++ (if NumComponents < f.DOF then
          (List.range (NumComponents % 256)).flatMap (fun (j : Nat) =>
            (List.range f.coeff.size0).map (fun (b_i : Nat) =>
              ((b_i + f.coeff.size0 * j : Nat) : Int)))
        else (List.range (f.coeff.size0 * f.coeff.size1)).map (fun (k : Nat) => (k : Int)))
    ++ (List.range o.coeffOut.size1).flatMap (fun (j : Nat) =>
          (List.range o.coeffOut.size0).map (fun (b_i : Nat) =>
            ((b_i + o.coeffOut.size0 * j : Nat) : Int)))

/-- A 15 x 12 table of zeros. -/
def zeros1512 : Mat := ⟨15, 12, List.replicate 180 (Dbl.num 0)⟩

/-- Source `pcaRed.c` line 40: the subscripts of the 12-element buffers in the call
`local_pca(b_data, data->size[1], coef_data, coef_size, b_dataRed)`. -/
def pcaRed_subs12 (h : Host) (data : Mat) : List Int :=
  local_pca_subs12 h (pcaRed_copy h data)

/-- Source `pcaRed.c` line 40: the subscripts of the 144-element buffers in the call
`local_pca(b_data, data->size[1], coef_data, coef_size, b_dataRed)`, which requests
`data->size[1]` components and passes `coef_data` as `coeffOut_data`. -/
def pcaRed_subs144 (h : Host) (data : Mat) : List Int :=
  local_pca_subs144 h (pcaRed_copy h data) data.size1

/-! ## Loops and buffers -/

theorem forUp_zero {σ : Type} (lo : Nat) (body : Nat → σ → σ) (s : σ) :
    forUp lo 0 body s = s := rfl

theorem forUp_succ {σ : Type} (lo len : Nat) (body : Nat → σ → σ) (s : σ) :
    forUp lo (len + 1) body s = body (lo + len) (forUp lo len body s) := by
  simp [forUp, List.range'_concat]

theorem forUp_inv {σ : Type} (P : Nat → σ → Prop) (lo len : Nat) (body : Nat → σ → σ) (s : σ)
    (h0 : P 0 s) (hstep : ∀ i t, i < len → P i t → P (i + 1) (body (lo + i) t)) :
    P len (forUp lo len body s) := by
  induction len with
  | zero => simpa [forUp_zero] using h0
  | succ k ih =>
    rw [forUp_succ]
    exact hstep k _ (Nat.lt_succ_self k)
      (ih (fun i t hi hp => hstep i t (Nat.lt_succ_of_lt hi) hp))

theorem length_wr (a : List Dbl) (k : Nat) (v : Dbl) : (wr a k v).length = a.length := by
  simp [wr]

theorem rd_wr_eq (h : Host) (a : List Dbl) (k : Nat) (v : Dbl) (hk : k < a.length) :
    rd h (wr a k v) k = v := by
  simp [rd, wr, hk]

theorem rd_wr_ne (h : Host) (a : List Dbl) (k j : Nat) (v : Dbl) (hne : k ≠ j) :
    rd h (wr a k v) j = rd h a j := by
  simp [rd, wr, List.getElem?_set, hne]

theorem rd_wr (h : Host) (a : List Dbl) (k j : Nat) (v : Dbl) :
    rd h (wr a k v) j = if k = j ∧ k < a.length then v else rd h a j := by
  by_cases hkj : k = j
  · subst hkj
    by_cases hk : k < a.length
    · simp [rd_wr_eq, hk]
    · have hnone : a[k]? = none := List.getElem?_eq_none (Nat.le_of_not_lt hk)
      simp [rd, wr, hk, List.getElem?_set, hnone]
  · simp [hkj, rd_wr_ne]

theorem rd_replicate (h : Host) (n k : Nat) (v : Dbl) (hk : k < n) :
    rd h (List.replicate n v) k = v := by
  simp [rd, hk, List.getElem?_replicate]

theorem rd_map_range (h : Host) (n k : Nat) (f : Nat → Dbl) (hk : k < n) :
    rd h ((List.range n).map f) k = f k := by
  simp [rd, hk, List.getElem?_range]

theorem cell_inj (s i j i' j' : Nat) (hi : i < s) (hi' : i' < s)
    (he : i + s * j = i' + s * j') : i = i' ∧ j = j' := by
  have hs : 0 < s := Nat.lt_of_le_of_lt (Nat.zero_le i) hi
  have h1 : (i + s * j) % s = i := by
    rw [Nat.add_mul_mod_self_left]; exact Nat.mod_eq_of_lt hi
  have h2 : (i' + s * j') % s = i' := by
    rw [Nat.add_mul_mod_self_left]; exact Nat.mod_eq_of_lt hi'
  have h3 : (i + s * j) / s = j := by
    rw [Nat.add_mul_div_left _ _ hs, Nat.div_eq_of_lt hi, Nat.zero_add]
  have h4 : (i' + s * j') / s = j' := by
    rw [Nat.add_mul_div_left _ _ hs, Nat.div_eq_of_lt hi', Nat.zero_add]
  constructor
  · rw [← h1, he, h2]
  · rw [← h3, he, h4]

theorem cell_lt (s c i j : Nat) (hi : i < s) (hj : j < c) : i + s * j < s * c := by
  have h1 : s * j + s ≤ s * c := by
    have : s * (j + 1) ≤ s * c := Nat.mul_le_mul_left s hj
    simpa [Nat.mul_add] using this
  omega

/-- A loop writing `d[g i] = f i d[g i]` at pairwise distinct offsets. -/
theorem forUp_wr_spec (h : Host) (g : Nat → Nat) (f : Nat → Dbl → Dbl) (len : Nat)
    (d : List Dbl)
    (hinj : ∀ i i', i < len → i' < len → g i = g i' → i = i') :
    (forUp 0 len (fun i t => wr t (g i) (f i (rd h t (g i)))) d).length = d.length ∧
    (∀ i, i < len → g i < d.length →
      rd h (forUp 0 len (fun i t => wr t (g i) (f i (rd h t (g i)))) d) (g i)
        = f i (rd h d (g i))) ∧
    (∀ k, (∀ i, i < len → g i ≠ k) →
      rd h (forUp 0 len (fun i t => wr t (g i) (f i (rd h t (g i)))) d) k = rd h d k) := by
  refine forUp_inv (fun n t => n ≤ len → (t.length = d.length ∧
    (∀ i, i < n → g i < d.length → rd h t (g i) = f i (rd h d (g i))) ∧
    (∀ k, (∀ i, i < n → g i ≠ k) → rd h t k = rd h d k))) 0 len _ d ?_ ?_ (Nat.le_refl len)
  · intro _
    exact ⟨rfl, fun i hi => absurd hi (Nat.not_lt_zero i), fun k _ => rfl⟩
  · intro n t hn ih hle
    obtain ⟨hlen, hhit, hmiss⟩ := ih (Nat.le_of_lt hn)
    simp only [Nat.zero_add]
    refine ⟨by rw [length_wr, hlen], ?_, ?_⟩
    · intro i hi hgi
      rcases Nat.lt_succ_iff_lt_or_eq.mp hi with hlt | heq
      · have hne : g n ≠ g i := fun he => by
          have := hinj n i hn (Nat.lt_trans hlt hn) he
          omega
        rw [rd_wr_ne h t _ _ _ hne]
        exact hhit i hlt hgi
      · subst heq
        rw [rd_wr_eq h t _ _ (by rw [hlen]; exact hgi)]
        congr 1
        exact hmiss (g i) (fun i' hi' he => by
          have := hinj i' i (Nat.lt_trans hi' hn) hn he
          omega)
    · intro k hk
      have hne : g n ≠ k := hk n (Nat.lt_succ_self n)
      rw [rd_wr_ne h t _ _ _ hne]
      exact hmiss k (fun i hi => hk i (Nat.lt_succ_of_lt hi))

theorem mapCells_spec (h : Host) (stride rows cols : Nat) (f : Nat → Nat → Dbl → Dbl)
    (d : List Dbl) (hrows : rows ≤ stride) :
    (mapCells h stride rows cols f d).length = d.length ∧
    (∀ i j, i < rows → j < cols → i + stride * j < d.length →
      rd h (mapCells h stride rows cols f d) (i + stride * j)
        = f i j (rd h d (i + stride * j))) ∧
    (∀ k, (∀ i j, i < rows → j < cols → i + stride * j ≠ k) →
      rd h (mapCells h stride rows cols f d) k = rd h d k) := by
  unfold mapCells
  refine forUp_inv (fun n t => n ≤ cols → (t.length = d.length ∧
    (∀ i j, i < rows → j < n → i + stride * j < d.length →
      rd h t (i + stride * j) = f i j (rd h d (i + stride * j))) ∧
    (∀ k, (∀ i j, i < rows → j < n → i + stride * j ≠ k) → rd h t k = rd h d k)))
    0 cols _ d ?_ ?_ (Nat.le_refl cols)
  · intro _
    exact ⟨rfl, fun i j _ hj => absurd hj (Nat.not_lt_zero j), fun k _ => rfl⟩
  · intro n t hn ih hle
    obtain ⟨hlen, hhit, hmiss⟩ := ih (Nat.le_of_lt hn)
    simp only [Nat.zero_add]
    have hinj : ∀ i i', i < rows → i' < rows →
        i + stride * n = i' + stride * n → i = i' := fun i i' _ _ he => by omega
    obtain ⟨ilen, ihit, imiss⟩ := forUp_wr_spec h (fun i => i + stride * n)
      (fun i v => f i n v) rows t hinj
    refine ⟨by rw [ilen, hlen], ?_, ?_⟩
    · intro i j hi hj hlt
      rcases Nat.lt_succ_iff_lt_or_eq.mp hj with hjn | hjn
      · rw [imiss (i + stride * j) (fun i' hi' he => by
          have := cell_inj stride i' n i j (Nat.lt_of_lt_of_le hi' hrows)
            (Nat.lt_of_lt_of_le hi hrows) he
          omega)]
        exact hhit i j hi hjn hlt
      · subst hjn
        rw [ihit i hi (by rw [hlen]; exact hlt)]
        congr 1
        exact hmiss _ (fun i' j' hi' hj' he => by
          have := cell_inj stride i' j' i j (Nat.lt_of_lt_of_le hi' hrows)
            (Nat.lt_of_lt_of_le hi hrows) he
          omega)
    · intro k hk
      rw [imiss k (fun i hi => hk i n hi (Nat.lt_succ_self n))]
      exact hmiss k (fun i j hi hj => hk i j hi (Nat.lt_succ_of_lt hj))

theorem forUp_preserves {σ : Type} (P : σ → Prop) (lo len : Nat) (body : Nat → σ → σ)
    (s : σ) (hs : P s) (hb : ∀ i t, P t → P (body i t)) : P (forUp lo len body s) :=
  forUp_inv (fun _ t => P t) lo len body s hs (fun i t _ ht => hb (lo + i) t ht)

theorem forDown_preserves {σ : Type} (P : σ → Prop) (lo len : Nat) (body : Nat → σ → σ)
    (s : σ) (hs : P s) (hb : ∀ i t, P t → P (body i t)) : P (forDown lo len body s) := by
  unfold forDown
  generalize (List.range' lo len).reverse = l
  induction l generalizing s with
  | nil => exact hs
  | cons a t ih => exact ih (body a s) (hb a s hs)

theorem forUp_wr_length (lo len : Nat) (g : Nat → Nat) (v : Nat → List Dbl → Dbl)
    (d : List Dbl) : (forUp lo len (fun i t => wr t (g i) (v i t)) d).length = d.length :=
  forUp_preserves (fun (t : List Dbl) => t.length = d.length) _ _ _ _ rfl
    (fun i t ht => by simp only [length_wr]; exact ht)

theorem xrot_length (h : Host) (n : Int) (x : List Dbl) (ix0 iy0 : Nat) (c s : Dbl) :
    (xrot h n x ix0 iy0 c s).length = x.length := by
  unfold xrot
  split
  · exact forUp_preserves (fun (t : List Dbl) => t.length = x.length) _ _ _ _ rfl
      (fun i t ht => by simp only [length_wr]; exact ht)
  · rfl

theorem xswap_length (h : Host) (n : Int) (x : List Dbl) (ix0 iy0 : Nat) :
    (xswap h n x ix0 iy0).length = x.length := by
  unfold xswap
  exact forUp_preserves (fun (t : List Dbl) => t.length = x.length) _ _ _ _ rfl
    (fun i t ht => by simp only [length_wr]; exact ht)

theorem xaxpy_length (h : Host) (n : Int) (a : Dbl) (ix0 : Nat) (y : List Dbl) (iy0 : Nat) :
    (xaxpy h n a ix0 y iy0).length = y.length := by
  unfold xaxpy
  split
  · rfl
  · exact forUp_wr_length _ _ _ _ _

theorem xzsvdc_colReflect_U (h : Host) (n nct q : Nat) (w : SvdWork) :
    (xzsvdc_colReflect h n nct q w).1.U = w.U := by
  unfold xzsvdc_colReflect
  simp only
  split
  · split <;> rfl
  · rfl

theorem xzsvdc_applyCols_U (h : Host) (n p q : Nat) (b : Bool) (w : SvdWork) :
    (xzsvdc_applyCols h n p q b w).U = w.U := by
  unfold xzsvdc_applyCols
  exact forUp_preserves (fun (t : SvdWork) => t.U = w.U) _ _ _ _ rfl (fun i t ht => ht)

theorem xzsvdc_rowReflect_U (h : Host) (n p q : Nat) (w : SvdWork) :
    (xzsvdc_rowReflect h n p q w).U = w.U := by
  unfold xzsvdc_rowReflect
  simp only
  split
  · rfl
  · split <;> rfl

theorem xzsvdc_bidiag_U_length (h : Host) (n p nct nrt q : Nat) (w : SvdWork) :
    (xzsvdc_bidiag h n p nct nrt q w).U.length = w.U.length := by
  have h3 : (if q + 1 ≤ nct then
      ({ xzsvdc_applyCols h n p q (xzsvdc_colReflect h n nct q w).2
            (xzsvdc_colReflect h n nct q w).1 with
          U := forUp (q + 1) (n - q) (fun ii U =>
            wr U ((ii + n * q) - 1)
              (rd h (xzsvdc_applyCols h n p q (xzsvdc_colReflect h n nct q w).2
                (xzsvdc_colReflect h n nct q w).1).A ((ii + n * q) - 1)))
            (xzsvdc_applyCols h n p q (xzsvdc_colReflect h n nct q w).2
              (xzsvdc_colReflect h n nct q w).1).U } : SvdWork)
      else xzsvdc_applyCols h n p q (xzsvdc_colReflect h n nct q w).2
        (xzsvdc_colReflect h n nct q w).1).U.length = w.U.length := by
    split
    · dsimp only
      rw [forUp_wr_length, xzsvdc_applyCols_U, xzsvdc_colReflect_U]
    · rw [xzsvdc_applyCols_U, xzsvdc_colReflect_U]
  unfold xzsvdc_bidiag
  simp only
  split
  · show (xzsvdc_rowReflect h n p q _).U.length = _
    rw [xzsvdc_rowReflect_U]
    exact h3
  · exact h3

theorem xzsvdc_genU_length (h : Host) (n S_size q : Nat) (s U : List Dbl) :
    (xzsvdc_genU h n S_size q s U).length = U.length := by
  unfold xzsvdc_genU
  simp only
  split
  · rw [forUp_wr_length, length_wr, forUp_wr_length]
    exact forUp_preserves (fun (t : List Dbl) => t.length = U.length) _ _ _ _ rfl
      (fun i t ht => by
        show (xaxpy _ _ _ _ _ _).length = _
        rw [xaxpy_length]; exact ht)
  · rw [length_wr, forUp_wr_length]

theorem xzsvdc_prescale_U_length (h : Host) (n p m q : Nat) (w : SvdScale) :
    (xzsvdc_prescale h n p m q w).U.length = w.U.length := by
  have hs : (xzsvdc_prescale_s h n m q w).U.length = w.U.length := by
    unfold xzsvdc_prescale_s
    simp only
    split
    · dsimp only
      split
      · rw [forUp_wr_length]
      · rfl
    · rfl
  have he : ∀ v : SvdScale, (xzsvdc_prescale_e h p m q v).U = v.U := by
    intro v
    unfold xzsvdc_prescale_e
    simp only
    split
    · split <;> rfl
    · rfl
  show (xzsvdc_prescale_e h p m q (xzsvdc_prescale_s h n m q w)).U.length = _
  rw [he, hs]

/-! ## The missing-value scan and centering -/

theorem forUp_count (n : Nat) (p : Nat → Bool) :
    forUp 0 n (fun i c => if p i = true then c + 1 else c) 0
      = ((List.range n).filter p).length := by
  induction n with
  | zero => rfl
  | succ k ih =>
    rw [forUp_succ, ih, List.range_succ, List.filter_append]
    by_cases hp : p k = true <;> simp [hp]

theorem range_filter_succ_length (k : Nat) (p : Nat → Bool) :
    ((List.range (k + 1)).filter p).length
      = ((List.range k).filter p).length + (if p k = true then 1 else 0) := by
  rw [List.range_succ, List.filter_append]
  by_cases hp : p k = true <;> simp [hp]

theorem naninfo_isNaN_getD (h : Host) (x : Mat) (i j : Nat) (hi : i < x.size0)
    (hj : j < x.size1) :
    ((List.range (x.size0 * x.size1)).map (fun i1 => (rd h x.data i1).isNaN)).getD
      (i + x.size0 * j) false = (x.get h i j).isNaN := by
  have hlt := cell_lt x.size0 x.size1 i j hi hj
  simp [Mat.get, hlt, List.getElem?_range]

/-- The inner loop of the missing-value scan (one column). -/
theorem naninfo_col (n : Nat) (c : Nat → Bool) (st : NanInfo) (hlen : st.nNaNsInRow.length = n) :
    let r := forUp 0 n (fun b_i (st : NanInfo) =>
      if c b_i = true then
        (⟨st.nNaNsInRow.set b_i (st.nNaNsInRow.getD b_i 0 + 1), st.total + 1⟩ : NanInfo)
      else st) st
    r.nNaNsInRow.length = n ∧
    (∀ i, i < n → r.nNaNsInRow.getD i 0 = st.nNaNsInRow.getD i 0 + (if c i = true then 1 else 0)) ∧
    r.total = st.total + ((List.range n).filter c).length := by
  intro r
  have key := forUp_inv (fun k (t : NanInfo) => k ≤ n →
      (t.nNaNsInRow.length = n ∧
      (∀ i, i < n → t.nNaNsInRow.getD i 0
        = st.nNaNsInRow.getD i 0 + (if i < k ∧ c i = true then 1 else 0)) ∧
      t.total = st.total + ((List.range k).filter c).length)) 0 n
    (fun b_i (st : NanInfo) =>
      if c b_i = true then
        (⟨st.nNaNsInRow.set b_i (st.nNaNsInRow.getD b_i 0 + 1), st.total + 1⟩ : NanInfo)
      else st) st
    (by intro _; exact ⟨hlen, by simp, by simp⟩)
    (by
      intro k t hk ih hle
      obtain ⟨h1, h2, h3⟩ := ih (Nat.le_of_lt hk)
      simp only [Nat.zero_add]
      by_cases hc : c k = true
      · rw [if_pos hc]
        refine ⟨by simp [h1], ?_, ?_⟩
        · intro i hi
          by_cases hik : i = k
          · subst hik
            have := h2 i hi
            simp [List.getD_eq_getElem?_getD, List.getElem?_set, h1, hi, hc] at this ⊢
            omega
          · have := h2 i hi
            have hne : k ≠ i := fun e => hik e.symm
            simp only [List.getD_eq_getElem?_getD, List.getElem?_set, hne, if_false] at this ⊢
            rw [this]
            have : (i < k + 1 ∧ c i = true) ↔ (i < k ∧ c i = true) := by
              constructor
              · rintro ⟨a, b⟩; exact ⟨by omega, b⟩
              · rintro ⟨a, b⟩; exact ⟨by omega, b⟩
            simp only [this]
        · rw [h3, range_filter_succ_length]; simp [hc]; omega
      · rw [if_neg hc]
        refine ⟨h1, ?_, ?_⟩
        · intro i hi
          rw [h2 i hi]
          have : (i < k + 1 ∧ c i = true) ↔ (i < k ∧ c i = true) := by
            constructor
            · rintro ⟨a, b⟩
              refine ⟨?_, b⟩
              rcases Nat.lt_succ_iff_lt_or_eq.mp a with hlt | heq
              · exact hlt
              · subst heq; exact absurd b hc
            · rintro ⟨a, b⟩; exact ⟨by omega, b⟩
          simp only [this]
        · rw [h3, range_filter_succ_length]; simp [hc])
    (Nat.le_refl n)
  obtain ⟨h1, h2, h3⟩ := key
  refine ⟨h1, ?_, h3⟩
  intro i hi
  rw [h2 i hi]
  simp [hi]

theorem naninfo_spec (h : Host) (x : Mat) :
    (local_pca_naninfo h x).nNaNsInRow.length = x.size0 ∧
    (∀ i, i < x.size0 → (local_pca_naninfo h x).nNaNsInRow.getD i 0
      = ((List.range x.size1).filter (fun j => (x.get h i j).isNaN)).length) ∧
    (local_pca_naninfo h x).total = x.nanCount h := by
  unfold local_pca_naninfo Mat.nanCount
  refine forUp_inv (fun k (t : NanInfo) => k ≤ x.size1 →
    (t.nNaNsInRow.length = x.size0 ∧
    (∀ i, i < x.size0 → t.nNaNsInRow.getD i 0
      = ((List.range k).filter (fun j => (x.get h i j).isNaN)).length) ∧
    t.total = ((List.range k).map (fun j =>
      ((List.range x.size0).filter (fun i => (x.get h i j).isNaN)).length)).sum))
    0 x.size1 _ _ ?_ ?_ (Nat.le_refl _)
  · intro _
    refine ⟨by simp, ?_, by simp⟩
    intro i hi
    simp [List.getD_eq_getElem?_getD, List.getElem?_replicate, hi]
  · intro k t hk ih hle
    obtain ⟨h1, h2, h3⟩ := ih (Nat.le_of_lt hk)
    simp only [Nat.zero_add]
    obtain ⟨c1, c2, c3⟩ := naninfo_col x.size0
      (fun b_i => ((List.range (x.size0 * x.size1)).map
        (fun i1 => (rd h x.data i1).isNaN)).getD (b_i + x.size0 * k) false) t h1
    refine ⟨c1, ?_, ?_⟩
    · intro i hi
      rw [c2 i hi, h2 i hi, range_filter_succ_length, naninfo_isNaN_getD h x i k hi hk]
    · rw [c3, h3, List.range_succ, List.map_append, List.sum_append]
      have hf : (List.range x.size0).filter (fun b_i =>
          ((List.range (x.size0 * x.size1)).map
            (fun i1 => (rd h x.data i1).isNaN)).getD (b_i + x.size0 * k) false)
          = (List.range x.size0).filter (fun i => (x.get h i k).isNaN) := by
        apply List.filter_congr
        intro i hi
        exact naninfo_isNaN_getD h x i k (List.mem_range.mp hi) hk
      rw [hf]
      simp

theorem nRowsWithNaNs_spec (h : Host) (x : Mat) :
    local_pca_nRowsWithNaNs (local_pca_naninfo h x) x.size0
      = ((List.range x.size0).filter (x.rowHasNaN h)).length := by
  unfold local_pca_nRowsWithNaNs
  have hc := forUp_count x.size0
    (fun b_i => decide ((local_pca_naninfo h x).nNaNsInRow.getD b_i 0 > 0))
  simp only [decide_eq_true_eq] at hc
  rw [hc]
  congr 1
  apply List.filter_congr
  intro i hi
  have hi' := List.mem_range.mp hi
  rw [(naninfo_spec h x).2.1 i hi']
  unfold Mat.rowHasNaN
  by_cases hany : (List.range x.size1).any (fun j => (x.get h i j).isNaN) = true
  · rw [hany]
    simp only [decide_eq_true_eq, gt_iff_lt, List.length_pos]
    obtain ⟨j, hj, hjn⟩ := List.any_eq_true.mp hany
    intro he
    have : j ∈ (List.range x.size1).filter (fun j => (x.get h i j).isNaN) :=
      List.mem_filter.mpr ⟨hj, hjn⟩
    rw [he] at this
    exact absurd this (List.not_mem_nil j)
  · have hany' : (List.range x.size1).any (fun j => (x.get h i j).isNaN) = false := by
      simpa using hany
    rw [hany']
    simp only [decide_eq_false_iff_not, gt_iff_lt, not_lt, Nat.le_zero, List.length_eq_zero]
    apply List.filter_eq_nil_iff.mpr
    intro j hj hjn
    exact hany (List.any_eq_true.mpr ⟨j, hj, hjn⟩)

theorem nanCount_eq_zero (h : Host) (x : Mat) :
    x.nanCount h = 0 ↔ ∀ i j, i < x.size0 → j < x.size1 → (x.get h i j).isNaN = false := by
  unfold Mat.nanCount
  rw [List.sum_eq_zero_iff]
  constructor
  · intro hz i j hi hj
    have := hz (((List.range x.size0).filter (fun i => (x.get h i j).isNaN)).length)
      (List.mem_map.mpr ⟨j, List.mem_range.mpr hj, rfl⟩)
    have hnil := List.length_eq_zero.mp this
    by_contra hne
    have hmem : i ∈ (List.range x.size0).filter (fun i => (x.get h i j).isNaN) :=
      List.mem_filter.mpr ⟨List.mem_range.mpr hi, by simpa using hne⟩
    rw [hnil] at hmem
    exact List.not_mem_nil i hmem
  · intro hall v hv
    obtain ⟨j, hj, rfl⟩ := List.mem_map.mp hv
    apply List.length_eq_zero.mpr
    apply List.filter_eq_nil_iff.mpr
    intro i hi hc
    have := hall i j (List.mem_range.mp hi) (List.mem_range.mp hj)
    rw [this] at hc
    exact absurd hc (by simp)

theorem Dbl.lit_eq (k : Nat) : (OfNat.ofNat k : Dbl) = Dbl.num (k : ℚ) := rfl

theorem Dbl.add_num (a b : ℚ) : Dbl.num a + Dbl.num b = Dbl.num (a + b) := rfl

theorem Dbl.sub_num (a b : ℚ) : Dbl.num a - Dbl.num b = Dbl.num (a - b) := rfl

theorem Dbl.mul_num (a b : ℚ) : Dbl.num a * Dbl.num b = Dbl.num (a * b) := rfl

theorem Dbl.div_num (a b : ℚ) :
    Dbl.num a / Dbl.num b = if b = 0 then Dbl.nan else Dbl.num (a / b) := rfl

theorem Dbl.neg_num (a : ℚ) : -Dbl.num a = Dbl.num (-a) := rfl

theorem Dbl.neg_nan : -Dbl.nan = Dbl.nan := rfl

theorem Dbl.nan_add (a : Dbl) : Dbl.nan + a = Dbl.nan := rfl

theorem Dbl.add_nan (a : Dbl) : a + Dbl.nan = Dbl.nan := by cases a <;> rfl

theorem Dbl.nan_sub (a : Dbl) : Dbl.nan - a = Dbl.nan := rfl

theorem Dbl.sub_nan (a : Dbl) : a - Dbl.nan = Dbl.nan := by cases a <;> rfl

theorem Dbl.nan_mul (a : Dbl) : Dbl.nan * a = Dbl.nan := rfl

theorem Dbl.mul_nan (a : Dbl) : a * Dbl.nan = Dbl.nan := by cases a <;> rfl

theorem Dbl.nan_div (a : Dbl) : Dbl.nan / a = Dbl.nan := rfl

theorem Dbl.div_nan (a : Dbl) : a / Dbl.nan = Dbl.nan := by cases a <;> rfl

theorem Dbl.isNaN_neg (a : Dbl) : (-a).isNaN = a.isNaN := by cases a <;> rfl

theorem Dbl.isNaN_eq_true (a : Dbl) : a.isNaN = true ↔ a = Dbl.nan := by
  cases a <;> simp [Dbl.isNaN]

theorem Dbl.isNaN_eq_false (a : Dbl) : a.isNaN = false ↔ ∃ q, a = Dbl.num q := by
  cases a <;> simp [Dbl.isNaN]

theorem range_filterMap_succ {α : Type} (k : Nat) (f : Nat → Option α) :
    (List.range (k + 1)).filterMap f
      = (List.range k).filterMap f ++ (match f k with | some a => [a] | none => []) := by
  rw [List.range_succ, List.filterMap_append]
  cases hf : f k <;> simp [List.filterMap_cons, hf]

/-- The accumulators `wcol`, `xcol` of `wnanmean` over the non-NaN entries. -/
theorem wnanmean_fold_nan (n : Nat) (c : Nat → Dbl) :
    forUp 0 n (fun i (wx : Dbl × Dbl) =>
        if (!(c i).isNaN) = true then (wx.1 + 1, wx.2 + c i) else wx) ((0 : Dbl), (0 : Dbl))
      = (Dbl.num (((List.range n).filterMap (fun i => (c i).toRat?)).length : ℚ),
         Dbl.num ((List.range n).filterMap (fun i => (c i).toRat?)).sum) := by
  induction n with
  | zero => simp [forUp_zero, Dbl.lit_eq]
  | succ k ih =>
    rw [forUp_succ, ih, range_filterMap_succ]
    simp only [Nat.zero_add]
    cases hc : c k with
    | nan => simp [Dbl.isNaN, Dbl.toRat?]
    | num q =>
      simp [Dbl.isNaN, Dbl.toRat?, Dbl.lit_eq, Dbl.add_num]

/-- The accumulators `wcol`, `xcol` of `wnanmean` on a column without NaN. -/
theorem wnanmean_fold_all (n : Nat) (c : Nat → Dbl)
    (hc : ∀ i, i < n → (c i).isNaN = false) :
    forUp 0 n (fun i (wx : Dbl × Dbl) => (wx.1 + 1, wx.2 + c i)) ((0 : Dbl), (0 : Dbl))
      = (Dbl.num (((List.range n).filterMap (fun i => (c i).toRat?)).length : ℚ),
         Dbl.num ((List.range n).filterMap (fun i => (c i).toRat?)).sum) := by
  induction n with
  | zero => simp [forUp_zero, Dbl.lit_eq]
  | succ k ih =>
    rw [forUp_succ, ih (fun i hi => hc i (Nat.lt_succ_of_lt hi)), range_filterMap_succ]
    simp only [Nat.zero_add]
    obtain ⟨q, hq⟩ := (Dbl.isNaN_eq_false (c k)).mp (hc k (Nat.lt_succ_self k))
    simp [hq, Dbl.toRat?, Dbl.lit_eq, Dbl.add_num]

theorem noNaNs_iff (h : Host) (x : Mat) :
    local_pca_noNaNs h x = true ↔ x.nanCount h = 0 := by
  unfold local_pca_noNaNs
  rw [(naninfo_spec h x).2.2]
  simp

/-- The column mean computed by `wnanmean` inside `local_pca`. -/
theorem wnanmean_spec (h : Host) (x : Mat) (j : Nat) (hj : j < x.size1) :
    rd h (wnanmean h x (local_pca_noNaNs h x)) j
      = Dbl.num (x.colNonNaN h j).sum / Dbl.num ((x.colNonNaN h j).length : ℚ) := by
  unfold wnanmean
  by_cases hno : local_pca_noNaNs h x = true
  · have hall := (nanCount_eq_zero h x).mp ((noNaNs_iff h x).mp hno)
    simp only [hno, Bool.not_true, Bool.false_eq_true, if_false]
    obtain ⟨_, hit, _⟩ := forUp_wr_spec h (fun j => j)
      (fun sz_idx_1 _ => (forUp 0 x.size0 (fun i (wx : Dbl × Dbl) =>
        (wx.1 + 1, wx.2 + rd h x.data (i + x.size0 * sz_idx_1))) ((0 : Dbl), (0 : Dbl))).2 /
        (forUp 0 x.size0 (fun i (wx : Dbl × Dbl) =>
        (wx.1 + 1, wx.2 + rd h x.data (i + x.size0 * sz_idx_1))) ((0 : Dbl), (0 : Dbl))).1)
      x.size1 (List.replicate x.size1 0) (fun i i' _ _ he => he)
    rw [hit j hj (by simpa using hj)]
    rw [wnanmean_fold_all x.size0 (fun i => rd h x.data (i + x.size0 * j))
      (fun i hi => hall i j hi hj)]
    rfl
  · have hno' : local_pca_noNaNs h x = false := by simpa using hno
    simp only [hno', Bool.not_false, if_true]
    obtain ⟨_, hit, _⟩ := forUp_wr_spec h (fun j => j)
      (fun sz_idx_1 _ => (forUp 0 x.size0 (fun i (wx : Dbl × Dbl) =>
        if (!(rd h x.data (i + x.size0 * sz_idx_1)).isNaN) = true then
          (wx.1 + 1, wx.2 + rd h x.data (i + x.size0 * sz_idx_1)) else wx)
          ((0 : Dbl), (0 : Dbl))).2 /
        (forUp 0 x.size0 (fun i (wx : Dbl × Dbl) =>
        if (!(rd h x.data (i + x.size0 * sz_idx_1)).isNaN) = true then
          (wx.1 + 1, wx.2 + rd h x.data (i + x.size0 * sz_idx_1)) else wx)
          ((0 : Dbl), (0 : Dbl))).1)
      x.size1 (List.replicate x.size1 0) (fun i i' _ _ he => he)
    rw [hit j hj (by simpa using hj)]
    rw [wnanmean_fold_nan x.size0 (fun i => rd h x.data (i + x.size0 * j))]
    rfl

theorem Dbl.toRat?_sub_num (d : Dbl) (m : ℚ) :
    (d - Dbl.num m).toRat? = (d.toRat?).map (fun v => v - m) := by
  cases d <;> rfl

theorem sum_map_sub_const (l : List ℚ) (m : ℚ) :
    (l.map (fun v => v - m)).sum = l.sum - (l.length : ℚ) * m := by
  induction l with
  | nil => simp
  | cons a t ih =>
    simp only [List.map_cons, List.sum_cons, List.length_cons, ih]
    push_cast
    ring

theorem center_get (h : Host) (x : Mat) (hwf : x.WellFormed) (i j : Nat)
    (hi : i < x.size0) (hj : j < x.size1) :
    (local_pca_center h x).get h i j
      = x.get h i j - rd h (wnanmean h x (local_pca_noNaNs h x)) j := by
  unfold local_pca_center Mat.get
  simp only
  obtain ⟨_, hit, _⟩ := mapCells_spec h x.size0 x.size0 x.size1
    (fun _ j v => v - rd h (wnanmean h x (local_pca_noNaNs h x)) j) x.data (Nat.le_refl _)
  rw [hit i j hi hj (by rw [hwf]; exact cell_lt _ _ i j hi hj)]

theorem center_size (h : Host) (x : Mat) :
    (local_pca_center h x).size0 = x.size0 ∧ (local_pca_center h x).size1 = x.size1 ∧
    (local_pca_center h x).data.length = x.data.length := by
  unfold local_pca_center
  refine ⟨rfl, rfl, ?_⟩
  simp only
  exact (mapCells_spec h x.size0 x.size0 x.size1 _ x.data (Nat.le_refl _)).1

theorem colNonNaN_length_pos (h : Host) (x : Mat) (j : Nat)
    (hex : ∃ i, i < x.size0 ∧ (x.get h i j).isNaN = false) :
    0 < (x.colNonNaN h j).length := by
  obtain ⟨i, hi, hn⟩ := hex
  obtain ⟨q, hq⟩ := (Dbl.isNaN_eq_false _).mp hn
  apply List.length_pos_of_mem (a := q)
  unfold Mat.colNonNaN
  exact List.mem_filterMap.mpr ⟨i, List.mem_range.mpr hi, by rw [hq]; rfl⟩

/-! ## Shapes -/

theorem ite_le_eq_min (a b : Nat) : (if a ≤ b then a else b) = min a b := by
  by_cases hle : a ≤ b
  · rw [if_pos hle, Nat.min_eq_left hle]
  · rw [if_neg hle, Nat.min_eq_right (Nat.le_of_not_le hle)]

theorem xzsvdc_shape (h : Host) (A : Mat) :
    (xzsvdc h A).S_size = min A.size0 A.size1 ∧
    (xzsvdc h A).U.size0 = A.size0 ∧ (xzsvdc h A).U.size1 = min A.size0 A.size1 ∧
    (xzsvdc h A).V.size0 = A.size1 ∧ (xzsvdc h A).V.size1 = min A.size0 A.size1 ∧
    (xzsvdc h A).S.length = min A.size0 A.size1 := by
  have hmin := ite_le_eq_min A.size0 A.size1
  refine ⟨hmin, rfl, hmin, rfl, hmin, ?_⟩
  unfold xzsvdc
  simp only [List.length_map, List.length_range]
  exact hmin

theorem localSVD_scores_shape (h : Host) (x : Mat) (DOF : Nat) :
    (localSVD_scores h x DOF).svd.S_size = min x.size0 x.size1 ∧
    (localSVD_scores h x DOF).score.size0 = x.size0 ∧
    (localSVD_scores h x DOF).score.size1 = min x.size0 x.size1 ∧
    (localSVD_scores h x DOF).svd.V.size0 = x.size1 ∧
    (localSVD_scores h x DOF).svd.V.size1 = min x.size0 x.size1 := by
  have hs := xzsvdc_shape h ⟨x.size0, x.size1,
    (List.range (x.size0 * x.size1)).map (fun j => rd h x.data j)⟩
  exact ⟨hs.1, hs.2.1, hs.2.2.1, hs.2.2.2.1, hs.2.2.2.2.1⟩

/-- The number of components `localSVD` keeps. -/
theorem localSVD_shape (h : Host) (x : Mat) (DOF : Nat) :
    (localSVD h x DOF).latentOut_size
        = (if DOF < x.size1 then min DOF (min x.size0 x.size1) else min x.size0 x.size1) ∧
    (localSVD h x DOF).scoreOut.size0 = x.size0 ∧
    (localSVD h x DOF).scoreOut.size1 = (localSVD h x DOF).latentOut_size ∧
    (localSVD h x DOF).coeffOut.size0 = x.size1 ∧
    (localSVD h x DOF).coeffOut.size1 = (localSVD h x DOF).latentOut_size := by
  obtain ⟨h1, h2, h3, h4, h5⟩ := localSVD_scores_shape h x DOF
  have hk : (localSVD h x DOF).latentOut_size
      = (if DOF < x.size1 then min DOF (min x.size0 x.size1) else min x.size0 x.size1) := by
    show (if DOF < x.size1 then
        (if DOF ≤ (localSVD_scores h x DOF).score.size1 then DOF
          else (localSVD_scores h x DOF).score.size1)
      else (localSVD_scores h x DOF).svd.S_size) = _
    rw [h1, h3, ite_le_eq_min]
  refine ⟨hk, ?_, ?_, ?_, ?_⟩
  · show (if DOF < x.size1 then _ else _ : Mat).size0 = x.size0
    by_cases hd : DOF < x.size1
    · rw [if_pos hd]; rfl
    · rw [if_neg hd]; exact h2
  · show (if DOF < x.size1 then _ else _ : Mat).size1 = _
    by_cases hd : DOF < x.size1
    · rw [if_pos hd]; rfl
    · rw [if_neg hd, hk, if_neg hd]; exact h3
  · show (if DOF < x.size1 then _ else _ : Mat).size0 = x.size1
    by_cases hd : DOF < x.size1
    · rw [if_pos hd]; rfl
    · rw [if_neg hd]; exact h4
  · show (if DOF < x.size1 then _ else _ : Mat).size1 = _
    by_cases hd : DOF < x.size1
    · rw [if_pos hd]; rfl
    · rw [if_neg hd, hk, if_neg hd]; exact h5

theorem kept_components (b p : Nat) :
    (if (if 1 ≤ b then b - 1 else b) < p then
        min (if 1 ≤ b then b - 1 else b) (min b p) else min b p)
      = min (if 1 ≤ b then b - 1 else b) p := by
  by_cases hb : 1 ≤ b
  · simp only [if_pos hb]
    by_cases hd : b - 1 < p
    · rw [if_pos hd]; omega
    · rw [if_neg hd]; omega
  · simp only [if_neg hb]
    by_cases hd : b < p
    · rw [if_pos hd]; omega
    · rw [if_neg hd]

theorem validRows_eq_of_noNaNs (h : Host) (x : Mat) (hno : local_pca_noNaNs h x = true) :
    local_pca_validRows h x = x.size0 := by
  have hall := (nanCount_eq_zero h x).mp ((noNaNs_iff h x).mp hno)
  unfold local_pca_validRows
  rw [nRowsWithNaNs_spec]
  have : (List.range x.size0).filter (x.rowHasNaN h) = [] := by
    apply List.filter_eq_nil_iff.mpr
    intro i hi hrow
    unfold Mat.rowHasNaN at hrow
    obtain ⟨j, hj, hjn⟩ := List.any_eq_true.mp hrow
    rw [hall i j (List.mem_range.mp hi) (List.mem_range.mp hj)] at hjn
    exact absurd hjn (by simp)
  rw [this]
  rfl

theorem local_pca_fit_shape (h : Host) (X : Mat) :
    (local_pca_fit h X).DOF = local_pca_DOF h X ∧
    (local_pca_fit h X).y.size0 = X.size0 ∧
    (local_pca_fit h X).y.size1 = min (local_pca_DOF h X) X.size1 ∧
    (local_pca_fit h X).coeff.size0 = X.size1 ∧
    (local_pca_fit h X).coeff.size1 = min (local_pca_DOF h X) X.size1 := by
  have hdof : local_pca_DOF h X
      = (if 1 ≤ local_pca_validRows h X then local_pca_validRows h X - 1
         else local_pca_validRows h X) := rfl
  by_cases hno : local_pca_noNaNs h X = true
  · have hfit : local_pca_fit h X
        = ⟨(localSVD h (local_pca_center h X) (local_pca_DOF h X)).coeffOut,
           (localSVD h (local_pca_center h X) (local_pca_DOF h X)).scoreOut,
           local_pca_DOF h X⟩ := by
      simp [local_pca_fit, hno]
    obtain ⟨s1, s2, s3, s4, s5⟩ :=
      localSVD_shape h (local_pca_center h X) (local_pca_DOF h X)
    have hc := center_size h X
    have hk : (localSVD h (local_pca_center h X) (local_pca_DOF h X)).latentOut_size
        = min (local_pca_DOF h X) X.size1 := by
      rw [s1, hc.1, hc.2.1, hdof, validRows_eq_of_noNaNs h X hno]
      exact kept_components X.size0 X.size1
    rw [hfit]
    refine ⟨rfl, ?_, ?_, ?_, ?_⟩
    · show (localSVD h (local_pca_center h X) (local_pca_DOF h X)).scoreOut.size0 = _
      rw [s2, hc.1]
    · show (localSVD h (local_pca_center h X) (local_pca_DOF h X)).scoreOut.size1 = _
      rw [s3, hk]
    · show (localSVD h (local_pca_center h X) (local_pca_DOF h X)).coeffOut.size0 = _
      rw [s4, hc.2.1]
    · show (localSVD h (local_pca_center h X) (local_pca_DOF h X)).coeffOut.size1 = _
      rw [s5, hk]
  · have hno' : local_pca_noNaNs h X = false := by simpa using hno
    have hfit : local_pca_fit h X
        = ⟨(localSVD h (local_pca_gather h (local_pca_naninfo h X) (local_pca_validRows h X)
              (local_pca_center h X)) (local_pca_DOF h X)).coeffOut,
           local_pca_scatter h (local_pca_naninfo h X)
             (localSVD h (local_pca_gather h (local_pca_naninfo h X) (local_pca_validRows h X)
               (local_pca_center h X)) (local_pca_DOF h X)).scoreOut,
           local_pca_DOF h X⟩ := by
      simp [local_pca_fit, hno']
    obtain ⟨s1, s2, s3, s4, s5⟩ :=
      localSVD_shape h (local_pca_gather h (local_pca_naninfo h X) (local_pca_validRows h X)
        (local_pca_center h X)) (local_pca_DOF h X)
    have hc := center_size h X
    have hg0 : (local_pca_gather h (local_pca_naninfo h X) (local_pca_validRows h X)
        (local_pca_center h X)).size0 = local_pca_validRows h X := rfl
    have hg1 : (local_pca_gather h (local_pca_naninfo h X) (local_pca_validRows h X)
        (local_pca_center h X)).size1 = X.size1 := hc.2.1
    have hk : (localSVD h (local_pca_gather h (local_pca_naninfo h X) (local_pca_validRows h X)
        (local_pca_center h X)) (local_pca_DOF h X)).latentOut_size
        = min (local_pca_DOF h X) X.size1 := by
      rw [s1, hg0, hg1, hdof]
      exact kept_components (local_pca_validRows h X) X.size1
    rw [hfit]
    refine ⟨rfl, ?_, ?_, ?_, ?_⟩
    · show (local_pca_naninfo h X).nNaNsInRow.length = _
      exact (naninfo_spec h X).1
    · show (localSVD h _ (local_pca_DOF h X)).scoreOut.size1 = _
      rw [s3, hk]
    · show (localSVD h _ (local_pca_DOF h X)).coeffOut.size0 = _
      rw [s4, hg1]
    · show (localSVD h _ (local_pca_DOF h X)).coeffOut.size1 = _
      rw [s5, hk]

theorem local_pca_signs_shape (h : Host) (o : PcaOut) :
    (local_pca_signs h o).coeffOut.size0 = o.coeffOut.size0 ∧
    (local_pca_signs h o).coeffOut.size1 = o.coeffOut.size1 ∧
    (local_pca_signs h o).scoreOut.size0 = o.scoreOut.size0 ∧
    (local_pca_signs h o).scoreOut.size1 = o.scoreOut.size1 := ⟨rfl, rfl, rfl, rfl⟩

theorem local_pca_truncate_shape (h : Host) (f : PcaFit) (m : Nat) :
    (local_pca_truncate h f m).coeffOut.size0 = f.coeff.size0 ∧
    (local_pca_truncate h f m).coeffOut.size1 = (if m < f.DOF then m else f.coeff.size1) ∧
    (local_pca_truncate h f m).scoreOut.size0 = f.y.size0 ∧
    (local_pca_truncate h f m).scoreOut.size1 = (if m < f.DOF then m else f.y.size1) := by
  unfold local_pca_truncate
  by_cases hm : m < f.DOF
  · rw [if_pos hm, if_pos hm, if_pos hm]; exact ⟨rfl, rfl, rfl, rfl⟩
  · rw [if_neg hm, if_neg hm, if_neg hm]; exact ⟨rfl, rfl, rfl, rfl⟩

theorem xzsvdc_case1_U (h : Host) (p m ii : Nat) (w : SvdIter) :
    (xzsvdc_case1 h p m ii w).U = w.U := rfl

theorem xzsvdc_case2_U_length (h : Host) (n m ii : Nat) (w : SvdIter) :
    (xzsvdc_case2 h n m ii w).U.length = w.U.length := by
  unfold xzsvdc_case2
  dsimp only
  exact forUp_preserves (fun (c : SvdChase) => c.U.length = w.U.length) _ _ _ _ rfl
    (fun i c hc => by
      show (xrot _ _ _ _ _ _ _).length = _
      rw [xrot_length]; exact hc)

theorem xzsvdc_case3_U_length (h : Host) (n p m ii : Nat) (w : SvdIter) :
    (xzsvdc_case3 h n p m ii w).U.length = w.U.length := by
  unfold xzsvdc_case3
  dsimp only
  exact forUp_preserves (fun (c : SvdChase) => c.U.length = w.U.length) _ _ _ _ rfl
    (fun i c hc => by
      show (if i < n then _ else c.U : List Dbl).length = _
      split
      · rw [xrot_length]; exact hc
      · exact hc)

theorem xzsvdc_sort_U_length (h : Host) (n p : Nat) (d ii : Nat) (w : SvdIter) :
    (xzsvdc_sort h n p d ii w).U.length = w.U.length := by
  induction d generalizing ii w with
  | zero => rfl
  | succ k ih =>
    unfold xzsvdc_sort
    dsimp only
    split
    · rw [ih]
      dsimp only
      split
      · rw [xswap_length]
      · rfl
    · rfl

theorem xzsvdc_case4_U_length (h : Host) (n p nmq ii : Nat) (w : SvdIter) :
    (xzsvdc_case4 h n p nmq ii w).U.length = w.U.length := by
  unfold xzsvdc_case4
  dsimp only
  rw [xzsvdc_sort_U_length]
  split <;> rfl

theorem xzsvdc_pass_U_length (h : Host) (n p nmq : Nat) (snorm : Dbl) (w : SvdIter) :
    (xzsvdc_pass h n p nmq snorm w).U.length = w.U.length := by
  unfold xzsvdc_pass
  dsimp only
  split
  · rw [xzsvdc_case1_U]
  · split
    · rw [xzsvdc_case2_U_length]
    · split
      · rw [xzsvdc_case3_U_length]
      · rw [xzsvdc_case4_U_length]

theorem xzsvdc_loop_U_length (h : Host) (n p nmq : Nat) (snorm : Dbl) (fuel : Nat)
    (w : SvdIter) : (xzsvdc_loop h n p nmq snorm fuel w).U.length = w.U.length := by
  induction fuel generalizing w with
  | zero => rfl
  | succ k ih =>
    unfold xzsvdc_loop
    split
    · rw [ih, xzsvdc_pass_U_length]
    · rfl

theorem xzsvdc_eyeU_length (n nct S_size : Nat) (U : List Dbl) :
    (xzsvdc_eyeU n nct S_size U).length = U.length := by
  unfold xzsvdc_eyeU
  dsimp only
  split
  · exact forUp_preserves (fun (t : List Dbl) => t.length = U.length) _ _ _ _ rfl
      (fun i t ht => by
        show (wr _ _ _).length = _
        rw [length_wr, forUp_wr_length]; exact ht)
  · rfl

theorem xzsvdc_main_U_length (h : Host) (n p S_size : Nat) (w0 : SvdWork) :
    (xzsvdc_main h n p S_size w0).U.length = w0.U.length := by
  unfold xzsvdc_main
  dsimp only
  rw [xzsvdc_loop_U_length]
  dsimp only
  have hpre : ∀ (len : Nat) (m : Nat) (v : SvdScale),
      (forUp 0 len (xzsvdc_prescale h n p m) v).U.length = v.U.length := by
    intro len m v
    exact forUp_preserves (fun (t : SvdScale) => t.U.length = v.U.length) _ _ _ _ rfl
      (fun i t ht => by
        show (xzsvdc_prescale h n p m i t).U.length = _
        rw [xzsvdc_prescale_U_length]; exact ht)
  rw [hpre]
  dsimp only
  have hgen : ∀ (nct : Nat) (s U : List Dbl),
      (forDown 1 nct (fun q U => xzsvdc_genU h n S_size q s U) U).length = U.length := by
    intro nct s U
    exact forDown_preserves (fun (t : List Dbl) => t.length = U.length) _ _ _ _ rfl
      (fun i t ht => by
        show (xzsvdc_genU h n S_size i s t).length = _
        rw [xzsvdc_genU_length]; exact ht)
  rw [hgen, xzsvdc_eyeU_length]
  exact forUp_preserves (fun (t : SvdWork) => t.U.length = w0.U.length) _ _ _ _ rfl
    (fun i t ht => by
      show (xzsvdc_bidiag h n p _ _ i t).U.length = _
      rw [xzsvdc_bidiag_U_length]; exact ht)

theorem xzsvdc_U_length (h : Host) (A : Mat) :
    (xzsvdc h A).U.data.length = A.size0 * min A.size0 A.size1 := by
  have hmin := ite_le_eq_min A.size0 A.size1
  unfold xzsvdc
  dsimp only
  split
  · rw [forUp_wr_length, List.length_replicate, hmin]
  · rw [xzsvdc_main_U_length]
    dsimp only
    rw [List.length_replicate, hmin]

/-! ## Scatter, truncation, sign normalization -/

theorem build_get (h : Host) (r c : Nat) (f : Nat → Nat → Dbl) (i j : Nat)
    (hi : i < r) (hj : j < c) : (Mat.build r c f).get h i j = f i j := by
  have hr : 0 < r := Nat.lt_of_le_of_lt (Nat.zero_le i) hi
  unfold Mat.build Mat.get
  simp only
  rw [rd_map_range h _ _ _ (cell_lt r c i j hi hj)]
  have h1 : (i + r * j) % r = i := by
    rw [Nat.add_mul_mod_self_left]; exact Nat.mod_eq_of_lt hi
  have h2 : (i + r * j) / r = j := by
    rw [Nat.add_mul_div_left _ _ hr, Nat.div_eq_of_lt hi, Nat.zero_add]
  rw [h1, h2]

theorem build_length (r c : Nat) (f : Nat → Nat → Dbl) :
    (Mat.build r c f).data.length = r * c := by
  simp [Mat.build]

/-- Writing one row `i` of a column-major buffer of stride `n`. -/
theorem row_write_spec (h : Host) (n cols i : Nat) (v : Nat → Dbl) (d : List Dbl)
    (hi : i < n) :
    (forUp 0 cols (fun j y => wr y (i + n * j) (v j)) d).length = d.length ∧
    (∀ j, j < cols → i + n * j < d.length →
      rd h (forUp 0 cols (fun j y => wr y (i + n * j) (v j)) d) (i + n * j) = v j) ∧
    (∀ k, (∀ j, j < cols → i + n * j ≠ k) →
      rd h (forUp 0 cols (fun j y => wr y (i + n * j) (v j)) d) k = rd h d k) := by
  have hinj : ∀ j j', j < cols → j' < cols → i + n * j = i + n * j' → j = j' := by
    intro j j' _ _ he
    exact (cell_inj n i j i j' hi hi he).2
  exact forUp_wr_spec h (fun j => i + n * j) (fun j _ => v j) cols d hinj

/-- After the scatter loop every row that has a NaN in the table is a NaN row. -/
theorem scatter_nan_rows (h : Host) (ni : NanInfo) (score : Mat) :
    (local_pca_scatter h ni score).size0 = ni.nNaNsInRow.length ∧
    (local_pca_scatter h ni score).size1 = score.size1 ∧
    (∀ i j, i < ni.nNaNsInRow.length → j < score.size1 → ni.nNaNsInRow.getD i 0 > 0 →
      (local_pca_scatter h ni score).get h i j = Dbl.nan) := by
  refine ⟨rfl, rfl, ?_⟩
  have key := forUp_inv (fun k (st : Nat × List Dbl) => k ≤ ni.nNaNsInRow.length →
      (st.2.length = ni.nNaNsInRow.length * score.size1 ∧
       ∀ i j, i < k → j < score.size1 → ni.nNaNsInRow.getD i 0 > 0 →
         rd h st.2 (i + ni.nNaNsInRow.length * j) = Dbl.nan))
    0 ni.nNaNsInRow.length
    (fun b_i (st : Nat × List Dbl) =>
      if ni.nNaNsInRow.getD b_i 0 > 0 then
        (st.1, forUp 0 score.size1 (fun j y =>
          wr y (b_i + ni.nNaNsInRow.length * j) Dbl.nan) st.2)
      else
        (st.1 + 1, forUp 0 score.size1 (fun j y =>
          wr y (b_i + ni.nNaNsInRow.length * j)
            (rd h score.data (st.1 + score.size0 * j))) st.2))
    (0, List.replicate (ni.nNaNsInRow.length * score.size1) h.junk)
    (by intro _; exact ⟨by simp, fun i j hi => absurd hi (Nat.not_lt_zero i)⟩)
    (by
      intro k st hk ih hle
      obtain ⟨hlen, hnan⟩ := ih (Nat.le_of_lt hk)
      simp only [Nat.zero_add]
      by_cases hc : ni.nNaNsInRow.getD k 0 > 0
      · rw [if_pos hc]
        obtain ⟨wl, whit, wmiss⟩ := row_write_spec h ni.nNaNsInRow.length score.size1 k
          (fun _ => Dbl.nan) st.2 hk
        refine ⟨by rw [wl, hlen], ?_⟩
        intro i j hi hj hpos
        rcases Nat.lt_succ_iff_lt_or_eq.mp hi with hlt | heq
        · rw [wmiss _ (fun j' _ he => by
            have := cell_inj ni.nNaNsInRow.length k j' i j hk (Nat.lt_trans hlt hk) he
            omega)]
          exact hnan i j hlt hj hpos
        · subst heq
          exact whit j hj (by rw [hlen]; exact cell_lt _ _ i j hk hj)
      · rw [if_neg hc]
        obtain ⟨wl, whit, wmiss⟩ := row_write_spec h ni.nNaNsInRow.length score.size1 k
          (fun j => rd h score.data (st.1 + score.size0 * j)) st.2 hk
        refine ⟨by rw [wl, hlen], ?_⟩
        intro i j hi hj hpos
        rcases Nat.lt_succ_iff_lt_or_eq.mp hi with hlt | heq
        · rw [wmiss _ (fun j' _ he => by
            have := cell_inj ni.nNaNsInRow.length k j' i j hk (Nat.lt_trans hlt hk) he
            omega)]
          exact hnan i j hlt hj hpos
        · subst heq
          exact absurd hpos hc)
    (Nat.le_refl _)
  intro i j hi hj hpos
  exact key.2 i j hi hj hpos

theorem rowHasNaN_iff_count (h : Host) (x : Mat) (i : Nat) (hi : i < x.size0) :
    x.rowHasNaN h i = true ↔ (local_pca_naninfo h x).nNaNsInRow.getD i 0 > 0 := by
  rw [(naninfo_spec h x).2.1 i hi]
  unfold Mat.rowHasNaN
  constructor
  · intro hany
    obtain ⟨j, hj, hjn⟩ := List.any_eq_true.mp hany
    exact List.length_pos_of_mem (List.mem_filter.mpr ⟨hj, hjn⟩)
  · intro hpos
    obtain ⟨j, hmem⟩ := List.exists_mem_of_length_pos hpos
    obtain ⟨hj, hjn⟩ := List.mem_filter.mp hmem
    exact List.any_eq_true.mpr ⟨j, hj, hjn⟩

/-- Sign normalization keeps every NaN score a NaN. -/
theorem signs_keep_nan (h : Host) (o : PcaOut) (k : Nat)
    (hk : rd h o.scoreOut.data k = Dbl.nan) :
    rd h (local_pca_signs h o).scoreOut.data k = Dbl.nan := by
  have neg_loop : ∀ (rows j : Nat) (s : List Dbl), rd h s k = Dbl.nan →
      rd h (forUp 0 rows (fun b_i s =>
        wr s (b_i + o.scoreOut.size0 * j) (-(rd h s (b_i + o.scoreOut.size0 * j)))) s) k
        = Dbl.nan := by
    intro rows j s hs
    refine forUp_inv (fun _ (t : List Dbl) => rd h t k = Dbl.nan) 0 rows _ s hs ?_
    intro i t _ ht
    rw [rd_wr]
    by_cases hc : 0 + i + o.scoreOut.size0 * j = k ∧ 0 + i + o.scoreOut.size0 * j < t.length
    · rw [if_pos hc, hc.1, ht]; rfl
    · rw [if_neg hc]; exact ht
  show rd h (forUp 0 o.coeffOut.size1 _ (o.coeffOut.data, o.scoreOut.data)).2 k = Dbl.nan
  refine forUp_inv (fun _ (cs : List Dbl × List Dbl) => rd h cs.2 k = Dbl.nan)
    0 o.coeffOut.size1 _ _ hk ?_
  intro j cs _ hcs
  by_cases hneg : Dbl.lt (local_pca_sgn h cs.1 o.coeffOut.size0 (0 + j)) 0 = true
  · rw [if_pos hneg]
    exact neg_loop _ _ _ hcs
  · rw [if_neg hneg]
    exact hcs

theorem truncate_score_get (h : Host) (f : PcaFit) (m : Nat) (hm : m < 256) (i j : Nat)
    (hi : i < f.y.size0) (hj : j < (local_pca_truncate h f m).scoreOut.size1) :
    (local_pca_truncate h f m).scoreOut.get h i j = f.y.get h i j := by
  unfold local_pca_truncate at hj ⊢
  by_cases hlt : m < f.DOF
  · rw [if_pos hlt] at hj ⊢
    have hj' : j < m := hj
    show (Mat.build f.y.size0 m _).get h i j = _
    rw [build_get h _ _ _ i j hi hj', Nat.mod_eq_of_lt hm, if_pos hj']
    rfl
  · rw [if_neg hlt] at hj ⊢
    have hj' : j < f.y.size1 := hj
    show rd h ((List.range (f.y.size0 * f.y.size1)).map (fun i => rd h f.y.data i))
      (i + f.y.size0 * j) = _
    rw [rd_map_range h _ _ _ (cell_lt _ _ i j hi hj')]
    rfl

/-- Rows of the table with a NaN are NaN rows of the scores `local_pca` returns. -/
theorem nan_rows_stay_nan (h : Host) (X : Mat) (m : Nat) (hm : m ≤ X.size1)
    (hp : X.size1 ≤ 12) :
    (local_pca h X m).scoreOut.size0 = X.size0 ∧
    ∀ i, i < X.size0 → X.rowHasNaN h i = true →
      ∀ j, j < (local_pca h X m).scoreOut.size1 →
        (local_pca h X m).scoreOut.get h i j = Dbl.nan := by
  obtain ⟨f1, f2, f3, f4, f5⟩ := local_pca_fit_shape h X
  obtain ⟨t1, t2, t3, t4⟩ := local_pca_truncate_shape h (local_pca_fit h X) m
  have hsize0 : (local_pca h X m).scoreOut.size0 = X.size0 := by
    show (local_pca_truncate h (local_pca_fit h X) m).scoreOut.size0 = _
    rw [t3, f2]
  refine ⟨hsize0, ?_⟩
  intro i hi hrow j hj
  have hj' : j < (local_pca_truncate h (local_pca_fit h X) m).scoreOut.size1 := hj
  have hcount := (rowHasNaN_iff_count h X i hi).mp hrow
  -- the table has a NaN, so the gather/scatter path is taken
  have hnz : X.nanCount h ≠ 0 := by
    intro hz
    have hall := (nanCount_eq_zero h X).mp hz
    unfold Mat.rowHasNaN at hrow
    obtain ⟨c, hc, hcn⟩ := List.any_eq_true.mp hrow
    rw [hall i c hi (List.mem_range.mp hc)] at hcn
    exact absurd hcn (by simp)
  have hno : local_pca_noNaNs h X = false := by
    cases hb : local_pca_noNaNs h X with
    | false => rfl
    | true => exact absurd ((noNaNs_iff h X).mp hb) hnz
  have hy : (local_pca_fit h X).y
      = local_pca_scatter h (local_pca_naninfo h X)
          (localSVD h (local_pca_gather h (local_pca_naninfo h X) (local_pca_validRows h X)
            (local_pca_center h X)) (local_pca_DOF h X)).scoreOut := by
    simp [local_pca_fit, hno]
  have hjy : j < (local_pca_fit h X).y.size1 := by
    rw [t4, f1, f3] at hj'
    rw [f3]
    by_cases hlt : m < local_pca_DOF h X
    · rw [if_pos hlt] at hj'; omega
    · rw [if_neg hlt] at hj'; exact hj'
  have hynan : (local_pca_fit h X).y.get h i j = Dbl.nan := by
    have hs := scatter_nan_rows h (local_pca_naninfo h X)
      (localSVD h (local_pca_gather h (local_pca_naninfo h X) (local_pca_validRows h X)
        (local_pca_center h X)) (local_pca_DOF h X)).scoreOut
    rw [hy] at hjy ⊢
    exact hs.2.2 i j (by rw [(naninfo_spec h X).1]; exact hi) (by rw [← hs.2.1]; exact hjy)
      hcount
  have htr : (local_pca_truncate h (local_pca_fit h X) m).scoreOut.get h i j = Dbl.nan := by
    rw [truncate_score_get h _ m (by omega) i j (by rw [f2]; exact hi) hj', hynan]
  exact signs_keep_nan h (local_pca_truncate h (local_pca_fit h X) m) _ htr

theorem pcaRed_copy_get (h : Host) (data : Mat) (i j : Nat) (hi : i < data.size0)
    (hj : j < data.size1) : (pcaRed_copy h data).get h i j = data.get h i j := by
  unfold pcaRed_copy Mat.get
  dsimp only
  exact rd_map_range h _ _ _ (cell_lt _ _ i j hi hj)

theorem pcaRed_copy_rowHasNaN (h : Host) (data : Mat) (i : Nat) (hi : i < data.size0) :
    (pcaRed_copy h data).rowHasNaN h i = data.rowHasNaN h i := by
  unfold Mat.rowHasNaN
  show (List.range data.size1).any _ = _
  apply Bool.eq_iff_iff.mpr
  simp only [List.any_eq_true]
  constructor
  · rintro ⟨j, hj, hn⟩
    exact ⟨j, hj, by rw [← pcaRed_copy_get h data i j hi (List.mem_range.mp hj)]; exact hn⟩
  · rintro ⟨j, hj, hn⟩
    exact ⟨j, hj, by rw [pcaRed_copy_get h data i j hi (List.mem_range.mp hj)]; exact hn⟩

theorem Dbl.neg_one_lit : (-1 : Dbl) = Dbl.num (-1) := by
  show -(Dbl.num ((1 : Nat) : ℚ)) = _
  rw [Dbl.neg_num]
  norm_num

theorem Dbl.one_lit : (1 : Dbl) = Dbl.num 1 := by
  show Dbl.num ((1 : Nat) : ℚ) = _
  norm_num

theorem Dbl.zero_lit : (0 : Dbl) = Dbl.num 0 := by
  show Dbl.num ((0 : Nat) : ℚ) = _
  norm_num

theorem Dbl.lt_num (a b : ℚ) : Dbl.lt (Dbl.num a) (Dbl.num b) = decide (a < b) := rfl

theorem Dbl.le_num (a b : ℚ) : Dbl.le (Dbl.num a) (Dbl.num b) = decide (a ≤ b) := rfl

/-- One step of the scan of lines 444-460 on a number `v`. -/
theorem sgn_step (M : ℚ) (s : Dbl) (v : ℚ) :
    (if Dbl.gt (Dbl.abs (Dbl.num v)) (Dbl.num M) = true then
        (Dbl.abs (Dbl.num v),
          if (!(Dbl.num v).isNaN) = true then
            (if Dbl.lt (Dbl.num v) 0 = true then (-1 : Dbl)
              else (if Dbl.gt (Dbl.num v) 0 = true then (1 : Dbl) else 0))
          else Dbl.num v)
      else (Dbl.num M, s))
      = if M < |v| then
          (Dbl.num |v|, if v < 0 then Dbl.num (-1) else if 0 < v then Dbl.num 1 else Dbl.num 0)
        else (Dbl.num M, s) := by
  have h1 : Dbl.gt (Dbl.abs (Dbl.num v)) (Dbl.num M) = decide (M < |v|) := rfl
  have h2 : Dbl.lt (Dbl.num v) 0 = decide (v < 0) := by
    rw [Dbl.zero_lit]; rfl
  have h3 : Dbl.gt (Dbl.num v) 0 = decide (0 < v) := by
    rw [Dbl.zero_lit]; rfl
  rw [h1, h2, h3, Dbl.neg_one_lit, Dbl.one_lit, Dbl.zero_lit]
  simp only [Dbl.isNaN, Bool.not_false, if_true, decide_eq_true_eq]
  rfl

/-- The sign computed by lines 440-460 on a column of numbers `c 0, .., c (s0 - 1)`:
`1` on a zero column, otherwise the sign of the first entry of largest magnitude. -/
theorem sgn_spec (h : Host) (D : List Dbl) (s0 j : Nat) (c : Nat → ℚ)
    (hc : ∀ i, i < s0 → rd h D (i + s0 * j) = Dbl.num (c i)) :
    (local_pca_sgn h D s0 j = Dbl.num 1 ∧ ∀ i, i < s0 → c i = 0) ∨
    (∃ i0, i0 < s0 ∧ c i0 ≠ 0 ∧ (∀ i, i < s0 → |c i| ≤ |c i0|) ∧
      (∀ i, i < i0 → |c i| < |c i0|) ∧
      local_pca_sgn h D s0 j = if c i0 < 0 then Dbl.num (-1) else Dbl.num 1) := by
  have key := forUp_inv (fun k (ms : Dbl × Dbl) => k ≤ s0 →
      ((ms = (Dbl.num 0, Dbl.num 1) ∧ ∀ i, i < k → c i = 0) ∨
      (∃ i0, i0 < k ∧ c i0 ≠ 0 ∧ ms.1 = Dbl.num |c i0| ∧ (∀ i, i < k → |c i| ≤ |c i0|) ∧
        (∀ i, i < i0 → |c i| < |c i0|) ∧
        ms.2 = if c i0 < 0 then Dbl.num (-1) else Dbl.num 1)))
    0 s0
    (fun b_i (ms : Dbl × Dbl) =>
      let d := rd h D (b_i + s0 * j)
      let absc := Dbl.abs d
      if Dbl.gt absc ms.1 then
        (absc, if !(d.isNaN) then (if Dbl.lt d 0 then -1 else (if Dbl.gt d 0 then 1 else 0))
          else d)
      else ms) ((0 : Dbl), (1 : Dbl))
    (by
      intro _
      left
      exact ⟨by rw [Dbl.zero_lit, Dbl.one_lit], fun i hi => absurd hi (Nat.not_lt_zero i)⟩)
    (by
      intro k ms hk ih hle
      have hck := hc k hk
      simp only [Nat.zero_add]
      rcases ih (Nat.le_of_lt hk) with ⟨hms, hzero⟩ | ⟨i0, hi0, hne, hM, hmax, hfirst, hsg⟩
      · subst hms
        dsimp only
        rw [hck, sgn_step 0 (Dbl.num 1) (c k)]
        by_cases hv : c k = 0
        · left
          rw [hv]
          simp only [abs_zero, lt_irrefl, if_false]
          refine ⟨trivial, ?_⟩
          intro i hi
          rcases Nat.lt_succ_iff_lt_or_eq.mp hi with hlt | heq
          · exact hzero i hlt
          · rw [heq]; exact hv
        · right
          have hpos : 0 < |c k| := abs_pos.mpr hv
          rw [if_pos hpos]
          refine ⟨k, Nat.lt_succ_self k, hv, rfl, ?_, ?_, ?_⟩
          · intro i hi
            rcases Nat.lt_succ_iff_lt_or_eq.mp hi with hlt | heq
            · rw [hzero i hlt]; simp
            · rw [heq]
          · intro i hi
            rw [hzero i hi]; simpa using hpos
          · by_cases hneg : c k < 0
            · simp [hneg]
            · have : 0 < c k := lt_of_le_of_ne (not_lt.mp hneg) (Ne.symm hv)
              simp [hneg, this]
      · obtain ⟨m1, m2⟩ := ms
        simp only at hM hsg
        subst hM
        dsimp only
        rw [hck, sgn_step |c i0| m2 (c k)]
        right
        by_cases hgt : |c i0| < |c k|
        · rw [if_pos hgt]
          have hv : c k ≠ 0 := by
            intro hz
            rw [hz, abs_zero] at hgt
            exact absurd hgt (not_lt.mpr (abs_nonneg _))
          refine ⟨k, Nat.lt_succ_self k, hv, rfl, ?_, ?_, ?_⟩
          · intro i hi
            rcases Nat.lt_succ_iff_lt_or_eq.mp hi with hlt | heq
            · exact le_of_lt (lt_of_le_of_lt (hmax i hlt) hgt)
            · rw [heq]
          · intro i hi
            exact lt_of_le_of_lt (hmax i hi) hgt
          · by_cases hneg : c k < 0
            · simp [hneg]
            · have : 0 < c k := lt_of_le_of_ne (not_lt.mp hneg) (Ne.symm hv)
              simp [hneg, this]
        · rw [if_neg hgt]
          refine ⟨i0, Nat.lt_succ_of_lt hi0, hne, rfl, ?_, hfirst, hsg⟩
          intro i hi
          rcases Nat.lt_succ_iff_lt_or_eq.mp hi with hlt | heq
          · exact hmax i hlt
          · rw [heq]; exact not_lt.mp hgt)
    (Nat.le_refl _)
  rcases key with ⟨hms, hzero⟩ | ⟨i0, hi0, hne, _, hmax, hfirst, hsg⟩
  · left
    refine ⟨?_, hzero⟩
    unfold local_pca_sgn
    rw [hms]
  · right
    exact ⟨i0, hi0, hne, hmax, hfirst, hsg⟩

theorem forUp_congr {σ : Type} (lo len : Nat) (b1 b2 : Nat → σ → σ) (s : σ)
    (hb : ∀ i, lo ≤ i → i < lo + len → ∀ t, b1 i t = b2 i t) :
    forUp lo len b1 s = forUp lo len b2 s := by
  induction len with
  | zero => rfl
  | succ k ih =>
    rw [forUp_succ, forUp_succ, ih (fun i h1 h2 t => hb i h1 (by omega) t),
      hb (lo + k) (by omega) (by omega)]

theorem sgn_congr (h : Host) (c1 c2 : List Dbl) (s0 j : Nat)
    (heq : ∀ i, i < s0 → rd h c1 (i + s0 * j) = rd h c2 (i + s0 * j)) :
    local_pca_sgn h c1 s0 j = local_pca_sgn h c2 s0 j := by
  unfold local_pca_sgn
  congr 1
  apply forUp_congr
  intro i _ hi t
  dsimp only
  rw [heq i (by omega)]

theorem truncate_coeff_length (h : Host) (f : PcaFit) (m : Nat) :
    (local_pca_truncate h f m).coeffOut.data.length
      = (local_pca_truncate h f m).coeffOut.size0 * (local_pca_truncate h f m).coeffOut.size1 := by
  unfold local_pca_truncate
  split
  · exact build_length _ _ _
  · dsimp only
    rw [List.length_map, List.length_range]

/-- Sign normalization negates exactly the columns whose sign `sgn` is negative. -/
theorem signs_coeff (h : Host) (o : PcaOut)
    (hlen : o.coeffOut.data.length = o.coeffOut.size0 * o.coeffOut.size1) (i j : Nat)
    (hi : i < o.coeffOut.size0) (hj : j < o.coeffOut.size1) :
    (local_pca_signs h o).coeffOut.get h i j
      = if Dbl.lt (local_pca_sgn h o.coeffOut.data o.coeffOut.size0 j) 0 = true then
          -(o.coeffOut.get h i j) else o.coeffOut.get h i j := by
  have key := forUp_inv (fun k (cs : List Dbl × List Dbl) => k ≤ o.coeffOut.size1 →
      (cs.1.length = o.coeffOut.data.length ∧
      (∀ i j, i < o.coeffOut.size0 → j < k →
        rd h cs.1 (i + o.coeffOut.size0 * j)
          = if Dbl.lt (local_pca_sgn h o.coeffOut.data o.coeffOut.size0 j) 0 = true then
              -(rd h o.coeffOut.data (i + o.coeffOut.size0 * j))
            else rd h o.coeffOut.data (i + o.coeffOut.size0 * j)) ∧
      (∀ i j, i < o.coeffOut.size0 → k ≤ j →
        rd h cs.1 (i + o.coeffOut.size0 * j) = rd h o.coeffOut.data (i + o.coeffOut.size0 * j))))
    0 o.coeffOut.size1
    (fun j (cs : List Dbl × List Dbl) =>
      if Dbl.lt (local_pca_sgn h cs.1 o.coeffOut.size0 j) 0 then
        (forUp 0 o.coeffOut.size0 (fun b_i c =>
          wr c (b_i + o.coeffOut.size0 * j) (-(rd h c (b_i + o.coeffOut.size0 * j)))) cs.1,
         forUp 0 o.scoreOut.size0 (fun b_i s =>
           wr s (b_i + o.scoreOut.size0 * j) (-(rd h s (b_i + o.scoreOut.size0 * j)))) cs.2)
      else cs) (o.coeffOut.data, o.scoreOut.data)
    (by
      intro _
      exact ⟨rfl, fun i j _ hj => absurd hj (Nat.not_lt_zero j), fun i j _ _ => rfl⟩)
    (by
      intro k cs hk ih hle
      obtain ⟨hl, hdone, hrest⟩ := ih (Nat.le_of_lt hk)
      simp only [Nat.zero_add]
      have hsg : local_pca_sgn h cs.1 o.coeffOut.size0 k
          = local_pca_sgn h o.coeffOut.data o.coeffOut.size0 k :=
        sgn_congr h _ _ _ _ (fun i hi => hrest i k hi (Nat.le_refl k))
      rw [hsg]
      by_cases hneg : Dbl.lt (local_pca_sgn h o.coeffOut.data o.coeffOut.size0 k) 0 = true
      · rw [if_pos hneg]
        dsimp only
        obtain ⟨wl, whit, wmiss⟩ := forUp_wr_spec h (fun b_i => b_i + o.coeffOut.size0 * k)
          (fun _ v => -v) o.coeffOut.size0 cs.1
          (fun a b _ _ he => by dsimp only at he; omega)
        refine ⟨by rw [wl, hl], ?_, ?_⟩
        · intro i j hi hj
          rcases Nat.lt_succ_iff_lt_or_eq.mp hj with hlt | heq
          · rw [wmiss _ (fun b hb he => by
              have := cell_inj o.coeffOut.size0 b k i j hb hi he
              omega)]
            exact hdone i j hi hlt
          · subst heq
            rw [whit i hi (by rw [hl, hlen]; exact cell_lt _ _ i j hi hk), if_pos hneg,
              hrest i j hi (Nat.le_refl j)]
        · intro i j hi hj
          rw [wmiss _ (fun b hb he => by
            have := cell_inj o.coeffOut.size0 b k i j hb hi he
            omega)]
          exact hrest i j hi (by omega)
      · rw [if_neg hneg]
        refine ⟨hl, ?_, ?_⟩
        · intro i j hi hj
          rcases Nat.lt_succ_iff_lt_or_eq.mp hj with hlt | heq
          · exact hdone i j hi hlt
          · subst heq
            rw [if_neg hneg]
            exact hrest i j hi (Nat.le_refl j)
        · intro i j hi hj
          exact hrest i j hi (by omega))
    (Nat.le_refl _)
  exact key.2.1 i j hi hj

/-! ## Scores, eigenvalues, explained variance, T-squared -/

theorem localSVD_scores_get (h : Host) (x : Mat) (DOF : Nat) (i j : Nat)
    (hi : i < x.size0) (hj : j < min x.size0 x.size1) :
    (localSVD_scores h x DOF).score.get h i j
      = (localSVD_scores h x DOF).svd.U.get h i j * rd h (localSVD_scores h x DOF).svd.S j := by
  have hs := xzsvdc_shape h ⟨x.size0, x.size1,
    (List.range (x.size0 * x.size1)).map (fun j => rd h x.data j)⟩
  have hl := xzsvdc_U_length h ⟨x.size0, x.size1,
    (List.range (x.size0 * x.size1)).map (fun j => rd h x.data j)⟩
  obtain ⟨_, hit, _⟩ := mapCells_spec h x.size0 x.size0 (min x.size0 x.size1)
    (fun _ j v => v * rd h (xzsvdc h ⟨x.size0, x.size1,
      (List.range (x.size0 * x.size1)).map (fun j => rd h x.data j)⟩).S j)
    (xzsvdc h ⟨x.size0, x.size1,
      (List.range (x.size0 * x.size1)).map (fun j => rd h x.data j)⟩).U.data (Nat.le_refl _)
  have := hit i j hi hj (by rw [hl]; exact cell_lt _ _ i j hi hj)
  unfold localSVD_scores Mat.get
  dsimp only
  rw [hs.2.1, hs.2.2.1]
  exact this

theorem localSVD_scores_latent (h : Host) (x : Mat) (DOF : Nat) (j : Nat)
    (hj : j < min x.size0 x.size1) :
    rd h (localSVD_scores h x DOF).latent j
      = rd h (localSVD_scores h x DOF).svd.S j * rd h (localSVD_scores h x DOF).svd.S j
          / Dbl.ofNat DOF := by
  have hs := xzsvdc_shape h ⟨x.size0, x.size1,
    (List.range (x.size0 * x.size1)).map (fun j => rd h x.data j)⟩
  obtain ⟨_, hit, _⟩ := forUp_wr_spec h (fun j => j)
    (fun _ y => y * y / Dbl.ofNat DOF) (min x.size0 x.size1)
    (xzsvdc h ⟨x.size0, x.size1,
      (List.range (x.size0 * x.size1)).map (fun j => rd h x.data j)⟩).S
    (fun i i' _ _ he => he)
  have := hit j hj (by rw [hs.2.2.2.2.2]; exact hj)
  unfold localSVD_scores
  dsimp only
  rw [hs.2.2.1]
  exact this

theorem localSVD_latentOut (h : Host) (x : Mat) (DOF : Nat) :
    (localSVD h x DOF).latentOut.length = (localSVD h x DOF).latentOut_size ∧
    (localSVD h x DOF).explained.length = (localSVD h x DOF).latentOut_size ∧
    ∀ j, j < (localSVD h x DOF).latentOut_size →
      rd h (localSVD h x DOF).latentOut j = rd h (localSVD_scores h x DOF).latent j := by
  refine ⟨?_, ?_, ?_⟩
  · show ((List.range _).map _).length = _
    rw [List.length_map, List.length_range]
    rfl
  · show ((List.range _).map _).length = _
    rw [List.length_map, List.length_range]
    rfl
  · intro j hj
    exact rd_map_range h _ _ _ hj

theorem localSVD_latentOut_size_le (h : Host) (x : Mat) (DOF : Nat) :
    (localSVD h x DOF).latentOut_size ≤ min x.size0 x.size1 := by
  rw [(localSVD_shape h x DOF).1]
  split
  · exact Nat.min_le_right _ _
  · exact Nat.le_refl _

theorem localSVD_scoreOut_get (h : Host) (x : Mat) (DOF : Nat) (i j : Nat)
    (hi : i < x.size0) (hj : j < (localSVD h x DOF).latentOut_size) :
    (localSVD h x DOF).scoreOut.get h i j = (localSVD_scores h x DOF).score.get h i j := by
  obtain ⟨h1, h2, h3, h4, h5⟩ := localSVD_scores_shape h x DOF
  have hle := localSVD_latentOut_size_le h x DOF
  by_cases hd : DOF < x.size1
  · have hso : (localSVD h x DOF).scoreOut
        = Mat.build x.size0 (localSVD h x DOF).latentOut_size (fun i j =>
            rd h (localSVD_scores h x DOF).score.data
              (i + (localSVD_scores h x DOF).score.size0 * j)) := by
      show (if DOF < x.size1 then _ else _ : Mat) = _
      rw [if_pos hd]
      rfl
    rw [hso, build_get h _ _ _ i j hi hj]
    rfl
  · have hso : (localSVD h x DOF).scoreOut
        = ⟨(localSVD_scores h x DOF).score.size0, (localSVD_scores h x DOF).score.size1,
            (List.range ((localSVD_scores h x DOF).score.size0 *
              (localSVD_scores h x DOF).score.size1)).map
              (fun j => rd h (localSVD_scores h x DOF).score.data j)⟩ := by
      show (if DOF < x.size1 then _ else _ : Mat) = _
      rw [if_neg hd]
    rw [hso]
    unfold Mat.get
    dsimp only
    rw [rd_map_range h _ _ _ (by
      rw [h2, h3]; exact cell_lt _ _ i j hi (Nat.lt_of_lt_of_le hj hle))]

theorem Dbl.zero_add (a : Dbl) : (0 : Dbl) + a = a := by
  cases a with
  | nan => rfl
  | num q =>
    show Dbl.num (((0 : Nat) : ℚ) + q) = Dbl.num q
    simp

theorem rd_eq_getElem (h : Host) (l : List Dbl) (j : Nat) (hj : j < l.length) :
    rd h l j = l.get ⟨j, hj⟩ := by
  simp [rd, hj]

/-- The running sum of `localSVD` (lines 132-139) is the left-to-right sum of the list. -/
theorem forUp_running_sum (h : Host) (l : List Dbl) (t : Nat) (ht : t + 1 ≤ l.length) :
    forUp 2 t (fun nsv y => y + rd h l (nsv - 1)) (rd h l 0)
      = (l.take (t + 1)).foldl (· + ·) 0 := by
  induction t with
  | zero =>
    rw [forUp_zero]
    cases l with
    | nil => simp at ht
    | cons a tl =>
      show a = (0 : Dbl) + a
      rw [Dbl.zero_add]
  | succ k ih =>
    rw [forUp_succ, ih (by omega)]
    conv_rhs => rw [List.take_succ, List.foldl_append]
    have hk : k + 1 < l.length := by omega
    have h1 : 2 + k - 1 = k + 1 := by omega
    rw [h1]
    have h2 : l[k + 1]? = some (l.get ⟨k + 1, hk⟩) := by
      simp [hk]
    rw [h2, rd_eq_getElem h l (k + 1) hk]
    rfl

theorem localSVD_explained_get (h : Host) (x : Mat) (DOF : Nat) (j : Nat)
    (hj : j < (localSVD h x DOF).latentOut_size) :
    rd h (localSVD h x DOF).explained j
      = 100 * rd h (localSVD h x DOF).latentOut j
          / ((localSVD h x DOF).latentOut.foldl (· + ·) 0) := by
  have hlen := (localSVD_latentOut h x DOF).1
  have hy : (if (localSVD h x DOF).latentOut_size = 0 then (0 : Dbl)
      else forUp 2 ((localSVD h x DOF).latentOut_size - 1)
        (fun nsv y => y + rd h (localSVD h x DOF).latentOut (nsv - 1))
        (rd h (localSVD h x DOF).latentOut 0))
      = (localSVD h x DOF).latentOut.foldl (· + ·) 0 := by
    rw [if_neg (by omega)]
    rw [forUp_running_sum h _ _ (by rw [hlen]; omega)]
    have : (localSVD h x DOF).latentOut_size - 1 + 1 = (localSVD h x DOF).latentOut.length := by
      rw [hlen]; omega
    rw [this, List.take_length]
  rw [← hy]
  exact rd_map_range h _ _ _ hj

theorem foldl_add_map_num (l : List ℚ) (a : ℚ) :
    (l.map Dbl.num).foldl (· + ·) (Dbl.num a) = Dbl.num (a + l.sum) := by
  induction l generalizing a with
  | nil => simp
  | cons b t ih =>
    simp only [List.map_cons, List.foldl_cons, List.sum_cons]
    rw [Dbl.add_num, ih]
    congr 1
    ring

theorem foldl_add_map_num_zero (l : List ℚ) :
    (l.map Dbl.num).foldl (· + ·) (0 : Dbl) = Dbl.num l.sum := by
  have := foldl_add_map_num l 0
  rw [Rat.zero_add] at this
  exact this

theorem map_range_rd (h : Host) (l : List Dbl) (f : Dbl → Dbl) :
    (List.range l.length).map (fun j => f (rd h l j)) = l.map f := by
  apply List.ext_getElem
  · simp
  · intro i h1 h2
    simp only [List.getElem_map, List.getElem_range]
    rw [rd_eq_getElem h l i (by simpa using h2)]
    rfl

theorem eq_map_num_of_no_nan (h : Host) (l : List Dbl)
    (hnum : ∀ j, j < l.length → (rd h l j).isNaN = false) :
    l = (l.filterMap Dbl.toRat?).map Dbl.num := by
  induction l with
  | nil => rfl
  | cons a t ih =>
    have ha := hnum 0 (by simp)
    obtain ⟨q, hq⟩ := (Dbl.isNaN_eq_false _).mp ha
    have hq' : a = Dbl.num q := by simpa [rd] using hq
    have ht : ∀ j, j < t.length → (rd h t j).isNaN = false := by
      intro j hj
      have := hnum (j + 1) (by simpa using hj)
      simpa [rd] using this
    subst hq'
    simp only [List.filterMap_cons, Dbl.toRat?, List.map_cons]
    rw [← ih ht]

theorem take_sum_le_sum (l : List ℚ) (hl : ∀ a, a ∈ l → 0 ≤ a) (t : Nat) :
    (l.take t).sum ≤ l.sum := by
  conv_rhs => rw [← List.take_append_drop t l]
  rw [List.sum_append]
  have : 0 ≤ (l.drop t).sum :=
    List.sum_nonneg (fun a ha => hl a (List.mem_of_mem_drop ha))
  linarith

theorem percent_map (h : Host) (l : List ℚ) (hsum : l.sum ≠ 0) :
    (List.range (l.map Dbl.num).length).map (fun j =>
        100 * rd h (l.map Dbl.num) j / ((l.map Dbl.num).foldl (· + ·) 0))
      = l.map (fun a => Dbl.num (100 * a / l.sum)) := by
  rw [map_range_rd h (l.map Dbl.num)
    (fun d => 100 * d / ((l.map Dbl.num).foldl (· + ·) 0)), foldl_add_map_num_zero,
    List.map_map]
  apply List.map_congr_left
  intro a _
  show (100 : Dbl) * Dbl.num a / Dbl.num _ = _
  rw [Dbl.lit_eq, Dbl.mul_num, Dbl.div_num, if_neg hsum]
  norm_num

/-- What `localSVD` returns when its kept eigenvalues are numbers: they form a list of
non-negative rationals, and the percentages are `100 * a / T` over that list. -/
theorem localSVD_percent_list (h : Host) (x : Mat) (DOF : Nat) (hDOF : 1 ≤ DOF)
    (hnum : ∀ j, j < (localSVD h x DOF).latentOut_size →
      (rd h (localSVD h x DOF).latentOut j).isNaN = false) :
    ∃ l : List ℚ, (localSVD h x DOF).latentOut = l.map Dbl.num ∧
      (∀ a, a ∈ l → 0 ≤ a) ∧
      (l.sum ≠ 0 → (localSVD h x DOF).explained
        = l.map (fun a => Dbl.num (100 * a / l.sum))) := by
  have hlen := (localSVD_latentOut h x DOF).1
  have hl := eq_map_num_of_no_nan h (localSVD h x DOF).latentOut
    (fun j hj => hnum j (by rw [← hlen]; exact hj))
  refine ⟨(localSVD h x DOF).latentOut.filterMap Dbl.toRat?, hl, ?_, ?_⟩
  · -- every kept eigenvalue is a square divided by DOF
    intro a ha
    have hmem : Dbl.num a ∈ (localSVD h x DOF).latentOut := by
      rw [hl]; exact List.mem_map.mpr ⟨a, ha, rfl⟩
    obtain ⟨j, hjlt, hja⟩ := List.getElem_of_mem hmem
    have hj : j < (localSVD h x DOF).latentOut_size := by rw [← hlen]; exact hjlt
    have hrd : rd h (localSVD h x DOF).latentOut j = Dbl.num a := by
      rw [rd_eq_getElem h _ j hjlt]; exact hja
    have hjm : j < min x.size0 x.size1 :=
      Nat.lt_of_lt_of_le hj (localSVD_latentOut_size_le h x DOF)
    rw [(localSVD_latentOut h x DOF).2.2 j hj, localSVD_scores_latent h x DOF j hjm] at hrd
    cases hs : rd h (localSVD_scores h x DOF).svd.S j with
    | nan => rw [hs] at hrd; exact absurd hrd (by simp [Dbl.nan_mul, Dbl.nan_div])
    | num s =>
      rw [hs, Dbl.mul_num] at hrd
      have hne : (DOF : ℚ) ≠ 0 := by
        have : 0 < DOF := hDOF
        exact_mod_cast Nat.pos_iff_ne_zero.mp this
      change (if (DOF : ℚ) = 0 then Dbl.nan else Dbl.num (s * s / (DOF : ℚ))) = Dbl.num a at hrd
      rw [if_neg hne] at hrd
      have : s * s / (DOF : ℚ) = a := by injection hrd
      rw [← this]
      exact div_nonneg (mul_self_nonneg s) (Nat.cast_nonneg DOF)
  · intro hsum
    have hexp : (localSVD h x DOF).explained
        = (List.range (localSVD h x DOF).latentOut.length).map (fun j =>
            100 * rd h (localSVD h x DOF).latentOut j
              / ((localSVD h x DOF).latentOut.foldl (· + ·) 0)) := by
      apply List.ext_getElem
      · rw [(localSVD_latentOut h x DOF).2.1, List.length_map, List.length_range, hlen]
      · intro i h1 h2
        have hi : i < (localSVD h x DOF).latentOut_size := by
          rw [← (localSVD_latentOut h x DOF).2.1]; exact h1
        have := localSVD_explained_get h x DOF i hi
        rw [rd_eq_getElem h _ i h1] at this
        simp only [List.getElem_map, List.getElem_range]
        exact this
    rw [hl] at hexp
    rw [hexp]
    exact percent_map h _ hsum

theorem localTSquared_q_eq (h : Host) (latent_data : List Dbl) (latent_size DOF p : Nat)
    (hDOF : 1 < DOF) :
    localTSquared_q h latent_data latent_size DOF p
      = ((List.range latent_size).filter (fun j =>
          Dbl.gt (rd h latent_data j)
            (localTSquared_eps (rd h latent_data 0) * Dbl.num ((max DOF p : Nat) : ℚ)))).length := by
  unfold localTSquared_q
  rw [if_pos hDOF]
  dsimp only
  have hmax : (if DOF ≥ p then DOF else p) = max DOF p := by
    by_cases hge : DOF ≥ p
    · rw [if_pos hge, Nat.max_eq_left hge]
    · rw [if_neg hge, Nat.max_eq_right (Nat.le_of_not_le hge)]
  rw [hmax]
  exact forUp_count latent_size _

/-- The accumulation loops of `localTSquared` (lines 205-212). -/
theorem localTSquared_acc (h : Host) (m q : Nat) (term : Nat → Nat → Dbl) :
    (forUp 0 q (fun exponent t =>
        forUp 0 m (fun i t => wr t i (rd h t i + term i exponent)) t)
        (List.replicate m 0)).length = m ∧
    ∀ i, i < m →
      rd h (forUp 0 q (fun exponent t =>
        forUp 0 m (fun i t => wr t i (rd h t i + term i exponent)) t)
        (List.replicate m 0)) i
        = ((List.range q).map (fun j => term i j)).foldl (· + ·) 0 := by
  refine forUp_inv (fun k (t : List Dbl) => t.length = m ∧
      ∀ i, i < m → rd h t i = ((List.range k).map (fun j => term i j)).foldl (· + ·) 0)
    0 q _ _ ?_ ?_
  · refine ⟨List.length_replicate _ _, ?_⟩
    intro i hi
    rw [rd_replicate h m i 0 hi]
    rfl
  · intro k t _ ih
    obtain ⟨hlen, hval⟩ := ih
    simp only [Nat.zero_add]
    obtain ⟨wl, whit, _⟩ := forUp_wr_spec h (fun i => i) (fun i v => v + term i k) m t
      (fun i i' _ _ he => he)
    refine ⟨by rw [wl, hlen], ?_⟩
    intro i hi
    rw [whit i hi (by rw [hlen]; exact hi), hval i hi, List.range_succ, List.map_append,
      List.foldl_append]
    rfl

/-! ## Loops with their index range -/

theorem forUp_preserves_range {σ : Type} (P : σ → Prop) (lo len : Nat) (body : Nat → σ → σ)
    (s : σ) (hs : P s) (hb : ∀ i t, lo ≤ i → i < lo + len → P t → P (body i t)) :
    P (forUp lo len body s) :=
  forUp_inv (fun _ t => P t) lo len body s hs
    (fun i t hi ht => hb (lo + i) t (Nat.le_add_right lo i) (Nat.add_lt_add_left hi lo) ht)

theorem foldl_preserves_mem {σ : Type} (P : σ → Prop) (l : List Nat) (body : Nat → σ → σ)
    (s : σ) (hs : P s) (hb : ∀ i t, i ∈ l → P t → P (body i t)) :
    P (l.foldl (fun acc i => body i acc) s) := by
  induction l generalizing s with
  | nil => exact hs
  | cons a t ih =>
    exact ih (body a s) (hb a s (List.mem_cons_self a t) hs)
      (fun i u hi hu => hb i u (List.mem_cons_of_mem a hi) hu)

theorem forDown_preserves_range {σ : Type} (P : σ → Prop) (lo len : Nat)
    (body : Nat → σ → σ) (s : σ) (hs : P s)
    (hb : ∀ i t, lo ≤ i → i < lo + len → P t → P (body i t)) :
    P (forDown lo len body s) := by
  unfold forDown
  apply foldl_preserves_mem P _ body s hs
  intro i t hi ht
  have hmem : i ∈ List.range' lo len := List.mem_reverse.mp hi
  have hr := List.mem_range'_1.mp hmem
  exact hb i t hr.1 hr.2 ht

theorem forUp_sum_eq_foldl (n : Nat) (f : Nat → Dbl) (d0 : Dbl) :
    forUp 0 n (fun k d => d + f k) d0 = ((List.range n).map f).foldl (fun a b => a + b) d0 := by
  induction n with
  | zero => rfl
  | succ k ih =>
    rw [forUp_succ, ih, List.range_succ, List.map_append, List.foldl_append]
    simp

/-! ## The plane rotation `xrot` -/

theorem xrot_loop_spec (h : Host) (x : List Dbl) (ix0 iy0 n : Nat) (c s : Dbl)
    (hix : 1 ≤ ix0) (hiy : 1 ≤ iy0) (hdisj : ix0 + n ≤ iy0 ∨ iy0 + n ≤ ix0)
    (hbx : ix0 + n ≤ x.length + 1) (hby : iy0 + n ≤ x.length + 1) (N : Nat) (hN : N ≤ n) :
    (forUp 0 N (fun k x =>
        wr (wr x (iy0 + k - 1) (c * rd h x (iy0 + k - 1) - s * rd h x (ix0 + k - 1)))
          (ix0 + k - 1) (c * rd h x (ix0 + k - 1) + s * rd h x (iy0 + k - 1))) x).length
      = x.length ∧
    (∀ k, k < N →
      rd h (forUp 0 N (fun k x =>
        wr (wr x (iy0 + k - 1) (c * rd h x (iy0 + k - 1) - s * rd h x (ix0 + k - 1)))
          (ix0 + k - 1) (c * rd h x (ix0 + k - 1) + s * rd h x (iy0 + k - 1))) x) (iy0 + k - 1)
        = c * rd h x (iy0 + k - 1) - s * rd h x (ix0 + k - 1) ∧
      rd h (forUp 0 N (fun k x =>
        wr (wr x (iy0 + k - 1) (c * rd h x (iy0 + k - 1) - s * rd h x (ix0 + k - 1)))
          (ix0 + k - 1) (c * rd h x (ix0 + k - 1) + s * rd h x (iy0 + k - 1))) x) (ix0 + k - 1)
        = c * rd h x (ix0 + k - 1) + s * rd h x (iy0 + k - 1)) ∧
    (∀ j, (∀ k, k < N → j ≠ ix0 + k - 1 ∧ j ≠ iy0 + k - 1) →
      rd h (forUp 0 N (fun k x =>
        wr (wr x (iy0 + k - 1) (c * rd h x (iy0 + k - 1) - s * rd h x (ix0 + k - 1)))
          (ix0 + k - 1) (c * rd h x (ix0 + k - 1) + s * rd h x (iy0 + k - 1))) x) j
        = rd h x j) := by
  induction N with
  | zero =>
    exact ⟨rfl, fun k hk => absurd hk (Nat.not_lt_zero k), fun j _ => rfl⟩
  | succ M ih =>
    obtain ⟨hlen, hseg, hrest⟩ := ih (Nat.le_of_succ_le hN)
    rw [forUp_succ, Nat.zero_add]
    generalize forUp 0 M (fun k x =>
        wr (wr x (iy0 + k - 1) (c * rd h x (iy0 + k - 1) - s * rd h x (ix0 + k - 1)))
          (ix0 + k - 1) (c * rd h x (ix0 + k - 1) + s * rd h x (iy0 + k - 1))) x = t
      at hlen hseg hrest
    have hy : rd h t (iy0 + M - 1) = rd h x (iy0 + M - 1) :=
      hrest _ (fun k hk => ⟨by omega, by omega⟩)
    have hx : rd h t (ix0 + M - 1) = rd h x (ix0 + M - 1) :=
      hrest _ (fun k hk => ⟨by omega, by omega⟩)
    refine ⟨by rw [length_wr, length_wr, hlen], ?_, ?_⟩
    · intro k hk
      rw [rd_wr, rd_wr, rd_wr, rd_wr, length_wr, hlen, hx, hy]
      by_cases hkM : k = M
      · subst hkM
        rw [if_neg (by omega), if_pos ⟨rfl, by omega⟩, if_pos ⟨rfl, by omega⟩]
        exact ⟨rfl, rfl⟩
      · have hk' : k < M := by omega
        rw [if_neg (by omega), if_neg (by omega), if_neg (by omega), if_neg (by omega)]
        exact hseg k hk'
    · intro j hj
      have hjM := hj M (Nat.lt_succ_self M)
      rw [rd_wr, rd_wr, if_neg (fun hc => hjM.1 hc.1.symm), if_neg (fun hc => hjM.2 hc.1.symm)]
      exact hrest j (fun k hk => hj k (Nat.lt_succ_of_lt hk))

/-! ## The sign step of case 4 -/

theorem forUp_shift {σ : Type} (lo len : Nat) (body : Nat → σ → σ) (s : σ) :
    forUp lo len body s = forUp 0 len (fun i t => body (lo + i) t) s := by
  induction len with
  | zero => rfl
  | succ k ih => rw [forUp_succ, forUp_succ, ih, Nat.zero_add]

theorem xzsvdc_case4_eq_flip (h : Host) (n p nmq ii : Nat) (w : SvdIter) :
    xzsvdc_case4 h n p nmq ii w
      = { xzsvdc_sort h n p (nmq - ii) ii (xzsvdc_flip h p ii w) with
          qq := 0, m1 := w.m1 - 1 } := rfl

/-- Negating the `p` elements of a buffer from offset `b` on. -/
theorem negate_segment_spec (h : Host) (b p : Nat) (x : List Dbl) (hx : b + p ≤ x.length) :
    (∀ k, k < p →
      rd h (forUp (b + 1) p (fun qjj x => wr x (qjj - 1) (-(rd h x (qjj - 1)))) x) (b + k)
        = -(rd h x (b + k))) ∧
    (∀ j, (j < b ∨ b + p ≤ j) →
      rd h (forUp (b + 1) p (fun qjj x => wr x (qjj - 1) (-(rd h x (qjj - 1)))) x) j
        = rd h x j) := by
  have hbody : (fun (i : Nat) (t : List Dbl) =>
        wr t (b + 1 + i - 1) (-(rd h t (b + 1 + i - 1))))
      = (fun (i : Nat) (t : List Dbl) => wr t (b + i) ((fun _ v => -v) i (rd h t (b + i)))) := by
    funext i t
    have hi : b + 1 + i - 1 = b + i := by omega
    rw [hi]
  rw [forUp_shift, hbody]
  obtain ⟨_, hhit, hmiss⟩ := forUp_wr_spec h (fun i => b + i) (fun _ v => -v) p x
    (fun i i' _ _ he => by dsimp only at he; omega)
  refine ⟨fun k hk => hhit k hk (by omega), fun j hj => hmiss j (fun i hi => ?_)⟩
  omega

/-! ## The two scans of a pass -/

theorem xzsvdc_scanE_le (h : Host) (s : List Dbl) (qq : Nat) (snorm : Dbl) (k : Nat)
    (e : List Dbl) : (xzsvdc_scanE h s qq snorm k e).1 ≤ k := by
  induction k with
  | zero => exact Nat.le_refl 0
  | succ j ih =>
    unfold xzsvdc_scanE
    dsimp only
    split
    · exact Nat.le_refl _
    · exact Nat.le_succ_of_le ih

theorem xzsvdc_scanE_length (h : Host) (s : List Dbl) (qq : Nat) (snorm : Dbl) (k : Nat)
    (e : List Dbl) : (xzsvdc_scanE h s qq snorm k e).2.length = e.length := by
  induction k with
  | zero => rfl
  | succ j ih =>
    unfold xzsvdc_scanE
    dsimp only
    split
    · exact length_wr e j 0
    · exact ih

theorem Dbl.abs_zero_le_TINY : Dbl.le (Dbl.abs (Dbl.num 0)) TINY = true := by
  show decide ((|0| : ℚ) ≤ 10020841800044864 / 10 ^ 308) = true
  apply decide_eq_true
  rw [abs_zero]
  positivity

/-- The first scan does not pass an entry of `e_data` that is exactly zero. -/
theorem xzsvdc_scanE_stops (h : Host) (s : List Dbl) (qq : Nat) (snorm : Dbl) (k : Nat)
    (e : List Dbl) (j : Nat) (hj : j < k) (hz : rd h e j = Dbl.num 0) :
    j + 1 ≤ (xzsvdc_scanE h s qq snorm k e).1 := by
  induction k with
  | zero => exact absurd hj (Nat.not_lt_zero j)
  | succ i ih =>
    unfold xzsvdc_scanE
    dsimp only
    split
    · exact hj
    · rename_i hcond
      have hji : j < i := by
        rcases Nat.lt_succ_iff_lt_or_eq.mp hj with hlt | heq
        · exact hlt
        · exfalso
          apply hcond
          right; left
          rw [← heq, hz]
          exact Dbl.abs_zero_le_TINY
      exact ih hji

theorem ite_fst_bounds {α : Type} (c : Prop) [Decidable c] (a : Nat) (x : α) (t : Nat × α)
    (lo hi : Nat) (ha : lo ≤ a ∧ a ≤ hi) (ht : lo ≤ t.1 ∧ t.1 ≤ hi) :
    lo ≤ (if c then (a, x) else t).1 ∧ (if c then (a, x) else t).1 ≤ hi := by
  split
  · exact ha
  · exact ht

theorem xzsvdc_scanS_bounds (h : Host) (m ii : Nat) (e : List Dbl) (d : Nat) (s : List Dbl) :
    ii ≤ (xzsvdc_scanS h m ii e d s).1 ∧ (xzsvdc_scanS h m ii e d s).1 ≤ ii + d := by
  induction d with
  | zero => exact ⟨Nat.le_refl ii, Nat.le_refl ii⟩
  | succ k ih =>
    unfold xzsvdc_scanS
    dsimp only
    exact ite_fst_bounds _ _ _ _ _ _ ⟨by omega, by omega⟩ ⟨ih.1, by omega⟩

/-- What the classification of a pass yields: the superdiagonal keeps its length, case 4
is selected exactly when the first scan stops at `m`, and the index handed to cases 1
to 3 lies between the stop of the first scan and `m`. -/
theorem xzsvdc_classify_spec (h : Host) (snorm : Dbl) (w : SvdIter) :
    (xzsvdc_classify h snorm w).e.length = w.e.length ∧
    (xzsvdc_split h snorm w = w.m1 - 1 → (xzsvdc_classify h snorm w).ns = 4) ∧
    (xzsvdc_split h snorm w ≠ w.m1 - 1 →
      ((xzsvdc_classify h snorm w).ns = 1 ∧
        (xzsvdc_classify h snorm w).ii = xzsvdc_split h snorm w) ∨
      ((xzsvdc_classify h snorm w).ns = 2 ∧
        xzsvdc_split h snorm w < (xzsvdc_classify h snorm w).ii ∧
        (xzsvdc_classify h snorm w).ii ≤ w.m1 - 1) ∨
      ((xzsvdc_classify h snorm w).ns = 3 ∧
        (xzsvdc_classify h snorm w).ii = xzsvdc_split h snorm w)) := by
  have hle : xzsvdc_split h snorm w ≤ w.m1 - 1 := xzsvdc_scanE_le h w.s w.qq snorm _ w.e
  have hlen := xzsvdc_scanE_length h w.s w.qq snorm (w.m1 - 1) w.e
  unfold xzsvdc_classify
  unfold xzsvdc_split at hle ⊢
  dsimp only
  by_cases hm : (xzsvdc_scanE h w.s w.qq snorm (w.m1 - 1) w.e).1 = w.m1 - 1
  · rw [if_pos hm]
    exact ⟨hlen, fun _ => rfl, fun hne => absurd hm hne⟩
  · rw [if_neg hm]
    have hb := xzsvdc_scanS_bounds h (w.m1 - 1)
      (xzsvdc_scanE h w.s w.qq snorm (w.m1 - 1) w.e).1
      (xzsvdc_scanE h w.s w.qq snorm (w.m1 - 1) w.e).2
      (w.m1 - 1 + 1 - (xzsvdc_scanE h w.s w.qq snorm (w.m1 - 1) w.e).1) w.s
    split
    · exact ⟨hlen, fun he => absurd he hm, fun _ => Or.inr (Or.inr ⟨rfl, rfl⟩)⟩
    · rename_i h3
      split
      · exact ⟨hlen, fun he => absurd he hm, fun _ => Or.inl ⟨rfl, rfl⟩⟩
      · rename_i h1
        refine ⟨hlen, fun he => absurd he hm, fun _ => Or.inr (Or.inl ⟨rfl, ?_, ?_⟩)⟩
        · exact Nat.lt_of_le_of_ne hb.1 (fun he => h3 he.symm)
        · show (xzsvdc_scanS h (w.m1 - 1) _ _ _ w.s).1 ≤ w.m1 - 1
          have := hb.2
          omega

/-! ## What the four cases do to the counters and to the superdiagonal -/

theorem xzsvdc_case1_spec (h : Host) (p m ii : Nat) (w : SvdIter) :
    (xzsvdc_case1 h p m ii w).m1 = w.m1 ∧ (xzsvdc_case1 h p m ii w).qq = w.qq ∧
    (xzsvdc_case1 h p m ii w).e.length = w.e.length ∧
    (ii < m → m - 1 < w.e.length → rd h (xzsvdc_case1 h p m ii w).e (m - 1) = Dbl.num 0) := by
  have hloop : ∀ c0 : SvdChase, c0.e.length = w.e.length →
      (forDown (ii + 1) (m - ii) (fun qjj (c : SvdChase) =>
        let g := xrotg h (rd h c.s (qjj - 1)) c.rt
        let s := wr c.s (qjj - 1) g.a
        let sm := g.s
        let sqds := g.c
        let c1 : SvdChase :=
          if qjj > ii + 1 then
            let b := rd h c.e (qjj - 2)
            { c with s := s, rt := -sm * b, e := wr c.e (qjj - 2) (b * sqds) }
          else { c with s := s, rt := g.b }
        { c1 with x := xrot h p c1.x (p * (qjj - 1) + 1) (p * m + 1) sqds sm }) c0).e.length
        = w.e.length ∧
      (ii < m → rd h c0.e (m - 1) = Dbl.num 0 →
        rd h (forDown (ii + 1) (m - ii) (fun qjj (c : SvdChase) =>
        let g := xrotg h (rd h c.s (qjj - 1)) c.rt
        let s := wr c.s (qjj - 1) g.a
        let sm := g.s
        let sqds := g.c
        let c1 : SvdChase :=
          if qjj > ii + 1 then
            let b := rd h c.e (qjj - 2)
            { c with s := s, rt := -sm * b, e := wr c.e (qjj - 2) (b * sqds) }
          else { c with s := s, rt := g.b }
        { c1 with x := xrot h p c1.x (p * (qjj - 1) + 1) (p * m + 1) sqds sm }) c0).e (m - 1)
          = Dbl.num 0) := by
    intro c0 hc0
    refine forDown_preserves_range
      (fun (c : SvdChase) => c.e.length = w.e.length ∧
        (ii < m → rd h c0.e (m - 1) = Dbl.num 0 → rd h c.e (m - 1) = Dbl.num 0))
      _ _ _ c0 ⟨hc0, fun _ hz => hz⟩ ?_
    intro qjj c hlo hhi hc
    dsimp only
    by_cases hq : qjj > ii + 1
    · rw [if_pos hq]
      refine ⟨by show (wr c.e (qjj - 2) _).length = _; rw [length_wr]; exact hc.1, ?_⟩
      intro him hz
      show rd h (wr c.e (qjj - 2) _) (m - 1) = _
      rw [rd_wr_ne h c.e (qjj - 2) (m - 1) _ (by omega)]
      exact hc.2 him hz
    · rw [if_neg hq]
      exact hc
  unfold xzsvdc_case1
  dsimp only
  obtain ⟨hl, hz⟩ := hloop ⟨w.U, w.x, w.s, wr w.e (m - 1) 0, rd h w.e (m - 1), 0⟩
    (length_wr w.e (m - 1) 0)
  refine ⟨rfl, rfl, hl, fun him hlt => hz him ?_⟩
  show rd h (wr w.e (m - 1) 0) (m - 1) = Dbl.num 0
  rw [rd_wr_eq h w.e (m - 1) 0 hlt]
  exact Dbl.zero_lit

theorem xzsvdc_case2_spec (h : Host) (n m ii : Nat) (w : SvdIter) :
    (xzsvdc_case2 h n m ii w).m1 = w.m1 ∧ (xzsvdc_case2 h n m ii w).qq = w.qq ∧
    (xzsvdc_case2 h n m ii w).e.length = w.e.length ∧
    (1 ≤ ii → ii - 1 < w.e.length → rd h (xzsvdc_case2 h n m ii w).e (ii - 1) = Dbl.num 0) := by
  have hloop : ∀ c0 : SvdChase, c0.e.length = w.e.length →
      (forUp (ii + 1) (m + 1 - ii) (fun qjj (c : SvdChase) =>
        let g := xrotg h (rd h c.s (qjj - 1)) c.rt
        let s := wr c.s (qjj - 1) g.a
        let sm := g.s
        let sqds := g.c
        let b := rd h c.e (qjj - 1)
        { c with s := s, rt := -sm * b, e := wr c.e (qjj - 1) (b * sqds),
                 U := xrot h n c.U (n * (qjj - 1) + 1) (n * (ii - 1) + 1) sqds sm }) c0).e.length
        = w.e.length ∧
      (1 ≤ ii → rd h c0.e (ii - 1) = Dbl.num 0 →
        rd h (forUp (ii + 1) (m + 1 - ii) (fun qjj (c : SvdChase) =>
        let g := xrotg h (rd h c.s (qjj - 1)) c.rt
        let s := wr c.s (qjj - 1) g.a
        let sm := g.s
        let sqds := g.c
        let b := rd h c.e (qjj - 1)
        { c with s := s, rt := -sm * b, e := wr c.e (qjj - 1) (b * sqds),
                 U := xrot h n c.U (n * (qjj - 1) + 1) (n * (ii - 1) + 1) sqds sm }) c0).e
          (ii - 1) = Dbl.num 0) := by
    intro c0 hc0
    refine forUp_preserves_range
      (fun (c : SvdChase) => c.e.length = w.e.length ∧
        (1 ≤ ii → rd h c0.e (ii - 1) = Dbl.num 0 → rd h c.e (ii - 1) = Dbl.num 0))
      _ _ _ c0 ⟨hc0, fun _ hz => hz⟩ ?_
    intro qjj c hlo hhi hc
    dsimp only
    refine ⟨by rw [length_wr]; exact hc.1, ?_⟩
    intro hii hz
    rw [rd_wr_ne h c.e (qjj - 1) (ii - 1) _ (by omega)]
    exact hc.2 hii hz
  unfold xzsvdc_case2
  dsimp only
  obtain ⟨hl, hz⟩ := hloop ⟨w.U, w.x, w.s, wr w.e (ii - 1) 0, rd h w.e (ii - 1), 0⟩
    (length_wr w.e (ii - 1) 0)
  refine ⟨rfl, rfl, hl, fun hii hlt => hz hii ?_⟩
  show rd h (wr w.e (ii - 1) 0) (ii - 1) = Dbl.num 0
  rw [rd_wr_eq h w.e (ii - 1) 0 hlt]
  exact Dbl.zero_lit

theorem xzsvdc_case3_spec (h : Host) (n p m ii : Nat) (w : SvdIter) :
    (xzsvdc_case3 h n p m ii w).m1 = w.m1 ∧ (xzsvdc_case3 h n p m ii w).qq = w.qq + 1 ∧
    (xzsvdc_case3 h n p m ii w).e.length = w.e.length := by
  unfold xzsvdc_case3
  dsimp only
  refine ⟨rfl, rfl, ?_⟩
  rw [length_wr]
  exact forUp_preserves (fun (c : SvdChase) => c.e.length = w.e.length) _ _ _ _ rfl
    (fun i c hc => by
      dsimp only
      rw [length_wr, length_wr]
      split
      · rw [length_wr]; exact hc
      · exact hc)

theorem xzsvdc_sort_spec (h : Host) (n p : Nat) (d ii : Nat) (w : SvdIter) :
    (xzsvdc_sort h n p d ii w).m1 = w.m1 ∧ (xzsvdc_sort h n p d ii w).qq = w.qq ∧
    (xzsvdc_sort h n p d ii w).e = w.e := by
  induction d generalizing ii w with
  | zero => exact ⟨rfl, rfl, rfl⟩
  | succ k ih =>
    unfold xzsvdc_sort
    dsimp only
    split
    · exact ih _ _
    · exact ⟨rfl, rfl, rfl⟩

theorem xzsvdc_case4_spec (h : Host) (n p nmq ii : Nat) (w : SvdIter) :
    (xzsvdc_case4 h n p nmq ii w).m1 = w.m1 - 1 ∧ (xzsvdc_case4 h n p nmq ii w).qq = 0 ∧
    (xzsvdc_case4 h n p nmq ii w).e = w.e := by
  rw [xzsvdc_case4_eq_flip]
  refine ⟨rfl, rfl, ?_⟩
  show (xzsvdc_sort h n p (nmq - ii) ii (xzsvdc_flip h p ii w)).e = w.e
  rw [(xzsvdc_sort_spec h n p _ _ _).2.2]
  unfold xzsvdc_flip
  split <;> rfl

/-! ## Termination of the diagonalization loop -/

theorem xzsvdc_split_le (h : Host) (snorm : Dbl) (w : SvdIter) :
    xzsvdc_split h snorm w ≤ w.m1 - 1 :=
  xzsvdc_scanE_le h w.s w.qq snorm _ w.e

theorem xzsvdc_split_ge (h : Host) (snorm : Dbl) (w : SvdIter) (j : Nat) (hj : j < w.m1 - 1)
    (hz : rd h w.e j = Dbl.num 0) : j + 1 ≤ xzsvdc_split h snorm w :=
  xzsvdc_scanE_stops h w.s w.qq snorm _ w.e j hj hz

/-- Every pass of the loop lowers the rank and keeps the index `m` inside `e_data`. -/
theorem xzsvdc_pass_rank (h : Host) (n p nmq : Nat) (snorm : Dbl) (w : SvdIter)
    (hm : 0 < w.m1) (hq : w.qq < 75) (he : w.m1 ≤ w.e.length) :
    xzsvdc_rank h snorm (xzsvdc_pass h n p nmq snorm w) < xzsvdc_rank h snorm w ∧
    (xzsvdc_pass h n p nmq snorm w).m1 ≤ (xzsvdc_pass h n p nmq snorm w).e.length := by
  obtain ⟨hlen, h4, hrest⟩ := xzsvdc_classify_spec h snorm w
  have hsple := xzsvdc_split_le h snorm w
  by_cases hsp : xzsvdc_split h snorm w = w.m1 - 1
  · -- case 4
    have hns := h4 hsp
    have hpass : xzsvdc_pass h n p nmq snorm w
        = xzsvdc_case4 h n p nmq (xzsvdc_classify h snorm w).ii
            { w with s := (xzsvdc_classify h snorm w).s, e := (xzsvdc_classify h snorm w).e } := by
      unfold xzsvdc_pass
      dsimp only
      rw [hns, if_neg (by decide), if_neg (by decide), if_neg (by decide)]
    obtain ⟨c1, c2, c3⟩ := xzsvdc_case4_spec h n p nmq (xzsvdc_classify h snorm w).ii
      { w with s := (xzsvdc_classify h snorm w).s, e := (xzsvdc_classify h snorm w).e }
    rw [← hpass] at c1 c2 c3
    have c1' : (xzsvdc_pass h n p nmq snorm w).m1 = w.m1 - 1 := c1
    have c3' : (xzsvdc_pass h n p nmq snorm w).e.length = w.e.length := by rw [c3]; exact hlen
    refine ⟨?_, by rw [c1', c3']; omega⟩
    unfold xzsvdc_rank
    rw [c1', c2]
    obtain ⟨b, hb⟩ : ∃ b, w.m1 = b + 1 := ⟨w.m1 - 1, by omega⟩
    rw [hb]
    have h1 : b + 1 - 1 - 1 - xzsvdc_split h snorm (xzsvdc_pass h n p nmq snorm w) ≤ b := by omega
    have h2 : 1 ≤ 75 - w.qq := by omega
    have h3 : (76 * (b + 1 - 1) + (75 - 0)) * (b + 1 - 1 + 1) = (76 * b + 75) * (b + 1) := by
      rw [Nat.add_sub_cancel]
    rw [h3]
    have h5 : (76 * b + 75) * (b + 1) + b < (76 * (b + 1) + 1) * (b + 1 + 1) := by nlinarith
    have h6 : (76 * (b + 1) + 1) * (b + 1 + 1) ≤ (76 * (b + 1) + (75 - w.qq)) * (b + 1 + 1) :=
      Nat.mul_le_mul_right _ (by omega)
    omega
  · rcases hrest hsp with ⟨hns, hii⟩ | ⟨hns, hlo, hhi⟩ | ⟨hns, hii⟩
    · -- case 1
      have hpass : xzsvdc_pass h n p nmq snorm w
          = xzsvdc_case1 h p (w.m1 - 1) (xzsvdc_classify h snorm w).ii
              { w with s := (xzsvdc_classify h snorm w).s,
                       e := (xzsvdc_classify h snorm w).e } := by
        unfold xzsvdc_pass
        dsimp only
        rw [hns, if_pos rfl]
      obtain ⟨c1, c2, c3, c4⟩ := xzsvdc_case1_spec h p (w.m1 - 1) (xzsvdc_classify h snorm w).ii
        { w with s := (xzsvdc_classify h snorm w).s, e := (xzsvdc_classify h snorm w).e }
      rw [← hpass] at c1 c2 c3 c4
      have c1' : (xzsvdc_pass h n p nmq snorm w).m1 = w.m1 := c1
      have c2' : (xzsvdc_pass h n p nmq snorm w).qq = w.qq := c2
      have c3' : (xzsvdc_pass h n p nmq snorm w).e.length = w.e.length := by rw [c3]; exact hlen
      have hz : rd h (xzsvdc_pass h n p nmq snorm w).e (w.m1 - 1 - 1) = Dbl.num 0 :=
        c4 (by rw [hii]; omega) (by show w.m1 - 1 - 1 < (xzsvdc_classify h snorm w).e.length
                                    rw [hlen]; omega)
      have hge := xzsvdc_split_ge h snorm (xzsvdc_pass h n p nmq snorm w) (w.m1 - 1 - 1)
        (by rw [c1']; omega) hz
      refine ⟨?_, by rw [c1', c3']; exact he⟩
      unfold xzsvdc_rank
      rw [c1', c2']
      generalize (76 * w.m1 + (75 - w.qq)) * (w.m1 + 1) = B
      omega
    · -- case 2
      have hpass : xzsvdc_pass h n p nmq snorm w
          = xzsvdc_case2 h n (w.m1 - 1) (xzsvdc_classify h snorm w).ii
              { w with s := (xzsvdc_classify h snorm w).s,
                       e := (xzsvdc_classify h snorm w).e } := by
        unfold xzsvdc_pass
        dsimp only
        rw [hns, if_neg (by decide), if_pos rfl]
      obtain ⟨c1, c2, c3, c4⟩ := xzsvdc_case2_spec h n (w.m1 - 1) (xzsvdc_classify h snorm w).ii
        { w with s := (xzsvdc_classify h snorm w).s, e := (xzsvdc_classify h snorm w).e }
      rw [← hpass] at c1 c2 c3 c4
      have c1' : (xzsvdc_pass h n p nmq snorm w).m1 = w.m1 := c1
      have c2' : (xzsvdc_pass h n p nmq snorm w).qq = w.qq := c2
      have c3' : (xzsvdc_pass h n p nmq snorm w).e.length = w.e.length := by rw [c3]; exact hlen
      have hz : rd h (xzsvdc_pass h n p nmq snorm w).e ((xzsvdc_classify h snorm w).ii - 1)
          = Dbl.num 0 :=
        c4 (by omega) (by show (xzsvdc_classify h snorm w).ii - 1
                              < (xzsvdc_classify h snorm w).e.length
                          rw [hlen]; omega)
      refine ⟨?_, by rw [c1', c3']; exact he⟩
      have hsple' := xzsvdc_split_le h snorm (xzsvdc_pass h n p nmq snorm w)
      rw [c1'] at hsple'
      by_cases hlast : (xzsvdc_classify h snorm w).ii - 1 < w.m1 - 1
      · have hge := xzsvdc_split_ge h snorm (xzsvdc_pass h n p nmq snorm w)
          ((xzsvdc_classify h snorm w).ii - 1) (by rw [c1']; exact hlast) hz
        unfold xzsvdc_rank
        rw [c1', c2']
        generalize (76 * w.m1 + (75 - w.qq)) * (w.m1 + 1) = B
        omega
      · omega
    · -- case 3
      have hpass : xzsvdc_pass h n p nmq snorm w
          = xzsvdc_case3 h n p (w.m1 - 1) (xzsvdc_classify h snorm w).ii
              { w with s := (xzsvdc_classify h snorm w).s,
                       e := (xzsvdc_classify h snorm w).e } := by
        unfold xzsvdc_pass
        dsimp only
        rw [hns, if_neg (by decide), if_neg (by decide), if_pos rfl]
      obtain ⟨c1, c2, c3⟩ := xzsvdc_case3_spec h n p (w.m1 - 1) (xzsvdc_classify h snorm w).ii
        { w with s := (xzsvdc_classify h snorm w).s, e := (xzsvdc_classify h snorm w).e }
      rw [← hpass] at c1 c2 c3
      have c1' : (xzsvdc_pass h n p nmq snorm w).m1 = w.m1 := c1
      have c2' : (xzsvdc_pass h n p nmq snorm w).qq = w.qq + 1 := c2
      have c3' : (xzsvdc_pass h n p nmq snorm w).e.length = w.e.length := by rw [c3]; exact hlen
      refine ⟨?_, by rw [c1', c3']; exact he⟩
      unfold xzsvdc_rank
      rw [c1', c2']
      have hb : (76 * w.m1 + (75 - w.qq)) * (w.m1 + 1)
          = (76 * w.m1 + (75 - (w.qq + 1))) * (w.m1 + 1) + (w.m1 + 1) := by
        have h75 : 75 - w.qq = 75 - (w.qq + 1) + 1 := by omega
        rw [h75]
        ring
      rw [hb]
      generalize (76 * w.m1 + (75 - (w.qq + 1))) * (w.m1 + 1) = B
      omega

theorem xzsvdc_loop_stable (h : Host) (n p nmq : Nat) (snorm : Dbl) (fuel : Nat) (w : SvdIter)
    (hexit : ¬ (0 < w.m1 ∧ w.qq < 75)) : xzsvdc_loop h n p nmq snorm fuel w = w := by
  cases fuel with
  | zero => rfl
  | succ k =>
    unfold xzsvdc_loop
    rw [if_neg hexit]

/-- With at least `xzsvdc_rank` passes allowed the loop ends because its condition
`m + 1 > 0 && qq < 75` has become false. -/
theorem xzsvdc_loop_exit (h : Host) (n p nmq : Nat) (snorm : Dbl) (fuel : Nat) (w : SvdIter)
    (hfuel : xzsvdc_rank h snorm w ≤ fuel) (he : w.m1 ≤ w.e.length) :
    ¬ (0 < (xzsvdc_loop h n p nmq snorm fuel w).m1 ∧
       (xzsvdc_loop h n p nmq snorm fuel w).qq < 75) := by
  induction fuel generalizing w with
  | zero =>
    intro hc
    have hc' : 0 < w.m1 ∧ w.qq < 75 := hc
    have hpos : 0 < (76 * w.m1 + (75 - w.qq)) * (w.m1 + 1) :=
      Nat.mul_pos (by omega) (by omega)
    unfold xzsvdc_rank at hfuel
    omega
  | succ k ih =>
    unfold xzsvdc_loop
    by_cases hc : 0 < w.m1 ∧ w.qq < 75
    · rw [if_pos hc]
      obtain ⟨hlt, he'⟩ := xzsvdc_pass_rank h n p nmq snorm w hc.1 hc.2 he
      exact ih _ (by omega) he'
    · rw [if_neg hc]
      exact hc

theorem xzsvdc_colReflect_e (h : Host) (n nct q : Nat) (w : SvdWork) :
    (xzsvdc_colReflect h n nct q w).1.e = w.e := by
  unfold xzsvdc_colReflect
  simp only
  split
  · split <;> rfl
  · rfl

theorem xzsvdc_applyCols_e_length (h : Host) (n p q : Nat) (b : Bool) (w : SvdWork) :
    (xzsvdc_applyCols h n p q b w).e.length = w.e.length := by
  unfold xzsvdc_applyCols
  exact forUp_preserves (fun (t : SvdWork) => t.e.length = w.e.length) _ _ _ _ rfl
    (fun i t ht => by
      dsimp only
      rw [length_wr]
      exact ht)

theorem xzsvdc_rowReflect_e_length (h : Host) (n p q : Nat) (w : SvdWork) :
    (xzsvdc_rowReflect h n p q w).e.length = w.e.length := by
  unfold xzsvdc_rowReflect
  simp only
  split
  · exact length_wr _ _ _
  · split
    · dsimp only
      rw [length_wr, length_wr]
      split <;> (split <;> rw [forUp_wr_length, length_wr])
    · dsimp only
      rw [length_wr, length_wr]
      split <;> (split <;> rw [forUp_wr_length, length_wr])

theorem xzsvdc_bidiag_e_length (h : Host) (n p nct nrt q : Nat) (w : SvdWork) :
    (xzsvdc_bidiag h n p nct nrt q w).e.length = w.e.length := by
  have h3 : (if q + 1 ≤ nct then
      ({ xzsvdc_applyCols h n p q (xzsvdc_colReflect h n nct q w).2
            (xzsvdc_colReflect h n nct q w).1 with
          U := forUp (q + 1) (n - q) (fun ii U =>
            wr U ((ii + n * q) - 1)
              (rd h (xzsvdc_applyCols h n p q (xzsvdc_colReflect h n nct q w).2
                (xzsvdc_colReflect h n nct q w).1).A ((ii + n * q) - 1)))
            (xzsvdc_applyCols h n p q (xzsvdc_colReflect h n nct q w).2
              (xzsvdc_colReflect h n nct q w).1).U } : SvdWork)
      else xzsvdc_applyCols h n p q (xzsvdc_colReflect h n nct q w).2
        (xzsvdc_colReflect h n nct q w).1).e.length = w.e.length := by
    split
    · dsimp only
      rw [xzsvdc_applyCols_e_length, xzsvdc_colReflect_e]
    · rw [xzsvdc_applyCols_e_length, xzsvdc_colReflect_e]
  unfold xzsvdc_bidiag
  simp only
  split
  · show (xzsvdc_rowReflect h n p q _).e.length = _
    rw [xzsvdc_rowReflect_e_length]
    exact h3
  · exact h3

theorem xzsvdc_prescale_e_length (h : Host) (n p m q : Nat) (w : SvdScale) :
    (xzsvdc_prescale h n p m q w).e.length = w.e.length := by
  have hs : (xzsvdc_prescale_s h n m q w).e.length = w.e.length := by
    unfold xzsvdc_prescale_s
    simp only
    split
    · dsimp only
      split
      · rw [length_wr]
      · rfl
    · rfl
  have he : ∀ v : SvdScale, (xzsvdc_prescale_e h p m q v).e.length = v.e.length := by
    intro v
    unfold xzsvdc_prescale_e
    simp only
    split
    · split
      · exact length_wr _ _ _
      · rfl
    · rfl
  show (xzsvdc_prescale_e h p m q (xzsvdc_prescale_s h n m q w)).e.length = _
  rw [he, hs]

theorem xzsvdc_rank_le (h : Host) (snorm : Dbl) (w : SvdIter) :
    xzsvdc_rank h snorm w ≤ (76 * w.m1 + 75) * (w.m1 + 1) + w.m1 := by
  unfold xzsvdc_rank
  have h1 : (76 * w.m1 + (75 - w.qq)) * (w.m1 + 1) ≤ (76 * w.m1 + 75) * (w.m1 + 1) :=
    Nat.mul_le_mul_right _ (by omega)
  omega

/-- The non-degenerate branch leaves the loop with its condition false. -/
theorem xzsvdc_main_exit (h : Host) (n p S_size : Nat) (w0 : SvdWork) (hp : 1 ≤ p)
    (he0 : w0.e.length = p) :
    ¬ (0 < (xzsvdc_main h n p S_size w0).m1 ∧ (xzsvdc_main h n p S_size w0).qq < 75) := by
  unfold xzsvdc_main
  dsimp only
  apply xzsvdc_loop_exit
  · -- the allowance covers the rank
    refine Nat.le_trans (xzsvdc_rank_le _ _ _) ?_
    dsimp only
    generalize (if p ≤ n + 1 then p - 1 else n) = m
    unfold xzsvdc_fuel
    nlinarith
  · -- `m` lies inside `e_data`
    dsimp only
    have hpre : ∀ (len : Nat) (m : Nat) (v : SvdScale),
        (forUp 0 len (xzsvdc_prescale h n p m) v).e.length = v.e.length := by
      intro len m v
      exact forUp_preserves (fun (t : SvdScale) => t.e.length = v.e.length) _ _ _ _ rfl
        (fun i t ht => by
          show (xzsvdc_prescale h n p m i t).e.length = _
          rw [xzsvdc_prescale_e_length]; exact ht)
    rw [hpre]
    dsimp only
    rw [length_wr]
    have hbi0 : (forUp 0 (if xzsvdc_nct n p ≥ xzsvdc_nrt n p then xzsvdc_nct n p
          else xzsvdc_nrt n p)
        (xzsvdc_bidiag h n p (xzsvdc_nct n p) (xzsvdc_nrt n p)) w0).e.length = w0.e.length :=
      forUp_preserves (fun (t : SvdWork) => t.e.length = w0.e.length) _ _ _ _ rfl
        (fun i t ht => by
          show (xzsvdc_bidiag h n p _ _ i t).e.length = _
          rw [xzsvdc_bidiag_e_length]; exact ht)
    have hbi := hbi0.trans he0
    have hlen : ∀ (c : Prop) [Decidable c] (a b : List Dbl), a.length = p → b.length = p →
        (if c then a else b).length = p := by
      intro c _ a b ha hb
      split
      · exact ha
      · exact hb
    rw [hlen _ _ _ (by rw [length_wr]; exact hbi) hbi]
    split <;> omega

/-! ## The score matrix handed to `pcaRed` -/

theorem local_pca_score_wellFormed (h : Host) (X : Mat) (m : Nat) :
    (local_pca h X m).scoreOut.WellFormed := by
  have htr : (local_pca_truncate h (local_pca_fit h X) m).scoreOut.WellFormed := by
    unfold local_pca_truncate Mat.WellFormed
    split
    · exact build_length _ _ _
    · simp
  have hsg : ∀ o : PcaOut, (local_pca_signs h o).scoreOut.data.length = o.scoreOut.data.length := by
    intro o
    unfold local_pca_signs
    dsimp only
    exact forUp_preserves
      (fun (cs : List Dbl × List Dbl) => cs.2.length = o.scoreOut.data.length) _ _ _ _ rfl
      (fun j cs hcs => by
        dsimp only
        split
        · dsimp only
          rw [forUp_wr_length]
          exact hcs
        · exact hcs)
  unfold Mat.WellFormed at htr ⊢
  show (local_pca_signs h _).scoreOut.data.length = _
  rw [hsg]
  exact htr

theorem pcaRed_score_rows (h : Host) (data : Mat) :
    (local_pca h (pcaRed_copy h data) data.size1).scoreOut.size0 = data.size0 := by
  show (local_pca_truncate h (local_pca_fit h (pcaRed_copy h data)) data.size1).scoreOut.size0
    = _
  rw [(local_pca_truncate_shape h _ _).2.2.1, (local_pca_fit_shape h _).2.1]
  rfl

/-! ## The exchange `xswap` -/

theorem xswap_loop_spec (h : Host) (x : List Dbl) (ix0 iy0 n : Nat)
    (hix : 1 ≤ ix0) (hiy : 1 ≤ iy0) (hdisj : ix0 + n ≤ iy0 ∨ iy0 + n ≤ ix0)
    (hbx : ix0 + n ≤ x.length + 1) (hby : iy0 + n ≤ x.length + 1) (N : Nat) (hN : N ≤ n) :
    (forUp 0 N (fun k x =>
        wr (wr x (ix0 + k - 1) (rd h x (iy0 + k - 1))) (iy0 + k - 1) (rd h x (ix0 + k - 1)))
        x).length = x.length ∧
    (∀ k, k < N →
      rd h (forUp 0 N (fun k x =>
        wr (wr x (ix0 + k - 1) (rd h x (iy0 + k - 1))) (iy0 + k - 1) (rd h x (ix0 + k - 1)))
        x) (ix0 + k - 1) = rd h x (iy0 + k - 1) ∧
      rd h (forUp 0 N (fun k x =>
        wr (wr x (ix0 + k - 1) (rd h x (iy0 + k - 1))) (iy0 + k - 1) (rd h x (ix0 + k - 1)))
        x) (iy0 + k - 1) = rd h x (ix0 + k - 1)) ∧
    (∀ j, (∀ k, k < N → j ≠ ix0 + k - 1 ∧ j ≠ iy0 + k - 1) →
      rd h (forUp 0 N (fun k x =>
        wr (wr x (ix0 + k - 1) (rd h x (iy0 + k - 1))) (iy0 + k - 1) (rd h x (ix0 + k - 1)))
        x) j = rd h x j) := by
  induction N with
  | zero =>
    exact ⟨rfl, fun k hk => absurd hk (Nat.not_lt_zero k), fun j _ => rfl⟩
  | succ M ih =>
    obtain ⟨hlen, hseg, hrest⟩ := ih (Nat.le_of_succ_le hN)
    rw [forUp_succ, Nat.zero_add]
    generalize forUp 0 M (fun k x =>
        wr (wr x (ix0 + k - 1) (rd h x (iy0 + k - 1))) (iy0 + k - 1) (rd h x (ix0 + k - 1)))
        x = t at hlen hseg hrest
    have hy : rd h t (iy0 + M - 1) = rd h x (iy0 + M - 1) :=
      hrest _ (fun k hk => ⟨by omega, by omega⟩)
    have hx : rd h t (ix0 + M - 1) = rd h x (ix0 + M - 1) :=
      hrest _ (fun k hk => ⟨by omega, by omega⟩)
    refine ⟨by rw [length_wr, length_wr, hlen], ?_, ?_⟩
    · intro k hk
      rw [rd_wr, rd_wr, rd_wr, rd_wr, length_wr, hlen, hx, hy]
      by_cases hkM : k = M
      · subst hkM
        rw [if_neg (by omega), if_pos ⟨rfl, by omega⟩, if_pos ⟨rfl, by omega⟩]
        exact ⟨rfl, rfl⟩
      · have hk' : k < M := by omega
        rw [if_neg (by omega), if_neg (by omega), if_neg (by omega), if_neg (by omega)]
        exact hseg k hk'
    · intro j hj
      have hjM := hj M (Nat.lt_succ_self M)
      rw [rd_wr, rd_wr, if_neg (fun hc => hjM.2 hc.1.symm), if_neg (fun hc => hjM.1 hc.1.symm)]
      exact hrest j (fun k hk => hj k (Nat.lt_succ_of_lt hk))

/-! ## The first scan in full -/

theorem xzsvdc_scanE_spec (h : Host) (s : List Dbl) (qq : Nat) (snorm : Dbl) (k : Nat)
    (e : List Dbl) :
    (0 < (xzsvdc_scanE h s qq snorm k e).1 →
      xzsvdc_negligible h s e qq snorm (xzsvdc_scanE h s qq snorm k e).1 ∧
      (xzsvdc_scanE h s qq snorm k e).2 = wr e ((xzsvdc_scanE h s qq snorm k e).1 - 1) 0) ∧
    ((xzsvdc_scanE h s qq snorm k e).1 = 0 → (xzsvdc_scanE h s qq snorm k e).2 = e) ∧
    (∀ j, (xzsvdc_scanE h s qq snorm k e).1 < j → j ≤ k → ¬ xzsvdc_negligible h s e qq snorm j) := by
  induction k with
  | zero =>
    exact ⟨fun hpos => absurd hpos (Nat.lt_irrefl 0), fun _ => rfl,
      fun j hj hle => absurd hle (by show ¬ j ≤ 0; have : 0 < j := hj; omega)⟩
  | succ i ih =>
    unfold xzsvdc_scanE
    dsimp only
    by_cases hc : xzsvdc_negligible h s e qq snorm (i + 1)
    · have hc' := hc
      unfold xzsvdc_negligible at hc'
      rw [Nat.add_sub_cancel] at hc'
      rw [if_pos hc']
      exact ⟨fun _ => ⟨hc, by rw [Nat.add_sub_cancel]⟩, fun h0 => absurd h0 (Nat.succ_ne_zero i),
        fun j hj hle => absurd hle (by omega)⟩
    · have hc' := hc
      unfold xzsvdc_negligible at hc'
      rw [Nat.add_sub_cancel] at hc'
      rw [if_neg hc']
      refine ⟨ih.1, ih.2.1, ?_⟩
      intro j hj hle
      rcases Nat.lt_or_ge j (i + 1) with hlt | hge
      · exact ih.2.2 j hj (by omega)
      · have : j = i + 1 := by omega
        rw [this]
        exact hc

/-! ## The sweep counter -/

theorem xzsvdc_classify_ns (h : Host) (snorm : Dbl) (w : SvdIter) :
    (xzsvdc_classify h snorm w).ns = 1 ∨ (xzsvdc_classify h snorm w).ns = 2 ∨
    (xzsvdc_classify h snorm w).ns = 3 ∨ (xzsvdc_classify h snorm w).ns = 4 := by
  obtain ⟨_, h4, hrest⟩ := xzsvdc_classify_spec h snorm w
  by_cases hsp : xzsvdc_split h snorm w = w.m1 - 1
  · exact Or.inr (Or.inr (Or.inr (h4 hsp)))
  · rcases hrest hsp with ⟨h1, _⟩ | ⟨h2, _⟩ | ⟨h3, _⟩
    · exact Or.inl h1
    · exact Or.inr (Or.inl h2)
    · exact Or.inr (Or.inr (Or.inl h3))

/-- What a pass does to the counters, by the case it takes. -/
theorem xzsvdc_pass_counters (h : Host) (n p nmq : Nat) (snorm : Dbl) (w : SvdIter) :
    ((xzsvdc_classify h snorm w).ns = 1 →
      (xzsvdc_pass h n p nmq snorm w).qq = w.qq ∧ (xzsvdc_pass h n p nmq snorm w).m1 = w.m1) ∧
    ((xzsvdc_classify h snorm w).ns = 2 →
      (xzsvdc_pass h n p nmq snorm w).qq = w.qq ∧ (xzsvdc_pass h n p nmq snorm w).m1 = w.m1) ∧
    ((xzsvdc_classify h snorm w).ns = 3 →
      (xzsvdc_pass h n p nmq snorm w).qq = w.qq + 1 ∧
      (xzsvdc_pass h n p nmq snorm w).m1 = w.m1) ∧
    ((xzsvdc_classify h snorm w).ns = 4 →
      (xzsvdc_pass h n p nmq snorm w).qq = 0 ∧
      (xzsvdc_pass h n p nmq snorm w).m1 = w.m1 - 1) := by
  refine ⟨?_, ?_, ?_, ?_⟩
  · intro hns
    have hpass : xzsvdc_pass h n p nmq snorm w
        = xzsvdc_case1 h p (w.m1 - 1) (xzsvdc_classify h snorm w).ii
            { w with s := (xzsvdc_classify h snorm w).s,
                     e := (xzsvdc_classify h snorm w).e } := by
      unfold xzsvdc_pass
      dsimp only
      rw [hns, if_pos rfl]
    rw [hpass]
    exact ⟨(xzsvdc_case1_spec h _ _ _ _).2.1, (xzsvdc_case1_spec h _ _ _ _).1⟩
  · intro hns
    have hpass : xzsvdc_pass h n p nmq snorm w
        = xzsvdc_case2 h n (w.m1 - 1) (xzsvdc_classify h snorm w).ii
            { w with s := (xzsvdc_classify h snorm w).s,
                     e := (xzsvdc_classify h snorm w).e } := by
      unfold xzsvdc_pass
      dsimp only
      rw [hns, if_neg (by decide), if_pos rfl]
    rw [hpass]
    exact ⟨(xzsvdc_case2_spec h _ _ _ _).2.1, (xzsvdc_case2_spec h _ _ _ _).1⟩
  · intro hns
    have hpass : xzsvdc_pass h n p nmq snorm w
        = xzsvdc_case3 h n p (w.m1 - 1) (xzsvdc_classify h snorm w).ii
            { w with s := (xzsvdc_classify h snorm w).s,
                     e := (xzsvdc_classify h snorm w).e } := by
      unfold xzsvdc_pass
      dsimp only
      rw [hns, if_neg (by decide), if_neg (by decide), if_pos rfl]
    rw [hpass]
    exact ⟨(xzsvdc_case3_spec h _ _ _ _ _).2.1, (xzsvdc_case3_spec h _ _ _ _ _).1⟩
  · intro hns
    have hpass : xzsvdc_pass h n p nmq snorm w
        = xzsvdc_case4 h n p nmq (xzsvdc_classify h snorm w).ii
            { w with s := (xzsvdc_classify h snorm w).s,
                     e := (xzsvdc_classify h snorm w).e } := by
      unfold xzsvdc_pass
      dsimp only
      rw [hns, if_neg (by decide), if_neg (by decide), if_neg (by decide)]
    rw [hpass]
    exact ⟨(xzsvdc_case4_spec h _ _ _ _ _).2.1, (xzsvdc_case4_spec h _ _ _ _ _).1⟩

/-- A stretch of passes without case 4 at the head of a run: the counter and the shift
steps of the stretch together stay within 75. -/
theorem xzsvdc_trace_head (h : Host) (n p nmq : Nat) (snorm : Dbl) (b : List Nat) :
    ∀ (fuel : Nat) (w : SvdIter) (c : List Nat),
      xzsvdc_trace h n p nmq snorm fuel w = b ++ c → 4 ∉ b → b ≠ [] →
      w.qq + b.count 3 ≤ 75 := by
  induction b with
  | nil => intro _ _ _ _ _ hne; exact absurd rfl hne
  | cons x b' ih =>
    intro fuel w c htr h4 _
    cases fuel with
    | zero => exact absurd htr (by simp [xzsvdc_trace])
    | succ f =>
      unfold xzsvdc_trace at htr
      by_cases hc : 0 < w.m1 ∧ w.qq < 75
      · rw [if_pos hc] at htr
        have hx : (xzsvdc_classify h snorm w).ns = x := (List.cons.inj htr).1
        have htl : xzsvdc_trace h n p nmq snorm f (xzsvdc_pass h n p nmq snorm w) = b' ++ c :=
          (List.cons.inj htr).2
        have hx4 : x ≠ 4 := fun he => h4 (by rw [he]; exact List.mem_cons_self 4 b')
        have h4' : 4 ∉ b' := fun hm => h4 (List.mem_cons_of_mem x hm)
        obtain ⟨c1, c2, c3, _⟩ := xzsvdc_pass_counters h n p nmq snorm w
        rw [List.count_cons]
        by_cases hb' : b' = []
        · subst hb'
          simp only [List.count_nil, Nat.zero_add]
          split <;> omega
        · have hih := ih f _ c htl h4' hb'
          rcases xzsvdc_classify_ns h snorm w with h1 | h2 | h3 | h4c
          · have hxe : x = 1 := by rw [← hx]; exact h1
            rw [(c1 h1).1] at hih
            rw [hxe, if_neg (by decide)]
            omega
          · have hxe : x = 2 := by rw [← hx]; exact h2
            rw [(c2 h2).1] at hih
            rw [hxe, if_neg (by decide)]
            omega
          · have hxe : x = 3 := by rw [← hx]; exact h3
            rw [(c3 h3).1] at hih
            rw [hxe, if_pos (by decide)]
            omega
          · exact absurd (by rw [← hx]; exact h4c) hx4
      · rw [if_neg hc] at htr
        exact absurd htr (by simp)

/-- The run after a prefix of passes is again a run of the loop. -/
theorem xzsvdc_trace_suffix (h : Host) (n p nmq : Nat) (snorm : Dbl) (a : List Nat) :
    ∀ (fuel : Nat) (w : SvdIter) (r : List Nat),
      xzsvdc_trace h n p nmq snorm fuel w = a ++ r →
      ∃ fuel' w', xzsvdc_trace h n p nmq snorm fuel' w' = r := by
  induction a with
  | nil => intro fuel w r htr; exact ⟨fuel, w, htr⟩
  | cons x a' ih =>
    intro fuel w r htr
    cases fuel with
    | zero => exact absurd htr (by simp [xzsvdc_trace])
    | succ f =>
      unfold xzsvdc_trace at htr
      by_cases hc : 0 < w.m1 ∧ w.qq < 75
      · rw [if_pos hc] at htr
        exact ih f _ r (List.cons.inj htr).2
      · rw [if_neg hc] at htr
        exact absurd htr (by simp)

/-! ## Sign normalization of loadings and scores together -/

/-- Sign normalization negates, for exactly the columns whose sign `sgn` is negative, the
coefficient column and the score column. -/
theorem signs_spec (h : Host) (o : PcaOut)
    (hlen : o.coeffOut.data.length = o.coeffOut.size0 * o.coeffOut.size1)
    (hslen : o.scoreOut.data.length = o.scoreOut.size0 * o.scoreOut.size1)
    (hcols : o.coeffOut.size1 ≤ o.scoreOut.size1) :
    (∀ i j, i < o.coeffOut.size0 → j < o.coeffOut.size1 →
      (local_pca_signs h o).coeffOut.get h i j
        = if Dbl.lt (local_pca_sgn h o.coeffOut.data o.coeffOut.size0 j) 0 = true then
            -(o.coeffOut.get h i j) else o.coeffOut.get h i j) ∧
    (∀ r j, r < o.scoreOut.size0 → j < o.coeffOut.size1 →
      (local_pca_signs h o).scoreOut.get h r j
        = if Dbl.lt (local_pca_sgn h o.coeffOut.data o.coeffOut.size0 j) 0 = true then
            -(o.scoreOut.get h r j) else o.scoreOut.get h r j) := by
  have key := forUp_inv (fun k (cs : List Dbl × List Dbl) => k ≤ o.coeffOut.size1 →
      (cs.1.length = o.coeffOut.data.length ∧ cs.2.length = o.scoreOut.data.length ∧
      (∀ i j, i < o.coeffOut.size0 → j < k →
        rd h cs.1 (i + o.coeffOut.size0 * j)
          = if Dbl.lt (local_pca_sgn h o.coeffOut.data o.coeffOut.size0 j) 0 = true then
              -(rd h o.coeffOut.data (i + o.coeffOut.size0 * j))
            else rd h o.coeffOut.data (i + o.coeffOut.size0 * j)) ∧
      (∀ i j, i < o.coeffOut.size0 → k ≤ j →
        rd h cs.1 (i + o.coeffOut.size0 * j) = rd h o.coeffOut.data (i + o.coeffOut.size0 * j)) ∧
      (∀ r j, r < o.scoreOut.size0 → j < k →
        rd h cs.2 (r + o.scoreOut.size0 * j)
          = if Dbl.lt (local_pca_sgn h o.coeffOut.data o.coeffOut.size0 j) 0 = true then
              -(rd h o.scoreOut.data (r + o.scoreOut.size0 * j))
            else rd h o.scoreOut.data (r + o.scoreOut.size0 * j)) ∧
      (∀ r j, r < o.scoreOut.size0 → k ≤ j →
        rd h cs.2 (r + o.scoreOut.size0 * j) = rd h o.scoreOut.data (r + o.scoreOut.size0 * j))))
    0 o.coeffOut.size1
    (fun j (cs : List Dbl × List Dbl) =>
      if Dbl.lt (local_pca_sgn h cs.1 o.coeffOut.size0 j) 0 then
        (forUp 0 o.coeffOut.size0 (fun b_i c =>
          wr c (b_i + o.coeffOut.size0 * j) (-(rd h c (b_i + o.coeffOut.size0 * j)))) cs.1,
         forUp 0 o.scoreOut.size0 (fun b_i s =>
           wr s (b_i + o.scoreOut.size0 * j) (-(rd h s (b_i + o.scoreOut.size0 * j)))) cs.2)
      else cs) (o.coeffOut.data, o.scoreOut.data)
    (by
      intro _
      exact ⟨rfl, rfl, fun i j _ hj => absurd hj (Nat.not_lt_zero j), fun i j _ _ => rfl,
        fun i j _ hj => absurd hj (Nat.not_lt_zero j), fun i j _ _ => rfl⟩)
    (by
      intro k cs hk ih hle
      obtain ⟨hl, hsl, hdone, hrest, hsdone, hsrest⟩ := ih (Nat.le_of_lt hk)
      simp only [Nat.zero_add]
      have hsg : local_pca_sgn h cs.1 o.coeffOut.size0 k
          = local_pca_sgn h o.coeffOut.data o.coeffOut.size0 k :=
        sgn_congr h _ _ _ _ (fun i hi => hrest i k hi (Nat.le_refl k))
      rw [hsg]
      by_cases hneg : Dbl.lt (local_pca_sgn h o.coeffOut.data o.coeffOut.size0 k) 0 = true
      · rw [if_pos hneg]
        dsimp only
        obtain ⟨wl, whit, wmiss⟩ := forUp_wr_spec h (fun b_i => b_i + o.coeffOut.size0 * k)
          (fun _ v => -v) o.coeffOut.size0 cs.1
          (fun a b _ _ he => by dsimp only at he; omega)
        obtain ⟨sl, shit, smiss⟩ := forUp_wr_spec h (fun b_i => b_i + o.scoreOut.size0 * k)
          (fun _ v => -v) o.scoreOut.size0 cs.2
          (fun a b _ _ he => by dsimp only at he; omega)
        refine ⟨by rw [wl, hl], by rw [sl, hsl], ?_, ?_, ?_, ?_⟩
        · intro i j hi hj
          rcases Nat.lt_succ_iff_lt_or_eq.mp hj with hlt | heq
          · rw [wmiss _ (fun b hb he => by
              have := cell_inj o.coeffOut.size0 b k i j hb hi he
              omega)]
            exact hdone i j hi hlt
          · subst heq
            rw [whit i hi (by rw [hl, hlen]; exact cell_lt _ _ i j hi hk), if_pos hneg,
              hrest i j hi (Nat.le_refl j)]
        · intro i j hi hj
          rw [wmiss _ (fun b hb he => by
            have := cell_inj o.coeffOut.size0 b k i j hb hi he
            omega)]
          exact hrest i j hi (by omega)
        · intro r j hr hj
          rcases Nat.lt_succ_iff_lt_or_eq.mp hj with hlt | heq
          · rw [smiss _ (fun b hb he => by
              have := cell_inj o.scoreOut.size0 b k r j hb hr he
              omega)]
            exact hsdone r j hr hlt
          · subst heq
            rw [shit r hr (by rw [hsl, hslen]
                              exact cell_lt _ _ r j hr (Nat.lt_of_lt_of_le hk hcols)),
              if_pos hneg, hsrest r j hr (Nat.le_refl j)]
        · intro r j hr hj
          rw [smiss _ (fun b hb he => by
            have := cell_inj o.scoreOut.size0 b k r j hb hr he
            omega)]
          exact hsrest r j hr (by omega)
      · rw [if_neg hneg]
        refine ⟨hl, hsl, ?_, ?_, ?_, ?_⟩
        · intro i j hi hj
          rcases Nat.lt_succ_iff_lt_or_eq.mp hj with hlt | heq
          · exact hdone i j hi hlt
          · subst heq
            rw [if_neg hneg]
            exact hrest i j hi (Nat.le_refl j)
        · intro i j hi hj
          exact hrest i j hi (by omega)
        · intro r j hr hj
          rcases Nat.lt_succ_iff_lt_or_eq.mp hj with hlt | heq
          · exact hsdone r j hr hlt
          · subst heq
            rw [if_neg hneg]
            exact hsrest r j hr (Nat.le_refl j)
        · intro r j hr hj
          exact hsrest r j hr (by omega))
    (Nat.le_refl _)
  exact ⟨fun i j hi hj => key.2.2.1 i j hi hj, fun r j hr hj => key.2.2.2.2.1 r j hr hj⟩

theorem truncate_score_length (h : Host) (f : PcaFit) (m : Nat) :
    (local_pca_truncate h f m).scoreOut.data.length
      = (local_pca_truncate h f m).scoreOut.size0 * (local_pca_truncate h f m).scoreOut.size1 := by
  unfold local_pca_truncate
  split
  · exact build_length _ _ _
  · dsimp only
    rw [List.length_map, List.length_range]

theorem truncate_fit_cols (h : Host) (X : Mat) (m : Nat) :
    (local_pca_truncate h (local_pca_fit h X) m).coeffOut.size1
      = (local_pca_truncate h (local_pca_fit h X) m).scoreOut.size1 := by
  obtain ⟨_, h2, _, h4⟩ := local_pca_truncate_shape h (local_pca_fit h X) m
  obtain ⟨_, _, f3, _, f5⟩ := local_pca_fit_shape h X
  rw [h2, h4, f3, f5]

theorem Dbl.mul_neg_both (a b : Dbl) : (-a) * (-b) = a * b := by
  cases a with
  | nan => rfl
  | num x =>
    cases b with
    | nan => rfl
    | num y =>
      show Dbl.num (-x * -y) = Dbl.num (x * y)
      congr 1
      ring

/-- The outputs of `local_pca` in terms of the truncated fit and the signs. -/
theorem local_pca_signs_get (h : Host) (X : Mat) (m : Nat) :
    (∀ i j, i < (local_pca_truncate h (local_pca_fit h X) m).coeffOut.size0 →
      j < (local_pca_truncate h (local_pca_fit h X) m).coeffOut.size1 →
      (local_pca h X m).coeffOut.get h i j
        = if Dbl.lt (local_pca_sgn h (local_pca_truncate h (local_pca_fit h X) m).coeffOut.data
              (local_pca_truncate h (local_pca_fit h X) m).coeffOut.size0 j) 0 = true then
            -((local_pca_truncate h (local_pca_fit h X) m).coeffOut.get h i j)
          else (local_pca_truncate h (local_pca_fit h X) m).coeffOut.get h i j) ∧
    (∀ r j, r < (local_pca_truncate h (local_pca_fit h X) m).scoreOut.size0 →
      j < (local_pca_truncate h (local_pca_fit h X) m).coeffOut.size1 →
      (local_pca h X m).scoreOut.get h r j
        = if Dbl.lt (local_pca_sgn h (local_pca_truncate h (local_pca_fit h X) m).coeffOut.data
              (local_pca_truncate h (local_pca_fit h X) m).coeffOut.size0 j) 0 = true then
            -((local_pca_truncate h (local_pca_fit h X) m).scoreOut.get h r j)
          else (local_pca_truncate h (local_pca_fit h X) m).scoreOut.get h r j) :=
  signs_spec h (local_pca_truncate h (local_pca_fit h X) m)
    (truncate_coeff_length h _ m) (truncate_score_length h _ m)
    (Nat.le_of_eq (truncate_fit_cols h X m))

/-! ## The rows without NaN -/

/-- After the scatter loop a row without NaN holds the score row whose index is the
number of rows without NaN above it. -/
theorem scatter_valid_rows (h : Host) (ni : NanInfo) (score : Mat) :
    ∀ i j, i < ni.nNaNsInRow.length → j < score.size1 → ni.nNaNsInRow.getD i 0 = 0 →
      (local_pca_scatter h ni score).get h i j
        = rd h score.data
            (((List.range i).filter (fun k => decide (ni.nNaNsInRow.getD k 0 = 0))).length
              + score.size0 * j) := by
  have key := forUp_inv (fun k (st : Nat × List Dbl) => k ≤ ni.nNaNsInRow.length →
      (st.2.length = ni.nNaNsInRow.length * score.size1 ∧
       st.1 = ((List.range k).filter (fun k => decide (ni.nNaNsInRow.getD k 0 = 0))).length ∧
       ∀ i j, i < k → j < score.size1 → ni.nNaNsInRow.getD i 0 = 0 →
         rd h st.2 (i + ni.nNaNsInRow.length * j)
           = rd h score.data
              (((List.range i).filter (fun k => decide (ni.nNaNsInRow.getD k 0 = 0))).length
                + score.size0 * j)))
    0 ni.nNaNsInRow.length
    (fun b_i (st : Nat × List Dbl) =>
      if ni.nNaNsInRow.getD b_i 0 > 0 then
        (st.1, forUp 0 score.size1 (fun j y =>
          wr y (b_i + ni.nNaNsInRow.length * j) Dbl.nan) st.2)
      else
        (st.1 + 1, forUp 0 score.size1 (fun j y =>
          wr y (b_i + ni.nNaNsInRow.length * j)
            (rd h score.data (st.1 + score.size0 * j))) st.2))
    (0, List.replicate (ni.nNaNsInRow.length * score.size1) h.junk)
    (by intro _; exact ⟨by simp, by simp, fun i j hi => absurd hi (Nat.not_lt_zero i)⟩)
    (by
      intro k st hk ih hle
      obtain ⟨hlen, hcnt, hval⟩ := ih (Nat.le_of_lt hk)
      simp only [Nat.zero_add]
      by_cases hc : ni.nNaNsInRow.getD k 0 > 0
      · rw [if_pos hc]
        obtain ⟨wl, whit, wmiss⟩ := row_write_spec h ni.nNaNsInRow.length score.size1 k
          (fun _ => Dbl.nan) st.2 hk
        refine ⟨by rw [wl, hlen], ?_, ?_⟩
        · rw [range_filter_succ_length, if_neg (by rw [decide_eq_true_eq]; omega), Nat.add_zero]
          exact hcnt
        · intro i j hi hj hz
          rcases Nat.lt_succ_iff_lt_or_eq.mp hi with hlt | heq
          · rw [wmiss _ (fun j' _ he => by
              have := cell_inj ni.nNaNsInRow.length k j' i j hk (Nat.lt_trans hlt hk) he
              omega)]
            exact hval i j hlt hj hz
          · subst heq
            omega
      · rw [if_neg hc]
        obtain ⟨wl, whit, wmiss⟩ := row_write_spec h ni.nNaNsInRow.length score.size1 k
          (fun j => rd h score.data (st.1 + score.size0 * j)) st.2 hk
        refine ⟨by rw [wl, hlen], ?_, ?_⟩
        · rw [range_filter_succ_length, if_pos (by rw [decide_eq_true_eq]; omega)]
          show st.1 + 1 = _
          rw [hcnt]
        · intro i j hi hj hz
          rcases Nat.lt_succ_iff_lt_or_eq.mp hi with hlt | heq
          · rw [wmiss _ (fun j' _ he => by
              have := cell_inj ni.nNaNsInRow.length k j' i j hk (Nat.lt_trans hlt hk) he
              omega)]
            exact hval i j hlt hj hz
          · subst heq
            rw [whit j hj (by rw [hlen]; exact cell_lt _ _ i j hk hj), hcnt])
    (Nat.le_refl _)
  intro i j hi hj hz
  exact key.2.2 i j hi hj hz

/-- Truncation copies every column it keeps: column `j` of the scores, when below the
loop bound `(unsigned char)NumComponents` on the truncating branch. -/
theorem truncate_score_get_kept (h : Host) (f : PcaFit) (m : Nat) (i j : Nat)
    (hi : i < f.y.size0) (hj : j < (local_pca_truncate h f m).scoreOut.size1)
    (hc : m < f.DOF → j < m % 256) :
    (local_pca_truncate h f m).scoreOut.get h i j = f.y.get h i j := by
  unfold local_pca_truncate at hj ⊢
  by_cases hlt : m < f.DOF
  · rw [if_pos hlt] at hj ⊢
    have hj' : j < m := hj
    show (Mat.build f.y.size0 m _).get h i j = _
    rw [build_get h _ _ _ i j hi hj', if_pos (hc hlt)]
    rfl
  · rw [if_neg hlt] at hj ⊢
    have hj' : j < f.y.size1 := hj
    show rd h ((List.range (f.y.size0 * f.y.size1)).map (fun i => rd h f.y.data i))
      (i + f.y.size0 * j) = _
    rw [rd_map_range h _ _ _ (cell_lt _ _ i j hi hj')]
    rfl

/-- The position of a row among the rows without NaN, from the counters of the scan. -/
theorem validIndex_eq_count (h : Host) (X : Mat) (i : Nat) (hi : i ≤ X.size0) :
    X.validIndex h i
      = ((List.range i).filter
          (fun k => decide ((local_pca_naninfo h X).nNaNsInRow.getD k 0 = 0))).length := by
  unfold Mat.validIndex
  congr 1
  apply List.filter_congr
  intro k hk
  have hk' : k < X.size0 := Nat.lt_of_lt_of_le (List.mem_range.mp hk) hi
  have hiff := rowHasNaN_iff_count h X k hk'
  cases hb : X.rowHasNaN h k with
  | true =>
    have := hiff.mp hb
    exact (decide_eq_false (by omega)).symm
  | false =>
    have : ¬ (local_pca_naninfo h X).nNaNsInRow.getD k 0 > 0 := fun hp => by
      rw [hiff.mpr hp] at hb; exact absurd hb (by simp)
    exact (decide_eq_true (by omega)).symm

/-- The rows without NaN are counted by `local_pca_validRows`. -/
theorem validRows_eq_validIndex (h : Host) (X : Mat) :
    local_pca_validRows h X = X.validIndex h X.size0 := by
  unfold local_pca_validRows Mat.validIndex
  rw [nRowsWithNaNs_spec]
  have hsplit : ∀ n : Nat, ((List.range n).filter (X.rowHasNaN h)).length
      + ((List.range n).filter (fun k => !(X.rowHasNaN h k))).length = n := by
    intro n
    induction n with
    | zero => rfl
    | succ k ih =>
      rw [range_filter_succ_length, range_filter_succ_length]
      cases hb : X.rowHasNaN h k <;> simp <;> omega
  have := hsplit X.size0
  omega

/-- A row without NaN has a position below the number of such rows. -/
theorem validIndex_lt (h : Host) (X : Mat) (i : Nat) (hi : i < X.size0)
    (hrow : X.rowHasNaN h i = false) :
    X.validIndex h i < local_pca_validRows h X := by
  rw [validRows_eq_validIndex]
  have hmono : ∀ a b, a ≤ b → X.validIndex h a ≤ X.validIndex h b := by
    intro a b hab
    induction b with
    | zero =>
      have : a = 0 := by omega
      subst this; exact Nat.le_refl _
    | succ k ih =>
      rcases Nat.lt_or_ge a (k + 1) with hlt | hge
      · have := ih (by omega)
        unfold Mat.validIndex at this ⊢
        rw [range_filter_succ_length]
        omega
      · have : a = k + 1 := by omega
        subst this; exact Nat.le_refl _
  have hstep : X.validIndex h (i + 1) = X.validIndex h i + 1 := by
    unfold Mat.validIndex
    rw [range_filter_succ_length, if_pos (by rw [hrow]; rfl)]
  have := hmono (i + 1) X.size0 hi
  omega

/-- On the missing-value path the full-height scores are the scatter of the scores of
the compact submatrix. -/
theorem local_pca_fit_y_scatter (h : Host) (X : Mat) (hnan : local_pca_noNaNs h X = false) :
    (local_pca_fit h X).y
      = local_pca_scatter h (local_pca_naninfo h X) (local_pca_compact h X).scoreOut := by
  simp [local_pca_fit, hnan, local_pca_compact]

/-- The score of a fully-valid row before truncation. -/
theorem local_pca_fit_valid_row (h : Host) (X : Mat) (hnan : local_pca_noNaNs h X = false)
    (i j : Nat) (hi : i < X.size0) (hrow : X.rowHasNaN h i = false)
    (hk : j < (local_pca_compact h X).scoreOut.size1) :
    (local_pca_fit h X).y.get h i j
      = (local_pca_compact h X).scoreOut.get h (X.validIndex h i) j := by
  rw [local_pca_fit_y_scatter h X hnan]
  have hz : (local_pca_naninfo h X).nNaNsInRow.getD i 0 = 0 := by
    have hiff := rowHasNaN_iff_count h X i hi
    have : ¬ (local_pca_naninfo h X).nNaNsInRow.getD i 0 > 0 := fun hp => by
      rw [hiff.mpr hp] at hrow; exact absurd hrow (by simp)
    omega
  rw [scatter_valid_rows h _ _ i j (by rw [(naninfo_spec h X).1]; exact hi) hk hz,
    ← validIndex_eq_count h X i (Nat.le_of_lt hi)]
  rfl

/-! ## The matrix handed to the SVD engine -/

theorem range_filter_length_mono (p : Nat → Bool) (a b : Nat) (hab : a ≤ b) :
    ((List.range a).filter p).length ≤ ((List.range b).filter p).length := by
  induction b with
  | zero =>
    have : a = 0 := by omega
    subst this; exact Nat.le_refl _
  | succ k ih =>
    rcases Nat.lt_or_ge a (k + 1) with hlt | hge
    · have := ih (by omega)
      rw [range_filter_succ_length]
      omega
    · have : a = k + 1 := by omega
      subst this; exact Nat.le_refl _

/-- A loop writing `d[g j] = v j` at pairwise distinct offsets. -/
theorem forUp_wr_const_spec (h : Host) (g : Nat → Nat) (v : Nat → Dbl) (len : Nat)
    (d : List Dbl)
    (hinj : ∀ i i', i < len → i' < len → g i = g i' → i = i') :
    (forUp 0 len (fun i t => wr t (g i) (v i)) d).length = d.length ∧
    (∀ i, i < len → g i < d.length →
      rd h (forUp 0 len (fun i t => wr t (g i) (v i)) d) (g i) = v i) ∧
    (∀ k, (∀ i, i < len → g i ≠ k) →
      rd h (forUp 0 len (fun i t => wr t (g i) (v i)) d) k = rd h d k) :=
  forUp_wr_spec h g (fun i _ => v i) len d hinj

/-- The gather loop: the row without NaN that has `r` such rows above it becomes row
`r` of the gathered array. -/
theorem gather_spec (h : Host) (ni : NanInfo) (b_n : Nat) (x : Mat)
    (hb : ((List.range x.size0).filter
        (fun k => decide (ni.nNaNsInRow.getD k 0 = 0))).length ≤ b_n) :
    (local_pca_gather h ni b_n x).size0 = b_n ∧
    (local_pca_gather h ni b_n x).size1 = x.size1 ∧
    (∀ i j, i < x.size0 → j < x.size1 → ni.nNaNsInRow.getD i 0 = 0 →
      (local_pca_gather h ni b_n x).get h
          ((List.range i).filter (fun k => decide (ni.nNaNsInRow.getD k 0 = 0))).length j
        = x.get h i j) := by
  refine ⟨rfl, rfl, ?_⟩
  have hsucc : ∀ i, ni.nNaNsInRow.getD i 0 = 0 →
      ((List.range (i + 1)).filter (fun k => decide (ni.nNaNsInRow.getD k 0 = 0))).length
        = ((List.range i).filter (fun k => decide (ni.nNaNsInRow.getD k 0 = 0))).length + 1 := by
    intro i hz
    rw [range_filter_succ_length, if_pos (by rw [decide_eq_true_eq]; exact hz)]
  have key := forUp_inv (fun k (st : Nat × List Dbl) => k ≤ x.size0 →
      (st.2.length = b_n * x.size1 ∧
       st.1 = ((List.range k).filter (fun k => decide (ni.nNaNsInRow.getD k 0 = 0))).length ∧
       ∀ i j, i < k → j < x.size1 → ni.nNaNsInRow.getD i 0 = 0 →
         rd h st.2 (((List.range i).filter
              (fun k => decide (ni.nNaNsInRow.getD k 0 = 0))).length + b_n * j)
           = rd h x.data (i + x.size0 * j)))
    0 x.size0
    (fun b_i (st : Nat × List Dbl) =>
      if ni.nNaNsInRow.getD b_i 0 = 0 then
        (st.1 + 1, forUp 0 x.size1 (fun j y =>
          wr y (st.1 + b_n * j) (rd h x.data (b_i + x.size0 * j))) st.2)
      else st)
    (0, List.replicate (b_n * x.size1) h.junk)
    (by intro _; exact ⟨by simp, by simp, fun i j hi => absurd hi (Nat.not_lt_zero i)⟩)
    (by
      intro k st hk ih hle
      obtain ⟨hlen, hcnt, hval⟩ := ih (Nat.le_of_lt hk)
      simp only [Nat.zero_add]
      by_cases hc : ni.nNaNsInRow.getD k 0 = 0
      · rw [if_pos hc]
        have hlt : st.1 < b_n := by
          have := range_filter_length_mono
            (fun k => decide (ni.nNaNsInRow.getD k 0 = 0)) (k + 1) x.size0 hle
          rw [hsucc k hc] at this
          omega
        obtain ⟨wl, whit, wmiss⟩ := row_write_spec h b_n x.size1 st.1
          (fun j => rd h x.data (k + x.size0 * j)) st.2 hlt
        refine ⟨by rw [wl, hlen], ?_, ?_⟩
        · show st.1 + 1 = _
          rw [hsucc k hc, hcnt]
        · intro i j hi hj hz
          rcases Nat.lt_succ_iff_lt_or_eq.mp hi with hlt' | heq
          · have hci : ((List.range i).filter
                (fun k => decide (ni.nNaNsInRow.getD k 0 = 0))).length < st.1 := by
              have := range_filter_length_mono
                (fun k => decide (ni.nNaNsInRow.getD k 0 = 0)) (i + 1) k hlt'
              rw [hsucc i hz] at this
              omega
            rw [wmiss _ (fun j' _ he => by
              have := cell_inj b_n st.1 j' _ j hlt (Nat.lt_trans hci hlt) he
              omega)]
            exact hval i j hlt' hj hz
          · subst heq
            rw [← hcnt]
            exact whit j hj (by rw [hlen]; exact cell_lt _ _ st.1 j hlt hj)
      · rw [if_neg hc]
        refine ⟨hlen, ?_, ?_⟩
        · rw [range_filter_succ_length, if_neg (by rw [decide_eq_true_eq]; exact hc),
            Nat.add_zero]
          exact hcnt
        · intro i j hi hj hz
          rcases Nat.lt_succ_iff_lt_or_eq.mp hi with hlt' | heq
          · exact hval i j hlt' hj hz
          · subst heq
            exact absurd hz hc)
    (Nat.le_refl _)
  intro i j hi hj hz
  exact key.2.2 i j hi hj hz

/-- The column mean is a number when the column holds a number, every centered entry is
the entry minus that mean, and the non-NaN entries of the centered column sum to zero. -/
theorem center_column_sum (h : Host) (X : Mat) (hwf : X.WellFormed) (j : Nat)
    (hj : j < X.size1) (hex : ∃ i, i < X.size0 ∧ (X.get h i j).isNaN = false) :
    (∀ i, i < X.size0 → (local_pca_center h X).get h i j
        = X.get h i j - Dbl.num ((X.colNonNaN h j).sum / ((X.colNonNaN h j).length : ℚ))) ∧
    ((local_pca_center h X).colNonNaN h j).sum = 0 ∧
    (∀ i, i < X.size0 →
      ((local_pca_center h X).get h i j).isNaN = (X.get h i j).isNaN) := by
  have hpos := colNonNaN_length_pos h X j hex
  have hne : ((X.colNonNaN h j).length : ℚ) ≠ 0 := by
    exact_mod_cast Nat.pos_iff_ne_zero.mp hpos
  have hmu : rd h (wnanmean h X (local_pca_noNaNs h X)) j
      = Dbl.num ((X.colNonNaN h j).sum / ((X.colNonNaN h j).length : ℚ)) := by
    rw [wnanmean_spec h X j hj, Dbl.div_num, if_neg hne]
  have hget : ∀ i, i < X.size0 → (local_pca_center h X).get h i j
      = X.get h i j - Dbl.num ((X.colNonNaN h j).sum / ((X.colNonNaN h j).length : ℚ)) := by
    intro i hi
    rw [center_get h X hwf i j hi hj, hmu]
  refine ⟨hget, ?_, ?_⟩
  · have hcol : (local_pca_center h X).colNonNaN h j
        = (X.colNonNaN h j).map
            (fun v => v - (X.colNonNaN h j).sum / ((X.colNonNaN h j).length : ℚ)) := by
      unfold Mat.colNonNaN
      rw [(center_size h X).1, List.map_filterMap]
      apply List.filterMap_congr
      intro i hi
      rw [hget i (List.mem_range.mp hi), Dbl.toRat?_sub_num]
      rfl
    rw [hcol, sum_map_sub_const]
    field_simp
  · intro i hi
    rw [hget i hi]
    cases X.get h i j <;> rfl

/-- A sum over a list splits along a predicate. -/
theorem sum_filterMap_split (l : List Nat) (p : Nat → Bool) (f : Nat → Option ℚ) :
    (l.filterMap f).sum
      = ((l.filter (fun k => !(p k))).filterMap f).sum + ((l.filter p).filterMap f).sum := by
  induction l with
  | nil => simp
  | cons a t ih =>
    cases hp : p a <;> cases hf : f a <;>
      simp [List.filter_cons, List.filterMap_cons, hp, hf, ih] <;> ring

/-- A row without NaN has no NaN entry. -/
theorem rowHasNaN_false_get (h : Host) (X : Mat) (i j : Nat) (hj : j < X.size1)
    (hrow : X.rowHasNaN h i = false) : (X.get h i j).isNaN = false := by
  unfold Mat.rowHasNaN at hrow
  cases hb : (X.get h i j).isNaN with
  | false => rfl
  | true =>
    have : (List.range X.size1).any (fun j => (X.get h i j).isNaN) = true :=
      List.any_eq_true.mpr ⟨j, List.mem_range.mpr hj, hb⟩
    rw [this] at hrow
    exact absurd hrow (by simp)

/-- A table with a fully-valid row has a row without NaN. -/
theorem exists_valid_row (h : Host) (X : Mat) (hv : 1 ≤ local_pca_validRows h X) :
    ∃ i, i < X.size0 ∧ X.rowHasNaN h i = false := by
  rw [validRows_eq_validIndex] at hv
  unfold Mat.validIndex at hv
  obtain ⟨i, hmem⟩ := List.exists_mem_of_length_pos hv
  obtain ⟨hi, hp⟩ := List.mem_filter.mp hmem
  refine ⟨i, List.mem_range.mp hi, ?_⟩
  cases hb : X.rowHasNaN h i with
  | false => rfl
  | true => rw [hb] at hp; exact absurd hp (by simp)

/-- Without NaN in the table every row is its own position among the valid rows. -/
theorem validIndex_of_noNaNs (h : Host) (X : Mat) (hno : local_pca_noNaNs h X = true)
    (i : Nat) (hi : i ≤ X.size0) : X.validIndex h i = i := by
  have hall := (nanCount_eq_zero h X).mp ((noNaNs_iff h X).mp hno)
  unfold Mat.validIndex
  have : (List.range i).filter (fun k => !(X.rowHasNaN h k)) = List.range i := by
    apply List.filter_eq_self.mpr
    intro k hk
    have hk' : k < X.size0 := Nat.lt_of_lt_of_le (List.mem_range.mp hk) hi
    cases hb : X.rowHasNaN h k with
    | false => rfl
    | true =>
      unfold Mat.rowHasNaN at hb
      obtain ⟨c, hc, hcn⟩ := List.any_eq_true.mp hb
      rw [hall k c hk' (List.mem_range.mp hc)] at hcn
      exact absurd hcn (by simp)
  rw [this, List.length_range]

/-- The matrix handed to the SVD engine holds the rows without NaN of the centered
table, in their original order. -/
theorem svdInput_spec (h : Host) (X : Mat) :
    (local_pca_svdInput h X).size0 = local_pca_validRows h X ∧
    (local_pca_svdInput h X).size1 = X.size1 ∧
    (∀ i j, i < X.size0 → j < X.size1 → X.rowHasNaN h i = false →
      (local_pca_svdInput h X).get h (X.validIndex h i) j
        = (local_pca_center h X).get h i j) := by
  unfold local_pca_svdInput
  by_cases hno : local_pca_noNaNs h X = true
  · rw [if_pos hno]
    refine ⟨?_, (center_size h X).2.1, ?_⟩
    · rw [(center_size h X).1, validRows_eq_of_noNaNs h X hno]
    · intro i j hi _ _
      rw [validIndex_of_noNaNs h X hno i (Nat.le_of_lt hi)]
  · rw [if_neg hno]
    have hsz := center_size h X
    have hb : ((List.range (local_pca_center h X).size0).filter
        (fun k => decide ((local_pca_naninfo h X).nNaNsInRow.getD k 0 = 0))).length
          ≤ local_pca_validRows h X := by
      rw [hsz.1, ← validIndex_eq_count h X X.size0 (Nat.le_refl _), validRows_eq_validIndex]
    obtain ⟨g1, g2, g3⟩ := gather_spec h (local_pca_naninfo h X) (local_pca_validRows h X)
      (local_pca_center h X) hb
    refine ⟨g1, by rw [g2, hsz.2.1], ?_⟩
    intro i j hi hj hrow
    have hz : (local_pca_naninfo h X).nNaNsInRow.getD i 0 = 0 := by
      have hiff := rowHasNaN_iff_count h X i hi
      have : ¬ (local_pca_naninfo h X).nNaNsInRow.getD i 0 > 0 := fun hp => by
        rw [hiff.mpr hp] at hrow; exact absurd hrow (by simp)
      omega
    rw [validIndex_eq_count h X i (Nat.le_of_lt hi)]
    exact g3 i j (by rw [hsz.1]; exact hi) (by rw [hsz.2.1]; exact hj) hz

/-- Column `j` of the matrix handed to the SVD engine lists the entries that the rows
without NaN hold in column `j` of the centered table. -/
theorem svdInput_column (h : Host) (X : Mat) (j : Nat) (hj : j < X.size1) (k : Nat)
    (hk : k ≤ X.size0) :
    (List.range (X.validIndex h k)).map (fun r => (local_pca_svdInput h X).get h r j)
      = ((List.range k).filter (fun i => !(X.rowHasNaN h i))).map
          (fun i => (local_pca_center h X).get h i j) := by
  induction k with
  | zero => rfl
  | succ n ih =>
    have ihn := ih (Nat.le_of_succ_le hk)
    have hn : n < X.size0 := hk
    cases hb : X.rowHasNaN h n with
    | true =>
      have h1 : X.validIndex h (n + 1) = X.validIndex h n := by
        unfold Mat.validIndex
        rw [range_filter_succ_length, if_neg (by rw [hb]; simp), Nat.add_zero]
      rw [h1, ihn, List.range_succ, List.filter_append]
      simp [hb]
    | false =>
      have h1 : X.validIndex h (n + 1) = X.validIndex h n + 1 := by
        unfold Mat.validIndex
        rw [range_filter_succ_length, if_pos (by rw [hb]; rfl)]
      rw [h1, List.range_succ, List.map_append, ihn, List.range_succ, List.filter_append,
        List.map_append]
      congr 1
      simp [hb, (svdInput_spec h X).2.2 n j hn hj hb]

theorem filterMap_length_of_some {α β : Type} (l : List α) (f : α → Option β)
    (hs : ∀ a, a ∈ l → ∃ b, f a = some b) : (l.filterMap f).length = l.length := by
  induction l with
  | nil => rfl
  | cons a t ih =>
    obtain ⟨b, hb⟩ := hs a (List.mem_cons_self a t)
    rw [List.filterMap_cons, hb]
    simp only [List.length_cons]
    rw [ih (fun x hx => hs x (List.mem_cons_of_mem a hx))]

/-- The non-NaN entries of column `j` of the matrix handed to the SVD engine are the
centered entries of the rows without NaN. -/
theorem svdInput_colNonNaN (h : Host) (X : Mat) (j : Nat) (hj : j < X.size1) :
    (local_pca_svdInput h X).colNonNaN h j
      = ((List.range X.size0).filter (fun i => !(X.rowHasNaN h i))).filterMap
          (fun i => ((local_pca_center h X).get h i j).toRat?) := by
  have hcol := svdInput_column h X j hj X.size0 (Nat.le_refl _)
  unfold Mat.colNonNaN
  rw [(svdInput_spec h X).1, validRows_eq_validIndex]
  have h1 : (List.range (X.validIndex h X.size0)).filterMap
      (fun i => ((local_pca_svdInput h X).get h i j).toRat?)
      = ((List.range (X.validIndex h X.size0)).map
          (fun r => (local_pca_svdInput h X).get h r j)).filterMap Dbl.toRat? := by
    rw [List.filterMap_map]; rfl
  rw [h1, hcol, List.filterMap_map]
  rfl

/-- The decomposition `local_pca` keeps is the one of `local_pca_svdInput`. -/
theorem local_pca_fit_svdInput (h : Host) (X : Mat) :
    (local_pca_fit h X).coeff
      = (localSVD h (local_pca_svdInput h X) (local_pca_DOF h X)).coeffOut := by
  by_cases hno : local_pca_noNaNs h X = true
  · simp [local_pca_fit, local_pca_svdInput, hno]
  · have hno' : local_pca_noNaNs h X = false := by simpa using hno
    simp [local_pca_fit, local_pca_svdInput, hno']

/-! ## The pre-scaling pass -/

/-- Scaling the `len` elements of a buffer from offset `b` on. -/
theorem scale_segment_spec (h : Host) (b len : Nat) (c : Dbl) (x : List Dbl)
    (hx : b + len ≤ x.length) :
    (forUp (b + 1) len (fun qjj x => wr x (qjj - 1) (rd h x (qjj - 1) * c)) x).length
      = x.length ∧
    (∀ k, k < len →
      rd h (forUp (b + 1) len (fun qjj x => wr x (qjj - 1) (rd h x (qjj - 1) * c)) x) (b + k)
        = rd h x (b + k) * c) ∧
    (∀ j, (j < b ∨ b + len ≤ j) →
      rd h (forUp (b + 1) len (fun qjj x => wr x (qjj - 1) (rd h x (qjj - 1) * c)) x) j
        = rd h x j) := by
  have hbody : (fun (i : Nat) (t : List Dbl) =>
        wr t (b + 1 + i - 1) (rd h t (b + 1 + i - 1) * c))
      = (fun (i : Nat) (t : List Dbl) => wr t (b + i) ((fun _ v => v * c) i (rd h t (b + i)))) := by
    funext i t
    have hi : b + 1 + i - 1 = b + i := by omega
    rw [hi]
  rw [forUp_shift, hbody]
  obtain ⟨hl, hhit, hmiss⟩ := forUp_wr_spec h (fun i => b + i) (fun _ v => v * c) len x
    (fun i i' _ _ he => by dsimp only at he; omega)
  refine ⟨hl, fun k hk => hhit k hk (by omega), fun j hj => hmiss j (fun i hi => ?_)⟩
  omega

theorem Dbl.ne_num_zero (a : ℚ) : Dbl.ne (Dbl.num a) 0 = decide (a ≠ 0) := by
  show (!(decide (a = ((0 : Nat) : ℚ)))) = decide (a ≠ 0)
  by_cases ha : a = 0
  · subst ha; simp
  · simp [ha]

/-- The sign `a / |a|` of a non-zero rational is `1` or `-1`. -/
theorem sign_div_abs (a : ℚ) (ha : a ≠ 0) :
    (a / |a| = 1 ∨ a / |a| = -1) ∧ a * (a / |a|) = |a| ∧ |a| ≠ 0 := by
  have hne : |a| ≠ 0 := abs_ne_zero.mpr ha
  rcases lt_or_gt_of_ne ha with hlt | hgt
  · rw [abs_of_neg hlt]
    refine ⟨Or.inr ?_, ?_, by linarith [hlt]⟩
    · field_simp
    · field_simp
  · rw [abs_of_pos hgt]
    refine ⟨Or.inl ?_, ?_, ha⟩
    · field_simp
    · field_simp

/-- The sign `|a| / a` of a non-zero rational is `1` or `-1`. -/
theorem abs_div_sign (a : ℚ) (ha : a ≠ 0) :
    (|a| / a = 1 ∨ |a| / a = -1) ∧ a * (|a| / a) = |a| := by
  rcases lt_or_gt_of_ne ha with hlt | hgt
  · rw [abs_of_neg hlt]
    refine ⟨Or.inr ?_, ?_⟩
    · field_simp
    · field_simp
  · rw [abs_of_pos hgt]
    refine ⟨Or.inl ?_, ?_⟩
    · field_simp
    · field_simp

/-- Source lines 298-313 when `s[q]` is the non-zero number `a`. -/
theorem xzsvdc_prescale_s_num (h : Host) (n m q : Nat) (w : SvdScale) (a : ℚ)
    (hsq : rd h w.s q = Dbl.num a) (ha : a ≠ 0) :
    xzsvdc_prescale_s h n m q w
      = { w with
          U := if q + 1 ≤ n then
              forUp (n * q + 1) n
                (fun qjj U => wr U (qjj - 1) (rd h U (qjj - 1) * Dbl.num (a / |a|))) w.U
            else w.U
          s := wr w.s q (Dbl.num |a|)
          e := if q < m then wr w.e q (rd h w.e q / Dbl.num (a / |a|)) else w.e } := by
  unfold xzsvdc_prescale_s
  simp only [hsq]
  rw [Dbl.ne_num_zero, if_pos (by simpa using ha)]
  have habs : Dbl.abs (Dbl.num a) = Dbl.num |a| := rfl
  have hdiv : Dbl.num a / Dbl.num |a| = Dbl.num (a / |a|) := by
    rw [Dbl.div_num, if_neg (abs_ne_zero.mpr ha)]
  rw [habs, hdiv]

/-- Source lines 298-313 when `s[q]` is zero. -/
theorem xzsvdc_prescale_s_zero (h : Host) (n m q : Nat) (w : SvdScale)
    (hsq : rd h w.s q = Dbl.num 0) : xzsvdc_prescale_s h n m q w = w := by
  unfold xzsvdc_prescale_s
  simp only [hsq]
  rw [Dbl.ne_num_zero, if_neg (by simp)]

/-- Source lines 314-327 when `e[q]` is the non-zero number `b`. -/
theorem xzsvdc_prescale_e_num (h : Host) (p m q : Nat) (w : SvdScale) (b : ℚ) (hq : q < m)
    (heq : rd h w.e q = Dbl.num b) (hb : b ≠ 0) :
    xzsvdc_prescale_e h p m q w
      = { w with
          x := forUp (p * (q + 1) + 1) p
            (fun qjj x => wr x (qjj - 1) (rd h x (qjj - 1) * Dbl.num (|b| / b))) w.x
          s := wr w.s (q + 1) (rd h w.s (q + 1) * Dbl.num (|b| / b))
          e := wr w.e q (Dbl.num |b|) } := by
  unfold xzsvdc_prescale_e
  rw [if_pos hq]
  simp only [heq]
  rw [Dbl.ne_num_zero, if_pos (by simpa using hb)]
  have habs : Dbl.abs (Dbl.num b) = Dbl.num |b| := rfl
  have hdiv : Dbl.num |b| / Dbl.num b = Dbl.num (|b| / b) := by
    rw [Dbl.div_num, if_neg hb]
  rw [habs, hdiv]

/-- Source lines 314-327 when `e[q]` is zero or `q = m`. -/
theorem xzsvdc_prescale_e_zero (h : Host) (p m q : Nat) (w : SvdScale)
    (heq : q < m → rd h w.e q = Dbl.num 0) : xzsvdc_prescale_e h p m q w = w := by
  unfold xzsvdc_prescale_e
  by_cases hq : q < m
  · rw [if_pos hq]
    simp only [heq hq]
    rw [Dbl.ne_num_zero, if_neg (by simp)]
  · rw [if_neg hq]

theorem nanFree_rd (h : Host) (l : List Dbl) (k : Nat) (hl : nanFree l) (hk : k < l.length) :
    ∃ v, rd h l k = Dbl.num v := by
  have hmem : l.get ⟨k, hk⟩ ∈ l := List.get_mem l k hk
  have hrd : rd h l k = l.get ⟨k, hk⟩ := by
    simp [rd, List.getD_eq_getElem?_getD, List.getElem?_eq_getElem hk]
  rw [hrd]
  exact (Dbl.isNaN_eq_false _).mp (hl _ hmem)

theorem col_outside (n i q q1 : Nat) (hi : i < n) (hne : q1 ≠ q) :
    i + n * q1 < n * q ∨ n * q + n ≤ i + n * q1 := by
  rcases Nat.lt_or_gt_of_ne hne with hlt | hgt
  · left
    have : n * (q1 + 1) ≤ n * q := Nat.mul_le_mul_left n hlt
    rw [Nat.mul_add, Nat.mul_one] at this
    omega
  · right
    have : n * (q + 1) ≤ n * q1 := Nat.mul_le_mul_left n hgt
    rw [Nat.mul_add, Nat.mul_one] at this
    omega

theorem col_inside (n q c : Nat) (hq : q < c) : n * q + n ≤ n * c := by
  have : n * (q + 1) ≤ n * c := Nat.mul_le_mul_left n hq
  rw [Nat.mul_add, Nat.mul_one] at this
  exact this

theorem sign_mul_sign (a b : ℚ) (ha : a = 1 ∨ a = -1) (hb : b = 1 ∨ b = -1) :
    a * b = 1 ∨ a * b = -1 := by
  rcases ha with h1 | h1 <;> rcases hb with h2 | h2 <;> rw [h1, h2] <;> norm_num

theorem Dbl.le_zero_abs (a : ℚ) : Dbl.le 0 (Dbl.num |a|) = true := by
  rw [Dbl.zero_lit, Dbl.le_num]
  exact decide_eq_true (abs_nonneg a)

/-- The first half of a pre-scaling step moves the sign of `s[q]` into column `q` of `U`
and into `e[q]`. -/
theorem prescale_s_moves (h : Host) (n p m q : Nat) (w0 w : SvdScale) (α β : Nat → ℚ)
    (hq : q ≤ m) (hU0 : nanFree w0.U) (hs0 : nanFree w0.s) (he0 : nanFree w0.e)
    (hUl : n * min n (m + 1) ≤ w0.U.length) (hsl : m < w0.s.length)
    (hel : m ≤ w0.e.length) (r : SvdSignsMoved h n p m w0 w α β) :
    ∃ α1, SvdSignsMoved h n p m w0 (xzsvdc_prescale_s h n m q w) α1 β ∧
      Dbl.le 0 (rd h (xzsvdc_prescale_s h n m q w).s q) = true ∧
      (∀ k, k ≠ q → rd h (xzsvdc_prescale_s h n m q w).s k = rd h w.s k) ∧
      (∀ k, k ≠ q → rd h (xzsvdc_prescale_s h n m q w).e k = rd h w.e k) := by
  obtain ⟨a0, ha0⟩ := nanFree_rd h w0.s q hs0 (by omega)
  obtain ⟨a, ha_def⟩ : ∃ a, a = a0 * (α q * β q) := ⟨_, rfl⟩
  have hsq : rd h w.s q = Dbl.num a := by rw [r.diag q hq, ha0, ha_def]; rfl
  by_cases ha : a = 0
  · rw [xzsvdc_prescale_s_zero h n m q w (by rw [hsq, ha])]
    refine ⟨α, r, ?_, fun _ _ => rfl, fun _ _ => rfl⟩
    rw [hsq, ha, Dbl.zero_lit, Dbl.le_num]
    exact decide_eq_true (le_refl 0)
  · obtain ⟨hσ, hmul, _⟩ := sign_div_abs a ha
    have hσ0 : a / |a| ≠ 0 := by
      rcases hσ with h1 | h1 <;> rw [h1] <;> norm_num
    rw [xzsvdc_prescale_s_num h n m q w a hsq ha]
    have hqs : q < w.s.length := by rw [r.lens]; omega
    refine ⟨Function.update α q (α q * (a / |a|)),
      ⟨?_, r.beta, ?_, r.lenx, ?_, ?_, ?_, r.colV, ?_, ?_⟩, ?_, ?_, ?_⟩
    · intro q1
      by_cases hqq : q1 = q
      · rw [hqq, Function.update_same]
        exact sign_mul_sign _ _ (r.alpha q) hσ
      · rw [Function.update_noteq hqq]
        exact r.alpha q1
    · show (if q + 1 ≤ n then _ else w.U).length = _
      split
      · exact (forUp_wr_length _ _ (fun qjj => qjj - 1)
          (fun qjj U => rd h U (qjj - 1) * Dbl.num (a / |a|)) _).trans r.lenU
      · exact r.lenU
    · show (wr w.s q _).length = _
      rw [length_wr]; exact r.lens
    · show (if q < m then wr w.e q _ else w.e).length = _
      split
      · rw [length_wr]; exact r.lene
      · exact r.lene
    · intro i q1 hi hq1n hq1m
      show rd h (if q + 1 ≤ n then _ else w.U) (i + n * q1) = _
      by_cases hqn : q + 1 ≤ n
      · rw [if_pos hqn]
        have hb : n * q + n ≤ w.U.length := by
          rw [r.lenU]
          exact Nat.le_trans (col_inside n q (min n (m + 1)) (by omega)) hUl
        obtain ⟨_, hhit, hmiss⟩ := scale_segment_spec h (n * q) n (Dbl.num (a / |a|)) w.U hb
        by_cases hqq : q1 = q
        · rw [hqq, Nat.add_comm i (n * q), hhit i hi, Nat.add_comm (n * q) i,
            r.colU i q hi (by omega) hq, Function.update_same]
          obtain ⟨u, hu⟩ := nanFree_rd h w0.U (i + n * q) hU0 (by
            have := col_inside n q (min n (m + 1)) (by omega)
            omega)
          rw [hu]
          show Dbl.num (u * α q * (a / |a|)) = Dbl.num (u * (α q * (a / |a|)))
          rw [mul_assoc]
        · rw [hmiss _ (col_outside n i q q1 hi hqq), r.colU i q1 hi hq1n hq1m,
            Function.update_noteq hqq]
      · rw [if_neg hqn, r.colU i q1 hi hq1n hq1m, Function.update_noteq (by omega)]
    · intro q1 hq1
      show rd h (wr w.s q (Dbl.num |a|)) q1 = _
      by_cases hqq : q1 = q
      · rw [hqq, rd_wr_eq h _ _ _ hqs, Function.update_same, ha0]
        show Dbl.num |a| = Dbl.num (a0 * (α q * (a / |a|) * β q))
        have e1 : a0 * (α q * (a / |a|) * β q) = (a0 * (α q * β q)) * (a / |a|) := by ring
        rw [e1, ← ha_def, hmul]
      · rw [rd_wr_ne h _ _ _ _ (Ne.symm hqq), r.diag q1 hq1, Function.update_noteq hqq]
    · intro q1 hq1
      show rd h (if q < m then wr w.e q _ else w.e) q1 = _
      by_cases hqm : q < m
      · rw [if_pos hqm]
        by_cases hqq : q1 = q
        · rw [hqq, rd_wr_eq h _ _ _ (by rw [r.lene]; omega), r.super q hqm,
            Function.update_same]
          obtain ⟨b0, hb0⟩ := nanFree_rd h w0.e q he0 (by omega)
          rw [hb0, Dbl.mul_num, Dbl.mul_num, Dbl.div_num, if_neg hσ0]
          congr 1
          rcases hσ with h1 | h1 <;> rw [h1] <;> ring
        · rw [rd_wr_ne h _ _ _ _ (Ne.symm hqq), r.super q1 hq1, Function.update_noteq hqq]
      · rw [if_neg hqm, r.super q1 hq1, Function.update_noteq (by omega)]
    · show Dbl.le 0 (rd h (wr w.s q (Dbl.num |a|)) q) = true
      rw [rd_wr_eq h _ _ _ hqs]
      exact Dbl.le_zero_abs a
    · intro k hk
      show rd h (wr w.s q _) k = _
      rw [rd_wr_ne h _ _ _ _ (Ne.symm hk)]
    · intro k hk
      show rd h (if q < m then wr w.e q _ else w.e) k = _
      split
      · rw [rd_wr_ne h _ _ _ _ (Ne.symm hk)]
      · rfl

/-- The second half of a pre-scaling step moves the sign of `e[q]` into column `q + 1`
of `V` and into `s[q + 1]`. -/
theorem prescale_e_moves (h : Host) (n p m q : Nat) (w0 w : SvdScale) (α β : Nat → ℚ)
    (hx0 : nanFree w0.x) (hs0 : nanFree w0.s) (he0 : nanFree w0.e)
    (hxl : p * (m + 1) ≤ w0.x.length) (hsl : m < w0.s.length)
    (hel : m ≤ w0.e.length) (r : SvdSignsMoved h n p m w0 w α β) :
    ∃ β1, SvdSignsMoved h n p m w0 (xzsvdc_prescale_e h p m q w) α β1 ∧
      (q < m → Dbl.le 0 (rd h (xzsvdc_prescale_e h p m q w).e q) = true) ∧
      (∀ k, k ≠ q + 1 → rd h (xzsvdc_prescale_e h p m q w).s k = rd h w.s k) ∧
      (∀ k, k ≠ q → rd h (xzsvdc_prescale_e h p m q w).e k = rd h w.e k) := by
  by_cases hqm : q < m
  · obtain ⟨b0, hb0⟩ := nanFree_rd h w0.e q he0 (by omega)
    obtain ⟨b, hb_def⟩ : ∃ b, b = b0 * (α q * β (q + 1)) := ⟨_, rfl⟩
    have heq : rd h w.e q = Dbl.num b := by rw [r.super q hqm, hb0, hb_def]; rfl
    by_cases hb : b = 0
    · rw [xzsvdc_prescale_e_zero h p m q w (fun _ => by rw [heq, hb])]
      refine ⟨β, r, fun _ => ?_, fun _ _ => rfl, fun _ _ => rfl⟩
      rw [heq, hb, Dbl.zero_lit, Dbl.le_num]
      exact decide_eq_true (le_refl 0)
    · obtain ⟨hτ, hmul⟩ := abs_div_sign b hb
      rw [xzsvdc_prescale_e_num h p m q w b hqm heq hb]
      have hqe : q < w.e.length := by rw [r.lene]; omega
      have hqs : q + 1 < w.s.length := by rw [r.lens]; omega
      refine ⟨Function.update β (q + 1) (β (q + 1) * (|b| / b)),
        ⟨r.alpha, ?_, r.lenU, ?_, ?_, ?_, r.colU, ?_, ?_, ?_⟩, ?_, ?_, ?_⟩
      · intro q1
        by_cases hqq : q1 = q + 1
        · rw [hqq, Function.update_same]
          exact sign_mul_sign _ _ (r.beta (q + 1)) hτ
        · rw [Function.update_noteq hqq]
          exact r.beta q1
      · exact (forUp_wr_length _ _ (fun qjj => qjj - 1)
          (fun qjj x => rd h x (qjj - 1) * Dbl.num (|b| / b)) _).trans r.lenx
      · show (wr w.s (q + 1) _).length = _
        rw [length_wr]; exact r.lens
      · show (wr w.e q _).length = _
        rw [length_wr]; exact r.lene
      · intro j q1 hj hq1
        have hbnd : p * (q + 1) + p ≤ w.x.length := by
          rw [r.lenx]
          exact Nat.le_trans (col_inside p (q + 1) (m + 1) (by omega)) hxl
        obtain ⟨_, hhit, hmiss⟩ :=
          scale_segment_spec h (p * (q + 1)) p (Dbl.num (|b| / b)) w.x hbnd
        show rd h (forUp (p * (q + 1) + 1) p _ w.x) (j + p * q1) = _
        by_cases hqq : q1 = q + 1
        · rw [hqq, Nat.add_comm j (p * (q + 1)), hhit j hj, Nat.add_comm (p * (q + 1)) j,
            r.colV j (q + 1) hj (by omega), Function.update_same]
          obtain ⟨v, hv⟩ := nanFree_rd h w0.x (j + p * (q + 1)) hx0 (by
            have := col_inside p (q + 1) (m + 1) (by omega)
            omega)
          rw [hv]
          show Dbl.num (v * β (q + 1) * (|b| / b)) = Dbl.num (v * (β (q + 1) * (|b| / b)))
          rw [mul_assoc]
        · rw [hmiss _ (col_outside p j (q + 1) q1 hj hqq), r.colV j q1 hj hq1,
            Function.update_noteq hqq]
      · intro q1 hq1
        show rd h (wr w.s (q + 1) _) q1 = _
        by_cases hqq : q1 = q + 1
        · rw [hqq, rd_wr_eq h _ _ _ hqs, r.diag (q + 1) (by omega), Function.update_same]
          obtain ⟨a0, ha0⟩ := nanFree_rd h w0.s (q + 1) hs0 (by omega)
          rw [ha0]
          show Dbl.num (a0 * (α (q + 1) * β (q + 1)) * (|b| / b))
            = Dbl.num (a0 * (α (q + 1) * (β (q + 1) * (|b| / b))))
          congr 1
          ring
        · rw [rd_wr_ne h _ _ _ _ (Ne.symm hqq), r.diag q1 hq1, Function.update_noteq hqq]
      · intro q1 hq1
        show rd h (wr w.e q (Dbl.num |b|)) q1 = _
        by_cases hqq : q1 = q
        · rw [hqq, rd_wr_eq h _ _ _ hqe, Function.update_same, hb0]
          show Dbl.num |b| = Dbl.num (b0 * (α q * (β (q + 1) * (|b| / b))))
          have e1 : b0 * (α q * (β (q + 1) * (|b| / b)))
              = (b0 * (α q * β (q + 1))) * (|b| / b) := by ring
          rw [e1, ← hb_def, hmul]
        · rw [rd_wr_ne h _ _ _ _ (Ne.symm hqq), r.super q1 hq1,
            Function.update_noteq (by omega)]
      · intro _
        show Dbl.le 0 (rd h (wr w.e q (Dbl.num |b|)) q) = true
        rw [rd_wr_eq h _ _ _ hqe]
        exact Dbl.le_zero_abs b
      · intro k hk
        show rd h (wr w.s (q + 1) _) k = _
        rw [rd_wr_ne h _ _ _ _ (Ne.symm hk)]
      · intro k hk
        show rd h (wr w.e q _) k = _
        rw [rd_wr_ne h _ _ _ _ (Ne.symm hk)]
  · rw [xzsvdc_prescale_e_zero h p m q w (fun hc => absurd hc hqm)]
    exact ⟨β, r, fun hc => absurd hc hqm, fun _ _ => rfl, fun _ _ => rfl⟩

/-- The pre-scaling loop, after `k` steps: signs have only been moved, and the entries
of `s` and `e` below `k` are non-negative. -/
theorem prescale_loop_moves (h : Host) (n p m : Nat) (w0 : SvdScale)
    (hU0 : nanFree w0.U) (hx0 : nanFree w0.x) (hs0 : nanFree w0.s) (he0 : nanFree w0.e)
    (hUl : n * min n (m + 1) ≤ w0.U.length) (hxl : p * (m + 1) ≤ w0.x.length)
    (hsl : m < w0.s.length) (hel : m ≤ w0.e.length) (k : Nat) (hk : k ≤ m + 1) :
    ∃ α β, SvdSignsMoved h n p m w0 (forUp 0 k (xzsvdc_prescale h n p m) w0) α β ∧
      (∀ q, q < k → Dbl.le 0 (rd h (forUp 0 k (xzsvdc_prescale h n p m) w0).s q) = true) ∧
      (∀ q, q < k → q < m →
        Dbl.le 0 (rd h (forUp 0 k (xzsvdc_prescale h n p m) w0).e q) = true) := by
  induction k with
  | zero =>
    refine ⟨fun _ => 1, fun _ => 1, ⟨fun _ => Or.inl rfl, fun _ => Or.inl rfl, rfl, rfl, rfl,
      rfl, ?_, ?_, ?_, ?_⟩, fun q hq => absurd hq (Nat.not_lt_zero q),
      fun q hq => absurd hq (Nat.not_lt_zero q)⟩
    · intro i q hi hqn hqm
      obtain ⟨u, hu⟩ := nanFree_rd h w0.U (i + n * q) hU0 (by
        have := col_inside n q (min n (m + 1)) (by omega)
        omega)
      show rd h w0.U (i + n * q) = _
      rw [hu, Dbl.mul_num, mul_one]
    · intro j q hj hqm
      obtain ⟨v, hv⟩ := nanFree_rd h w0.x (j + p * q) hx0 (by
        have := col_inside p q (m + 1) (by omega)
        omega)
      show rd h w0.x (j + p * q) = _
      rw [hv, Dbl.mul_num, mul_one]
    · intro q hq
      obtain ⟨a, ha⟩ := nanFree_rd h w0.s q hs0 (by omega)
      show rd h w0.s q = _
      rw [ha, Dbl.mul_num, mul_one, mul_one]
    · intro q hq
      obtain ⟨b, hb⟩ := nanFree_rd h w0.e q he0 (by omega)
      show rd h w0.e q = _
      rw [hb, Dbl.mul_num, mul_one, mul_one]
  | succ k ih =>
    obtain ⟨α, β, r, hsn, hen⟩ := ih (by omega)
    rw [forUp_succ, Nat.zero_add]
    obtain ⟨α1, r1, hnn, fs1, fe1⟩ := prescale_s_moves h n p m k w0 _ α β (by omega)
      hU0 hs0 he0 hUl hsl hel r
    obtain ⟨β1, r2, hne, fs2, fe2⟩ := prescale_e_moves h n p m k w0 _ α1 β hx0 hs0 he0
      hxl hsl hel r1
    refine ⟨α1, β1, ⟨r2.alpha, r2.beta, r2.lenU, r2.lenx, r2.lens, r2.lene, r2.colU, r2.colV,
      r2.diag, r2.super⟩, ?_, ?_⟩
    · intro q hq
      show Dbl.le 0 (rd h (xzsvdc_prescale_e h p m k (xzsvdc_prescale_s h n m k _)).s q) = true
      rw [fs2 q (by omega)]
      rcases Nat.lt_succ_iff_lt_or_eq.mp hq with hlt | heq
      · rw [fs1 q (by omega)]
        exact hsn q hlt
      · rw [heq]; exact hnn
    · intro q hq hqm
      show Dbl.le 0 (rd h (xzsvdc_prescale_e h p m k (xzsvdc_prescale_s h n m k _)).e q) = true
      rcases Nat.lt_succ_iff_lt_or_eq.mp hq with hlt | heq
      · rw [fe2 q (by omega), fe1 q (by omega)]
        exact hen q hlt hqm
      · rw [heq]; exact hne (by omega)

/-- Moving signs leaves every term of the product `U * B * V^T` unchanged. -/
theorem signsMoved_terms (h : Host) (n p m : Nat) (w0 w : SvdScale) (α β : Nat → ℚ)
    (hmn : m ≤ n)
    (hU0 : nanFree w0.U) (hx0 : nanFree w0.x) (hs0 : nanFree w0.s) (he0 : nanFree w0.e)
    (hUl : n * min n (m + 1) ≤ w0.U.length) (hxl : p * (m + 1) ≤ w0.x.length)
    (hsl : m < w0.s.length) (hel : m ≤ w0.e.length)
    (r : SvdSignsMoved h n p m w0 w α β) (i j : Nat) (hi : i < n) (hj : j < p) :
    (∀ q, q ≤ m → q < n →
      rd h w.U (i + n * q) * rd h w.s q * rd h w.x (j + p * q)
        = rd h w0.U (i + n * q) * rd h w0.s q * rd h w0.x (j + p * q)) ∧
    (∀ q, q < m →
      rd h w.U (i + n * q) * rd h w.e q * rd h w.x (j + p * (q + 1))
        = rd h w0.U (i + n * q) * rd h w0.e q * rd h w0.x (j + p * (q + 1))) := by
  constructor
  · intro q hqm hqn
    obtain ⟨u, hu⟩ := nanFree_rd h w0.U (i + n * q) hU0 (by
      have := col_inside n q (min n (m + 1)) (by omega)
      omega)
    obtain ⟨v, hv⟩ := nanFree_rd h w0.x (j + p * q) hx0 (by
      have := col_inside p q (m + 1) (by omega)
      omega)
    obtain ⟨a, ha⟩ := nanFree_rd h w0.s q hs0 (by omega)
    rw [r.colU i q hi hqn hqm, r.diag q hqm, r.colV j q hj hqm, hu, hv, ha]
    show Dbl.num (u * α q * (a * (α q * β q)) * (v * β q)) = Dbl.num (u * a * v)
    congr 1
    rcases r.alpha q with h1 | h1 <;> rcases r.beta q with h2 | h2 <;> rw [h1, h2] <;> ring
  · intro q hqm
    obtain ⟨u, hu⟩ := nanFree_rd h w0.U (i + n * q) hU0 (by
      have := col_inside n q (min n (m + 1)) (by omega)
      omega)
    obtain ⟨v, hv⟩ := nanFree_rd h w0.x (j + p * (q + 1)) hx0 (by
      have := col_inside p (q + 1) (m + 1) (by omega)
      omega)
    obtain ⟨b, hb⟩ := nanFree_rd h w0.e q he0 (by omega)
    rw [r.colU i q hi (by omega) (by omega), r.super q hqm, r.colV j (q + 1) hj (by omega),
      hu, hv, hb]
    show Dbl.num (u * α q * (b * (α q * β (q + 1))) * (v * β (q + 1))) = Dbl.num (u * b * v)
    congr 1
    rcases r.alpha q with h1 | h1 <;> rcases r.beta (q + 1) with h2 | h2 <;>
      rw [h1, h2] <;> ring

/-! ## The singular values during the diagonalization loop -/

theorem ite_snd_prop {α : Type} (c : Prop) [Decidable c] (a : Nat) (x : α) (t : Nat × α)
    (P : α → Prop) (hx : P x) (ht : P t.2) : P (if c then (a, x) else t).2 := by
  split
  · exact hx
  · exact ht

theorem xzsvdc_scanS_frame (h : Host) (m ii : Nat) (e : List Dbl) (d : Nat) (s : List Dbl) :
    (xzsvdc_scanS h m ii e d s).2.length = s.length ∧
    ∀ k, ii + d ≤ k → rd h (xzsvdc_scanS h m ii e d s).2 k = rd h s k := by
  induction d with
  | zero => exact ⟨rfl, fun _ _ => rfl⟩
  | succ j ih =>
    unfold xzsvdc_scanS
    dsimp only
    exact ite_snd_prop _ _ _ _
      (fun t => t.length = s.length ∧ ∀ k, ii + (j + 1) ≤ k → rd h t k = rd h s k)
      ⟨length_wr _ _ _, fun k hk => rd_wr_ne h s (ii + j + 1 - 1) k 0 (by omega)⟩
      ⟨ih.1, fun k hk => ih.2 k (by omega)⟩

theorem xzsvdc_case1_s (h : Host) (p m ii : Nat) (w : SvdIter) :
    (xzsvdc_case1 h p m ii w).s.length = w.s.length ∧
    ∀ k, m ≤ k → rd h (xzsvdc_case1 h p m ii w).s k = rd h w.s k := by
  unfold xzsvdc_case1
  dsimp only
  exact forDown_preserves_range
    (fun (c : SvdChase) => c.s.length = w.s.length ∧ ∀ k, m ≤ k → rd h c.s k = rd h w.s k)
    _ _ _ _ ⟨rfl, fun _ _ => rfl⟩
    (fun qjj c hlo hhi hc => by
      dsimp only
      split
      · refine ⟨by rw [length_wr]; exact hc.1, fun k hk => ?_⟩
        show rd h (wr c.s (qjj - 1) _) k = _
        rw [rd_wr_ne h _ _ _ _ (by omega)]
        exact hc.2 k hk
      · refine ⟨by rw [length_wr]; exact hc.1, fun k hk => ?_⟩
        show rd h (wr c.s (qjj - 1) _) k = _
        rw [rd_wr_ne h _ _ _ _ (by omega)]
        exact hc.2 k hk)

theorem xzsvdc_case2_s (h : Host) (n m ii : Nat) (w : SvdIter) :
    (xzsvdc_case2 h n m ii w).s.length = w.s.length ∧
    ∀ k, m < k → rd h (xzsvdc_case2 h n m ii w).s k = rd h w.s k := by
  unfold xzsvdc_case2
  dsimp only
  exact forUp_preserves_range
    (fun (c : SvdChase) => c.s.length = w.s.length ∧ ∀ k, m < k → rd h c.s k = rd h w.s k)
    _ _ _ _ ⟨rfl, fun _ _ => rfl⟩
    (fun qjj c hlo hhi hc => by
      dsimp only
      refine ⟨by rw [length_wr]; exact hc.1, fun k hk => ?_⟩
      rw [rd_wr_ne h _ _ _ _ (by omega)]
      exact hc.2 k hk)

theorem xzsvdc_case3_s (h : Host) (n p m ii : Nat) (w : SvdIter) :
    (xzsvdc_case3 h n p m ii w).s.length = w.s.length ∧
    ∀ k, m < k → rd h (xzsvdc_case3 h n p m ii w).s k = rd h w.s k := by
  unfold xzsvdc_case3
  dsimp only
  exact forUp_preserves_range
    (fun (c : SvdChase) => c.s.length = w.s.length ∧ ∀ k, m < k → rd h c.s k = rd h w.s k)
    _ _ _ _ ⟨rfl, fun _ _ => rfl⟩
    (fun qjj c hlo hhi hc => by
      dsimp only
      refine ⟨by simp only [length_wr]; exact hc.1, fun k hk => ?_⟩
      rw [rd_wr_ne h _ _ _ _ (by omega), rd_wr_ne h _ _ _ _ (by omega),
        rd_wr_ne h _ _ _ _ (by omega), rd_wr_ne h _ _ _ _ (by omega)]
      exact hc.2 k hk)

theorem Dbl.le_true (a b : Dbl) (hab : Dbl.le a b = true) :
    ∃ x y, a = Dbl.num x ∧ b = Dbl.num y ∧ x ≤ y := by
  cases a with
  | nan => exact absurd hab (by simp [Dbl.le])
  | num x =>
    cases b with
    | nan => exact absurd hab (by simp [Dbl.le])
    | num y => exact ⟨x, y, rfl, rfl, of_decide_eq_true hab⟩

theorem Dbl.lt_true (a b : Dbl) (hab : Dbl.lt a b = true) :
    ∃ x y, a = Dbl.num x ∧ b = Dbl.num y ∧ x < y := by
  cases a with
  | nan => exact absurd hab (by simp [Dbl.lt])
  | num x =>
    cases b with
    | nan => exact absurd hab (by simp [Dbl.lt])
    | num y => exact ⟨x, y, rfl, rfl, of_decide_eq_true hab⟩

theorem Dbl.lt_le (a b : Dbl) (hab : Dbl.lt a b = true) : Dbl.le a b = true := by
  obtain ⟨x, y, hx, hy, hxy⟩ := Dbl.lt_true a b hab
  rw [hx, hy, Dbl.le_num]
  exact decide_eq_true hxy.le

theorem Dbl.nonneg_number (a : Dbl) (ha : Dbl.le 0 a = true) : ∃ x, a = Dbl.num x ∧ 0 ≤ x := by
  obtain ⟨z, x, hz, hx, hzx⟩ := Dbl.le_true 0 a ha
  rw [Dbl.zero_lit] at hz
  injection hz with hz
  exact ⟨x, hx, by rw [hz]; exact hzx⟩

theorem Dbl.not_lt_le (a b : Dbl) (ha : a.isNaN = false) (hb : b.isNaN = false)
    (hab : ¬ Dbl.lt a b = true) : Dbl.le b a = true := by
  obtain ⟨x, hx⟩ := (Dbl.isNaN_eq_false a).mp ha
  obtain ⟨y, hy⟩ := (Dbl.isNaN_eq_false b).mp hb
  rw [hx, hy, Dbl.lt_num] at hab
  rw [hx, hy, Dbl.le_num]
  have : ¬ x < y := fun hc => hab (decide_eq_true hc)
  exact decide_eq_true (not_lt.mp this)

theorem Dbl.isNaN_of_nonneg (a : Dbl) (ha : Dbl.le 0 a = true) : a.isNaN = false := by
  obtain ⟨x, hx, _⟩ := Dbl.nonneg_number a ha
  rw [hx]; rfl

/-- The insertion loop of case 4 keeps the length of `s` and touches only
`s[ii .. ii + d]`. -/
theorem xzsvdc_sort_frame (h : Host) (n p : Nat) (d ii : Nat) (w : SvdIter) :
    (xzsvdc_sort h n p d ii w).s.length = w.s.length ∧
    ∀ k, (k < ii ∨ ii + d < k) → rd h (xzsvdc_sort h n p d ii w).s k = rd h w.s k := by
  induction d generalizing ii w with
  | zero => exact ⟨rfl, fun _ _ => rfl⟩
  | succ j ih =>
    unfold xzsvdc_sort
    dsimp only
    split
    · obtain ⟨i1, i2⟩ := ih (ii + 1) _
      refine ⟨by rw [i1]; simp only [length_wr], fun k hk => ?_⟩
      rw [i2 k (by omega)]
      show rd h (wr (wr w.s ii _) (ii + 1) _) k = _
      rw [rd_wr_ne h _ _ _ _ (by omega), rd_wr_ne h _ _ _ _ (by omega)]
    · exact ⟨rfl, fun _ _ => rfl⟩

/-- One exchange of the insertion loop. -/
theorem swap_adjacent (h : Host) (s : List Dbl) (ii : Nat) (hlen : ii + 1 < s.length) :
    rd h (wr (wr s ii (rd h s (ii + 1))) (ii + 1) (rd h s ii)) ii = rd h s (ii + 1) ∧
    rd h (wr (wr s ii (rd h s (ii + 1))) (ii + 1) (rd h s ii)) (ii + 1) = rd h s ii ∧
    ∀ k, k ≠ ii → k ≠ ii + 1 →
      rd h (wr (wr s ii (rd h s (ii + 1))) (ii + 1) (rd h s ii)) k = rd h s k := by
  refine ⟨?_, ?_, ?_⟩
  · rw [rd_wr_ne h _ _ _ _ (by omega), rd_wr_eq h _ _ _ (by omega)]
  · rw [rd_wr_eq h _ _ _ (by rw [length_wr]; exact hlen)]
  · intro k h1 h2
    rw [rd_wr_ne h _ _ _ _ (Ne.symm h2), rd_wr_ne h _ _ _ _ (Ne.symm h1)]

/-- The insertion loop of case 4 puts a non-negative `s[ii]` into its place among the
sorted values `s[ii + 1 .. ii + d]`. -/
theorem xzsvdc_sort_sorted (h : Host) (n p : Nat) (d ii : Nat) (w : SvdIter)
    (hlen : ii + d < w.s.length)
    (hnn : ∀ k, ii ≤ k → k ≤ ii + d → Dbl.le 0 (rd h w.s k) = true)
    (hso : ∀ k, ii + 1 ≤ k → k < ii + d → Dbl.le (rd h w.s (k + 1)) (rd h w.s k) = true) :
    (∀ k, ii ≤ k → k ≤ ii + d → Dbl.le 0 (rd h (xzsvdc_sort h n p d ii w).s k) = true) ∧
    (∀ k, ii ≤ k → k < ii + d →
      Dbl.le (rd h (xzsvdc_sort h n p d ii w).s (k + 1))
        (rd h (xzsvdc_sort h n p d ii w).s k) = true) ∧
    (rd h (xzsvdc_sort h n p d ii w).s ii = rd h w.s ii ∨
      (0 < d ∧ rd h (xzsvdc_sort h n p d ii w).s ii = rd h w.s (ii + 1))) := by
  induction d generalizing ii w with
  | zero =>
    refine ⟨fun k h1 h2 => hnn k h1 h2, fun k h1 h2 => ?_, Or.inl rfl⟩
    omega
  | succ j ih =>
    unfold xzsvdc_sort
    dsimp only
    by_cases hlt : Dbl.lt (rd h w.s ii) (rd h w.s (ii + 1)) = true
    · rw [if_pos hlt]
      obtain ⟨sw0, sw1, swo⟩ := swap_adjacent h w.s ii (by omega)
      obtain ⟨_, fr⟩ := xzsvdc_sort_frame h n p j (ii + 1)
        { w with
          U := if ii + 1 < n then xswap h n w.U (n * ii + 1) (n * (ii + 1) + 1) else w.U
          x := if ii + 1 < p then xswap h p w.x (p * ii + 1) (p * (ii + 1) + 1) else w.x
          s := wr (wr w.s ii (rd h w.s (ii + 1))) (ii + 1) (rd h w.s ii) }
      obtain ⟨r1, r2, r3⟩ := ih (ii + 1)
        { w with
          U := if ii + 1 < n then xswap h n w.U (n * ii + 1) (n * (ii + 1) + 1) else w.U
          x := if ii + 1 < p then xswap h p w.x (p * ii + 1) (p * (ii + 1) + 1) else w.x
          s := wr (wr w.s ii (rd h w.s (ii + 1))) (ii + 1) (rd h w.s ii) }
        (by show ii + 1 + j < (wr (wr w.s ii _) (ii + 1) _).length
            simp only [length_wr]; omega)
        (by
          intro k h1 h2
          show Dbl.le 0 (rd h (wr (wr w.s ii _) (ii + 1) _) k) = true
          by_cases hk : k = ii + 1
          · rw [hk, sw1]; exact hnn ii (Nat.le_refl _) (by omega)
          · rw [swo k (by omega) hk]; exact hnn k (by omega) (by omega))
        (by
          intro k h1 h2
          show Dbl.le (rd h (wr (wr w.s ii _) (ii + 1) _) (k + 1))
            (rd h (wr (wr w.s ii _) (ii + 1) _) k) = true
          rw [swo (k + 1) (by omega) (by omega), swo k (by omega) (by omega)]
          exact hso k (by omega) (by omega))
      have hii := fr ii (Or.inl (Nat.lt_succ_self ii))
      have hii' : rd h (xzsvdc_sort h n p j (ii + 1)
          { w with
            U := if ii + 1 < n then xswap h n w.U (n * ii + 1) (n * (ii + 1) + 1) else w.U
            x := if ii + 1 < p then xswap h p w.x (p * ii + 1) (p * (ii + 1) + 1) else w.x
            s := wr (wr w.s ii (rd h w.s (ii + 1))) (ii + 1) (rd h w.s ii) }).s ii
          = rd h w.s (ii + 1) := hii.trans sw0
      refine ⟨?_, ?_, Or.inr ⟨Nat.succ_pos j, hii'⟩⟩
      · intro k h1 h2
        by_cases hk : k = ii
        · rw [hk, hii']; exact hnn (ii + 1) (by omega) (by omega)
        · exact r1 k (by omega) (by omega)
      · intro k h1 h2
        by_cases hk : k = ii
        · rw [hk, hii']
          rcases r3 with h3 | ⟨hj, h3⟩
          · rw [h3]
            show Dbl.le (rd h (wr (wr w.s ii _) (ii + 1) _) (ii + 1)) _ = true
            rw [sw1]
            exact Dbl.lt_le _ _ hlt
          · rw [h3]
            show Dbl.le (rd h (wr (wr w.s ii _) (ii + 1) _) (ii + 1 + 1)) _ = true
            rw [swo (ii + 1 + 1) (by omega) (by omega)]
            exact hso (ii + 1) (Nat.le_refl _) (by omega)
        · exact r2 k (by omega) (by omega)
    · rw [if_neg hlt]
      refine ⟨fun k h1 h2 => hnn k h1 h2, fun k h1 h2 => ?_, Or.inl rfl⟩
      by_cases hk : k = ii
      · rw [hk]
        exact Dbl.not_lt_le _ _
          (Dbl.isNaN_of_nonneg _ (hnn ii (Nat.le_refl _) (by omega)))
          (Dbl.isNaN_of_nonneg _ (hnn (ii + 1) (by omega) (by omega))) hlt
      · exact hso k (by omega) (by omega)

/-- The insertion loop of case 4 keeps a NaN among `s[ii .. ii + d]`: if none is left
after the loop, there was none before. -/
theorem xzsvdc_sort_numbers (h : Host) (n p : Nat) (d ii : Nat) (w : SvdIter)
    (hlen : ii + d < w.s.length)
    (hnum : ∀ k, ii ≤ k → k ≤ ii + d → (rd h (xzsvdc_sort h n p d ii w).s k).isNaN = false) :
    ∀ k, ii ≤ k → k ≤ ii + d → (rd h w.s k).isNaN = false := by
  induction d generalizing ii w with
  | zero => exact hnum
  | succ j ih =>
    unfold xzsvdc_sort at hnum
    dsimp only at hnum
    by_cases hlt : Dbl.lt (rd h w.s ii) (rd h w.s (ii + 1)) = true
    · rw [if_pos hlt] at hnum
      obtain ⟨x, y, hx, hy, _⟩ := Dbl.lt_true _ _ hlt
      obtain ⟨sw0, sw1, swo⟩ := swap_adjacent h w.s ii (by omega)
      have hrec := ih (ii + 1)
        { w with
          U := if ii + 1 < n then xswap h n w.U (n * ii + 1) (n * (ii + 1) + 1) else w.U
          x := if ii + 1 < p then xswap h p w.x (p * ii + 1) (p * (ii + 1) + 1) else w.x
          s := wr (wr w.s ii (rd h w.s (ii + 1))) (ii + 1) (rd h w.s ii) }
        (by show ii + 1 + j < (wr (wr w.s ii _) (ii + 1) _).length
            simp only [length_wr]; omega)
        (fun k h1 h2 => hnum k (by omega) (by omega))
      intro k h1 h2
      by_cases hk0 : k = ii
      · rw [hk0, hx]; rfl
      · by_cases hk1 : k = ii + 1
        · rw [hk1, hy]; rfl
        · have := hrec k (by omega) (by omega)
          have hsw : rd h (wr (wr w.s ii (rd h w.s (ii + 1))) (ii + 1) (rd h w.s ii)) k
              = rd h w.s k := swo k hk0 hk1
          rw [← hsw]
          exact this
    · rw [if_neg hlt] at hnum
      exact hnum

/-- The classification of a pass leaves the deflated values alone, and case 4 is
selected with the index `m` and the values unchanged. -/
theorem xzsvdc_classify_s (h : Host) (snorm : Dbl) (w : SvdIter) (hm : 0 < w.m1) :
    (xzsvdc_classify h snorm w).s.length = w.s.length ∧
    (∀ k, w.m1 ≤ k → rd h (xzsvdc_classify h snorm w).s k = rd h w.s k) ∧
    ((xzsvdc_classify h snorm w).ns = 4 →
      (xzsvdc_classify h snorm w).s = w.s ∧ (xzsvdc_classify h snorm w).ii = w.m1 - 1) := by
  have hle : (xzsvdc_scanE h w.s w.qq snorm (w.m1 - 1) w.e).1 ≤ w.m1 - 1 :=
    xzsvdc_scanE_le h w.s w.qq snorm _ w.e
  unfold xzsvdc_classify
  dsimp only
  by_cases hsp : (xzsvdc_scanE h w.s w.qq snorm (w.m1 - 1) w.e).1 = w.m1 - 1
  · rw [if_pos hsp]
    exact ⟨rfl, fun _ _ => rfl, fun _ => ⟨rfl, hsp⟩⟩
  · rw [if_neg hsp]
    obtain ⟨f1, f2⟩ := xzsvdc_scanS_frame h (w.m1 - 1)
      (xzsvdc_scanE h w.s w.qq snorm (w.m1 - 1) w.e).1
      (xzsvdc_scanE h w.s w.qq snorm (w.m1 - 1) w.e).2
      (w.m1 - 1 + 1 - (xzsvdc_scanE h w.s w.qq snorm (w.m1 - 1) w.e).1) w.s
    have f2' : ∀ k, w.m1 ≤ k → rd h (xzsvdc_scanS h (w.m1 - 1)
        (xzsvdc_scanE h w.s w.qq snorm (w.m1 - 1) w.e).1
        (xzsvdc_scanE h w.s w.qq snorm (w.m1 - 1) w.e).2
        (w.m1 - 1 + 1 - (xzsvdc_scanE h w.s w.qq snorm (w.m1 - 1) w.e).1) w.s).2 k
          = rd h w.s k := fun k hk => f2 k (by omega)
    split
    · exact ⟨f1, f2', fun hc => by dsimp only at hc; omega⟩
    · split
      · exact ⟨f1, f2', fun hc => by dsimp only at hc; omega⟩
      · exact ⟨f1, f2', fun hc => by dsimp only at hc; omega⟩

/-- The sign step of case 4 on the values. -/
theorem xzsvdc_flip_s (h : Host) (p ii : Nat) (w : SvdIter) (hii : ii < w.s.length) :
    (xzsvdc_flip h p ii w).s.length = w.s.length ∧
    (∀ k, k ≠ ii → rd h (xzsvdc_flip h p ii w).s k = rd h w.s k) ∧
    ((rd h (xzsvdc_flip h p ii w).s ii).isNaN = (rd h w.s ii).isNaN) ∧
    ((rd h w.s ii).isNaN = false → Dbl.le 0 (rd h (xzsvdc_flip h p ii w).s ii) = true) ∧
    (xzsvdc_flip h p ii w).m1 = w.m1 := by
  unfold xzsvdc_flip
  by_cases hneg : Dbl.lt (rd h w.s ii) 0 = true
  · rw [if_pos hneg]
    dsimp only
    obtain ⟨x, z, hx, hz, hxz⟩ := Dbl.lt_true _ _ hneg
    rw [Dbl.zero_lit] at hz
    injection hz with hz
    refine ⟨length_wr _ _ _, fun k hk => rd_wr_ne h _ _ _ _ (Ne.symm hk), ?_, fun _ => ?_, rfl⟩
    · rw [rd_wr_eq h _ _ _ hii, Dbl.isNaN_neg]
    · rw [rd_wr_eq h _ _ _ hii, hx, Dbl.neg_num, Dbl.zero_lit, Dbl.le_num]
      have : x < 0 := by rw [← hz] at hxz; exact_mod_cast hxz
      exact decide_eq_true (by linarith)
  · rw [if_neg hneg]
    refine ⟨rfl, fun _ _ => rfl, rfl, fun hnum => ?_, rfl⟩
    have hz : (0 : Dbl).isNaN = false := rfl
    exact Dbl.not_lt_le _ _ hnum hz hneg

/-- A pass that is not case 4 leaves `m` and the deflated values alone. -/
theorem xzsvdc_pass_tail (h : Host) (n p nmq : Nat) (snorm : Dbl) (w : SvdIter)
    (hm : 0 < w.m1) (hns : (xzsvdc_classify h snorm w).ns ≠ 4) :
    (xzsvdc_pass h n p nmq snorm w).m1 = w.m1 ∧
    (xzsvdc_pass h n p nmq snorm w).s.length = w.s.length ∧
    ∀ k, w.m1 ≤ k → rd h (xzsvdc_pass h n p nmq snorm w).s k = rd h w.s k := by
  obtain ⟨c1, c2, _⟩ := xzsvdc_classify_s h snorm w hm
  unfold xzsvdc_pass
  dsimp only
  rcases xzsvdc_classify_ns h snorm w with h1 | h2 | h3 | h4
  · rw [if_pos h1]
    obtain ⟨l, f⟩ := xzsvdc_case1_s h p (w.m1 - 1) (xzsvdc_classify h snorm w).ii
      { w with s := (xzsvdc_classify h snorm w).s, e := (xzsvdc_classify h snorm w).e }
    exact ⟨rfl, l.trans c1, fun k hk => (f k (by omega)).trans (c2 k hk)⟩
  · rw [if_neg (by rw [h2]; decide), if_pos h2]
    obtain ⟨l, f⟩ := xzsvdc_case2_s h n (w.m1 - 1) (xzsvdc_classify h snorm w).ii
      { w with s := (xzsvdc_classify h snorm w).s, e := (xzsvdc_classify h snorm w).e }
    exact ⟨rfl, l.trans c1, fun k hk => (f k (by omega)).trans (c2 k hk)⟩
  · rw [if_neg (by rw [h3]; decide), if_neg (by rw [h3]; decide), if_pos h3]
    obtain ⟨l, f⟩ := xzsvdc_case3_s h n p (w.m1 - 1) (xzsvdc_classify h snorm w).ii
      { w with s := (xzsvdc_classify h snorm w).s, e := (xzsvdc_classify h snorm w).e }
    exact ⟨rfl, l.trans c1, fun k hk => (f k (by omega)).trans (c2 k hk)⟩
  · exact absurd h4 hns

/-- A pass of case 4 is the insertion of the flipped `s[m]`. -/
theorem xzsvdc_pass_case4 (h : Host) (n p nmq : Nat) (snorm : Dbl) (w : SvdIter)
    (hm : 0 < w.m1) (hns : (xzsvdc_classify h snorm w).ns = 4) :
    (xzsvdc_pass h n p nmq snorm w).m1 = w.m1 - 1 ∧
    (xzsvdc_pass h n p nmq snorm w).s
      = (xzsvdc_sort h n p (nmq - (w.m1 - 1)) (w.m1 - 1)
          (xzsvdc_flip h p (w.m1 - 1)
            { w with e := (xzsvdc_classify h snorm w).e })).s := by
  obtain ⟨_, _, c3⟩ := xzsvdc_classify_s h snorm w hm
  obtain ⟨cs, ci⟩ := c3 hns
  unfold xzsvdc_pass
  dsimp only
  rw [if_neg (by rw [hns]; decide), if_neg (by rw [hns]; decide),
    if_neg (by rw [hns]; decide), xzsvdc_case4_eq_flip, ci, cs]
  exact ⟨rfl, rfl⟩

/-- Every pass keeps the deflated values sorted, provided the value that case 4
isolates is a number. -/
theorem xzsvdc_pass_tailSorted (h : Host) (n p nmq : Nat) (snorm : Dbl) (w : SvdIter)
    (hm : 0 < w.m1) (hmn : w.m1 ≤ nmq + 1) (hlen : nmq < w.s.length)
    (ht : xzsvdc_tailSorted h nmq w)
    (hnum : (xzsvdc_classify h snorm w).ns = 4 → (rd h w.s (w.m1 - 1)).isNaN = false) :
    xzsvdc_tailSorted h nmq (xzsvdc_pass h n p nmq snorm w) := by
  by_cases hns : (xzsvdc_classify h snorm w).ns = 4
  · obtain ⟨hm1, hs⟩ := xzsvdc_pass_case4 h n p nmq snorm w hm hns
    obtain ⟨fl, ff, _, fn, _⟩ := xzsvdc_flip_s h p (w.m1 - 1)
      { w with e := (xzsvdc_classify h snorm w).e } (by show w.m1 - 1 < w.s.length; omega)
    have hd : w.m1 - 1 + (nmq - (w.m1 - 1)) = nmq := by omega
    obtain ⟨r1, r2, _⟩ := xzsvdc_sort_sorted h n p (nmq - (w.m1 - 1)) (w.m1 - 1)
      (xzsvdc_flip h p (w.m1 - 1) { w with e := (xzsvdc_classify h snorm w).e })
      (by rw [fl, hd]; exact hlen)
      (by
        intro k h1 h2
        by_cases hk : k = w.m1 - 1
        · rw [hk]; exact fn (hnum hns)
        · rw [ff k hk]; exact ht.1 k (by omega) (by omega))
      (by
        intro k h1 h2
        rw [ff (k + 1) (by omega), ff k (by omega)]
        exact ht.2 k (by omega) (by omega))
    unfold xzsvdc_tailSorted
    rw [hm1, hs]
    exact ⟨fun k h1 h2 => r1 k h2 (by omega), fun k h1 h2 => r2 k h2 (by omega)⟩
  · obtain ⟨hm1, _, hf⟩ := xzsvdc_pass_tail h n p nmq snorm w hm hns
    unfold xzsvdc_tailSorted
    rw [hm1]
    refine ⟨fun k h1 h2 => ?_, fun k h1 h2 => ?_⟩
    · rw [hf k h2]; exact ht.1 k h1 h2
    · rw [hf k h2, hf (k + 1) (by omega)]; exact ht.2 k h1 h2

/-- A NaN among the deflated values stays: if the deflated values are numbers after a
pass, they were numbers before it, and so was the value case 4 isolated. -/
theorem xzsvdc_pass_tailNumbers (h : Host) (n p nmq : Nat) (snorm : Dbl) (w : SvdIter)
    (hm : 0 < w.m1) (hmn : w.m1 ≤ nmq + 1) (hlen : nmq < w.s.length)
    (hnum : xzsvdc_tailNumbers h nmq (xzsvdc_pass h n p nmq snorm w)) :
    xzsvdc_tailNumbers h nmq w ∧
    ((xzsvdc_classify h snorm w).ns = 4 → (rd h w.s (w.m1 - 1)).isNaN = false) := by
  by_cases hns : (xzsvdc_classify h snorm w).ns = 4
  · obtain ⟨hm1, hs⟩ := xzsvdc_pass_case4 h n p nmq snorm w hm hns
    obtain ⟨fl, ff, fnan, _, _⟩ := xzsvdc_flip_s h p (w.m1 - 1)
      { w with e := (xzsvdc_classify h snorm w).e } (by show w.m1 - 1 < w.s.length; omega)
    have hd : w.m1 - 1 + (nmq - (w.m1 - 1)) = nmq := by omega
    unfold xzsvdc_tailNumbers at hnum
    rw [hm1, hs] at hnum
    have hback := xzsvdc_sort_numbers h n p (nmq - (w.m1 - 1)) (w.m1 - 1)
      (xzsvdc_flip h p (w.m1 - 1) { w with e := (xzsvdc_classify h snorm w).e })
      (by rw [fl, hd]; exact hlen)
      (fun k h1 h2 => hnum k (by omega) h1)
    have hmnum : (rd h w.s (w.m1 - 1)).isNaN = false := by
      have := hback (w.m1 - 1) (Nat.le_refl _) (by omega)
      rw [fnan] at this
      exact this
    refine ⟨fun k h1 h2 => ?_, fun _ => hmnum⟩
    have := hback k (by omega) (by omega)
    rw [ff k (by omega)] at this
    exact this
  · obtain ⟨hm1, _, hf⟩ := xzsvdc_pass_tail h n p nmq snorm w hm hns
    unfold xzsvdc_tailNumbers at hnum ⊢
    rw [hm1] at hnum
    refine ⟨fun k h1 h2 => ?_, fun hc => absurd hc hns⟩
    rw [← hf k h2]
    exact hnum k h1 h2

/-- Every pass keeps the length of `s` and does not raise `m`. -/
theorem xzsvdc_pass_s_length (h : Host) (n p nmq : Nat) (snorm : Dbl) (w : SvdIter)
    (hm : 0 < w.m1) (hlen : w.m1 ≤ w.s.length) :
    (xzsvdc_pass h n p nmq snorm w).s.length = w.s.length ∧
    (xzsvdc_pass h n p nmq snorm w).m1 ≤ w.m1 := by
  by_cases hns : (xzsvdc_classify h snorm w).ns = 4
  · obtain ⟨hm1, hs⟩ := xzsvdc_pass_case4 h n p nmq snorm w hm hns
    obtain ⟨fl, _⟩ := xzsvdc_flip_s h p (w.m1 - 1)
      { w with e := (xzsvdc_classify h snorm w).e } (by show w.m1 - 1 < w.s.length; omega)
    rw [hm1, hs, (xzsvdc_sort_frame h n p _ _ _).1, fl]
    exact ⟨rfl, by omega⟩
  · obtain ⟨hm1, hl, _⟩ := xzsvdc_pass_tail h n p nmq snorm w hm hns
    exact ⟨hl, by omega⟩

/-- A NaN among the deflated values stays to the end of the loop. -/
theorem xzsvdc_loop_tailNumbers (h : Host) (n p nmq : Nat) (snorm : Dbl) (fuel : Nat)
    (w : SvdIter) (hmn : w.m1 ≤ nmq + 1) (hlen : nmq < w.s.length)
    (hnum : xzsvdc_tailNumbers h nmq (xzsvdc_loop h n p nmq snorm fuel w)) :
    xzsvdc_tailNumbers h nmq w := by
  induction fuel generalizing w with
  | zero => exact hnum
  | succ f ih =>
    unfold xzsvdc_loop at hnum
    by_cases hc : 0 < w.m1 ∧ w.qq < 75
    · rw [if_pos hc] at hnum
      obtain ⟨hl, hm⟩ := xzsvdc_pass_s_length h n p nmq snorm w hc.1 (by omega)
      have hp := ih (xzsvdc_pass h n p nmq snorm w) (by omega) (by rw [hl]; exact hlen) hnum
      exact (xzsvdc_pass_tailNumbers h n p nmq snorm w hc.1 hmn hlen hp).1
    · rw [if_neg hc] at hnum
      exact hnum

/-- The loop keeps the deflated values sorted when it ends with numbers. -/
theorem xzsvdc_loop_tailSorted (h : Host) (n p nmq : Nat) (snorm : Dbl) (fuel : Nat)
    (w : SvdIter) (hmn : w.m1 ≤ nmq + 1) (hlen : nmq < w.s.length)
    (ht : xzsvdc_tailSorted h nmq w)
    (hnum : xzsvdc_tailNumbers h nmq (xzsvdc_loop h n p nmq snorm fuel w)) :
    xzsvdc_tailSorted h nmq (xzsvdc_loop h n p nmq snorm fuel w) := by
  induction fuel generalizing w with
  | zero => exact ht
  | succ f ih =>
    unfold xzsvdc_loop at hnum ⊢
    by_cases hc : 0 < w.m1 ∧ w.qq < 75
    · rw [if_pos hc] at hnum ⊢
      obtain ⟨hl, hm⟩ := xzsvdc_pass_s_length h n p nmq snorm w hc.1 (by omega)
      have hp := xzsvdc_loop_tailNumbers h n p nmq snorm f (xzsvdc_pass h n p nmq snorm w)
        (by omega) (by rw [hl]; exact hlen) hnum
      have hiso := (xzsvdc_pass_tailNumbers h n p nmq snorm w hc.1 hmn hlen hp).2
      exact ih (xzsvdc_pass h n p nmq snorm w) (by omega) (by rw [hl]; exact hlen)
        (xzsvdc_pass_tailSorted h n p nmq snorm w hc.1 hmn hlen ht hiso) hnum
    · rw [if_neg hc]
      exact ht

/-! ## The columns of `U` the engine works on -/

/-- The rotation `xrot` leaves alone what lies outside its two segments. -/
theorem xrot_frame (h : Host) (n : Nat) (x : List Dbl) (ix0 iy0 : Nat) (c s : Dbl) (j : Nat)
    (hj : ∀ k, k < n → j ≠ ix0 + k - 1 ∧ j ≠ iy0 + k - 1) :
    rd h (xrot h n x ix0 iy0 c s) j = rd h x j := by
  unfold xrot
  split
  · rw [Int.toNat_ofNat]
    exact forUp_preserves_range (fun (t : List Dbl) => rd h t j = rd h x j) _ _ _ _ rfl
      (fun k t _ hk ht => by
        dsimp only
        rw [rd_wr_ne h _ _ _ _ (Ne.symm (hj k (by omega)).1),
          rd_wr_ne h _ _ _ _ (Ne.symm (hj k (by omega)).2)]
        exact ht)
  · rfl

/-- The exchange `xswap` leaves alone what lies outside its two segments. -/
theorem xswap_frame (h : Host) (n : Nat) (x : List Dbl) (ix0 iy0 : Nat) (j : Nat)
    (hj : ∀ k, k < n → j ≠ ix0 + k - 1 ∧ j ≠ iy0 + k - 1) :
    rd h (xswap h n x ix0 iy0) j = rd h x j := by
  unfold xswap
  rw [Int.toNat_ofNat]
  exact forUp_preserves_range (fun (t : List Dbl) => rd h t j = rd h x j) _ _ _ _ rfl
    (fun k t _ hk ht => by
      dsimp only
      rw [rd_wr_ne h _ _ _ _ (Ne.symm (hj k (by omega)).2),
        rd_wr_ne h _ _ _ _ (Ne.symm (hj k (by omega)).1)]
      exact ht)

/-- Columns `a` and `b` of an array with `n` rows lie below offset `n * n` when
`a, b < n`. -/
theorem cols_below (n a b j : Nat) (ha : a < n) (hb : b < n) (hj : n * n ≤ j) :
    ∀ k, k < n → j ≠ n * a + 1 + k - 1 ∧ j ≠ n * b + 1 + k - 1 := by
  intro k hk
  have h1 := col_inside n a n ha
  have h2 := col_inside n b n hb
  constructor <;> omega

/-- Case 2 with `m < n` works on columns of `U` below `n`. -/
theorem xzsvdc_case2_U_frame (h : Host) (n m ii : Nat) (w : SvdIter) (hm : m < n)
    (hii : ii ≤ n) (j : Nat) (hj : n * n ≤ j) :
    rd h (xzsvdc_case2 h n m ii w).U j = rd h w.U j := by
  unfold xzsvdc_case2
  dsimp only
  exact forUp_preserves_range (fun (c : SvdChase) => rd h c.U j = rd h w.U j) _ _ _ _ rfl
    (fun qjj c hlo hhi hc => by
      dsimp only
      rw [xrot_frame h n c.U _ _ _ _ j (cols_below n (qjj - 1) (ii - 1) j (by omega)
        (by omega) hj)]
      exact hc)

/-- Case 3 works on columns of `U` below `n`. -/
theorem xzsvdc_case3_U_frame (h : Host) (n p m ii : Nat) (w : SvdIter) (j : Nat)
    (hj : n * n ≤ j) :
    rd h (xzsvdc_case3 h n p m ii w).U j = rd h w.U j := by
  unfold xzsvdc_case3
  dsimp only
  exact forUp_preserves_range (fun (c : SvdChase) => rd h c.U j = rd h w.U j) _ _ _ _ rfl
    (fun qjj c hlo hhi hc => by
      show rd h (if qjj < n then _ else c.U) j = _
      split
      · rename_i hq
        rw [xrot_frame h n c.U _ _ _ _ j (cols_below n (qjj - 1) qjj j (by omega) hq hj)]
        exact hc
      · exact hc)

/-- The insertion loop of case 4 works on columns of `U` below `n`. -/
theorem xzsvdc_sort_U_frame (h : Host) (n p : Nat) (d ii : Nat) (w : SvdIter) (j : Nat)
    (hj : n * n ≤ j) :
    rd h (xzsvdc_sort h n p d ii w).U j = rd h w.U j := by
  induction d generalizing ii w with
  | zero => rfl
  | succ k ih =>
    unfold xzsvdc_sort
    dsimp only
    split
    · rw [ih]
      show rd h (if ii + 1 < n then _ else w.U) j = _
      split
      · rename_i hq
        exact xswap_frame h n w.U _ _ j (cols_below n ii (ii + 1) j (by omega) hq hj)
      · rfl
    · rfl

/-- Case 4 works on columns of `U` below `n`. -/
theorem xzsvdc_case4_U_frame (h : Host) (n p nmq ii : Nat) (w : SvdIter) (j : Nat)
    (hj : n * n ≤ j) :
    rd h (xzsvdc_case4 h n p nmq ii w).U j = rd h w.U j := by
  rw [xzsvdc_case4_eq_flip]
  show rd h (xzsvdc_sort h n p (nmq - ii) ii (xzsvdc_flip h p ii w)).U j = _
  rw [xzsvdc_sort_U_frame h n p _ _ _ j hj]
  unfold xzsvdc_flip
  split <;> rfl

/-- A pre-scaling step works on columns of `U` below `n`. -/
theorem xzsvdc_prescale_U_frame (h : Host) (n p m q : Nat) (w : SvdScale) (j : Nat)
    (hj : n * n ≤ j) :
    rd h (xzsvdc_prescale h n p m q w).U j = rd h w.U j := by
  have hs : rd h (xzsvdc_prescale_s h n m q w).U j = rd h w.U j := by
    unfold xzsvdc_prescale_s
    dsimp only
    split
    · show rd h (if q + 1 ≤ n then _ else w.U) j = _
      split
      · rename_i hq
        have hb := col_inside n q n (by omega)
        have hbody : (fun (i : Nat) (t : List Dbl) =>
              wr t (n * q + 1 + i - 1)
                (rd h t (n * q + 1 + i - 1) * (rd h w.s q / (rd h w.s q).abs)))
            = (fun (i : Nat) (t : List Dbl) => wr t (n * q + i)
                ((fun _ v => v * (rd h w.s q / (rd h w.s q).abs)) i (rd h t (n * q + i)))) := by
          funext i t
          have hi : n * q + 1 + i - 1 = n * q + i := by omega
          rw [hi]
        rw [forUp_shift, hbody]
        exact (forUp_wr_spec h (fun i => n * q + i)
          (fun _ v => v * (rd h w.s q / (rd h w.s q).abs)) n w.U
          (fun i i' _ _ he => by dsimp only at he; omega)).2.2 j
          (fun i hi => by omega)
      · rfl
    · rfl
  have he : ∀ v : SvdScale, (xzsvdc_prescale_e h p m q v).U = v.U := by
    intro v
    unfold xzsvdc_prescale_e
    dsimp only
    split
    · split <;> rfl
    · rfl
  show rd h (xzsvdc_prescale_e h p m q (xzsvdc_prescale_s h n m q w)).U j = _
  rw [he, hs]

/-- While `s[m]` is exactly zero the classification of a pass selects case 4 or case 1,
and leaves `s[m]` zero. -/
theorem xzsvdc_classify_zero (h : Host) (snorm : Dbl) (w : SvdIter) (hm : 0 < w.m1)
    (hz : rd h w.s (w.m1 - 1) = Dbl.num 0) :
    (xzsvdc_classify h snorm w).ns = 4 ∨
    ((xzsvdc_classify h snorm w).ns = 1 ∧
      rd h (xzsvdc_classify h snorm w).s (w.m1 - 1) = Dbl.num 0) := by
  have hle : (xzsvdc_scanE h w.s w.qq snorm (w.m1 - 1) w.e).1 ≤ w.m1 - 1 :=
    xzsvdc_scanE_le h w.s w.qq snorm _ w.e
  unfold xzsvdc_classify
  dsimp only
  by_cases hsp : (xzsvdc_scanE h w.s w.qq snorm (w.m1 - 1) w.e).1 = w.m1 - 1
  · rw [if_pos hsp]
    exact Or.inl rfl
  · rw [if_neg hsp]
    right
    generalize (xzsvdc_scanE h w.s w.qq snorm (w.m1 - 1) w.e).1 = ii at hle hsp
    generalize (xzsvdc_scanE h w.s w.qq snorm (w.m1 - 1) w.e).2 = e1
    obtain ⟨d, hd⟩ : ∃ d, w.m1 - 1 + 1 - ii = d + 1 := ⟨w.m1 - 1 - ii, by omega⟩
    have hns : ii + d + 1 = w.m1 - 1 + 1 := by omega
    have hscan : xzsvdc_scanS h (w.m1 - 1) ii e1 (d + 1) w.s
        = (ii + d + 1, wr w.s (ii + d + 1 - 1) 0) := by
      rw [xzsvdc_scanS]
      have hidx : ii + d + 1 - 1 = w.m1 - 1 := by omega
      rw [hidx, hz, if_pos (Or.inr Dbl.abs_zero_le_TINY)]
    rw [hd, hscan]
    dsimp only
    rw [if_neg (by omega), if_pos hns]
    dsimp only
    refine ⟨rfl, ?_⟩
    have hidx : ii + d + 1 - 1 = w.m1 - 1 := by omega
    rw [hidx, rd_wr]
    split
    · exact Dbl.zero_lit
    · exact hz

/-- A pass works on columns of `U` below `n`, unless it is case 2 with `m >= n`. -/
theorem xzsvdc_pass_U_frame (h : Host) (n p nmq : Nat) (snorm : Dbl) (w : SvdIter)
    (hm : 0 < w.m1) (h2 : (xzsvdc_classify h snorm w).ns = 2 → w.m1 ≤ n) (j : Nat)
    (hj : n * n ≤ j) :
    rd h (xzsvdc_pass h n p nmq snorm w).U j = rd h w.U j := by
  obtain ⟨_, _, hrest⟩ := xzsvdc_classify_spec h snorm w
  have hsple := xzsvdc_split_le h snorm w
  unfold xzsvdc_pass
  dsimp only
  rcases xzsvdc_classify_ns h snorm w with h1 | h2' | h3 | h4
  · rw [if_pos h1]
    rfl
  · rw [if_neg (by rw [h2']; decide), if_pos h2']
    have hii : (xzsvdc_classify h snorm w).ii ≤ w.m1 - 1 := by
      by_cases hsp : xzsvdc_split h snorm w = w.m1 - 1
      · have := (xzsvdc_classify_spec h snorm w).2.1 hsp
        rw [h2'] at this
        exact absurd this (by decide)
      · rcases hrest hsp with ⟨c1, _⟩ | ⟨_, _, c2⟩ | ⟨c3, _⟩
        · rw [h2'] at c1; exact absurd c1 (by decide)
        · exact c2
        · rw [h2'] at c3; exact absurd c3 (by decide)
    have hmn := h2 h2'
    rw [xzsvdc_case2_U_frame h n (w.m1 - 1) _ _ (by omega) (by omega) j hj]
  · rw [if_neg (by rw [h3]; decide), if_neg (by rw [h3]; decide), if_pos h3]
    rw [xzsvdc_case3_U_frame h n p (w.m1 - 1) _ _ j hj]
  · rw [if_neg (by rw [h4]; decide), if_neg (by rw [h4]; decide), if_neg (by rw [h4]; decide)]
    rw [xzsvdc_case4_U_frame h n p nmq _ _ j hj]

/-- While `m = n` the value `s[n]` stays zero: a pass from a state with `m + 1 <= n + 1`
and `s[n] = 0` whenever `m = n` leads to such a state again. -/
theorem xzsvdc_pass_wide (h : Host) (n p nmq : Nat) (snorm : Dbl) (w : SvdIter)
    (hm : 0 < w.m1) (hmn : w.m1 ≤ n + 1) (hz : w.m1 = n + 1 → rd h w.s n = Dbl.num 0) :
    (xzsvdc_pass h n p nmq snorm w).m1 ≤ n + 1 ∧
    ((xzsvdc_pass h n p nmq snorm w).m1 = n + 1 →
      rd h (xzsvdc_pass h n p nmq snorm w).s n = Dbl.num 0) ∧
    ((xzsvdc_classify h snorm w).ns = 2 → w.m1 ≤ n) := by
  obtain ⟨p1, p2, p3, p4⟩ := xzsvdc_pass_counters h n p nmq snorm w
  have hcase2 : (xzsvdc_classify h snorm w).ns = 2 → w.m1 ≤ n := by
    intro hns
    by_cases hfull : w.m1 = n + 1
    · have hz' : rd h w.s (w.m1 - 1) = Dbl.num 0 := by
        rw [hfull, Nat.add_sub_cancel]; exact hz hfull
      rcases xzsvdc_classify_zero h snorm w hm hz' with c4 | ⟨c1, _⟩
      · rw [hns] at c4; exact absurd c4 (by decide)
      · rw [hns] at c1; exact absurd c1 (by decide)
    · omega
  refine ⟨?_, ?_, hcase2⟩
  · rcases xzsvdc_classify_ns h snorm w with h1 | h2 | h3 | h4
    · rw [(p1 h1).2]; exact hmn
    · rw [(p2 h2).2]; exact hmn
    · rw [(p3 h3).2]; exact hmn
    · rw [(p4 h4).2]; omega
  · intro hfull'
    have hfull : w.m1 = n + 1 := by
      rcases xzsvdc_classify_ns h snorm w with h1 | h2 | h3 | h4
      · rw [(p1 h1).2] at hfull'; exact hfull'
      · rw [(p2 h2).2] at hfull'; exact hfull'
      · rw [(p3 h3).2] at hfull'; exact hfull'
      · rw [(p4 h4).2] at hfull'; omega
    have hz' : rd h w.s (w.m1 - 1) = Dbl.num 0 := by
      rw [hfull, Nat.add_sub_cancel]; exact hz hfull
    rcases xzsvdc_classify_zero h snorm w hm hz' with c4 | ⟨c1, cz⟩
    · rw [(p4 c4).2] at hfull'; omega
    · have hpass : xzsvdc_pass h n p nmq snorm w
          = xzsvdc_case1 h p (w.m1 - 1) (xzsvdc_classify h snorm w).ii
              { w with s := (xzsvdc_classify h snorm w).s,
                       e := (xzsvdc_classify h snorm w).e } := by
        unfold xzsvdc_pass
        dsimp only
        rw [if_pos c1]
      rw [hpass, (xzsvdc_case1_s h p (w.m1 - 1) _ _).2 n (by omega)]
      rw [hfull, Nat.add_sub_cancel] at cz
      exact cz

/-- The loop on a matrix with more columns than rows: the columns of `U` from `n` on
are never changed, and `s[n]` is zero as long as `m = n`. -/
theorem xzsvdc_loop_wide (h : Host) (n p nmq : Nat) (snorm : Dbl) (fuel : Nat) (w : SvdIter)
    (hmn : w.m1 ≤ n + 1) (hz : w.m1 = n + 1 → rd h w.s n = Dbl.num 0) :
    (∀ j, n * n ≤ j → rd h (xzsvdc_loop h n p nmq snorm fuel w).U j = rd h w.U j) ∧
    (xzsvdc_loop h n p nmq snorm fuel w).m1 ≤ n + 1 ∧
    ((xzsvdc_loop h n p nmq snorm fuel w).m1 = n + 1 →
      rd h (xzsvdc_loop h n p nmq snorm fuel w).s n = Dbl.num 0) := by
  induction fuel generalizing w with
  | zero => exact ⟨fun _ _ => rfl, hmn, hz⟩
  | succ f ih =>
    unfold xzsvdc_loop
    by_cases hc : 0 < w.m1 ∧ w.qq < 75
    · rw [if_pos hc]
      obtain ⟨q1, q2, q3⟩ := xzsvdc_pass_wide h n p nmq snorm w hc.1 hmn hz
      obtain ⟨i1, i2, i3⟩ := ih (xzsvdc_pass h n p nmq snorm w) q1 q2
      refine ⟨fun j hj => ?_, i2, i3⟩
      rw [i1 j hj]
      exact xzsvdc_pass_U_frame h n p nmq snorm w hc.1 q3 j hj
    · rw [if_neg hc]
      exact ⟨fun _ _ => rfl, hmn, hz⟩

theorem nanFree_wr (l : List Dbl) (k : Nat) (v : Dbl) (hl : nanFree l)
    (hv : v.isNaN = false) : nanFree (wr l k v) := by
  intro d hd
  rcases List.mem_or_eq_of_mem_set hd with h1 | h1
  · exact hl d h1
  · rw [h1]; exact hv

/-- A pre-scaling step keeps `s` and `e` free of NaN and keeps a zero in `s[m]`. -/
theorem xzsvdc_prescale_zero_step (h : Host) (n p m q : Nat) (w : SvdScale) (hq : q ≤ m)
    (hs : nanFree w.s) (he : nanFree w.e) (hsl : m < w.s.length) (hel : m ≤ w.e.length)
    (hz : rd h w.s m = Dbl.num 0) :
    nanFree (xzsvdc_prescale h n p m q w).s ∧ nanFree (xzsvdc_prescale h n p m q w).e ∧
    (xzsvdc_prescale h n p m q w).s.length = w.s.length ∧
    (xzsvdc_prescale h n p m q w).e.length = w.e.length ∧
    rd h (xzsvdc_prescale h n p m q w).s m = Dbl.num 0 := by
  -- first half
  have h1 : nanFree (xzsvdc_prescale_s h n m q w).s ∧ nanFree (xzsvdc_prescale_s h n m q w).e ∧
      (xzsvdc_prescale_s h n m q w).s.length = w.s.length ∧
      (xzsvdc_prescale_s h n m q w).e.length = w.e.length ∧
      rd h (xzsvdc_prescale_s h n m q w).s m = Dbl.num 0 := by
    obtain ⟨a, ha⟩ := nanFree_rd h w.s q hs (by omega)
    by_cases ha0 : a = 0
    · rw [xzsvdc_prescale_s_zero h n m q w (by rw [ha, ha0])]
      exact ⟨hs, he, rfl, rfl, hz⟩
    · rw [xzsvdc_prescale_s_num h n m q w a ha ha0]
      obtain ⟨hσ, _, _⟩ := sign_div_abs a ha0
      have hσ0 : a / |a| ≠ 0 := by
        rcases hσ with h1 | h1 <;> rw [h1] <;> norm_num
      have hqm : q ≠ m := by
        intro hc
        rw [hc, hz] at ha
        injection ha with ha
        exact ha0 ha.symm
      refine ⟨nanFree_wr _ _ _ hs rfl, ?_, length_wr _ _ _, ?_, ?_⟩
      · show nanFree (if q < m then wr w.e q _ else w.e)
        split
        · obtain ⟨b, hb⟩ := nanFree_rd h w.e q he (by omega)
          apply nanFree_wr _ _ _ he
          rw [hb, Dbl.div_num, if_neg hσ0]
          rfl
        · exact he
      · show (if q < m then wr w.e q _ else w.e).length = _
        split
        · exact length_wr _ _ _
        · rfl
      · show rd h (wr w.s q _) m = _
        rw [rd_wr_ne h _ _ _ _ hqm]
        exact hz
  obtain ⟨s1, e1, ls1, le1, z1⟩ := h1
  -- second half
  have h2 : ∀ v : SvdScale, nanFree v.s → nanFree v.e → m < v.s.length → m ≤ v.e.length →
      rd h v.s m = Dbl.num 0 →
      nanFree (xzsvdc_prescale_e h p m q v).s ∧ nanFree (xzsvdc_prescale_e h p m q v).e ∧
      (xzsvdc_prescale_e h p m q v).s.length = v.s.length ∧
      (xzsvdc_prescale_e h p m q v).e.length = v.e.length ∧
      rd h (xzsvdc_prescale_e h p m q v).s m = Dbl.num 0 := by
    intro v vs ve vsl vel vz
    by_cases hqm : q < m
    · obtain ⟨b, hb⟩ := nanFree_rd h v.e q ve (by omega)
      by_cases hb0 : b = 0
      · rw [xzsvdc_prescale_e_zero h p m q v (fun _ => by rw [hb, hb0])]
        exact ⟨vs, ve, rfl, rfl, vz⟩
      · rw [xzsvdc_prescale_e_num h p m q v b hqm hb hb0]
        obtain ⟨c, hc⟩ := nanFree_rd h v.s (q + 1) vs (by omega)
        refine ⟨?_, nanFree_wr _ _ _ ve rfl, length_wr _ _ _, length_wr _ _ _, ?_⟩
        · apply nanFree_wr _ _ _ vs
          rw [hc]
          rfl
        · show rd h (wr v.s (q + 1) _) m = _
          by_cases hq1 : q + 1 = m
          · rw [hq1, rd_wr_eq h _ _ _ vsl, vz, Dbl.mul_num, zero_mul]
          · rw [rd_wr_ne h _ _ _ _ hq1]
            exact vz
    · rw [xzsvdc_prescale_e_zero h p m q v (fun hc => absurd hc hqm)]
      exact ⟨vs, ve, rfl, rfl, vz⟩
  obtain ⟨s2, e2, ls2, le2, z2⟩ := h2 (xzsvdc_prescale_s h n m q w) s1 e1
    (by rw [ls1]; exact hsl) (by rw [le1]; exact hel) z1
  exact ⟨s2, e2, ls2.trans ls1, le2.trans le1, z2⟩

/-- The pre-scaling loop keeps `s` and `e` free of NaN, keeps the zero in `s[m]`, and
works on columns of `U` below `n`. -/
theorem xzsvdc_prescaled_zero (h : Host) (n p m : Nat) (w : SvdScale)
    (hs : nanFree w.s) (he : nanFree w.e) (hsl : m < w.s.length) (hel : m ≤ w.e.length)
    (hz : rd h w.s m = Dbl.num 0) :
    rd h (xzsvdc_prescaled h n p m w).s m = Dbl.num 0 ∧
    (∀ j, n * n ≤ j → rd h (xzsvdc_prescaled h n p m w).U j = rd h w.U j) := by
  unfold xzsvdc_prescaled
  have key := forUp_inv (fun k (t : SvdScale) => k ≤ m + 1 →
      (nanFree t.s ∧ nanFree t.e ∧ t.s.length = w.s.length ∧ t.e.length = w.e.length ∧
        rd h t.s m = Dbl.num 0 ∧ ∀ j, n * n ≤ j → rd h t.U j = rd h w.U j))
    0 (m + 1) (xzsvdc_prescale h n p m) w
    (fun _ => ⟨hs, he, rfl, rfl, hz, fun _ _ => rfl⟩)
    (fun q t hq ih hle => by
      obtain ⟨ts, te, tsl, tel, tz, tu⟩ := ih (Nat.le_of_lt hq)
      rw [Nat.zero_add]
      obtain ⟨r1, r2, r3, r4, r5⟩ := xzsvdc_prescale_zero_step h n p m q t (by omega) ts te
        (by rw [tsl]; exact hsl) (by rw [tel]; exact hel) tz
      refine ⟨r1, r2, r3.trans tsl, r4.trans tel, r5, fun j hj => ?_⟩
      rw [xzsvdc_prescale_U_frame h n p m q t j hj]
      exact tu j hj)
    (Nat.le_refl _)
  exact ⟨key.2.2.2.2.1, key.2.2.2.2.2⟩

theorem xzsvdc_colReflect_s_length (h : Host) (n nct q : Nat) (w : SvdWork) :
    (xzsvdc_colReflect h n nct q w).1.s.length = w.s.length := by
  unfold xzsvdc_colReflect
  simp only
  split
  · split
    · dsimp only
      rw [length_wr, length_wr]
    · exact length_wr _ _ _
  · rfl

theorem xzsvdc_applyCols_s (h : Host) (n p q : Nat) (b : Bool) (w : SvdWork) :
    (xzsvdc_applyCols h n p q b w).s = w.s := by
  unfold xzsvdc_applyCols
  exact forUp_preserves (fun (t : SvdWork) => t.s = w.s) _ _ _ _ rfl
    (fun i t ht => by
      dsimp only
      exact ht)

theorem xzsvdc_rowReflect_s (h : Host) (n p q : Nat) (w : SvdWork) :
    (xzsvdc_rowReflect h n p q w).s = w.s := by
  unfold xzsvdc_rowReflect
  simp only
  split
  · rfl
  · split <;> rfl

theorem xzsvdc_bidiag_s_length (h : Host) (n p nct nrt q : Nat) (w : SvdWork) :
    (xzsvdc_bidiag h n p nct nrt q w).s.length = w.s.length := by
  have h3 : (if q + 1 ≤ nct then
      ({ xzsvdc_applyCols h n p q (xzsvdc_colReflect h n nct q w).2
            (xzsvdc_colReflect h n nct q w).1 with
          U := forUp (q + 1) (n - q) (fun ii U =>
            wr U ((ii + n * q) - 1)
              (rd h (xzsvdc_applyCols h n p q (xzsvdc_colReflect h n nct q w).2
                (xzsvdc_colReflect h n nct q w).1).A ((ii + n * q) - 1)))
            (xzsvdc_applyCols h n p q (xzsvdc_colReflect h n nct q w).2
              (xzsvdc_colReflect h n nct q w).1).U } : SvdWork)
      else xzsvdc_applyCols h n p q (xzsvdc_colReflect h n nct q w).2
        (xzsvdc_colReflect h n nct q w).1).s.length = w.s.length := by
    split
    · dsimp only
      rw [xzsvdc_applyCols_s, xzsvdc_colReflect_s_length]
    · rw [xzsvdc_applyCols_s, xzsvdc_colReflect_s_length]
  unfold xzsvdc_bidiag
  simp only
  split
  · show (xzsvdc_rowReflect h n p q _).s.length = _
    rw [xzsvdc_rowReflect_s]
    exact h3
  · exact h3

/-- The buffers handed to the pre-scaling pass for a matrix with more columns than
rows: `s_data` has `n + 1` elements, the last of them the zero stored by line 238, and
`e_data` has `p` elements. -/
theorem xzsvdc_bidiagonal_wide (h : Host) (A : Mat) (hnp : A.size0 < A.size1) :
    (xzsvdc_bidiagonal h A).s.length = A.size0 + 1 ∧
    (xzsvdc_bidiagonal h A).e.length = A.size1 ∧
    rd h (xzsvdc_bidiagonal h A).s A.size0 = Dbl.num 0 := by
  have hm : (if A.size1 ≤ A.size0 + 1 then A.size1 - 1 else A.size0) = A.size0 := by
    split <;> omega
  have hs0 : (if A.size0 + 1 ≤ A.size1 then A.size0 + 1 else A.size1) = A.size0 + 1 := by
    split <;> omega
  have hbs : ∀ (len : Nat) (w0 : SvdWork), (forUp 0 len
      (xzsvdc_bidiag h A.size0 A.size1 (xzsvdc_nct A.size0 A.size1)
        (xzsvdc_nrt A.size0 A.size1)) w0).s.length = w0.s.length := fun len w0 =>
    forUp_preserves (fun (t : SvdWork) => t.s.length = w0.s.length) _ _ _ _ rfl
      (fun i t ht => by
        show (xzsvdc_bidiag h A.size0 A.size1 _ _ i t).s.length = _
        rw [xzsvdc_bidiag_s_length]; exact ht)
  have hbe : ∀ (len : Nat) (w0 : SvdWork), (forUp 0 len
      (xzsvdc_bidiag h A.size0 A.size1 (xzsvdc_nct A.size0 A.size1)
        (xzsvdc_nrt A.size0 A.size1)) w0).e.length = w0.e.length := fun len w0 =>
    forUp_preserves (fun (t : SvdWork) => t.e.length = w0.e.length) _ _ _ _ rfl
      (fun i t ht => by
        show (xzsvdc_bidiag h A.size0 A.size1 _ _ i t).e.length = _
        rw [xzsvdc_bidiag_e_length]; exact ht)
  have hite : ∀ (c : Prop) [Decidable c] (a b : List Dbl) (k : Nat), a.length = k →
      b.length = k → (if c then a else b).length = k := by
    intro c _ a b k ha hb
    split
    · exact ha
    · exact hb
  unfold xzsvdc_bidiagonal
  dsimp only
  rw [hm, if_pos (Nat.lt_succ_self _)]
  have hWs := hbs (if xzsvdc_nct A.size0 A.size1 ≥ xzsvdc_nrt A.size0 A.size1
      then xzsvdc_nct A.size0 A.size1 else xzsvdc_nrt A.size0 A.size1)
    ⟨A.data, List.replicate (A.size0 * if A.size0 ≤ A.size1 then A.size0 else A.size1) 0,
      List.replicate (A.size1 * A.size1) 0,
      List.replicate (if A.size0 + 1 ≤ A.size1 then A.size0 + 1 else A.size1) 0,
      List.replicate A.size1 0, List.replicate A.size0 0⟩
  have hWe := hbe (if xzsvdc_nct A.size0 A.size1 ≥ xzsvdc_nrt A.size0 A.size1
      then xzsvdc_nct A.size0 A.size1 else xzsvdc_nrt A.size0 A.size1)
    ⟨A.data, List.replicate (A.size0 * if A.size0 ≤ A.size1 then A.size0 else A.size1) 0,
      List.replicate (A.size1 * A.size1) 0,
      List.replicate (if A.size0 + 1 ≤ A.size1 then A.size0 + 1 else A.size1) 0,
      List.replicate A.size1 0, List.replicate A.size0 0⟩
  dsimp only at hWs hWe
  rw [List.length_replicate] at hWs hWe
  generalize forUp 0 (if xzsvdc_nct A.size0 A.size1 ≥ xzsvdc_nrt A.size0 A.size1
      then xzsvdc_nct A.size0 A.size1 else xzsvdc_nrt A.size0 A.size1)
    (xzsvdc_bidiag h A.size0 A.size1 (xzsvdc_nct A.size0 A.size1)
      (xzsvdc_nrt A.size0 A.size1))
    ⟨A.data, List.replicate (A.size0 * if A.size0 ≤ A.size1 then A.size0 else A.size1) 0,
      List.replicate (A.size1 * A.size1) 0,
      List.replicate (if A.size0 + 1 ≤ A.size1 then A.size0 + 1 else A.size1) 0,
      List.replicate A.size1 0, List.replicate A.size0 0⟩ = W at hWs hWe ⊢
  replace hWs := hWs.trans hs0
  have hl1 : (if xzsvdc_nct A.size0 A.size1 < A.size1 then
        wr W.s (xzsvdc_nct A.size0 A.size1)
          (rd h W.A (xzsvdc_nct A.size0 A.size1 + A.size0 * xzsvdc_nct A.size0 A.size1))
      else W.s).length = A.size0 + 1 :=
    hite _ _ _ _ (by rw [length_wr]; exact hWs) hWs
  refine ⟨by rw [length_wr]; exact hl1, ?_, ?_⟩
  · rw [length_wr]
    exact hite _ _ _ _ (by rw [length_wr]; exact hWe) hWe
  · rw [rd_wr_eq h _ _ _ (by rw [hl1]; exact Nat.lt_succ_self _)]
    exact Dbl.zero_lit

/-- The state `xzsvdc` ends with is the loop run on the pre-scaled bidiagonal state. -/
theorem xzsvdc_state_wide (h : Host) (A : Mat) (hn : 1 ≤ A.size0) (hnp : A.size0 < A.size1) :
    xzsvdc_state h A
      = xzsvdc_loop h A.size0 A.size1 A.size0
          (xzsvdc_prescaled h A.size0 A.size1 A.size0 (xzsvdc_bidiagonal h A)).snorm
          (xzsvdc_fuel (A.size0 + 1))
          ⟨(xzsvdc_prescaled h A.size0 A.size1 A.size0 (xzsvdc_bidiagonal h A)).U,
            (xzsvdc_prescaled h A.size0 A.size1 A.size0 (xzsvdc_bidiagonal h A)).x,
            (xzsvdc_prescaled h A.size0 A.size1 A.size0 (xzsvdc_bidiagonal h A)).s,
            (xzsvdc_prescaled h A.size0 A.size1 A.size0 (xzsvdc_bidiagonal h A)).e,
            A.size0 + 1, 0⟩ := by
  have hm : (if A.size1 ≤ A.size0 + 1 then A.size1 - 1 else A.size0) = A.size0 := by
    split <;> omega
  unfold xzsvdc_state xzsvdc_main xzsvdc_bidiagonal xzsvdc_prescaled
  dsimp only
  rw [if_neg (by omega)]
  simp only [hm]

/-! ## Numbers stay numbers through the bidiagonalization -/

theorem Dbl.num_of_not_nan (a : Dbl) (ha : a.isNaN = false) : ∃ v, a = Dbl.num v :=
  (Dbl.isNaN_eq_false a).mp ha

/-- The norm `xnrm2` of a segment of numbers is a non-negative number, for a square root
that is never negative. -/
theorem xnrm2_num (h : Host) (hsq : ∀ x, 0 ≤ h.sqrt x) (n : Nat) (x : List Dbl) (ix0 : Nat)
    (hx : nanFree x) (hin : ∀ k, k < n → ix0 + k - 1 < x.length) :
    ∃ v, xnrm2 h n x ix0 = Dbl.num v ∧ 0 ≤ v := by
  unfold xnrm2
  by_cases h0 : (n : Int) < 1
  · rw [if_pos h0]
    exact ⟨0, Dbl.zero_lit, le_refl 0⟩
  · rw [if_neg h0]
    by_cases h1 : (n : Int) = 1
    · rw [if_pos h1]
      obtain ⟨v, hv⟩ := nanFree_rd h x (ix0 - 1) hx (by
        have := hin 0 (by omega)
        omega)
      rw [hv]
      exact ⟨|v|, rfl, abs_nonneg v⟩
    · rw [if_neg h1]
      dsimp only
      rw [Int.toNat_ofNat]
      -- the largest magnitude
      have hmx : ∃ m, forUp 0 n (fun k mx =>
          if Dbl.gt (Dbl.abs (rd h x (ix0 + k - 1))) mx = true then
            Dbl.abs (rd h x (ix0 + k - 1)) else mx) (0 : Dbl) = Dbl.num m ∧ 0 ≤ m := by
        refine forUp_preserves_range (fun (t : Dbl) => ∃ m, t = Dbl.num m ∧ 0 ≤ m) _ _ _ _
          ⟨0, Dbl.zero_lit, le_refl 0⟩ ?_
        intro k t _ hk ⟨m, hm, hm0⟩
        obtain ⟨v, hv⟩ := nanFree_rd h x (ix0 + k - 1) hx (hin k (by omega))
        show ∃ m, (if Dbl.gt (Dbl.abs (rd h x (ix0 + k - 1))) t = true then
          Dbl.abs (rd h x (ix0 + k - 1)) else t) = Dbl.num m ∧ 0 ≤ m
        split
        · rw [hv]; exact ⟨|v|, rfl, abs_nonneg v⟩
        · exact ⟨m, hm, hm0⟩
      obtain ⟨m, hm, hm0⟩ := hmx
      rw [hm]
      by_cases hz : Dbl.eq (Dbl.num m) 0 = true
      · rw [if_pos hz]
        refine forUp_preserves_range (fun (t : Dbl) => ∃ v, t = Dbl.num v ∧ 0 ≤ v) _ _ _ _
          ⟨0, Dbl.zero_lit, le_refl 0⟩ ?_
        intro k t _ hk ⟨a, ha, ha0⟩
        obtain ⟨v, hv⟩ := nanFree_rd h x (ix0 + k - 1) hx (hin k (by omega))
        show ∃ v, t + Dbl.abs (rd h x (ix0 + k - 1)) = Dbl.num v ∧ 0 ≤ v
        rw [ha, hv]
        exact ⟨a + |v|, rfl, add_nonneg ha0 (abs_nonneg v)⟩
      · rw [if_neg hz]
        have hm_ne : m ≠ 0 := by
          intro hc
          apply hz
          rw [hc]
          rfl
        have hy : ∃ y, forUp 0 n (fun k y =>
            y + rd h x (ix0 + k - 1) / Dbl.num m * (rd h x (ix0 + k - 1) / Dbl.num m))
            (0 : Dbl) = Dbl.num y ∧ 0 ≤ y := by
          refine forUp_preserves_range (fun (t : Dbl) => ∃ v, t = Dbl.num v ∧ 0 ≤ v) _ _ _ _
            ⟨0, Dbl.zero_lit, le_refl 0⟩ ?_
          intro k t _ hk ⟨a, ha, ha0⟩
          obtain ⟨v, hv⟩ := nanFree_rd h x (ix0 + k - 1) hx (hin k (by omega))
          show ∃ v, t + rd h x (ix0 + k - 1) / Dbl.num m * (rd h x (ix0 + k - 1) / Dbl.num m)
            = Dbl.num v ∧ 0 ≤ v
          rw [ha, hv, Dbl.div_num, if_neg hm_ne]
          exact ⟨a + v / m * (v / m), rfl, add_nonneg ha0 (mul_self_nonneg _)⟩
        obtain ⟨y, hy, hy0⟩ := hy
        rw [hy]
        show ∃ v, Dbl.sqrt h (Dbl.num (m * m * y)) = Dbl.num v ∧ 0 ≤ v
        have hnn : ¬ m * m * y < 0 := not_lt.mpr (mul_nonneg (mul_self_nonneg m) hy0)
        refine ⟨h.sqrt (m * m * y), ?_, hsq _⟩
        show (if m * m * y < 0 then Dbl.nan else Dbl.num (h.sqrt (m * m * y))) = _
        rw [if_neg hnn]

/-- The inner product `xdotc` of two segments of numbers is a number. -/
theorem xdotc_num (h : Host) (n : Nat) (x : List Dbl) (ix0 : Nat) (y : List Dbl) (iy0 : Nat)
    (hx : nanFree x) (hy : nanFree y) (hinx : ∀ k, k < n → ix0 + k - 1 < x.length)
    (hiny : ∀ k, k < n → iy0 + k - 1 < y.length) :
    ∃ v, xdotc h n x ix0 y iy0 = Dbl.num v := by
  unfold xdotc
  split
  · rw [Int.toNat_ofNat]
    refine forUp_preserves_range (fun (t : Dbl) => ∃ v, t = Dbl.num v) _ _ _ _
      ⟨0, Dbl.zero_lit⟩ ?_
    intro k t _ hk ⟨a, ha⟩
    obtain ⟨u, hu⟩ := nanFree_rd h x (ix0 + k - 1) hx (hinx k (by omega))
    obtain ⟨v, hv⟩ := nanFree_rd h y (iy0 + k - 1) hy (hiny k (by omega))
    rw [ha, hu, hv]
    exact ⟨a + u * v, rfl⟩
  · exact ⟨0, Dbl.zero_lit⟩

/-- `xaxpy` with a number as factor keeps a buffer of numbers a buffer of numbers, and
leaves alone what lies outside the segment it adds to. -/
theorem xaxpy_num (h : Host) (n : Nat) (a : ℚ) (ix0 : Nat) (y : List Dbl) (iy0 : Nat)
    (hy : nanFree y) (hinx : ∀ k, k < n → ix0 + k - 1 < y.length)
    (hiny : ∀ k, k < n → iy0 + k - 1 < y.length) :
    nanFree (xaxpy h n (Dbl.num a) ix0 y iy0) ∧
    (xaxpy h n (Dbl.num a) ix0 y iy0).length = y.length ∧
    (∀ j, (∀ k, k < n → j ≠ iy0 + k - 1) →
      rd h (xaxpy h n (Dbl.num a) ix0 y iy0) j = rd h y j) := by
  unfold xaxpy
  split
  · exact ⟨hy, rfl, fun _ _ => rfl⟩
  · rw [Int.toNat_ofNat]
    have key := forUp_preserves_range
      (fun (t : List Dbl) => nanFree t ∧ t.length = y.length ∧
        ∀ j, (∀ k, k < n → j ≠ iy0 + k - 1) → rd h t j = rd h y j)
      0 n (fun k y => wr y (iy0 + k - 1)
        (rd h y (iy0 + k - 1) + Dbl.num a * rd h y (ix0 + k - 1))) y
      ⟨hy, rfl, fun _ _ => rfl⟩
      (fun k t _ hk ⟨ht, hl, hf⟩ => by
        obtain ⟨u, hu⟩ := nanFree_rd h t (iy0 + k - 1) ht (by rw [hl]; exact hiny k (by omega))
        obtain ⟨v, hv⟩ := nanFree_rd h t (ix0 + k - 1) ht (by rw [hl]; exact hinx k (by omega))
        refine ⟨nanFree_wr _ _ _ ht (by rw [hu, hv]; rfl), by rw [length_wr]; exact hl, ?_⟩
        intro j hj
        rw [rd_wr_ne h _ _ _ _ (Ne.symm (hj k (by omega)))]
        exact hf j hj)
    exact key

/-- `b_xaxpy` with a number as factor keeps a buffer of numbers a buffer of numbers. -/
theorem b_xaxpy_num (h : Host) (n : Nat) (a : ℚ) (x : List Dbl) (ix0 : Nat) (y : List Dbl)
    (iy0 : Nat) (hx : nanFree x) (hy : nanFree y)
    (hinx : ∀ k, k < n → ix0 + k - 1 < x.length)
    (hiny : ∀ k, k < n → iy0 + k - 1 < y.length) :
    nanFree (b_xaxpy h n (Dbl.num a) x ix0 y iy0) ∧
    (b_xaxpy h n (Dbl.num a) x ix0 y iy0).length = y.length := by
  unfold b_xaxpy
  split
  · exact ⟨hy, rfl⟩
  · rw [Int.toNat_ofNat]
    exact forUp_preserves_range
      (fun (t : List Dbl) => nanFree t ∧ t.length = y.length)
      0 n (fun k y => wr y (iy0 + k - 1)
        (rd h y (iy0 + k - 1) + Dbl.num a * rd h x (ix0 + k - 1))) y
      ⟨hy, rfl⟩
      (fun k t _ hk ⟨ht, hl⟩ => by
        obtain ⟨u, hu⟩ := nanFree_rd h t (iy0 + k - 1) ht (by rw [hl]; exact hiny k (by omega))
        obtain ⟨v, hv⟩ := nanFree_rd h x (ix0 + k - 1) hx (hinx k (by omega))
        exact ⟨nanFree_wr _ _ _ ht (by rw [hu, hv]; rfl), by rw [length_wr]; exact hl⟩)

/-- A loop `for (qjj = b + 1; qjj <= b + len; qjj++) x[qjj - 1] = f(x[qjj - 1])`. -/
theorem map_segment_spec (h : Host) (b len : Nat) (f : Dbl → Dbl) (x : List Dbl)
    (hx : b + len ≤ x.length) :
    (forUp (b + 1) len (fun qjj x => wr x (qjj - 1) (f (rd h x (qjj - 1)))) x).length
      = x.length ∧
    (∀ k, k < len →
      rd h (forUp (b + 1) len (fun qjj x => wr x (qjj - 1) (f (rd h x (qjj - 1)))) x) (b + k)
        = f (rd h x (b + k))) ∧
    (∀ j, (j < b ∨ b + len ≤ j) →
      rd h (forUp (b + 1) len (fun qjj x => wr x (qjj - 1) (f (rd h x (qjj - 1)))) x) j
        = rd h x j) := by
  have hbody : (fun (i : Nat) (t : List Dbl) =>
        wr t (b + 1 + i - 1) (f (rd h t (b + 1 + i - 1))))
      = (fun (i : Nat) (t : List Dbl) => wr t (b + i) ((fun _ v => f v) i (rd h t (b + i)))) := by
    funext i t
    have hi : b + 1 + i - 1 = b + i := by omega
    rw [hi]
  rw [forUp_shift, hbody]
  obtain ⟨hl, hhit, hmiss⟩ := forUp_wr_spec h (fun i => b + i) (fun _ v => f v) len x
    (fun i i' _ _ he => by dsimp only at he; omega)
  refine ⟨hl, fun k hk => hhit k hk (by omega), fun j hj => hmiss j (fun i hi => ?_)⟩
  omega

/-- A buffer is free of NaN when each of its elements reads as a number. -/
theorem nanFree_of_rd (h : Host) (l : List Dbl)
    (hl : ∀ k, k < l.length → (rd h l k).isNaN = false) : nanFree l := by
  intro d hd
  obtain ⟨k, hk, hkd⟩ := List.getElem_of_mem hd
  have := hl k hk
  have hrd : rd h l k = l[k] := by
    simp [rd, List.getD_eq_getElem?_getD, List.getElem?_eq_getElem hk]
  rw [hrd, hkd] at this
  exact this

/-- Mapping a segment of a buffer of numbers by a function that keeps numbers. -/
theorem map_segment_num (h : Host) (b len : Nat) (f : Dbl → Dbl) (x : List Dbl)
    (hx : b + len ≤ x.length) (hnum : nanFree x)
    (hf : ∀ v : ℚ, (f (Dbl.num v)).isNaN = false) :
    nanFree (forUp (b + 1) len (fun qjj x => wr x (qjj - 1) (f (rd h x (qjj - 1)))) x) := by
  obtain ⟨hl, hhit, hmiss⟩ := map_segment_spec h b len f x hx
  apply nanFree_of_rd h
  intro k hk
  rw [hl] at hk
  by_cases hin : b ≤ k ∧ k < b + len
  · obtain ⟨i, hi⟩ : ∃ i, k = b + i := ⟨k - b, by omega⟩
    rw [hi, hhit i (by omega)]
    obtain ⟨v, hv⟩ := nanFree_rd h x (b + i) hnum (by omega)
    rw [hv]
    exact hf v
  · rw [hmiss k (by omega)]
    obtain ⟨v, hv⟩ := nanFree_rd h x k hnum hk
    rw [hv]; rfl

theorem xzsvdc_colReflect_work (h : Host) (n nct q : Nat) (w : SvdWork) :
    (xzsvdc_colReflect h n nct q w).1.work = w.work := by
  unfold xzsvdc_colReflect
  simp only
  split
  · split <;> rfl
  · rfl

/-- The column reflection keeps `A` and `s` free of NaN; when it is applied, the pivot
`A[q, q]` it leaves is a number not below 1. -/
theorem xzsvdc_colReflect_num (h : Host) (hsq : ∀ x, 0 ≤ h.sqrt x) (n p nct q : Nat)
    (w : SvdWork) (hqp : q < p) (hqn : q < n) (hA : nanFree w.A) (hAl : w.A.length = n * p)
    (hs : nanFree w.s) (hsl : q < w.s.length) :
    nanFree (xzsvdc_colReflect h n nct q w).1.A ∧
    (xzsvdc_colReflect h n nct q w).1.A.length = n * p ∧
    nanFree (xzsvdc_colReflect h n nct q w).1.s ∧
    ((xzsvdc_colReflect h n nct q w).2 = true →
      ∃ a, rd h (xzsvdc_colReflect h n nct q w).1.A (q + n * q) = Dbl.num a ∧ 1 ≤ a) := by
  have hcol := col_inside n q p hqp
  unfold xzsvdc_colReflect
  dsimp only
  by_cases hq : q + 1 ≤ nct
  · rw [if_pos hq]
    obtain ⟨v, hv, hv0⟩ := xnrm2_num h hsq (n - q) w.A (q + n * q + 1) hA
      (fun k hk => by rw [hAl]; omega)
    rw [hv]
    by_cases hpos : Dbl.gt (Dbl.num v) 0 = true
    · rw [if_pos hpos]
      dsimp only
      have hvpos : 0 < v := by
        have : Dbl.lt (Dbl.num 0) (Dbl.num v) = true := hpos
        rw [Dbl.lt_num] at this
        exact of_decide_eq_true this
      obtain ⟨a0, ha0⟩ := nanFree_rd h w.A (q + n * q) hA (by rw [hAl]; omega)
      have hidx : q + n * q + 1 - 1 = q + n * q := by omega
      rw [hidx, ha0]
      -- the signed norm
      obtain ⟨v1, hv1, hv1ne, hsign⟩ : ∃ v1 : ℚ,
          (if Dbl.lt (Dbl.num a0) 0 = true then -(Dbl.num v) else Dbl.num v) = Dbl.num v1 ∧
          v1 ≠ 0 ∧ 0 ≤ a0 / v1 := by
        by_cases hneg : Dbl.lt (Dbl.num a0) 0 = true
        · rw [if_pos hneg]
          have : a0 < 0 := by
            have h1 : Dbl.lt (Dbl.num a0) (Dbl.num 0) = true := hneg
            rw [Dbl.lt_num] at h1
            exact of_decide_eq_true h1
          refine ⟨-v, rfl, by linarith, ?_⟩
          rw [div_neg, ← neg_div]
          exact div_nonneg (by linarith) (le_of_lt hvpos)
        · rw [if_neg hneg]
          have : ¬ a0 < 0 := by
            intro hc
            apply hneg
            show Dbl.lt (Dbl.num a0) (Dbl.num 0) = true
            rw [Dbl.lt_num]
            exact decide_eq_true hc
          exact ⟨v, rfl, ne_of_gt hvpos, div_nonneg (not_lt.mp this) (le_of_lt hvpos)⟩
      rw [hv1]
      have hsq1 : rd h (wr w.s q (Dbl.num v1)) q = Dbl.num v1 := rd_wr_eq h _ _ _ hsl
      rw [hsq1]
      -- the scaled column
      have hscaled : ∀ (f : Dbl → Dbl), (∀ u : ℚ, f (Dbl.num u) = Dbl.num (u / v1)) →
          nanFree (forUp (q + n * q + 1) (n - q)
            (fun qjj A => wr A (qjj - 1) (f (rd h A (qjj - 1)))) w.A) ∧
          (forUp (q + n * q + 1) (n - q)
            (fun qjj A => wr A (qjj - 1) (f (rd h A (qjj - 1)))) w.A).length = n * p ∧
          rd h (forUp (q + n * q + 1) (n - q)
            (fun qjj A => wr A (qjj - 1) (f (rd h A (qjj - 1)))) w.A) (q + n * q)
            = Dbl.num (a0 / v1) := by
        intro f hf
        obtain ⟨ml, mhit, _⟩ := map_segment_spec h (q + n * q) (n - q) f w.A
          (by rw [hAl]; omega)
        refine ⟨map_segment_num h (q + n * q) (n - q) f w.A (by rw [hAl]; omega) hA
          (fun u => by rw [hf u]; rfl), by rw [ml, hAl], ?_⟩
        have h0 : rd h (forUp (q + n * q + 1) (n - q)
            (fun qjj A => wr A (qjj - 1) (f (rd h A (qjj - 1)))) w.A) (q + n * q)
            = f (rd h w.A (q + n * q)) := mhit 0 (by omega)
        rw [h0, ha0, hf a0]
      have hfinish : ∀ A1 : List Dbl, nanFree A1 → A1.length = n * p →
          rd h A1 (q + n * q) = Dbl.num (a0 / v1) →
          nanFree (wr A1 (q + n * q) (rd h A1 (q + n * q) + 1)) ∧
          (wr A1 (q + n * q) (rd h A1 (q + n * q) + 1)).length = n * p ∧
          nanFree (wr (wr w.s q (Dbl.num v1)) q (-(Dbl.num v1))) ∧
          (true = true → ∃ a, rd h (wr A1 (q + n * q) (rd h A1 (q + n * q) + 1)) (q + n * q)
            = Dbl.num a ∧ 1 ≤ a) := by
        intro A1 hn1 hl1 hr1
        refine ⟨nanFree_wr _ _ _ hn1 (by rw [hr1]; rfl), by rw [length_wr]; exact hl1,
          nanFree_wr _ _ _ (nanFree_wr _ _ _ hs rfl) rfl, fun _ => ?_⟩
        rw [rd_wr_eq h _ _ _ (by rw [hl1]; omega), hr1]
        refine ⟨a0 / v1 + 1, ?_, by linarith⟩
        show Dbl.num (a0 / v1) + Dbl.num ((1 : Nat) : ℚ) = _
        rw [Dbl.add_num]
        norm_num
      by_cases hbig : Dbl.ge (Dbl.abs (Dbl.num v1)) TINY = true
      · rw [if_pos hbig]
        have hr : (1 : Dbl) / Dbl.num v1 = Dbl.num (1 / v1) := by
          rw [Dbl.one_lit, Dbl.div_num, if_neg hv1ne]
        rw [hr]
        obtain ⟨g1, g2, g3⟩ := hscaled (fun d => d * Dbl.num (1 / v1)) (fun u => by
          show Dbl.num (u * (1 / v1)) = _
          rw [mul_one_div])
        exact hfinish _ g1 g2 g3
      · rw [if_neg hbig]
        obtain ⟨g1, g2, g3⟩ := hscaled (fun d => d / Dbl.num v1) (fun u => by
          show Dbl.num u / Dbl.num v1 = _
          rw [Dbl.div_num, if_neg hv1ne])
        exact hfinish _ g1 g2 g3
    · rw [if_neg hpos]
      exact ⟨hA, hAl, nanFree_wr _ _ _ hs rfl, fun hc => absurd hc (by simp)⟩
  · rw [if_neg hq]
    exact ⟨hA, hAl, hs, fun hc => absurd hc (by simp)⟩

/-- Applying the column reflection keeps `A` and `e` free of NaN. -/
theorem xzsvdc_applyCols_num (h : Host) (n p q : Nat) (b : Bool) (w : SvdWork)
    (hqp : q < p) (hqn : q < n) (hA : nanFree w.A) (hAl : w.A.length = n * p)
    (he : nanFree w.e)
    (hpiv : b = true → ∃ a, rd h w.A (q + n * q) = Dbl.num a ∧ 1 ≤ a) :
    nanFree (xzsvdc_applyCols h n p q b w).A ∧
    (xzsvdc_applyCols h n p q b w).A.length = n * p ∧
    nanFree (xzsvdc_applyCols h n p q b w).e ∧
    (xzsvdc_applyCols h n p q b w).work = w.work := by
  have hcol := col_inside n q p hqp
  unfold xzsvdc_applyCols
  have key := forUp_preserves_range
    (fun (t : SvdWork) => nanFree t.A ∧ t.A.length = n * p ∧ nanFree t.e ∧
      t.work = w.work ∧ (b = true → ∃ a, rd h t.A (q + n * q) = Dbl.num a ∧ 1 ≤ a))
    (q + 2) (p + 1 - (q + 2))
    (fun jj w =>
      let qjj := q + n * (jj - 1)
      let A :=
        if b then
          xaxpy h ((n - q : Nat) : Int) (-(xdotc h ((n - q : Nat) : Int) w.A ((q + n * q) + 1)
            w.A (qjj + 1) / rd h w.A (q + n * q))) ((q + n * q) + 1) w.A (qjj + 1)
        else w.A
      { w with A := A, e := wr w.e (jj - 1) (rd h A qjj) }) w
    ⟨hA, hAl, he, rfl, hpiv⟩
    (fun jj t hlo hhi ⟨tA, tl, te, tw, tp⟩ => by
      have hjp : jj - 1 < p := by omega
      have hc1 := col_inside n (jj - 1) p hjp
      have hc2 : n * q + n ≤ n * (jj - 1) := by
        have : n * (q + 1) ≤ n * (jj - 1) := Nat.mul_le_mul_left n (by omega)
        rw [Nat.mul_add, Nat.mul_one] at this
        exact this
      dsimp only
      by_cases hb : b = true
      · rw [if_pos hb]
        obtain ⟨a, ha, ha1⟩ := tp hb
        obtain ⟨d, hd⟩ := xdotc_num h (n - q) t.A (q + n * q + 1) t.A (q + n * (jj - 1) + 1)
          tA tA (fun k hk => by rw [tl]; omega) (fun k hk => by rw [tl]; omega)
        have hane : a ≠ 0 := by linarith
        have hcoef : -(xdotc h ((n - q : Nat) : Int) t.A (q + n * q + 1) t.A
            (q + n * (jj - 1) + 1)
            / rd h t.A (q + n * q)) = Dbl.num (-(d / a)) := by
          rw [hd, ha, Dbl.div_num, if_neg hane, Dbl.neg_num]
        rw [hcoef]
        obtain ⟨x1, x2, x3⟩ := xaxpy_num h (n - q) (-(d / a)) (q + n * q + 1) t.A
          (q + n * (jj - 1) + 1) tA (fun k hk => by rw [tl]; omega)
          (fun k hk => by rw [tl]; omega)
        obtain ⟨u, hu⟩ := nanFree_rd h _ (q + n * (jj - 1)) x1 (by rw [x2, tl]; omega)
        refine ⟨x1, x2.trans tl, nanFree_wr _ _ _ te (by rw [hu]; rfl), tw, fun _ => ?_⟩
        rw [x3 (q + n * q) (fun k hk => by omega)]
        exact ⟨a, ha, ha1⟩
      · rw [if_neg hb]
        obtain ⟨u, hu⟩ := nanFree_rd h t.A (q + n * (jj - 1)) tA (by rw [tl]; omega)
        exact ⟨tA, tl, nanFree_wr _ _ _ te (by rw [hu]; rfl), tw, fun hc => absurd hc hb⟩)
  exact ⟨key.1, key.2.1, key.2.2.1, key.2.2.2.1⟩

/-- The update of `work` and `A` that closes the row reflection keeps them free of NaN
when the pivot `e[q + 1]` is a number not below 1. -/
theorem xzsvdc_rowReflect_tail (h : Host) (n p q : Nat) (w : SvdWork) (e4 : List Dbl)
    (hqp : q + 2 ≤ p) (hqn : q + 2 ≤ n) (hA : nanFree w.A) (hAl : w.A.length = n * p)
    (he : nanFree e4) (hel : e4.length = p) (hw : nanFree w.work) (hwl : w.work.length = n)
    (c : ℚ) (hc : rd h e4 (q + 1) = Dbl.num c) (hc1 : 1 ≤ c) :
    (nanFree (forUp (q + 2) (p + 1 - (q + 2)) (fun jj work =>
        b_xaxpy h ((n - q - 1 : Nat) : Int) (rd h e4 (jj - 1)) w.A ((q + n * (jj - 1)) + 2)
          work (q + 2))
        (forUp (q + 2) (n + 1 - (q + 2)) (fun ii work => wr work (ii - 1) 0) w.work)) ∧
      (forUp (q + 2) (p + 1 - (q + 2)) (fun jj work =>
        b_xaxpy h ((n - q - 1 : Nat) : Int) (rd h e4 (jj - 1)) w.A ((q + n * (jj - 1)) + 2)
          work (q + 2))
        (forUp (q + 2) (n + 1 - (q + 2)) (fun ii work => wr work (ii - 1) 0) w.work)).length
        = n) ∧
    (nanFree (forUp (q + 2) (p + 1 - (q + 2)) (fun jj A =>
        b_xaxpy h ((n - q - 1 : Nat) : Int) (-(rd h e4 (jj - 1)) / rd h e4 (q + 1))
          (forUp (q + 2) (p + 1 - (q + 2)) (fun jj work =>
            b_xaxpy h ((n - q - 1 : Nat) : Int) (rd h e4 (jj - 1)) w.A
              ((q + n * (jj - 1)) + 2) work (q + 2))
            (forUp (q + 2) (n + 1 - (q + 2)) (fun ii work => wr work (ii - 1) 0) w.work))
          (q + 2) A ((q + n * (jj - 1)) + 2)) w.A) ∧
      (forUp (q + 2) (p + 1 - (q + 2)) (fun jj A =>
        b_xaxpy h ((n - q - 1 : Nat) : Int) (-(rd h e4 (jj - 1)) / rd h e4 (q + 1))
          (forUp (q + 2) (p + 1 - (q + 2)) (fun jj work =>
            b_xaxpy h ((n - q - 1 : Nat) : Int) (rd h e4 (jj - 1)) w.A
              ((q + n * (jj - 1)) + 2) work (q + 2))
            (forUp (q + 2) (n + 1 - (q + 2)) (fun ii work => wr work (ii - 1) 0) w.work))
          (q + 2) A ((q + n * (jj - 1)) + 2)) w.A).length = n * p) := by
  have hw1 : nanFree (forUp (q + 2) (n + 1 - (q + 2)) (fun ii work => wr work (ii - 1) 0)
        w.work) ∧
      (forUp (q + 2) (n + 1 - (q + 2)) (fun ii work => wr work (ii - 1) 0) w.work).length
        = n :=
    forUp_preserves (fun (t : List Dbl) => nanFree t ∧ t.length = n) _ _ _ _ ⟨hw, hwl⟩
      (fun i t ht => ⟨nanFree_wr _ _ _ ht.1 rfl, by rw [length_wr]; exact ht.2⟩)
  have hw2 : nanFree (forUp (q + 2) (p + 1 - (q + 2)) (fun jj work =>
        b_xaxpy h ((n - q - 1 : Nat) : Int) (rd h e4 (jj - 1)) w.A ((q + n * (jj - 1)) + 2)
          work (q + 2))
        (forUp (q + 2) (n + 1 - (q + 2)) (fun ii work => wr work (ii - 1) 0) w.work)) ∧
      (forUp (q + 2) (p + 1 - (q + 2)) (fun jj work =>
        b_xaxpy h ((n - q - 1 : Nat) : Int) (rd h e4 (jj - 1)) w.A ((q + n * (jj - 1)) + 2)
          work (q + 2))
        (forUp (q + 2) (n + 1 - (q + 2)) (fun ii work => wr work (ii - 1) 0) w.work)).length
        = n :=
    forUp_preserves_range (fun (t : List Dbl) => nanFree t ∧ t.length = n) _ _ _ _ hw1
      (fun jj t hlo hhi ht => by
        have hjp : jj - 1 < p := by omega
        have hcol := col_inside n (jj - 1) p hjp
        obtain ⟨u, hu⟩ := nanFree_rd h e4 (jj - 1) he (by rw [hel]; exact hjp)
        dsimp only
        rw [hu]
        obtain ⟨b1, b2⟩ := b_xaxpy_num h (n - q - 1) u w.A (q + n * (jj - 1) + 2) t (q + 2)
          hA ht.1 (fun k hk => by rw [hAl]; omega) (fun k hk => by rw [ht.2]; omega)
        exact ⟨b1, b2.trans ht.2⟩)
  refine ⟨hw2, ?_⟩
  generalize (forUp (q + 2) (p + 1 - (q + 2)) (fun jj work =>
        b_xaxpy h ((n - q - 1 : Nat) : Int) (rd h e4 (jj - 1)) w.A ((q + n * (jj - 1)) + 2)
          work (q + 2))
        (forUp (q + 2) (n + 1 - (q + 2)) (fun ii work => wr work (ii - 1) 0) w.work))
    = work2 at hw2 ⊢
  have hcne : c ≠ 0 := by linarith
  exact forUp_preserves_range (fun (t : List Dbl) => nanFree t ∧ t.length = n * p) _ _ _ _
    ⟨hA, hAl⟩
    (fun jj t hlo hhi ht => by
      have hjp : jj - 1 < p := by omega
      have hcol := col_inside n (jj - 1) p hjp
      obtain ⟨u, hu⟩ := nanFree_rd h e4 (jj - 1) he (by rw [hel]; exact hjp)
      dsimp only
      rw [hu, hc, Dbl.neg_num, Dbl.div_num, if_neg hcne]
      obtain ⟨b1, b2⟩ := b_xaxpy_num h (n - q - 1) (-u / c) work2 (q + 2) t
        (q + n * (jj - 1) + 2) hw2.1 ht.1 (fun k hk => by rw [hw2.2]; omega)
        (fun k hk => by rw [ht.2]; omega)
      exact ⟨b1, b2.trans ht.2⟩)

/-- The row reflection keeps `A`, `e` and `work` free of NaN. -/
theorem xzsvdc_rowReflect_num (h : Host) (hsq : ∀ x, 0 ≤ h.sqrt x) (n p q : Nat)
    (w : SvdWork) (hqp : q + 2 ≤ p) (hqn : q < n) (hA : nanFree w.A)
    (hAl : w.A.length = n * p) (he : nanFree w.e) (hel : w.e.length = p)
    (hw : nanFree w.work) (hwl : w.work.length = n) :
    nanFree (xzsvdc_rowReflect h n p q w).A ∧
    (xzsvdc_rowReflect h n p q w).A.length = n * p ∧
    nanFree (xzsvdc_rowReflect h n p q w).e ∧
    nanFree (xzsvdc_rowReflect h n p q w).work ∧
    (xzsvdc_rowReflect h n p q w).work.length = n := by
  have hc1 : ((p - q : Nat) : Int) - 1 = ((p - q - 1 : Nat) : Int) := by omega
  have hc2 : ((n - q : Nat) : Int) - 1 = ((n - q - 1 : Nat) : Int) := by omega
  unfold xzsvdc_rowReflect
  dsimp only
  rw [hc1, hc2]
  obtain ⟨v, hv, hv0⟩ := xnrm2_num h hsq (p - q - 1) w.e (q + 2) he
    (fun k hk => by rw [hel]; omega)
  rw [hv]
  by_cases hz : Dbl.eq (Dbl.num v) 0 = true
  · rw [if_pos hz]
    exact ⟨hA, hAl, nanFree_wr _ _ _ he rfl, hw, hwl⟩
  · rw [if_neg hz]
    have hvne : v ≠ 0 := by
      intro hc
      apply hz
      rw [hc]
      rfl
    have hvpos : 0 < v := lt_of_le_of_ne hv0 (Ne.symm hvne)
    obtain ⟨b0, hb0⟩ := nanFree_rd h w.e (q + 1) he (by rw [hel]; omega)
    rw [hb0]
    -- the signed norm stored in `e[q]`
    obtain ⟨v1, hv1, hv1ne, hsign⟩ : ∃ v1 : ℚ,
        (if Dbl.lt (Dbl.num b0) 0 = true then wr w.e q (-(Dbl.num v)) else wr w.e q (Dbl.num v))
          = wr w.e q (Dbl.num v1) ∧ v1 ≠ 0 ∧ 0 ≤ b0 / v1 := by
      by_cases hneg : Dbl.lt (Dbl.num b0) 0 = true
      · rw [if_pos hneg]
        have : b0 < 0 := by
          have h1 : Dbl.lt (Dbl.num b0) (Dbl.num 0) = true := hneg
          rw [Dbl.lt_num] at h1
          exact of_decide_eq_true h1
        refine ⟨-v, rfl, by linarith, ?_⟩
        rw [div_neg, ← neg_div]
        exact div_nonneg (by linarith) (le_of_lt hvpos)
      · rw [if_neg hneg]
        have : ¬ b0 < 0 := by
          intro hc
          apply hneg
          show Dbl.lt (Dbl.num b0) (Dbl.num 0) = true
          rw [Dbl.lt_num]
          exact decide_eq_true hc
        exact ⟨v, rfl, ne_of_gt hvpos, div_nonneg (not_lt.mp this) (le_of_lt hvpos)⟩
    rw [hv1]
    have he1 : nanFree (wr w.e q (Dbl.num v1)) := nanFree_wr _ _ _ he rfl
    have he1l : (wr w.e q (Dbl.num v1)).length = p := by rw [length_wr]; exact hel
    have hq1 : rd h (wr w.e q (Dbl.num v1)) q = Dbl.num v1 :=
      rd_wr_eq h _ _ _ (by rw [hel]; omega)
    have hq2 : rd h (wr w.e q (Dbl.num v1)) (q + 1) = Dbl.num b0 := by
      rw [rd_wr_ne h _ _ _ _ (by omega)]; exact hb0
    rw [hq1]
    -- the scaled row
    have hscaled : ∀ (f : Dbl → Dbl), (∀ u : ℚ, f (Dbl.num u) = Dbl.num (u / v1)) →
        nanFree (forUp (q + 2) (q + (p - q) + 1 - (q + 2))
          (fun qjj e => wr e (qjj - 1) (f (rd h e (qjj - 1)))) (wr w.e q (Dbl.num v1))) ∧
        (forUp (q + 2) (q + (p - q) + 1 - (q + 2))
          (fun qjj e => wr e (qjj - 1) (f (rd h e (qjj - 1)))) (wr w.e q (Dbl.num v1))).length
          = p ∧
        rd h (forUp (q + 2) (q + (p - q) + 1 - (q + 2))
          (fun qjj e => wr e (qjj - 1) (f (rd h e (qjj - 1)))) (wr w.e q (Dbl.num v1))) (q + 1)
          = Dbl.num (b0 / v1) ∧
        rd h (forUp (q + 2) (q + (p - q) + 1 - (q + 2))
          (fun qjj e => wr e (qjj - 1) (f (rd h e (qjj - 1)))) (wr w.e q (Dbl.num v1))) q
          = Dbl.num v1 := by
      intro f hf
      obtain ⟨ml, mhit, mmiss⟩ := map_segment_spec h (q + 1) (q + (p - q) + 1 - (q + 2)) f
        (wr w.e q (Dbl.num v1)) (by rw [he1l]; omega)
      refine ⟨map_segment_num h (q + 1) _ f _ (by rw [he1l]; omega) he1
        (fun u => by rw [hf u]; rfl), by rw [ml, he1l], ?_, ?_⟩
      · have h0 : rd h (forUp (q + 2) (q + (p - q) + 1 - (q + 2))
            (fun qjj e => wr e (qjj - 1) (f (rd h e (qjj - 1)))) (wr w.e q (Dbl.num v1)))
            (q + 1) = f (rd h (wr w.e q (Dbl.num v1)) (q + 1)) := mhit 0 (by omega)
        rw [h0, hq2, hf b0]
      · have h1 : rd h (forUp (q + 2) (q + (p - q) + 1 - (q + 2))
            (fun qjj e => wr e (qjj - 1) (f (rd h e (qjj - 1)))) (wr w.e q (Dbl.num v1))) q
            = rd h (wr w.e q (Dbl.num v1)) q := mmiss q (Or.inl (Nat.lt_succ_self q))
        rw [h1, hq1]
    -- what follows the scaling, for any scaled row `e2`
    have hfinish : ∀ e2 : List Dbl, nanFree e2 → e2.length = p →
        rd h e2 (q + 1) = Dbl.num (b0 / v1) → rd h e2 q = Dbl.num v1 →
        ∃ c, nanFree (wr (wr e2 (q + 1) (rd h e2 (q + 1) + 1)) q
            (-(rd h (wr e2 (q + 1) (rd h e2 (q + 1) + 1)) q))) ∧
          (wr (wr e2 (q + 1) (rd h e2 (q + 1) + 1)) q
            (-(rd h (wr e2 (q + 1) (rd h e2 (q + 1) + 1)) q))).length = p ∧
          rd h (wr (wr e2 (q + 1) (rd h e2 (q + 1) + 1)) q
            (-(rd h (wr e2 (q + 1) (rd h e2 (q + 1) + 1)) q))) (q + 1) = Dbl.num c ∧
          1 ≤ c := by
      intro e2 hn2 hl2 hr1 hr0
      have h3 : rd h (wr e2 (q + 1) (rd h e2 (q + 1) + 1)) q = Dbl.num v1 := by
        rw [rd_wr_ne h _ _ _ _ (by omega)]; exact hr0
      have h3n : nanFree (wr e2 (q + 1) (rd h e2 (q + 1) + 1)) :=
        nanFree_wr _ _ _ hn2 (by rw [hr1]; rfl)
      refine ⟨b0 / v1 + 1, nanFree_wr _ _ _ h3n (by rw [h3]; rfl),
        by rw [length_wr, length_wr]; exact hl2, ?_, by linarith⟩
      rw [rd_wr_ne h _ _ _ _ (by omega), rd_wr_eq h _ _ _ (by rw [hl2]; omega), hr1]
      show Dbl.num (b0 / v1) + Dbl.num ((1 : Nat) : ℚ) = _
      rw [Dbl.add_num]
      norm_num
    have hclose : ∀ e4 : List Dbl, nanFree e4 → e4.length = p →
        (∃ c, rd h e4 (q + 1) = Dbl.num c ∧ 1 ≤ c) →
        nanFree (if q + 2 ≤ n then
          ({ w with
            A := forUp (q + 2) (p + 1 - (q + 2)) (fun jj A =>
              b_xaxpy h ((n - q - 1 : Nat) : Int) (-(rd h e4 (jj - 1)) / rd h e4 (q + 1))
                (forUp (q + 2) (p + 1 - (q + 2)) (fun jj work =>
                  b_xaxpy h ((n - q - 1 : Nat) : Int) (rd h e4 (jj - 1)) w.A
                    ((q + n * (jj - 1)) + 2) work (q + 2))
                  (forUp (q + 2) (n + 1 - (q + 2)) (fun ii work => wr work (ii - 1) 0)
                    w.work))
                (q + 2) A ((q + n * (jj - 1)) + 2)) w.A
            e := e4
            work := forUp (q + 2) (p + 1 - (q + 2)) (fun jj work =>
              b_xaxpy h ((n - q - 1 : Nat) : Int) (rd h e4 (jj - 1)) w.A
                ((q + n * (jj - 1)) + 2) work (q + 2))
              (forUp (q + 2) (n + 1 - (q + 2)) (fun ii work => wr work (ii - 1) 0)
                w.work) } : SvdWork)
          else { w with e := e4 }).A ∧
        (if q + 2 ≤ n then
          ({ w with
            A := forUp (q + 2) (p + 1 - (q + 2)) (fun jj A =>
              b_xaxpy h ((n - q - 1 : Nat) : Int) (-(rd h e4 (jj - 1)) / rd h e4 (q + 1))
                (forUp (q + 2) (p + 1 - (q + 2)) (fun jj work =>
                  b_xaxpy h ((n - q - 1 : Nat) : Int) (rd h e4 (jj - 1)) w.A
                    ((q + n * (jj - 1)) + 2) work (q + 2))
                  (forUp (q + 2) (n + 1 - (q + 2)) (fun ii work => wr work (ii - 1) 0)
                    w.work))
                (q + 2) A ((q + n * (jj - 1)) + 2)) w.A
            e := e4
            work := forUp (q + 2) (p + 1 - (q + 2)) (fun jj work =>
              b_xaxpy h ((n - q - 1 : Nat) : Int) (rd h e4 (jj - 1)) w.A
                ((q + n * (jj - 1)) + 2) work (q + 2))
              (forUp (q + 2) (n + 1 - (q + 2)) (fun ii work => wr work (ii - 1) 0)
                w.work) } : SvdWork)
          else { w with e := e4 }).A.length = n * p ∧
        nanFree (if q + 2 ≤ n then
          ({ w with
            A := forUp (q + 2) (p + 1 - (q + 2)) (fun jj A =>
              b_xaxpy h ((n - q - 1 : Nat) : Int) (-(rd h e4 (jj - 1)) / rd h e4 (q + 1))
                (forUp (q + 2) (p + 1 - (q + 2)) (fun jj work =>
                  b_xaxpy h ((n - q - 1 : Nat) : Int) (rd h e4 (jj - 1)) w.A
                    ((q + n * (jj - 1)) + 2) work (q + 2))
                  (forUp (q + 2) (n + 1 - (q + 2)) (fun ii work => wr work (ii - 1) 0)
                    w.work))
                (q + 2) A ((q + n * (jj - 1)) + 2)) w.A
            e := e4
            work := forUp (q + 2) (p + 1 - (q + 2)) (fun jj work =>
              b_xaxpy h ((n - q - 1 : Nat) : Int) (rd h e4 (jj - 1)) w.A
                ((q + n * (jj - 1)) + 2) work (q + 2))
              (forUp (q + 2) (n + 1 - (q + 2)) (fun ii work => wr work (ii - 1) 0)
                w.work) } : SvdWork)
          else { w with e := e4 }).e ∧
        nanFree (if q + 2 ≤ n then
          ({ w with
            A := forUp (q + 2) (p + 1 - (q + 2)) (fun jj A =>
              b_xaxpy h ((n - q - 1 : Nat) : Int) (-(rd h e4 (jj - 1)) / rd h e4 (q + 1))
                (forUp (q + 2) (p + 1 - (q + 2)) (fun jj work =>
                  b_xaxpy h ((n - q - 1 : Nat) : Int) (rd h e4 (jj - 1)) w.A
                    ((q + n * (jj - 1)) + 2) work (q + 2))
                  (forUp (q + 2) (n + 1 - (q + 2)) (fun ii work => wr work (ii - 1) 0)
                    w.work))
                (q + 2) A ((q + n * (jj - 1)) + 2)) w.A
            e := e4
            work := forUp (q + 2) (p + 1 - (q + 2)) (fun jj work =>
              b_xaxpy h ((n - q - 1 : Nat) : Int) (rd h e4 (jj - 1)) w.A
                ((q + n * (jj - 1)) + 2) work (q + 2))
              (forUp (q + 2) (n + 1 - (q + 2)) (fun ii work => wr work (ii - 1) 0)
                w.work) } : SvdWork)
          else { w with e := e4 }).work ∧
        (if q + 2 ≤ n then
          ({ w with
            A := forUp (q + 2) (p + 1 - (q + 2)) (fun jj A =>
              b_xaxpy h ((n - q - 1 : Nat) : Int) (-(rd h e4 (jj - 1)) / rd h e4 (q + 1))
                (forUp (q + 2) (p + 1 - (q + 2)) (fun jj work =>
                  b_xaxpy h ((n - q - 1 : Nat) : Int) (rd h e4 (jj - 1)) w.A
                    ((q + n * (jj - 1)) + 2) work (q + 2))
                  (forUp (q + 2) (n + 1 - (q + 2)) (fun ii work => wr work (ii - 1) 0)
                    w.work))
                (q + 2) A ((q + n * (jj - 1)) + 2)) w.A
            e := e4
            work := forUp (q + 2) (p + 1 - (q + 2)) (fun jj work =>
              b_xaxpy h ((n - q - 1 : Nat) : Int) (rd h e4 (jj - 1)) w.A
                ((q + n * (jj - 1)) + 2) work (q + 2))
              (forUp (q + 2) (n + 1 - (q + 2)) (fun ii work => wr work (ii - 1) 0)
                w.work) } : SvdWork)
          else { w with e := e4 }).work.length = n := by
      intro e4 hn4 hl4 ⟨c, hc, hc1'⟩
      by_cases hq2n : q + 2 ≤ n
      · obtain ⟨⟨t1, t2⟩, t3, t4⟩ := xzsvdc_rowReflect_tail h n p q w e4 hqp hq2n hA hAl hn4
          hl4 hw hwl c hc hc1'
        rw [if_pos hq2n]
        exact ⟨t3, t4, hn4, t1, t2⟩
      · rw [if_neg hq2n]
        exact ⟨hA, hAl, hn4, hw, hwl⟩
    by_cases hbig : Dbl.ge (Dbl.abs (Dbl.num v1)) TINY = true
    · rw [if_pos hbig]
      have hr : (1 : Dbl) / Dbl.num v1 = Dbl.num (1 / v1) := by
        rw [Dbl.one_lit, Dbl.div_num, if_neg hv1ne]
      rw [hr]
      obtain ⟨g1, g2, g3, g4⟩ := hscaled (fun d => d * Dbl.num (1 / v1)) (fun u => by
        show Dbl.num (u * (1 / v1)) = _
        rw [mul_one_div])
      generalize (forUp (q + 2) (q + (p - q) + 1 - (q + 2))
          (fun qjj e => wr e (qjj - 1) (rd h e (qjj - 1) * Dbl.num (1 / v1)))
          (wr w.e q (Dbl.num v1))) = e2 at g1 g2 g3 g4 ⊢
      obtain ⟨c, f1, f2, f3, f4⟩ := hfinish e2 g1 g2 g3 g4
      exact hclose _ f1 f2 ⟨c, f3, f4⟩
    · rw [if_neg hbig]
      obtain ⟨g1, g2, g3, g4⟩ := hscaled (fun d => d / Dbl.num v1) (fun u => by
        show Dbl.num u / Dbl.num v1 = _
        rw [Dbl.div_num, if_neg hv1ne])
      generalize (forUp (q + 2) (q + (p - q) + 1 - (q + 2))
          (fun qjj e => wr e (qjj - 1) (rd h e (qjj - 1) / Dbl.num v1))
          (wr w.e q (Dbl.num v1))) = e2 at g1 g2 g3 g4 ⊢
      obtain ⟨c, f1, f2, f3, f4⟩ := hfinish e2 g1 g2 g3 g4
      exact hclose _ f1 f2 ⟨c, f3, f4⟩

/-- The shape of one bidiagonalization step: only `U` and `x` are written outside the
three reflections. -/
theorem xzsvdc_bidiag_shape (h : Host) (n p nct nrt q : Nat) (w : SvdWork) :
    ∃ (U1 x1 : List Dbl),
      xzsvdc_bidiag h n p nct nrt q w =
        if q + 1 ≤ nrt then
          { xzsvdc_rowReflect h n p q
              (if q + 1 ≤ nct then
                ({ xzsvdc_applyCols h n p q (xzsvdc_colReflect h n nct q w).2
                    (xzsvdc_colReflect h n nct q w).1 with U := U1 } : SvdWork)
              else xzsvdc_applyCols h n p q (xzsvdc_colReflect h n nct q w).2
                (xzsvdc_colReflect h n nct q w).1) with
            x := x1 }
        else
          (if q + 1 ≤ nct then
            ({ xzsvdc_applyCols h n p q (xzsvdc_colReflect h n nct q w).2
                (xzsvdc_colReflect h n nct q w).1 with U := U1 } : SvdWork)
          else xzsvdc_applyCols h n p q (xzsvdc_colReflect h n nct q w).2
            (xzsvdc_colReflect h n nct q w).1) := by
  exact ⟨forUp (q + 1) (n - q) (fun ii U =>
      wr U ((ii + n * q) - 1)
        (rd h (xzsvdc_applyCols h n p q (xzsvdc_colReflect h n nct q w).2
          (xzsvdc_colReflect h n nct q w).1).A ((ii + n * q) - 1)))
      (xzsvdc_applyCols h n p q (xzsvdc_colReflect h n nct q w).2
        (xzsvdc_colReflect h n nct q w).1).U,
    _, rfl⟩

/-- One bidiagonalization step keeps `A`, `s_data`, `e_data` and `work` free of NaN. -/
theorem xzsvdc_bidiag_num (h : Host) (hsq : ∀ x, 0 ≤ h.sqrt x) (n p nct nrt q : Nat)
    (w : SvdWork) (hqp : q < p) (hqn : q < n) (hrt : q + 1 ≤ nrt → q + 2 ≤ p)
    (hA : nanFree w.A) (hAl : w.A.length = n * p) (hs : nanFree w.s)
    (hsl : q < w.s.length) (he : nanFree w.e) (hel : w.e.length = p)
    (hw : nanFree w.work) (hwl : w.work.length = n) :
    nanFree (xzsvdc_bidiag h n p nct nrt q w).A ∧
    (xzsvdc_bidiag h n p nct nrt q w).A.length = n * p ∧
    nanFree (xzsvdc_bidiag h n p nct nrt q w).s ∧
    nanFree (xzsvdc_bidiag h n p nct nrt q w).e ∧
    (xzsvdc_bidiag h n p nct nrt q w).e.length = p ∧
    nanFree (xzsvdc_bidiag h n p nct nrt q w).work ∧
    (xzsvdc_bidiag h n p nct nrt q w).work.length = n := by
  obtain ⟨U1, x1, hb⟩ := xzsvdc_bidiag_shape h n p nct nrt q w
  rw [hb]
  obtain ⟨c1, c2, c3, c4⟩ := xzsvdc_colReflect_num h hsq n p nct q w hqp hqn hA hAl hs hsl
  have c5 := xzsvdc_colReflect_e h n nct q w
  have c6 := xzsvdc_colReflect_work h n nct q w
  obtain ⟨a1, a2, a3, a4⟩ := xzsvdc_applyCols_num h n p q (xzsvdc_colReflect h n nct q w).2
    (xzsvdc_colReflect h n nct q w).1 hqp hqn c1 c2 (by rw [c5]; exact he) c4
  have a5 := xzsvdc_applyCols_e_length h n p q (xzsvdc_colReflect h n nct q w).2
    (xzsvdc_colReflect h n nct q w).1
  have a6 := xzsvdc_applyCols_s h n p q (xzsvdc_colReflect h n nct q w).2
    (xzsvdc_colReflect h n nct q w).1
  rw [c5, hel] at a5
  rw [c6] at a4
  generalize xzsvdc_applyCols h n p q (xzsvdc_colReflect h n nct q w).2
    (xzsvdc_colReflect h n nct q w).1 = a at a1 a2 a3 a4 a5 a6 ⊢
  have a7 : nanFree a.s := by rw [a6]; exact c3
  have a8 : nanFree a.work := by rw [a4]; exact hw
  have a9 : a.work.length = n := by rw [a4]; exact hwl
  have h3 : nanFree (if q + 1 ≤ nct then ({ a with U := U1 } : SvdWork) else a).A ∧
      (if q + 1 ≤ nct then ({ a with U := U1 } : SvdWork) else a).A.length = n * p ∧
      nanFree (if q + 1 ≤ nct then ({ a with U := U1 } : SvdWork) else a).s ∧
      nanFree (if q + 1 ≤ nct then ({ a with U := U1 } : SvdWork) else a).e ∧
      (if q + 1 ≤ nct then ({ a with U := U1 } : SvdWork) else a).e.length = p ∧
      nanFree (if q + 1 ≤ nct then ({ a with U := U1 } : SvdWork) else a).work ∧
      (if q + 1 ≤ nct then ({ a with U := U1 } : SvdWork) else a).work.length = n := by
    split
    · exact ⟨a1, a2, a7, a3, a5, a8, a9⟩
    · exact ⟨a1, a2, a7, a3, a5, a8, a9⟩
  generalize (if q + 1 ≤ nct then ({ a with U := U1 } : SvdWork) else a) = w3 at h3 ⊢
  obtain ⟨t1, t2, t3, t4, t5, t6, t7⟩ := h3
  by_cases hr : q + 1 ≤ nrt
  · rw [if_pos hr]
    obtain ⟨r1, r2, r3, r4, r5⟩ := xzsvdc_rowReflect_num h hsq n p q w3 (hrt hr) hqn t1 t2
      t4 t5 t6 t7
    have r6 := xzsvdc_rowReflect_e_length h n p q w3
    have r7 := xzsvdc_rowReflect_s h n p q w3
    exact ⟨r1, r2, by show nanFree (xzsvdc_rowReflect h n p q w3).s; rw [r7]; exact t3, r3,
      r6.trans t5, r4, r5⟩
  · rw [if_neg hr]
    exact ⟨t1, t2, t3, t4, t5, t6, t7⟩

theorem nanFree_replicate_zero (k : Nat) : nanFree (List.replicate k (0 : Dbl)) := by
  intro d hd
  rw [List.eq_of_mem_replicate hd]
  rfl

/-- With a square root that is never negative, a matrix of numbers with at least one
row reaches the pre-scaling pass of `xzsvdc` with `s_data` and `e_data` free of NaN. -/
theorem xzsvdc_bidiagonal_num (h : Host) (hsq : ∀ x, 0 ≤ h.sqrt x) (A : Mat)
    (hn : 1 ≤ A.size0) (hwf : A.data.length = A.size0 * A.size1) (hA : nanFree A.data) :
    nanFree (xzsvdc_bidiagonal h A).s ∧ nanFree (xzsvdc_bidiagonal h A).e := by
  have hnct : xzsvdc_nct A.size0 A.size1 + 1 ≤ A.size0 ∧
      xzsvdc_nct A.size0 A.size1 ≤ A.size1 := by
    unfold xzsvdc_nct
    dsimp only
    split <;> omega
  have hnrt : xzsvdc_nrt A.size0 A.size1 ≤ A.size0 ∧
      (xzsvdc_nrt A.size0 A.size1 = 0 ∨ xzsvdc_nrt A.size0 A.size1 + 2 ≤ A.size1) := by
    unfold xzsvdc_nrt
    dsimp only
    split <;> split <;> omega
  have hloop : ∀ (len : Nat) (w0 : SvdWork),
      len ≤ xzsvdc_nct A.size0 A.size1 ∨ len ≤ xzsvdc_nrt A.size0 A.size1 →
      (nanFree w0.A ∧ w0.A.length = A.size0 * A.size1 ∧ nanFree w0.s ∧
        w0.s.length = (if A.size0 + 1 ≤ A.size1 then A.size0 + 1 else A.size1) ∧
        nanFree w0.e ∧ w0.e.length = A.size1 ∧ nanFree w0.work ∧
        w0.work.length = A.size0) →
      (nanFree (forUp 0 len (xzsvdc_bidiag h A.size0 A.size1 (xzsvdc_nct A.size0 A.size1)
          (xzsvdc_nrt A.size0 A.size1)) w0).A ∧
        (forUp 0 len (xzsvdc_bidiag h A.size0 A.size1 (xzsvdc_nct A.size0 A.size1)
          (xzsvdc_nrt A.size0 A.size1)) w0).A.length = A.size0 * A.size1 ∧
        nanFree (forUp 0 len (xzsvdc_bidiag h A.size0 A.size1 (xzsvdc_nct A.size0 A.size1)
          (xzsvdc_nrt A.size0 A.size1)) w0).s ∧
        (forUp 0 len (xzsvdc_bidiag h A.size0 A.size1 (xzsvdc_nct A.size0 A.size1)
          (xzsvdc_nrt A.size0 A.size1)) w0).s.length
          = (if A.size0 + 1 ≤ A.size1 then A.size0 + 1 else A.size1) ∧
        nanFree (forUp 0 len (xzsvdc_bidiag h A.size0 A.size1 (xzsvdc_nct A.size0 A.size1)
          (xzsvdc_nrt A.size0 A.size1)) w0).e ∧
        (forUp 0 len (xzsvdc_bidiag h A.size0 A.size1 (xzsvdc_nct A.size0 A.size1)
          (xzsvdc_nrt A.size0 A.size1)) w0).e.length = A.size1 ∧
        nanFree (forUp 0 len (xzsvdc_bidiag h A.size0 A.size1 (xzsvdc_nct A.size0 A.size1)
          (xzsvdc_nrt A.size0 A.size1)) w0).work ∧
        (forUp 0 len (xzsvdc_bidiag h A.size0 A.size1 (xzsvdc_nct A.size0 A.size1)
          (xzsvdc_nrt A.size0 A.size1)) w0).work.length = A.size0) := by
    intro len w0 hlen h0
    refine forUp_preserves_range (fun (t : SvdWork) =>
        nanFree t.A ∧ t.A.length = A.size0 * A.size1 ∧ nanFree t.s ∧
        t.s.length = (if A.size0 + 1 ≤ A.size1 then A.size0 + 1 else A.size1) ∧
        nanFree t.e ∧ t.e.length = A.size1 ∧ nanFree t.work ∧
        t.work.length = A.size0) 0 len _ w0 h0 ?_
    intro q t _ hq ⟨t1, t2, t3, t4, t5, t6, t7, t8⟩
    have hqn : q < A.size0 := by omega
    have hqp : q < A.size1 := by omega
    have hqs : q < t.s.length := by
      rw [t4]
      split <;> omega
    obtain ⟨b1, b2, b3, b4, b5, b6, b7⟩ := xzsvdc_bidiag_num h hsq A.size0 A.size1
      (xzsvdc_nct A.size0 A.size1) (xzsvdc_nrt A.size0 A.size1) q t hqp hqn (by omega)
      t1 t2 t3 hqs t5 t6 t7 t8
    exact ⟨b1, b2, b3, (xzsvdc_bidiag_s_length h _ _ _ _ q t).trans t4, b4, b5, b6, b7⟩
  have hite : ∀ (c : Prop) [Decidable c] (a b : List Dbl), nanFree a → nanFree b →
      nanFree (if c then a else b) := by
    intro c _ a b ha hb
    split
    · exact ha
    · exact hb
  have hW := hloop (if xzsvdc_nct A.size0 A.size1 ≥ xzsvdc_nrt A.size0 A.size1
      then xzsvdc_nct A.size0 A.size1 else xzsvdc_nrt A.size0 A.size1)
    ⟨A.data, List.replicate (A.size0 * if A.size0 ≤ A.size1 then A.size0 else A.size1) 0,
      List.replicate (A.size1 * A.size1) 0,
      List.replicate (if A.size0 + 1 ≤ A.size1 then A.size0 + 1 else A.size1) 0,
      List.replicate A.size1 0, List.replicate A.size0 0⟩
    (by split
        · exact Or.inl (Nat.le_refl _)
        · exact Or.inr (Nat.le_refl _))
    ⟨hA, hwf, nanFree_replicate_zero _, List.length_replicate _ _, nanFree_replicate_zero _,
      List.length_replicate _ _, nanFree_replicate_zero _, List.length_replicate _ _⟩
  unfold xzsvdc_bidiagonal
  dsimp only
  generalize forUp 0 (if xzsvdc_nct A.size0 A.size1 ≥ xzsvdc_nrt A.size0 A.size1
      then xzsvdc_nct A.size0 A.size1 else xzsvdc_nrt A.size0 A.size1)
    (xzsvdc_bidiag h A.size0 A.size1 (xzsvdc_nct A.size0 A.size1)
      (xzsvdc_nrt A.size0 A.size1))
    ⟨A.data, List.replicate (A.size0 * if A.size0 ≤ A.size1 then A.size0 else A.size1) 0,
      List.replicate (A.size1 * A.size1) 0,
      List.replicate (if A.size0 + 1 ≤ A.size1 then A.size0 + 1 else A.size1) 0,
      List.replicate A.size1 0, List.replicate A.size0 0⟩ = W at hW ⊢
  obtain ⟨w1, w2, w3, w4, w5, w6, w7, w8⟩ := hW
  have hnum : ∀ k, k < A.size0 * A.size1 → (rd h W.A k).isNaN = false := by
    intro k hk
    obtain ⟨v, hv⟩ := nanFree_rd h W.A k w1 (by rw [w2]; exact hk)
    rw [hv]
    rfl
  have hmul : ∀ a b : Nat, a < A.size0 → b < A.size1 → a + A.size0 * b < A.size0 * A.size1 :=
    fun a b ha hb => by
      have := col_inside A.size0 b A.size1 hb
      omega
  have hs1 : nanFree (if xzsvdc_nct A.size0 A.size1 < A.size1 then
      wr W.s (xzsvdc_nct A.size0 A.size1)
        (rd h W.A (xzsvdc_nct A.size0 A.size1 + A.size0 * xzsvdc_nct A.size0 A.size1))
      else W.s) := by
    by_cases hc : xzsvdc_nct A.size0 A.size1 < A.size1
    · rw [if_pos hc]
      exact nanFree_wr _ _ _ w3 (hnum _ (hmul _ _ (by omega) hc))
    · rw [if_neg hc]
      exact w3
  have he1 : nanFree (if xzsvdc_nrt A.size0 A.size1
        < (if A.size1 ≤ A.size0 + 1 then A.size1 - 1 else A.size0) then
      wr W.e (xzsvdc_nrt A.size0 A.size1)
        (rd h W.A (xzsvdc_nrt A.size0 A.size1
          + A.size0 * (if A.size1 ≤ A.size0 + 1 then A.size1 - 1 else A.size0)))
      else W.e) := by
    by_cases hc : xzsvdc_nrt A.size0 A.size1
        < (if A.size1 ≤ A.size0 + 1 then A.size1 - 1 else A.size0)
    · rw [if_pos hc]
      refine nanFree_wr _ _ _ w5 (hnum _ (hmul _ _ ?_ ?_))
      · split at hc <;> omega
      · split at hc <;> split <;> omega
    · rw [if_neg hc]
      exact w5
  exact ⟨hite _ _ _ (nanFree_wr _ _ _ hs1 rfl) hs1, nanFree_wr _ _ _ he1 rfl⟩

theorem hostQ_sqrt_nonneg : ∀ x, 0 ≤ hostQ.sqrt x := fun x => by
  show 0 ≤ sqrtQ x
  unfold sqrtQ
  exact div_nonneg (Nat.cast_nonneg _) (Nat.cast_nonneg _)

/-! ## The rotation `xrot` and the Euclidean norm -/

/-- The values `xrot` leaves in its two segments. -/
theorem xrot_get (h : Host) (n : Nat) (x : List Dbl) (ix0 iy0 : Nat) (c s : Dbl)
    (hix : 1 ≤ ix0) (hiy : 1 ≤ iy0) (hdisj : ix0 + n ≤ iy0 ∨ iy0 + n ≤ ix0)
    (hbx : ix0 + n ≤ x.length + 1) (hby : iy0 + n ≤ x.length + 1) (k : Nat) (hk : k < n) :
    rd h (xrot h n x ix0 iy0 c s) (iy0 + k - 1)
      = c * rd h x (iy0 + k - 1) - s * rd h x (ix0 + k - 1) ∧
    rd h (xrot h n x ix0 iy0 c s) (ix0 + k - 1)
      = c * rd h x (ix0 + k - 1) + s * rd h x (iy0 + k - 1) := by
  have hloop := xrot_loop_spec h x ix0 iy0 n c s hix hiy hdisj hbx hby n (Nat.le_refl n)
  have hrot : xrot h n x ix0 iy0 c s = forUp 0 n (fun k x =>
      wr (wr x (iy0 + k - 1) (c * rd h x (iy0 + k - 1) - s * rd h x (ix0 + k - 1)))
        (ix0 + k - 1) (c * rd h x (ix0 + k - 1) + s * rd h x (iy0 + k - 1))) x := by
    unfold xrot
    rw [if_pos (by omega), Int.toNat_ofNat]
  rw [hrot]
  exact hloop.2.1 k hk

/-- A pair `(c, s)` of doubles with `c^2 + s^2 = 1` is a pair of numbers. -/
theorem rotation_numbers (c s : Dbl) (hcs : c * c + s * s = Dbl.num 1) :
    ∃ cq sq : ℚ, c = Dbl.num cq ∧ s = Dbl.num sq ∧ cq * cq + sq * sq = 1 := by
  cases c with
  | nan =>
    exact absurd hcs (by rw [Dbl.nan_mul, Dbl.nan_add]; exact fun hc => Dbl.noConfusion hc)
  | num cq =>
    cases s with
    | nan =>
      exact absurd hcs (by rw [Dbl.nan_mul, Dbl.add_nan]; exact fun hc => Dbl.noConfusion hc)
    | num sq =>
      rw [Dbl.mul_num, Dbl.mul_num, Dbl.add_num] at hcs
      exact ⟨cq, sq, rfl, rfl, Dbl.num.inj hcs⟩

/-- A rotation of the pair `(a, b)` keeps `a^2 + b^2`; with a NaN in the pair both sides
are NaN. -/
theorem rotation_sq (c s a b : Dbl) (hcs : c * c + s * s = Dbl.num 1) :
    (c * a + s * b) * (c * a + s * b) + (c * b - s * a) * (c * b - s * a) = a * a + b * b := by
  obtain ⟨cq, sq, hc, hs, hq⟩ := rotation_numbers c s hcs
  subst hc
  subst hs
  cases a with
  | nan => cases b <;> rfl
  | num aq =>
    cases b with
    | nan => rfl
    | num bq =>
      simp only [Dbl.mul_num, Dbl.add_num, Dbl.sub_num]
      congr 1
      linear_combination (aq * aq + bq * bq) * hq

theorem Dbl.add_shuffle (a b u v : Dbl) : (a + u) + (b + v) = (a + b) + (u + v) := by
  cases a <;> cases b <;> cases u <;> cases v <;> try rfl
  simp only [Dbl.add_num]
  congr 1
  ring

/-- The sum of two running sums over the same index list is the running sum of the
termwise sums. -/
theorem foldl_add_pair (l : List Nat) (f g : Nat → Dbl) (a b : Dbl) :
    (l.map f).foldl (· + ·) a + (l.map g).foldl (· + ·) b
      = (l.map (fun k => f k + g k)).foldl (· + ·) (a + b) := by
  induction l generalizing a b with
  | nil => rfl
  | cons k t ih =>
    simp only [List.map_cons, List.foldl_cons]
    rw [ih, Dbl.add_shuffle]

/-- The sum of the squared norms of two segments, term by term. -/
theorem segmentNormSq_pair (h : Host) (x : List Dbl) (ix0 iy0 n : Nat) :
    segmentNormSq h x ix0 n + segmentNormSq h x iy0 n
      = ((List.range n).map (fun k =>
          rd h x (ix0 + k - 1) * rd h x (ix0 + k - 1)
            + rd h x (iy0 + k - 1) * rd h x (iy0 + k - 1))).foldl (· + ·) (0 + 0) := by
  unfold segmentNormSq
  exact foldl_add_pair (List.range n) _ _ 0 0

/-! ## The engine on a matrix with one row and two columns -/

theorem Dbl.eq_num (a b : ℚ) : Dbl.eq (Dbl.num a) (Dbl.num b) = decide (a = b) := rfl

theorem Dbl.ne_num (a b : ℚ) : Dbl.ne (Dbl.num a) (Dbl.num b) = !decide (a = b) := rfl

theorem Dbl.abs_num (a : ℚ) : Dbl.abs (Dbl.num a) = Dbl.num |a| := rfl

/-- The state `xzsvdc` hands to its pre-scaling pass for the matrix `[a, b]`: no
reflection is applied, `s = [a, 0]`, `e = [b, 0]`, and `U` and `V` are the identity. -/
theorem xzsvdc_bidiagonal_row2 (h : Host) (a b : Dbl) :
    xzsvdc_bidiagonal h ⟨1, 2, [a, b]⟩ = ⟨[1], [1, 0, 0, 1], [a, 0], [b, 0], 0⟩ := by
  rfl
/-- The pre-scaling pass on the state of the matrix `[a, b]`: `s = [|a|, 0]`,
`e = [|b|, 0]`, and the signs `u` of `a` and `σ` are moved into `U` and `V`. -/
theorem xzsvdc_prescaled_row2 (h : Host) (a b : ℚ) :
    ∃ u σ : ℚ, u * |a| = a ∧ u * |b| * σ = b ∧
      (xzsvdc_prescaled h 1 2 1 ⟨[1], [1, 0, 0, 1], [Dbl.num a, 0], [Dbl.num b, 0], 0⟩).U
        = [Dbl.num u] ∧
      (xzsvdc_prescaled h 1 2 1 ⟨[1], [1, 0, 0, 1], [Dbl.num a, 0], [Dbl.num b, 0], 0⟩).x
        = [Dbl.num 1, Dbl.num 0, Dbl.num 0, Dbl.num σ] ∧
      (xzsvdc_prescaled h 1 2 1 ⟨[1], [1, 0, 0, 1], [Dbl.num a, 0], [Dbl.num b, 0], 0⟩).s
        = [Dbl.num |a|, Dbl.num 0] ∧
      (xzsvdc_prescaled h 1 2 1 ⟨[1], [1, 0, 0, 1], [Dbl.num a, 0], [Dbl.num b, 0], 0⟩).e
        = [Dbl.num |b|, Dbl.num 0] := by
  by_cases ha : a = 0
  · subst ha
    by_cases hb : b = 0
    · subst hb
      refine ⟨1, 1, by simp, by simp, ?_, ?_, ?_, ?_⟩ <;>
        simp [xzsvdc_prescaled, xzsvdc_prescale, xzsvdc_prescale_e, xzsvdc_prescale_s, forUp,
          List.range', wr, rd, Dbl.lit_eq, Dbl.mul_num, Dbl.div_num, Dbl.ne_num, Dbl.abs_num]
    · have hbb : |b| * |b| = b * b := abs_mul_abs_self b
      refine ⟨1, |b| / b, by simp, by field_simp, ?_, ?_, ?_, ?_⟩ <;>
        simp [xzsvdc_prescaled, xzsvdc_prescale, xzsvdc_prescale_e, xzsvdc_prescale_s, forUp,
          List.range', wr, rd, Dbl.lit_eq, Dbl.mul_num, Dbl.div_num, Dbl.ne_num, Dbl.abs_num,
          hb]
  · have hu := sign_div_abs a ha
    have hune : a / |a| ≠ 0 := by rcases hu.1 with h1 | h1 <;> rw [h1] <;> norm_num
    have habs : |a| ≠ 0 := abs_ne_zero.mpr ha
    have hua : a / |a| * |a| = a := by field_simp
    by_cases hb : b = 0
    · subst hb
      refine ⟨a / |a|, 1, hua, by simp, ?_, ?_, ?_, ?_⟩ <;>
        simp [xzsvdc_prescaled, xzsvdc_prescale, xzsvdc_prescale_e, xzsvdc_prescale_s, forUp,
          List.range', wr, rd, Dbl.lit_eq, Dbl.mul_num, Dbl.div_num, Dbl.ne_num, Dbl.abs_num,
          ha, habs, hune]
    · have hb1 : b / (a / |a|) ≠ 0 := div_ne_zero hb hune
      have hbb : |b| * |b| = b * b := abs_mul_abs_self b
      have habsb : |b / (a / |a|)| = |b| := by
        rcases hu.1 with h1 | h1
        · rw [h1, div_one]
        · rw [h1, div_neg, div_one, abs_neg]
      refine ⟨a / |a|, |b / (a / |a|)| / (b / (a / |a|)), hua, ?_, ?_, ?_, ?_, ?_⟩
      · rw [habsb]
        rcases hu.1 with h1 | h1
        · rw [h1]; field_simp
        · rw [h1]; field_simp
      all_goals
        simp [xzsvdc_prescaled, xzsvdc_prescale, xzsvdc_prescale_e, xzsvdc_prescale_s, forUp,
          List.range', wr, rd, Dbl.lit_eq, Dbl.mul_num, Dbl.div_num, Dbl.ne_num, Dbl.abs_num,
          ha, habs, hune, hb, hb1, habsb]
theorem xzsvdc_loop_step (h : Host) (n p nmq : Nat) (snorm : Dbl) (fuel : Nat) (w : SvdIter) :
    xzsvdc_loop h n p nmq snorm (fuel + 1) w
      = if 0 < w.m1 ∧ w.qq < 75 then
          xzsvdc_loop h n p nmq snorm fuel (xzsvdc_pass h n p nmq snorm w)
        else w := rfl

/-- A pass from `m = 1` whose first scan drops `e[0] = β`: case 4 on `s[1] = 0`. -/
theorem xzsvdc_pass_row2_drop (h : Host) (snorm : Dbl) (U x : List Dbl) (α β : ℚ)
    (hdrop : Dbl.le (Dbl.num |β|) (EPS * Dbl.num |α|) = true
      ∨ Dbl.le (Dbl.num |β|) TINY = true) :
    xzsvdc_pass h 1 2 1 snorm ⟨U, x, [Dbl.num α, Dbl.num 0], [Dbl.num β, Dbl.num 0], 2, 0⟩
      = ⟨U, x, [Dbl.num α, Dbl.num 0], [Dbl.num 0, Dbl.num 0], 1, 0⟩ := by
  have hc : Dbl.le (Dbl.abs (Dbl.num β))
        (EPS * (Dbl.abs (Dbl.num α) + Dbl.abs (Dbl.num 0))) = true
      ∨ Dbl.le (Dbl.abs (Dbl.num β)) TINY = true := by
    rcases hdrop with h1 | h1
    · left
      simpa [Dbl.abs_num, Dbl.add_num] using h1
    · right
      simpa [Dbl.abs_num] using h1
  simp [xzsvdc_pass, xzsvdc_classify, xzsvdc_scanE, rd, wr, hc, xzsvdc_case4, xzsvdc_sort,
    Dbl.lt_num, Dbl.lit_eq]
/-- The last pass, from `m = 0`: case 4 on `s[0] = α >= 0`, which is already in place. -/
theorem xzsvdc_pass_row2_last (h : Host) (snorm : Dbl) (U x e : List Dbl) (α : ℚ)
    (hα : 0 ≤ α) :
    xzsvdc_pass h 1 2 1 snorm ⟨U, x, [Dbl.num α, Dbl.num 0], e, 1, 0⟩
      = ⟨U, x, [Dbl.num α, Dbl.num 0], e, 0, 0⟩ := by
  have h1 : ¬ α < 0 := not_lt.mpr hα
  simp [xzsvdc_pass, xzsvdc_classify, xzsvdc_scanE, rd, wr, xzsvdc_case4, xzsvdc_sort,
    Dbl.lt_num, Dbl.lit_eq, h1]

/-- The rotation `xrotg` builds from a pair `α >= 0`, `β > 0`, with a square root that is
positive on positive numbers: `r > 0`, `c = α / r`, `s = β / r`. -/
theorem xrotg_pos (h : Host) (hsq : ∀ y, 0 < y → 0 < h.sqrt y) (α β : ℚ) (hα : 0 ≤ α)
    (hβ : 0 < β) :
    ∃ r : ℚ, 0 < r ∧ (xrotg h (Dbl.num α) (Dbl.num β)).c = Dbl.num (α / r) ∧
      (xrotg h (Dbl.num α) (Dbl.num β)).a = Dbl.num r ∧
      (xrotg h (Dbl.num α) (Dbl.num β)).s = Dbl.num (β / r) := by
  have habsα : |α| = α := abs_of_nonneg hα
  have habsβ : |β| = β := abs_of_nonneg (le_of_lt hβ)
  have hscale : α + β ≠ 0 := by linarith
  have hy : 0 < α / (α + β) * (α / (α + β)) + β / (α + β) * (β / (α + β)) := by
    have h1 : 0 < β / (α + β) := div_pos hβ (by linarith)
    have h2 : 0 ≤ α / (α + β) * (α / (α + β)) := mul_self_nonneg _
    have h3 : 0 < β / (α + β) * (β / (α + β)) := mul_pos h1 h1
    linarith
  have hy1 : ¬ α / (α + β) * (α / (α + β)) + β / (α + β) * (β / (α + β)) < 0 := not_lt.mpr (le_of_lt hy)
  have hs := hsq _ hy
  have hr : 0 < (α + β) * h.sqrt (α / (α + β) * (α / (α + β)) + β / (α + β) * (β / (α + β))) :=
    mul_pos (by linarith) hs
  have hroe : Dbl.lt (if β < α then Dbl.num α else Dbl.num β) (Dbl.num 0) = false := by
    split
    · rw [Dbl.lt_num]
      exact decide_eq_false (not_lt.mpr hα)
    · rw [Dbl.lt_num]
      exact decide_eq_false (not_lt.mpr (le_of_lt hβ))
  refine ⟨_, hr, ?_, ?_, ?_⟩ <;>
    simp [xrotg, Dbl.sqrt, Dbl.lt_num, Dbl.abs_num, Dbl.add_num, Dbl.mul_num, Dbl.div_num,
      Dbl.eq_num, Dbl.gt, habsα, habsβ, hscale, hy1, hroe, ne_of_gt hs, Dbl.lit_eq]

/-- A pass from `m = 1` whose first scan keeps `e[0] = β`: the second scan stops at
`s[1] = 0`, and case 1 rotates `β` into `s[0]` and the two columns of `V`. -/
theorem xzsvdc_pass_row2_keep (h : Host) (hsq : ∀ y, 0 < y → 0 < h.sqrt y) (snorm : Dbl)
    (U : List Dbl) (σ α β : ℚ) (hα : 0 ≤ α) (hβ : 0 ≤ β)
    (hkeep : ¬ (Dbl.le (Dbl.num |β|) (EPS * Dbl.num |α|) = true
      ∨ Dbl.le (Dbl.num |β|) TINY = true)) :
    ∃ r : ℚ, 0 < r ∧
      xzsvdc_pass h 1 2 1 snorm
          ⟨U, [Dbl.num 1, Dbl.num 0, Dbl.num 0, Dbl.num σ], [Dbl.num α, Dbl.num 0],
            [Dbl.num β, Dbl.num 0], 2, 0⟩
        = ⟨U, [Dbl.num (α / r), Dbl.num (β / r * σ), Dbl.num (-(β / r)), Dbl.num (α / r * σ)],
            [Dbl.num r, Dbl.num 0], [Dbl.num 0, Dbl.num 0], 2, 0⟩ := by
  have habsα : |α| = α := abs_of_nonneg hα
  have habsβ : |β| = β := abs_of_nonneg hβ
  have hq := hkeep
  simp only [EPS, TINY, Dbl.le_num, Dbl.mul_num, habsα, habsβ, decide_eq_true_eq] at hq
  have hq1 : ¬ β ≤ 22204460492503131 / 10 ^ 32 * α := fun hc => hq (Or.inl hc)
  have hq2 : ¬ β ≤ 10020841800044864 / 10 ^ 308 := fun hc => hq (Or.inr hc)
  have hβpos : 0 < β := by
    have : (0 : ℚ) < 10020841800044864 / 10 ^ 308 := by norm_num
    linarith [not_le.mp hq2]
  obtain ⟨r, hr, gc, ga, gs⟩ := xrotg_pos h hsq α β hα hβpos
  refine ⟨r, hr, ?_⟩
  simp [xzsvdc_pass, xzsvdc_classify, xzsvdc_scanE, xzsvdc_scanS, rd, wr, hq1, hq2, xzsvdc_case1,
    forDown, forUp, List.range', xrot, Dbl.lt_num, Dbl.le_num, Dbl.lit_eq,
    Dbl.abs_num, Dbl.add_num, Dbl.mul_num, Dbl.sub_num, Dbl.neg_num, Dbl.eq_num,
    Dbl.ne_num, Dbl.gt, habsα, habsβ, EPS, TINY, hβ, hα, gc, ga, gs]
/-- The loop on the pre-scaled state of a 1 x 2 matrix when the first scan drops
`e[0] = β`: two passes of case 4, and `s`, `U`, `V` stay as they are. -/
theorem xzsvdc_loop_row2_drop (h : Host) (snorm : Dbl) (fuel : Nat) (U x : List Dbl)
    (α β : ℚ) (hα : 0 ≤ α)
    (hdrop : Dbl.le (Dbl.num |β|) (EPS * Dbl.num |α|) = true
      ∨ Dbl.le (Dbl.num |β|) TINY = true) :
    xzsvdc_loop h 1 2 1 snorm (fuel + 2)
        ⟨U, x, [Dbl.num α, Dbl.num 0], [Dbl.num β, Dbl.num 0], 2, 0⟩
      = ⟨U, x, [Dbl.num α, Dbl.num 0], [Dbl.num 0, Dbl.num 0], 0, 0⟩ := by
  rw [xzsvdc_loop_step, if_pos (by show 0 < 2 ∧ 0 < 75; decide),
    xzsvdc_pass_row2_drop h snorm U x α β hdrop,
    xzsvdc_loop_step, if_pos (by show 0 < 1 ∧ 0 < 75; decide),
    xzsvdc_pass_row2_last h snorm U x _ α hα]
  exact xzsvdc_loop_stable h 1 2 1 snorm fuel _ (by show ¬ (0 < 0 ∧ 0 < 75); decide)

/-- The loop on the pre-scaled state of a 1 x 2 matrix when the first scan keeps
`e[0] = β`: case 1, then two passes of case 4. -/
theorem xzsvdc_loop_row2_keep (h : Host) (hsq : ∀ y, 0 < y → 0 < h.sqrt y) (snorm : Dbl)
    (fuel : Nat) (U : List Dbl) (σ α β : ℚ) (hα : 0 ≤ α) (hβ : 0 ≤ β)
    (hkeep : ¬ (Dbl.le (Dbl.num |β|) (EPS * Dbl.num |α|) = true
      ∨ Dbl.le (Dbl.num |β|) TINY = true)) :
    ∃ r : ℚ, 0 < r ∧
      xzsvdc_loop h 1 2 1 snorm (fuel + 3)
          ⟨U, [Dbl.num 1, Dbl.num 0, Dbl.num 0, Dbl.num σ], [Dbl.num α, Dbl.num 0],
            [Dbl.num β, Dbl.num 0], 2, 0⟩
        = ⟨U, [Dbl.num (α / r), Dbl.num (β / r * σ), Dbl.num (-(β / r)), Dbl.num (α / r * σ)],
            [Dbl.num r, Dbl.num 0], [Dbl.num 0, Dbl.num 0], 0, 0⟩ := by
  obtain ⟨r, hr, hp⟩ := xzsvdc_pass_row2_keep h hsq snorm U σ α β hα hβ hkeep
  refine ⟨r, hr, ?_⟩
  rw [xzsvdc_loop_step, if_pos (by show 0 < 2 ∧ 0 < 75; decide), hp]
  exact xzsvdc_loop_row2_drop h snorm fuel U _ r 0 (le_of_lt hr) (Or.inr (by decide!))

/-- What `xzsvdc` returns, read off the state its loop ends with. -/
theorem xzsvdc_eq_state (h : Host) (A : Mat) :
    xzsvdc h A
      = { S_size := if A.size0 ≤ A.size1 then A.size0 else A.size1
          U := ⟨A.size0, if A.size0 ≤ A.size1 then A.size0 else A.size1, (xzsvdc_state h A).U⟩
          S := (List.range (if A.size0 ≤ A.size1 then A.size0 else A.size1)).map
            (fun qjj => rd h (xzsvdc_state h A).s qjj)
          V := Mat.build A.size1 (if A.size0 ≤ A.size1 then A.size0 else A.size1)
            (fun ns qjj => rd h (xzsvdc_state h A).x (ns + A.size1 * qjj)) } := by
  rfl

/-- The state `xzsvdc` ends with for the matrix `[a, b]` of numbers. -/
theorem xzsvdc_state_row2 (h : Host) (hsq : ∀ y, 0 < y → 0 < h.sqrt y) (a b : ℚ) :
    ∃ u : ℚ, u * |a| = a ∧
      ((Dbl.le (Dbl.num |b|) (EPS * Dbl.num |a|) = true ∨ Dbl.le (Dbl.num |b|) TINY = true) →
        ∃ x2 x3 : Dbl, ∃ e : List Dbl,
          xzsvdc_state h ⟨1, 2, [Dbl.num a, Dbl.num b]⟩
            = ⟨[Dbl.num u], [Dbl.num 1, Dbl.num 0, x2, x3], [Dbl.num |a|, Dbl.num 0], e, 0, 0⟩) ∧
      (¬ (Dbl.le (Dbl.num |b|) (EPS * Dbl.num |a|) = true ∨ Dbl.le (Dbl.num |b|) TINY = true) →
        ∃ r v : ℚ, ∃ x2 x3 : Dbl, ∃ e : List Dbl, r ≠ 0 ∧ u * |b| * v = b ∧
          xzsvdc_state h ⟨1, 2, [Dbl.num a, Dbl.num b]⟩
            = ⟨[Dbl.num u], [Dbl.num (|a| / r), Dbl.num (|b| / r * v), x2, x3],
                [Dbl.num r, Dbl.num 0], e, 0, 0⟩) := by
  obtain ⟨u, σ, hu, hσ, pU, px, ps, pe⟩ := xzsvdc_prescaled_row2 h a b
  have hst := xzsvdc_state_wide h ⟨1, 2, [Dbl.num a, Dbl.num b]⟩ (by show 1 ≤ 1; decide)
    (by show 1 < 2; decide)
  rw [xzsvdc_bidiagonal_row2] at hst
  dsimp only at hst
  rw [pU, px, ps, pe, show xzsvdc_fuel (1 + 1) = 681 + 3 from rfl] at hst
  refine ⟨u, hu, fun hdrop => ?_, fun hkeep => ?_⟩
  · rw [xzsvdc_loop_row2_drop h _ (681 + 1) _ _ |a| |b| (abs_nonneg a)
      (by rw [abs_abs, abs_abs]; exact hdrop)] at hst
    exact ⟨_, _, _, hst⟩
  · obtain ⟨r, hr, hl⟩ := xzsvdc_loop_row2_keep h hsq
      (xzsvdc_prescaled h 1 2 1 ⟨[1], [1, 0, 0, 1], [Dbl.num a, 0], [Dbl.num b, 0], 0⟩).snorm
      681 [Dbl.num u] σ |a| |b| (abs_nonneg a) (abs_nonneg b)
      (by rw [abs_abs, abs_abs]; exact hkeep)
    rw [hl] at hst
    exact ⟨r, σ, _, _, _, ne_of_gt hr, hσ, hst⟩
theorem sqrtBits_pos (n : Nat) (hn : 1 ≤ n) (k r : Nat) : 1 ≤ sqrtBits n (k + 1) r := by
  induction k generalizing r with
  | zero =>
    show 1 ≤ (if (r + 2 ^ 0) * (r + 2 ^ 0) ≤ n then r + 2 ^ 0 else r)
    by_cases hr : r = 0
    · subst hr
      rw [if_pos (by simpa using hn)]
      simp
    · split <;> omega
  | succ k ih =>
    exact ih _

/-- The square root of `hostQ` is positive on positive numbers. -/
theorem hostQ_sqrt_pos : ∀ y, 0 < y → 0 < hostQ.sqrt y := fun y hy => by
  show 0 < sqrtQ y
  unfold sqrtQ natSqrt
  have h1 : 1 ≤ y.num.toNat := by
    have : 0 < y.num := Rat.num_pos.mpr hy
    omega
  have h2 : 1 ≤ y.den := y.den_pos
  have p1 := sqrtBits_pos _ h1 (y.num.toNat.log2 / 2) 0
  have p2 := sqrtBits_pos _ h2 (y.den.log2 / 2) 0
  apply div_pos
  · exact_mod_cast p1
  · exact_mod_cast p2

/-! ## Bounds on the subscripts -/

theorem xzsvdc_nct_le (n p : Nat) : xzsvdc_nct n p ≤ p ∧ xzsvdc_nct n p ≤ n - 1 := by
  unfold xzsvdc_nct
  dsimp only
  split <;> omega

theorem xzsvdc_nrt_le (n p : Nat) : xzsvdc_nrt n p ≤ p - 2 ∧ xzsvdc_nrt n p ≤ n := by
  unfold xzsvdc_nrt
  dsimp only
  split <;> split <;> omega

theorem xzsvdc_subs_init_bound (n p : Nat) (k : Int) (hk : k ∈ xzsvdc_subs_init n p) :
    0 ≤ k ∧ k < p := by
  unfold xzsvdc_subs_init at hk
  simp only [List.mem_append, List.mem_map, List.mem_range] at hk
  rcases hk with ⟨a, ha, rfl⟩ | ⟨a, ha, rfl⟩
  · split at ha <;> omega
  · omega

theorem xzsvdc_subs_bidiag_bound (n p nct nrt q : Nat) (hnct : nct ≤ p) (hnrt : nrt ≤ p - 2)
    (k : Int) (hk : k ∈ xzsvdc_subs_bidiag n p nct nrt q) : 0 ≤ k ∧ k < p := by
  unfold xzsvdc_subs_bidiag at hk
  simp only [List.mem_append, List.mem_map, List.mem_range'_1] at hk
  rcases hk with (hk | ⟨a, ha, rfl⟩) | hk
  · split at hk
    · simp only [List.mem_singleton] at hk; omega
    · simp at hk
  · omega
  · split at hk
    · rename_i hq
      simp only [List.mem_append, List.mem_map, List.mem_range'_1, List.mem_range,
        List.mem_cons, List.mem_singleton, List.not_mem_nil, or_false,
        List.mem_flatMap] at hk
      rcases hk with ((((⟨a, ha, rfl⟩ | hk) | ⟨a, ha, rfl⟩) | hk) | ⟨a, ha, rfl⟩)
      · omega
      · omega
      · omega
      · split at hk
        · simp only [List.mem_flatMap, List.mem_range'_1, List.mem_cons, List.mem_singleton,
            List.not_mem_nil, or_false] at hk
          obtain ⟨a, ha, rfl | rfl⟩ := hk <;> omega
        · simp at hk
      · omega
    · simp at hk

theorem xzsvdc_subs_mid_bound (n p nct nrt m : Nat) (hm : m < p) (k : Int)
    (hk : k ∈ xzsvdc_subs_mid n p nct nrt m) : 0 ≤ k ∧ k < p := by
  unfold xzsvdc_subs_mid at hk
  simp only [List.mem_append, List.mem_singleton] at hk
  rcases hk with ((hk | hk) | hk) | rfl
  · split at hk
    · simp only [List.mem_singleton] at hk; omega
    · simp at hk
  · split at hk
    · simp only [List.mem_singleton] at hk; omega
    · simp at hk
  · split at hk
    · simp only [List.mem_singleton] at hk; omega
    · simp at hk
  · omega

theorem xzsvdc_subs_gen_bound (p nct nrt : Nat) (hnct : nct ≤ p) (k : Int)
    (hk : k ∈ xzsvdc_subs_gen p nct nrt) : 0 ≤ k ∧ k < p := by
  unfold xzsvdc_subs_gen at hk
  simp only [List.mem_append, List.mem_map, List.mem_range'_1, List.mem_filter] at hk
  rcases hk with ⟨a, ha, rfl⟩ | ⟨a, ha, rfl⟩ <;> omega

theorem xzsvdc_subs_prescale_bound (m q : Nat) (hq : q ≤ m) (k : Int)
    (hk : k ∈ xzsvdc_subs_prescale m q) : 0 ≤ k ∧ k ≤ m := by
  unfold xzsvdc_subs_prescale at hk
  simp only [List.mem_append, List.mem_singleton] at hk
  rcases hk with (rfl | hk) | rfl
  · omega
  · split at hk
    · simp only [List.mem_cons, List.mem_singleton, List.not_mem_nil, or_false] at hk
      rcases hk with rfl | rfl <;> omega
    · simp at hk
  · omega

theorem xzsvdc_subs_scans_bound (m ii : Nat) (hii : ii ≤ m) (k : Int)
    (hk : k ∈ xzsvdc_subs_scans m ii) : 0 ≤ k ∧ k ≤ m := by
  unfold xzsvdc_subs_scans at hk
  simp only [List.mem_append, List.mem_flatMap, List.mem_range'_1, List.mem_cons,
    List.mem_singleton, List.not_mem_nil, or_false] at hk
  rcases hk with ⟨a, ha, rfl | rfl⟩ | hk
  · omega
  · omega
  · split at hk
    · simp at hk
    · simp only [List.mem_flatMap, List.mem_range'_1, List.mem_append, List.mem_singleton] at hk
      obtain ⟨a, ha, hk⟩ := hk
      rcases hk with (hk | hk) | rfl
      · split at hk
        · simp only [List.mem_singleton] at hk; omega
        · simp at hk
      · split at hk
        · simp only [List.mem_singleton] at hk; omega
        · simp at hk
      · omega

/-- The subscripts of a case stay in `0 .. nmq`, whatever the buffers hold: it is enough
that the index `ii` lies in the range the scans leave it in (`ii = m` is case 4, cases 1
and 3 run on an `ii < m`, case 2 on an `ii` with `1 <= ii <= m`). -/
theorem xzsvdc_subs_case_bound (nmq m ii ns : Nat) (hm : m ≤ nmq) (hii : ii ≤ m)
    (h13 : ns = 1 ∨ ns = 3 → ii < m) (h2 : ns = 2 → 1 ≤ ii) (k : Int)
    (hk : k ∈ xzsvdc_subs_case nmq m ii ns) : 0 ≤ k ∧ k ≤ nmq := by
  unfold xzsvdc_subs_case at hk
  split at hk
  · rename_i h1
    have := h13 (Or.inl h1)
    simp only [List.mem_append, List.mem_flatMap, List.mem_range'_1, List.mem_singleton] at hk
    rcases hk with rfl | ⟨a, ha, rfl | hk⟩
    · omega
    · omega
    · split at hk
      · simp only [List.mem_singleton] at hk; omega
      · simp at hk
  · split at hk
    · rename_i h2'
      have := h2 h2'
      simp only [List.mem_append, List.mem_map, List.mem_range'_1, List.mem_singleton] at hk
      rcases hk with rfl | ⟨a, ha, rfl⟩ <;> omega
    · split at hk
      · rename_i h3
        have := h13 (Or.inr h3)
        simp only [List.mem_append, List.mem_flatMap, List.mem_range'_1, List.mem_cons,
          List.mem_singleton, List.not_mem_nil, or_false] at hk
        rcases hk with (rfl | rfl | rfl) | ⟨a, ha, hk | rfl | rfl⟩
        · omega
        · omega
        · omega
        · split at hk
          · simp only [List.mem_singleton] at hk; omega
          · simp at hk
        · omega
        · omega
      · simp only [List.mem_append, List.mem_flatMap, List.mem_range'_1, List.mem_cons,
          List.mem_singleton, List.not_mem_nil, or_false] at hk
        rcases hk with rfl | ⟨a, ha, rfl | rfl⟩ <;> omega

/-- The index the classification of a pass hands to its case: `ii = m` in case 4,
`ii < m` in cases 1 and 3, `1 <= ii <= m` in case 2 (`m = m1 - 1`). -/
theorem xzsvdc_classify_range (h : Host) (snorm : Dbl) (w : SvdIter) :
    (xzsvdc_classify h snorm w).ii ≤ w.m1 - 1 ∧
    ((xzsvdc_classify h snorm w).ns = 1 ∨ (xzsvdc_classify h snorm w).ns = 3 →
      (xzsvdc_classify h snorm w).ii < w.m1 - 1) ∧
    ((xzsvdc_classify h snorm w).ns = 2 → 1 ≤ (xzsvdc_classify h snorm w).ii) := by
  have hle : xzsvdc_split h snorm w ≤ w.m1 - 1 := xzsvdc_scanE_le h w.s w.qq snorm _ w.e
  unfold xzsvdc_classify
  unfold xzsvdc_split at hle
  dsimp only
  by_cases hm : (xzsvdc_scanE h w.s w.qq snorm (w.m1 - 1) w.e).1 = w.m1 - 1
  · rw [if_pos hm]
    refine ⟨Nat.le_of_eq hm, ?_, ?_⟩
    · intro hc
      rcases hc with hc | hc <;> simp at hc
    · intro hc
      simp at hc
  · rw [if_neg hm]
    have hlt : (xzsvdc_scanE h w.s w.qq snorm (w.m1 - 1) w.e).1 < w.m1 - 1 :=
      Nat.lt_of_le_of_ne hle hm
    have hb := xzsvdc_scanS_bounds h (w.m1 - 1)
      (xzsvdc_scanE h w.s w.qq snorm (w.m1 - 1) w.e).1
      (xzsvdc_scanE h w.s w.qq snorm (w.m1 - 1) w.e).2
      (w.m1 - 1 + 1 - (xzsvdc_scanE h w.s w.qq snorm (w.m1 - 1) w.e).1) w.s
    split
    · exact ⟨hle, fun _ => hlt, fun hc => by simp at hc⟩
    · rename_i h3
      split
      · exact ⟨hle, fun _ => hlt, fun hc => by simp at hc⟩
      · rename_i h1
        refine ⟨?_, ?_, ?_⟩
        · show (xzsvdc_scanS h (w.m1 - 1) _ _ _ w.s).1 ≤ w.m1 - 1
          have := hb.2
          omega
        · intro hc
          rcases hc with hc | hc <;> simp at hc
        · intro _
          show 1 ≤ (xzsvdc_scanS h (w.m1 - 1) _ _ _ w.s).1
          have := hb.1
          omega

theorem xzsvdc_subs_pass_bound (h : Host) (nmq : Nat) (snorm : Dbl) (w : SvdIter)
    (hm : w.m1 ≤ nmq + 1) (k : Int) (hk : k ∈ xzsvdc_subs_pass h nmq snorm w) :
    0 ≤ k ∧ k ≤ nmq := by
  unfold xzsvdc_subs_pass at hk
  rw [List.mem_append] at hk
  rcases hk with hk | hk
  · have hle : xzsvdc_split h snorm w ≤ w.m1 - 1 := xzsvdc_scanE_le h w.s w.qq snorm _ w.e
    have := xzsvdc_subs_scans_bound _ _ hle k hk
    omega
  · obtain ⟨h1, h2, h3⟩ := xzsvdc_classify_range h snorm w
    exact xzsvdc_subs_case_bound nmq _ _ _ (by omega) h1 h2 h3 k hk

theorem xzsvdc_pass_m1_le (h : Host) (n p nmq : Nat) (snorm : Dbl) (w : SvdIter) :
    (xzsvdc_pass h n p nmq snorm w).m1 ≤ w.m1 := by
  obtain ⟨c1, c2, c3, c4⟩ := xzsvdc_pass_counters h n p nmq snorm w
  rcases xzsvdc_classify_ns h snorm w with hc | hc | hc | hc
  · rw [(c1 hc).2]
  · rw [(c2 hc).2]
  · rw [(c3 hc).2]
  · rw [(c4 hc).2]; omega

/-- Every subscript the diagonalization loop uses lies in `0 .. nmq`, from every state
with `m <= nmq`, whatever the buffers hold. -/
theorem xzsvdc_subs_loop_bound (h : Host) (n p nmq : Nat) (snorm : Dbl) (fuel : Nat) :
    ∀ w : SvdIter, w.m1 ≤ nmq + 1 →
      ∀ k : Int, k ∈ xzsvdc_subs_loop h n p nmq snorm fuel w → 0 ≤ k ∧ k ≤ nmq := by
  induction fuel with
  | zero =>
    intro w _ k hk
    simp [xzsvdc_subs_loop] at hk
  | succ f ih =>
    intro w hm k hk
    unfold xzsvdc_subs_loop at hk
    split at hk
    · rw [List.mem_append] at hk
      rcases hk with hk | hk
      · exact xzsvdc_subs_pass_bound h nmq snorm w hm k hk
      · exact ih _ (Nat.le_trans (xzsvdc_pass_m1_le h n p nmq snorm w) hm) k hk
    · simp at hk

/-- Every subscript `xzsvdc` applies to `s_data`, `e_data` and `S_data` is in `0 .. p - 1`. -/
theorem xzsvdc_subs12_bound (h : Host) (A : Mat) (k : Int) (hk : k ∈ xzsvdc_subs12 h A) :
    0 ≤ k ∧ k < A.size1 := by
  unfold xzsvdc_subs12 at hk
  simp only [List.mem_append] at hk
  rcases hk with (hk | hk) | hk
  · exact xzsvdc_subs_init_bound _ _ k hk
  · split at hk
    · simp at hk
    · rename_i hne
      have hn : 0 < A.size0 := by omega
      have hp : 0 < A.size1 := by omega
      have hm : (if A.size1 ≤ A.size0 + 1 then A.size1 - 1 else A.size0) < A.size1 := by
        split <;> omega
      obtain ⟨hnct, _⟩ := xzsvdc_nct_le A.size0 A.size1
      obtain ⟨hnrt, _⟩ := xzsvdc_nrt_le A.size0 A.size1
      simp only [List.mem_append, List.mem_flatMap, List.mem_range] at hk
      rcases hk with (((⟨q, _, hk⟩ | hk) | hk) | ⟨q, hq, hk⟩) | hk
      · exact xzsvdc_subs_bidiag_bound _ _ _ _ q hnct hnrt k hk
      · exact xzsvdc_subs_mid_bound _ _ _ _ _ hm k hk
      · exact xzsvdc_subs_gen_bound _ _ _ hnct k hk
      · have := xzsvdc_subs_prescale_bound _ q (by omega) k hk
        omega
      · have := xzsvdc_subs_loop_bound h _ _ _ _ _ _ (Nat.le_refl _) k hk
        omega
  · simp only [List.mem_map, List.mem_range] at hk
    obtain ⟨a, ha, rfl⟩ := hk
    split at ha <;> omega

/-- Every subscript `xzsvdc` applies to `V_data` is in `0 .. p * min(n, p) - 1`. -/
theorem xzsvdc_subs144_bound (A : Mat) (k : Int) (hk : k ∈ xzsvdc_subs144 A) :
    0 ≤ k ∧ k < ((A.size1 * A.size1 : Nat) : Int) := by
  unfold xzsvdc_subs144 at hk
  simp only [List.mem_flatMap, List.mem_map, List.mem_range] at hk
  obtain ⟨qjj, hq, ns, hns, rfl⟩ := hk
  have hq2 : qjj < A.size1 := by split at hq <;> omega
  have : A.size1 * qjj + A.size1 ≤ A.size1 * A.size1 := by
    have := Nat.mul_le_mul_left A.size1 (Nat.succ_le_of_lt hq2)
    rw [Nat.mul_succ] at this
    exact this
  constructor
  · exact Int.natCast_nonneg _
  · exact_mod_cast (by omega : ns + A.size1 * qjj < A.size1 * A.size1)

theorem localTSquared_q_le (h : Host) (latent_data : List Dbl) (latent_size DOF p : Nat) :
    localTSquared_q h latent_data latent_size DOF p ≤ latent_size := by
  by_cases hD : 1 < DOF
  · rw [localTSquared_q_eq h _ _ _ _ hD]
    refine Nat.le_trans (List.length_filter_le _ _) ?_
    rw [List.length_range]
  · unfold localTSquared_q
    rw [if_neg hD]
    exact Nat.zero_le _

theorem local_pca_svdInput_size1 (h : Host) (X : Mat) :
    (local_pca_svdInput h X).size1 = X.size1 := by
  unfold local_pca_svdInput
  split <;> rfl

theorem mul_index_lt (p i j c : Nat) (hi : i < p) (hj : j < c) (hc : c ≤ p) :
    i + p * j < p * p := by
  have h1 : p * j + p ≤ p * c := by
    have := Nat.mul_le_mul_left p (Nat.succ_le_of_lt hj)
    rw [Nat.mul_succ] at this
    exact this
  have h2 : p * c ≤ p * p := Nat.mul_le_mul_left p hc
  omega

/-- Every subscript `localSVD` applies to its 12-element buffers is in `0 .. p - 1`. -/
theorem localSVD_subs12_bound (h : Host) (x : Mat) (DOF : Nat) (k : Int)
    (hk : k ∈ localSVD_subs12 h x DOF) : 0 ≤ k ∧ k < x.size1 := by
  obtain ⟨h1, h2, h3, h4, h5⟩ := localSVD_scores_shape h x DOF
  unfold localSVD_subs12 at hk
  dsimp only at hk
  rw [h1, h3] at hk
  clear h1 h2 h3 h4 h5
  have hmin : min x.size0 x.size1 ≤ x.size1 := Nat.min_le_right _ _
  have hlo : (if DOF < x.size1 then
      (if DOF ≤ min x.size0 x.size1 then DOF else min x.size0 x.size1)
      else min x.size0 x.size1) ≤ min x.size0 x.size1 := by
    split
    · split <;> omega
    · exact Nat.le_refl _
  generalize (if DOF < x.size1 then
      (if DOF ≤ min x.size0 x.size1 then DOF else min x.size0 x.size1)
      else min x.size0 x.size1) = lo at hk hlo
  simp only [List.mem_append] at hk
  rcases hk with ((((hk | hk) | hk) | hk) | hk) | hk
  · exact xzsvdc_subs12_bound h ⟨x.size0, x.size1,
      (List.range (x.size0 * x.size1)).map (fun j => rd h x.data j)⟩ k hk
  · simp only [List.mem_map, List.mem_range] at hk
    obtain ⟨a, ha, rfl⟩ := hk
    omega
  · unfold localTSquared_subs at hk
    split at hk
    · simp at hk
    · rename_i hne
      rw [(localSVD_scores_shape h x DOF).2.2.1] at hne
      have hq := localTSquared_q_le h (localSVD_scores h x DOF).latent
        (min x.size0 x.size1) DOF x.size1
      simp only [List.mem_append, List.mem_map, List.mem_range] at hk
      rcases hk with hk | ⟨a, ha, rfl⟩
      · split at hk
        · simp only [List.mem_cons, List.mem_map, List.mem_range] at hk
          rcases hk with rfl | ⟨a, ha, rfl⟩ <;> omega
        · simp at hk
      · omega
  · simp only [List.mem_map, List.mem_range] at hk
    obtain ⟨a, ha, rfl⟩ := hk
    omega
  · split at hk
    · simp at hk
    · simp only [List.mem_cons, List.mem_map, List.mem_range'_1] at hk
      rcases hk with rfl | ⟨a, ha, rfl⟩ <;> omega
  · simp only [List.mem_map, List.mem_range] at hk
    obtain ⟨a, ha, rfl⟩ := hk
    omega

/-- Every subscript `localSVD` applies to its 144-element buffers is in
`0 .. p * p - 1`. -/
theorem localSVD_subs144_bound (h : Host) (x : Mat) (DOF : Nat) (k : Int)
    (hk : k ∈ localSVD_subs144 h x DOF) :
    0 ≤ k ∧ k < ((x.size1 * x.size1 : Nat) : Int) := by
  obtain ⟨h1, h2, h3, h4, h5⟩ := localSVD_scores_shape h x DOF
  unfold localSVD_subs144 at hk
  dsimp only at hk
  rw [h3, h4, h5] at hk
  clear h1 h2 h3 h4 h5
  have hmin : min x.size0 x.size1 ≤ x.size1 := Nat.min_le_right _ _
  simp only [List.mem_append] at hk
  rcases hk with hk | hk
  · exact xzsvdc_subs144_bound ⟨x.size0, x.size1,
      (List.range (x.size0 * x.size1)).map (fun j => rd h x.data j)⟩ k hk
  · split at hk
    · simp only [List.mem_flatMap, List.mem_range, List.mem_cons, List.mem_singleton,
        List.not_mem_nil, or_false] at hk
      obtain ⟨j, hj, i, hi, hk⟩ := hk
      have hj2 : j < min x.size0 x.size1 := by split at hj <;> omega
      have := mul_index_lt x.size1 i j _ hi hj2 hmin
      rcases hk with rfl | rfl
      · exact ⟨Int.natCast_nonneg _, by exact_mod_cast this⟩
      · exact ⟨Int.natCast_nonneg _, by exact_mod_cast this⟩
    · simp only [List.mem_map, List.mem_range] at hk
      obtain ⟨a, ha, rfl⟩ := hk
      have := Nat.mul_le_mul_left x.size1 hmin
      exact ⟨Int.natCast_nonneg _, by exact_mod_cast (by omega : a < x.size1 * x.size1)⟩

/-- Every subscript `local_pca` and its callees apply to the 12-element buffers is in
`0 .. p - 1`. -/
theorem local_pca_subs12_bound (h : Host) (X : Mat) (k : Int)
    (hk : k ∈ local_pca_subs12 h X) : 0 ≤ k ∧ k < X.size1 := by
  unfold local_pca_subs12 at hk
  rw [List.mem_append] at hk
  rcases hk with hk | hk
  · unfold wnanmean_subs at hk
    simp only [List.mem_append, List.mem_map, List.mem_range] at hk
    rcases hk with (⟨a, ha, rfl⟩ | ⟨a, ha, rfl⟩) | ⟨a, ha, rfl⟩ <;> omega
  · have := localSVD_subs12_bound h _ _ k hk
    rw [local_pca_svdInput_size1] at this
    exact this

/-- Every subscript `local_pca` and its callees apply to the 144-element buffers is in
`0 .. p * p - 1` when at most `p` components are requested. -/
theorem local_pca_subs144_bound (h : Host) (X : Mat) (NumComponents : Nat)
    (hm : NumComponents ≤ X.size1) (k : Int)
    (hk : k ∈ local_pca_subs144 h X NumComponents) :
    0 ≤ k ∧ k < ((X.size1 * X.size1 : Nat) : Int) := by
  obtain ⟨f1, f2, f3, f4, f5⟩ := local_pca_fit_shape h X
  obtain ⟨t1, t2, _, _⟩ := local_pca_truncate_shape h (local_pca_fit h X) NumComponents
  unfold local_pca_subs144 at hk
  dsimp only at hk
  rw [t1, t2, f4, f5, f1] at hk
  clear t1 t2 f1 f2 f3 f4 f5
  have hmin : min (local_pca_DOF h X) X.size1 ≤ X.size1 := Nat.min_le_right _ _
  simp only [List.mem_append] at hk
  rcases hk with (hk | hk) | hk
  · have := localSVD_subs144_bound h _ _ k hk
    rw [local_pca_svdInput_size1] at this
    exact this
  · split at hk
    · simp only [List.mem_flatMap, List.mem_map, List.mem_range] at hk
      obtain ⟨j, hj, i, hi, rfl⟩ := hk
      have hj2 : j < NumComponents := Nat.lt_of_lt_of_le hj (Nat.mod_le _ _)
      have := mul_index_lt X.size1 i j _ hi hj2 hm
      exact ⟨Int.natCast_nonneg _, by exact_mod_cast this⟩
    · simp only [List.mem_map, List.mem_range] at hk
      obtain ⟨a, ha, rfl⟩ := hk
      have := Nat.mul_le_mul_left X.size1 hmin
      exact ⟨Int.natCast_nonneg _, by exact_mod_cast (by omega : a < X.size1 * X.size1)⟩
  · simp only [List.mem_flatMap, List.mem_map, List.mem_range] at hk
    obtain ⟨j, hj, i, hi, rfl⟩ := hk
    have hj2 : j < (if NumComponents < local_pca_DOF h X then NumComponents
        else min (local_pca_DOF h X) X.size1) := hj
    have hc : (if NumComponents < local_pca_DOF h X then NumComponents
        else min (local_pca_DOF h X) X.size1) ≤ X.size1 := by
      split <;> omega
    have := mul_index_lt X.size1 i j _ hi hj2 hc
    exact ⟨Int.natCast_nonneg _, by exact_mod_cast this⟩

theorem square_le_144 (p : Nat) (hp : p ≤ 12) : p * p ≤ 144 :=
  Nat.mul_le_mul hp hp

/-! ## The claims -/

/-- C1 (amended): for every table with at most 12 columns (the declared input type) and
every requested component count `m <= p`, the score matrix returned by `local_pca` has
exactly `n` rows, and every row of the table that contains at least one NaN is entirely
NaN in that score matrix. -/
theorem local_pca_nan_rows (h : Host) (X : Mat) (m : Nat) (hm : m ≤ X.size1)
    (hp : X.size1 ≤ 12) :
    (local_pca h X m).scoreOut.size0 = X.size0 ∧
    ∀ i, i < X.size0 → X.rowHasNaN h i = true →
      ∀ j, j < (local_pca h X m).scoreOut.size1 →
        (local_pca h X m).scoreOut.get h i j = Dbl.nan :=
  nan_rows_stay_nan h X m hm hp

/-- C1 (witness): the 5 x 1 table `table51` with one component requested. -/
theorem local_pca_nan_rows_witness :
    (1 ≤ table51.size1 ∧ table51.size1 ≤ 12) ∧
    (local_pca hostQ table51 1).scoreOut.size0 = table51.size0 ∧
    (local_pca hostQ table51 1).scoreOut.get hostQ 0 0 = Dbl.nan :=
  ⟨⟨by decide, by decide⟩,
    (local_pca_nan_rows hostQ table51 1 (by decide) (by decide)).1,
    (local_pca_nan_rows hostQ table51 1 (by decide) (by decide)).2 0 (by decide) (by decide!)
      0 (by decide!)⟩

/-- C1 (counterexample): on the 5 x 1 table `table51`, whose first row is NaN, a request
for 2 components (more than the table has columns) returns a score matrix with 2 columns
whose second column was never computed: the truncation loop copies it from beyond the
one score column that exists, so the entry of the NaN row in it is whatever that memory
holds (`0.0` on `hostQ`), not NaN. -/
theorem local_pca_nan_rows_counterexample :
    table51.rowHasNaN hostQ 0 = true ∧
    (local_pca hostQ table51 2).scoreOut.size1 = 2 ∧
    (local_pca hostQ table51 2).scoreOut.get hostQ 0 1 = Dbl.num 0 ∧
    ¬ (∀ i, i < table51.size0 → table51.rowHasNaN hostQ i = true →
        ∀ j, j < (local_pca hostQ table51 2).scoreOut.size1 →
          (local_pca hostQ table51 2).scoreOut.get hostQ i j = Dbl.nan) := by
  refine ⟨by decide!, by decide!, by decide!, ?_⟩
  intro hall
  have h1 := hall 0 (by decide) (by decide!) 1 (by decide!)
  have h2 : (local_pca hostQ table51 2).scoreOut.get hostQ 0 1 = Dbl.num 0 := by decide!
  rw [h2] at h1
  exact Dbl.noConfusion h1

/-- C2: for every table with `p` columns and every requested count `m <= p` (counts are
natural numbers, so `0 <= m`), the coefficient matrix and the score matrix returned by
`local_pca` both have exactly `min m DOF` columns, `DOF` being the adjusted degrees of
freedom; in particular a request `m >= DOF` yields `DOF` columns. -/
theorem local_pca_component_count (h : Host) (X : Mat) (m : Nat) (hm : m ≤ X.size1) :
    (local_pca h X m).coeffOut.size1 = min m (local_pca_DOF h X) ∧
    (local_pca h X m).scoreOut.size1 = min m (local_pca_DOF h X) ∧
    (local_pca_DOF h X ≤ m →
      (local_pca h X m).coeffOut.size1 = local_pca_DOF h X ∧
      (local_pca h X m).scoreOut.size1 = local_pca_DOF h X) := by
  obtain ⟨f1, f2, f3, f4, f5⟩ := local_pca_fit_shape h X
  obtain ⟨t1, t2, t3, t4⟩ := local_pca_truncate_shape h (local_pca_fit h X) m
  have hc : (local_pca h X m).coeffOut.size1 = min m (local_pca_DOF h X) := by
    show (local_pca_truncate h (local_pca_fit h X) m).coeffOut.size1 = _
    rw [t2, f1, f5]
    by_cases hlt : m < local_pca_DOF h X
    · rw [if_pos hlt]; omega
    · rw [if_neg hlt]; omega
  have hs : (local_pca h X m).scoreOut.size1 = min m (local_pca_DOF h X) := by
    show (local_pca_truncate h (local_pca_fit h X) m).scoreOut.size1 = _
    rw [t4, f1, f3]
    by_cases hlt : m < local_pca_DOF h X
    · rw [if_pos hlt]; omega
    · rw [if_neg hlt]; omega
  refine ⟨hc, hs, ?_⟩
  intro hle
  rw [hc, hs, Nat.min_eq_right hle]
  exact ⟨rfl, rfl⟩

/-- C2 (witness): the 4 x 2 table `table42` (DOF = 1) with 2 components requested. -/
theorem local_pca_component_count_witness :
    2 ≤ table42.size1 ∧
    (local_pca hostQ table42 2).coeffOut.size1 = min 2 (local_pca_DOF hostQ table42) ∧
    (local_pca hostQ table42 2).scoreOut.size1 = min 2 (local_pca_DOF hostQ table42) :=
  ⟨by decide, (local_pca_component_count hostQ table42 2 (by decide)).1,
    (local_pca_component_count hostQ table42 2 (by decide)).2.1⟩

/-- C3: `local_pca` computes validRows = n - (number of rows with at least one NaN),
DOF = validRows - 1 when validRows >= 1 and DOF = validRows otherwise; its NaN counter
is the number of NaN entries of the table, `noNaNs` holds exactly when that number is 0,
that is when no entry is NaN, and the no-missing-values path (the SVD of the whole
centered table) is taken exactly in that case, the gather/scatter path otherwise. -/
theorem local_pca_dof_accounting (h : Host) (X : Mat) :
    local_pca_validRows h X
        = X.size0 - ((List.range X.size0).filter (X.rowHasNaN h)).length ∧
    local_pca_DOF h X
        = (if 1 ≤ local_pca_validRows h X then local_pca_validRows h X - 1
           else local_pca_validRows h X) ∧
    (local_pca_naninfo h X).total = X.nanCount h ∧
    (local_pca_noNaNs h X = true ↔ X.nanCount h = 0) ∧
    (X.nanCount h = 0 ↔
      ∀ i j, i < X.size0 → j < X.size1 → (X.get h i j).isNaN = false) ∧
    (X.nanCount h = 0 → local_pca_fit h X
        = ⟨(localSVD h (local_pca_center h X) (local_pca_DOF h X)).coeffOut,
           (localSVD h (local_pca_center h X) (local_pca_DOF h X)).scoreOut,
           local_pca_DOF h X⟩) ∧
    (X.nanCount h ≠ 0 → local_pca_fit h X
        = ⟨(localSVD h (local_pca_gather h (local_pca_naninfo h X) (local_pca_validRows h X)
              (local_pca_center h X)) (local_pca_DOF h X)).coeffOut,
           local_pca_scatter h (local_pca_naninfo h X)
             (localSVD h (local_pca_gather h (local_pca_naninfo h X) (local_pca_validRows h X)
               (local_pca_center h X)) (local_pca_DOF h X)).scoreOut,
           local_pca_DOF h X⟩) := by
  refine ⟨?_, rfl, (naninfo_spec h X).2.2, noNaNs_iff h X, nanCount_eq_zero h X, ?_, ?_⟩
  · unfold local_pca_validRows
    rw [nRowsWithNaNs_spec]
  · intro hz
    have hno := (noNaNs_iff h X).mpr hz
    simp [local_pca_fit, hno]
  · intro hnz
    have hno : local_pca_noNaNs h X = false := by
      cases hb : local_pca_noNaNs h X with
      | false => rfl
      | true => exact absurd ((noNaNs_iff h X).mp hb) hnz
    simp [local_pca_fit, hno]

/-- C4: for a well-formed table and a column `j` with at least one non-NaN entry, the
mean `local_pca` subtracts is (sum of the non-NaN entries) / (their number), every
entry of the centered column is the old entry minus that mean, the non-NaN entries of
the centered column sum to zero in exact arithmetic, and an entry is NaN after
centering exactly when it was NaN before. -/
theorem local_pca_center_column (h : Host) (X : Mat) (hwf : X.WellFormed) (j : Nat)
    (hj : j < X.size1) (hex : ∃ i, i < X.size0 ∧ (X.get h i j).isNaN = false) :
    rd h (wnanmean h X (local_pca_noNaNs h X)) j
        = Dbl.num ((X.colNonNaN h j).sum / ((X.colNonNaN h j).length : ℚ)) ∧
    (∀ i, i < X.size0 → (local_pca_center h X).get h i j
        = X.get h i j - Dbl.num ((X.colNonNaN h j).sum / ((X.colNonNaN h j).length : ℚ))) ∧
    ((local_pca_center h X).colNonNaN h j).sum = 0 ∧
    (∀ i, i < X.size0 →
      ((local_pca_center h X).get h i j).isNaN = (X.get h i j).isNaN) := by
  have hpos := colNonNaN_length_pos h X j hex
  have hne : ((X.colNonNaN h j).length : ℚ) ≠ 0 := by
    exact_mod_cast Nat.pos_iff_ne_zero.mp hpos
  have hmu : rd h (wnanmean h X (local_pca_noNaNs h X)) j
      = Dbl.num ((X.colNonNaN h j).sum / ((X.colNonNaN h j).length : ℚ)) := by
    rw [wnanmean_spec h X j hj, Dbl.div_num, if_neg hne]
  have hget : ∀ i, i < X.size0 → (local_pca_center h X).get h i j
      = X.get h i j - Dbl.num ((X.colNonNaN h j).sum / ((X.colNonNaN h j).length : ℚ)) := by
    intro i hi
    rw [center_get h X hwf i j hi hj, hmu]
  refine ⟨hmu, hget, ?_, ?_⟩
  · have hcol : (local_pca_center h X).colNonNaN h j
        = (X.colNonNaN h j).map
            (fun v => v - (X.colNonNaN h j).sum / ((X.colNonNaN h j).length : ℚ)) := by
      unfold Mat.colNonNaN
      rw [(center_size h X).1, List.map_filterMap]
      apply List.filterMap_congr
      intro i hi
      rw [hget i (List.mem_range.mp hi), Dbl.toRat?_sub_num]
      rfl
    rw [hcol, sum_map_sub_const]
    field_simp
  · intro i hi
    rw [hget i hi]
    cases X.get h i j <;> rfl

/-- C4 (witness): column 0 of the 4 x 2 table `table42`. -/
theorem local_pca_center_column_witness :
    (table42.WellFormed ∧ 0 < table42.size1 ∧
      ∃ i, i < table42.size0 ∧ (table42.get hostQ i 0).isNaN = false) ∧
    ((local_pca_center hostQ table42).colNonNaN hostQ 0).sum = 0 :=
  ⟨⟨by unfold Mat.WellFormed; decide, by decide, ⟨0, by decide, by decide!⟩⟩,
    (local_pca_center_column hostQ table42 (by unfold Mat.WellFormed; decide) 0 (by decide)
      ⟨0, by decide, by decide!⟩).2.2.1⟩

/-- C5: for every matrix `x`, every `DOF >= 1` and every component `j < min(n, p)`
returned by the SVD engine as `(U, S, V)`, `localSVD` derives score column `j` as
column `j` of `U` multiplied by `S[j]` and the eigenvalue `latent[j] = S[j]^2 / DOF`
(a genuine quotient `s^2 / DOF` of rationals when `S[j]` is the number `s`); the
components it keeps (`j < latentOut_size`) are returned with these values. -/
theorem localSVD_scores_spec (h : Host) (x : Mat) (DOF : Nat) (hDOF : 1 ≤ DOF) (j : Nat)
    (hj : j < min x.size0 x.size1) :
    (localSVD_scores h x DOF).svd
        = xzsvdc h ⟨x.size0, x.size1,
            (List.range (x.size0 * x.size1)).map (fun k => rd h x.data k)⟩ ∧
    (∀ i, i < x.size0 → (localSVD_scores h x DOF).score.get h i j
        = (localSVD_scores h x DOF).svd.U.get h i j
            * rd h (localSVD_scores h x DOF).svd.S j) ∧
    rd h (localSVD_scores h x DOF).latent j
        = rd h (localSVD_scores h x DOF).svd.S j * rd h (localSVD_scores h x DOF).svd.S j
            / Dbl.num (DOF : ℚ) ∧
    (∀ s, rd h (localSVD_scores h x DOF).svd.S j = Dbl.num s →
      rd h (localSVD_scores h x DOF).latent j = Dbl.num (s * s / (DOF : ℚ))) ∧
    (j < (localSVD h x DOF).latentOut_size →
      (∀ i, i < x.size0 → (localSVD h x DOF).scoreOut.get h i j
          = (localSVD_scores h x DOF).svd.U.get h i j
              * rd h (localSVD_scores h x DOF).svd.S j) ∧
      rd h (localSVD h x DOF).latentOut j
          = rd h (localSVD_scores h x DOF).svd.S j * rd h (localSVD_scores h x DOF).svd.S j
              / Dbl.num (DOF : ℚ)) := by
  have hne : (DOF : ℚ) ≠ 0 := by
    have : 0 < DOF := hDOF
    exact_mod_cast Nat.pos_iff_ne_zero.mp this
  refine ⟨rfl, fun i hi => localSVD_scores_get h x DOF i j hi hj,
    localSVD_scores_latent h x DOF j hj, ?_, ?_⟩
  · intro s hs
    rw [localSVD_scores_latent h x DOF j hj, hs]
    show (if (DOF : ℚ) = 0 then Dbl.nan else Dbl.num (s * s / (DOF : ℚ))) = _
    rw [if_neg hne]
  intro hk
  refine ⟨fun i hi => ?_, ?_⟩
  · rw [localSVD_scoreOut_get h x DOF i j hi hk]
    exact localSVD_scores_get h x DOF i j hi hj
  · rw [(localSVD_latentOut h x DOF).2.2 j hk]
    exact localSVD_scores_latent h x DOF j hj

/-- C5 (witness): `diag(2, 1)` with `DOF = 1`, component 0. -/
theorem localSVD_scores_spec_witness :
    (1 ≤ 1 ∧ 0 < min diag21.size0 diag21.size1) ∧
    rd hostQ (localSVD_scores hostQ diag21 1).latent 0
      = rd hostQ (localSVD_scores hostQ diag21 1).svd.S 0
          * rd hostQ (localSVD_scores hostQ diag21 1).svd.S 0 / Dbl.num ((1 : Nat) : ℚ) :=
  ⟨⟨by decide, by decide⟩,
    (localSVD_scores_spec hostQ diag21 1 (by decide) 0 (by decide)).2.2.1⟩

/-- C6: for every output of `local_pca` whose coefficients contain no NaN, in every
output coefficient column `j` the largest-magnitude entry (the first one in row order
when several entries tie: row `i` with `|c[i', j]| <= |c[i, j]|` for all rows `i'` and
`|c[i', j]| < |c[i, j]|` for the rows `i' < i`) is non-negative. -/
theorem local_pca_sign_convention (h : Host) (X : Mat) (m : Nat)
    (hnan : ∀ i, i < (local_pca h X m).coeffOut.size0 →
      ∀ j, j < (local_pca h X m).coeffOut.size1 →
        ((local_pca h X m).coeffOut.get h i j).isNaN = false)
    (j : Nat) (hj : j < (local_pca h X m).coeffOut.size1)
    (i : Nat) (hi : i < (local_pca h X m).coeffOut.size0)
    (hmax : ∀ i', i' < (local_pca h X m).coeffOut.size0 →
      Dbl.le (Dbl.abs ((local_pca h X m).coeffOut.get h i' j))
        (Dbl.abs ((local_pca h X m).coeffOut.get h i j)) = true)
    (hfirst : ∀ i', i' < i →
      Dbl.lt (Dbl.abs ((local_pca h X m).coeffOut.get h i' j))
        (Dbl.abs ((local_pca h X m).coeffOut.get h i j)) = true) :
    Dbl.le 0 ((local_pca h X m).coeffOut.get h i j) = true := by
  -- the loadings before sign normalization
  have hlen := truncate_coeff_length h (local_pca_fit h X) m
  have hget : ∀ i', i' < (local_pca_truncate h (local_pca_fit h X) m).coeffOut.size0 →
      (local_pca h X m).coeffOut.get h i' j
        = if Dbl.lt (local_pca_sgn h (local_pca_truncate h (local_pca_fit h X) m).coeffOut.data
              (local_pca_truncate h (local_pca_fit h X) m).coeffOut.size0 j) 0 = true then
            -((local_pca_truncate h (local_pca_fit h X) m).coeffOut.get h i' j)
          else (local_pca_truncate h (local_pca_fit h X) m).coeffOut.get h i' j :=
    fun i' hi' => signs_coeff h _ hlen i' j hi' hj
  generalize hD : (local_pca_truncate h (local_pca_fit h X) m).coeffOut = D at hget hlen
  have hs0 : (local_pca h X m).coeffOut.size0 = D.size0 := by rw [← hD]; rfl
  rw [hs0] at hi hmax hnan
  -- its column `j` consists of numbers
  have hnum : ∀ i', i' < D.size0 → ∃ q, D.get h i' j = Dbl.num q := by
    intro i' hi'
    have := hnan i' hi' j hj
    rw [hget i' hi'] at this
    apply (Dbl.isNaN_eq_false _).mp
    split at this
    · rw [Dbl.isNaN_neg] at this; exact this
    · exact this
  obtain ⟨c, hc⟩ : ∃ c : Nat → ℚ, ∀ i', i' < D.size0 →
      rd h D.data (i' + D.size0 * j) = Dbl.num (c i') := by
    refine ⟨fun i' => ((D.get h i' j).toRat?).getD 0, ?_⟩
    intro i' hi'
    obtain ⟨q, hq⟩ := hnum i' hi'
    show D.get h i' j = Dbl.num (((D.get h i' j).toRat?).getD 0)
    rw [hq]; rfl
  have hDc : ∀ i', i' < D.size0 → D.get h i' j = Dbl.num (c i') := fun i' hi' => hc i' hi'
  -- magnitudes are those of the column before normalization
  have habs : ∀ i', i' < D.size0 →
      Dbl.abs ((local_pca h X m).coeffOut.get h i' j) = Dbl.num |c i'| := by
    intro i' hi'
    rw [hget i' hi', hDc i' hi']
    split
    · show Dbl.num |-(c i')| = _
      rw [abs_neg]
    · rfl
  have hmax' : ∀ i', i' < D.size0 → |c i'| ≤ |c i| := by
    intro i' hi'
    have := hmax i' hi'
    rw [habs i' hi', habs i hi] at this
    exact of_decide_eq_true this
  have hfirst' : ∀ i', i' < i → |c i'| < |c i| := by
    intro i' hi'
    have := hfirst i' hi'
    rw [habs i' (Nat.lt_trans hi' hi), habs i hi] at this
    exact of_decide_eq_true this
  rw [hget i hi, hDc i hi]
  have hle0 : ∀ q : ℚ, 0 ≤ q → Dbl.le 0 (Dbl.num q) = true := by
    intro q hq
    rw [Dbl.zero_lit, Dbl.le_num]
    exact decide_eq_true hq
  rcases sgn_spec h D.data D.size0 j c hc with ⟨hsg, hzero⟩ | ⟨i0, hi0, hne, hM, hF, hsg⟩
  · rw [hsg, hzero i hi]
    have : Dbl.lt (Dbl.num 1) 0 = false := by
      rw [Dbl.zero_lit, Dbl.lt_num]; exact decide_eq_false (by norm_num)
    rw [this]
    exact hle0 0 (le_refl 0)
  · -- both `i` and `i0` are the first row of largest magnitude
    have hii0 : i = i0 := by
      rcases Nat.lt_trichotomy i i0 with hlt | heq | hgt
      · have h1 := hF i hlt
        have h2 := hmax' i0 hi0
        exact absurd h1 (not_lt.mpr h2)
      · exact heq
      · have h1 := hfirst' i0 hgt
        have h2 := hM i hi
        exact absurd h1 (not_lt.mpr h2)
    subst hii0
    rw [hsg]
    by_cases hneg : c i < 0
    · rw [if_pos hneg]
      have : Dbl.lt (Dbl.num (-1)) 0 = true := by
        rw [Dbl.zero_lit, Dbl.lt_num]; exact decide_eq_true (by norm_num)
      rw [this, if_pos rfl, Dbl.neg_num]
      exact hle0 _ (by linarith)
    · rw [if_neg hneg]
      have : Dbl.lt (Dbl.num 1) 0 = false := by
        rw [Dbl.zero_lit, Dbl.lt_num]; exact decide_eq_false (by norm_num)
      rw [this]
      exact hle0 _ (not_lt.mp hneg)

/-- C6 (witness): the first loading column of `table42`. -/
theorem local_pca_sign_convention_witness :
    (0 < (local_pca hostQ table42 2).coeffOut.size1 ∧
      0 < (local_pca hostQ table42 2).coeffOut.size0) ∧
    Dbl.le 0 ((local_pca hostQ table42 2).coeffOut.get hostQ 0 0) = true :=
  ⟨⟨by decide!, by decide!⟩,
    local_pca_sign_convention hostQ table42 2 (by decide!) 0 (by decide!) 0 (by decide!)
      (by decide!) (by decide!)⟩

/-- C7 (amended): the explained-variance percentage of every kept component `j` equals
`100 * latent[j] / T`, where `T` is the sum of the eigenvalues `localSVD` keeps: the
first `min(DOF, min(n, p))` eigenvalues when `DOF < p`, all `min(n, p)` otherwise. -/
theorem localSVD_explained (h : Host) (x : Mat) (DOF : Nat) (j : Nat)
    (hj : j < (localSVD h x DOF).latentOut_size) :
    (localSVD h x DOF).latentOut_size
        = (if DOF < x.size1 then min DOF (min x.size0 x.size1) else min x.size0 x.size1) ∧
    (localSVD h x DOF).latentOut.length = (localSVD h x DOF).latentOut_size ∧
    (∀ k, k < (localSVD h x DOF).latentOut_size →
      rd h (localSVD h x DOF).latentOut k = rd h (localSVD_scores h x DOF).latent k) ∧
    rd h (localSVD h x DOF).explained j
        = 100 * rd h (localSVD h x DOF).latentOut j
            / ((localSVD h x DOF).latentOut.foldl (· + ·) 0) :=
  ⟨(localSVD_shape h x DOF).1, (localSVD_latentOut h x DOF).1,
    (localSVD_latentOut h x DOF).2.2, localSVD_explained_get h x DOF j hj⟩

/-- C7 (witness): `diag(2, 1)` with `DOF = 1` keeps one component. -/
theorem localSVD_explained_witness :
    0 < (localSVD hostQ diag21 1).latentOut_size ∧
    rd hostQ (localSVD hostQ diag21 1).explained 0
        = 100 * rd hostQ (localSVD hostQ diag21 1).latentOut 0
            / ((localSVD hostQ diag21 1).latentOut.foldl (· + ·) 0) :=
  ⟨by decide!, (localSVD_explained hostQ diag21 1 0 (by decide!)).2.2.2⟩

/-- C7 (counterexample): the table `table42` makes `local_pca` call `localSVD` on
`diag(2, 1)` with `DOF = 1`.  The singular values are 2 and 1, the eigenvalues 4 and 1;
one component is kept and its percentage is 100, not `100 * 4 / (4 + 1) = 80` as the
sum over all `min(n, p) = 2` eigenvalues would give. -/
theorem localSVD_explained_counterexample :
    local_pca_gather hostQ (local_pca_naninfo hostQ table42) (local_pca_validRows hostQ table42)
        (local_pca_center hostQ table42) = diag21 ∧
    local_pca_DOF hostQ table42 = 1 ∧
    (localSVD_scores hostQ diag21 1).latent = [Dbl.num 4, Dbl.num 1] ∧
    (localSVD hostQ diag21 1).explained = [Dbl.num 100] ∧
    100 * rd hostQ (localSVD_scores hostQ diag21 1).latent 0
        / ((localSVD_scores hostQ diag21 1).latent.foldl (· + ·) 0) = Dbl.num 80 ∧
    rd hostQ (localSVD hostQ diag21 1).explained 0
      ≠ 100 * rd hostQ (localSVD_scores hostQ diag21 1).latent 0
          / ((localSVD_scores hostQ diag21 1).latent.foldl (· + ·) 0) := by
  decide!

/-- C8: for every input of `localSVD` with `DOF >= 1` whose returned eigenvalues are
numbers (exact arithmetic: none is NaN) and not all zero, the explained-variance
percentages it returns are each non-negative, sum to exactly 100 over all returned
components, and every prefix of them sums to at most 100. -/
theorem localSVD_explained_percentages (h : Host) (x : Mat) (DOF : Nat) (hDOF : 1 ≤ DOF)
    (hnum : ∀ j, j < (localSVD h x DOF).latentOut_size →
      (rd h (localSVD h x DOF).latentOut j).isNaN = false)
    (hnz : ∃ j, j < (localSVD h x DOF).latentOut_size ∧
      rd h (localSVD h x DOF).latentOut j ≠ Dbl.num 0) :
    (∀ j, j < (localSVD h x DOF).latentOut_size →
      ∃ q, rd h (localSVD h x DOF).explained j = Dbl.num q ∧ 0 ≤ q) ∧
    (localSVD h x DOF).explained.foldl (· + ·) 0 = Dbl.num 100 ∧
    (∀ t, t ≤ (localSVD h x DOF).latentOut_size →
      ∃ q, ((localSVD h x DOF).explained.take t).foldl (· + ·) 0 = Dbl.num q ∧ q ≤ 100) := by
  obtain ⟨l, hl, hnonneg, hexp⟩ := localSVD_percent_list h x DOF hDOF hnum
  have hlen := (localSVD_latentOut h x DOF).1
  have hsum_nonneg : 0 ≤ l.sum := List.sum_nonneg hnonneg
  -- some eigenvalue is not zero, so the total is positive
  have hpos : 0 < l.sum := by
    obtain ⟨j, hj, hne⟩ := hnz
    have hjl : j < (localSVD h x DOF).latentOut.length := by rw [hlen]; exact hj
    have hjl' : j < l.length := by
      have := hjl; rw [hl, List.length_map] at this; exact this
    have hval : rd h (localSVD h x DOF).latentOut j = Dbl.num (l.get ⟨j, hjl'⟩) := by
      rw [rd_eq_getElem h _ j hjl]
      simp [hl]
    have hne' : l.get ⟨j, hjl'⟩ ≠ 0 := fun hz => hne (by rw [hval, hz])
    have hmem : l.get ⟨j, hjl'⟩ ∈ l := List.get_mem l j hjl'
    have hgt : 0 < l.get ⟨j, hjl'⟩ := lt_of_le_of_ne (hnonneg _ hmem) (Ne.symm hne')
    have := List.single_le_sum hnonneg _ hmem
    linarith
  have hexp' := hexp (ne_of_gt hpos)
  refine ⟨?_, ?_, ?_⟩
  · intro j hj
    have hjl : j < (localSVD h x DOF).explained.length := by
      rw [(localSVD_latentOut h x DOF).2.1]; exact hj
    have hjl' : j < l.length := by
      have := hjl; rw [hexp', List.length_map] at this; exact this
    refine ⟨100 * l.get ⟨j, hjl'⟩ / l.sum, ?_, ?_⟩
    · rw [rd_eq_getElem h _ j hjl]
      simp [hexp']
    · exact div_nonneg (mul_nonneg (by norm_num) (hnonneg _ (List.get_mem l j hjl')))
        hsum_nonneg
  · rw [hexp']
    have : l.map (fun a => Dbl.num (100 * a / l.sum))
        = (l.map (fun a => 100 * a / l.sum)).map Dbl.num := by
      rw [List.map_map]; rfl
    rw [this, foldl_add_map_num_zero]
    congr 1
    have hs : (l.map (fun a => 100 * a / l.sum)).sum = 100 * l.sum / l.sum := by
      have : (fun a : ℚ => 100 * a / l.sum) = (fun a => a * (100 / l.sum)) := by
        funext a; ring
      rw [this, List.sum_map_mul_right]
      simp only [List.map_id']
      ring
    rw [hs]
    field_simp
  · intro t _
    rw [hexp']
    have : (l.map (fun a => Dbl.num (100 * a / l.sum))).take t
        = ((l.take t).map (fun a => 100 * a / l.sum)).map Dbl.num := by
      rw [List.map_map, List.map_take]; rfl
    rw [this, foldl_add_map_num_zero]
    refine ⟨_, rfl, ?_⟩
    have hs : ((l.take t).map (fun a => 100 * a / l.sum)).sum
        = 100 * (l.take t).sum / l.sum := by
      have : (fun a : ℚ => 100 * a / l.sum) = (fun a => a * (100 / l.sum)) := by
        funext a; ring
      rw [this, List.sum_map_mul_right]
      simp only [List.map_id']
      ring
    rw [hs, div_le_iff₀ hpos]
    have := take_sum_le_sum l hnonneg t
    linarith

/-- C8 (witness): `diag(2, 1)` with `DOF = 2` keeps the eigenvalues 2 and 1/2. -/
theorem localSVD_explained_percentages_witness :
    (1 ≤ 2 ∧ (∀ j, j < (localSVD hostQ diag21 2).latentOut_size →
        (rd hostQ (localSVD hostQ diag21 2).latentOut j).isNaN = false) ∧
      ∃ j, j < (localSVD hostQ diag21 2).latentOut_size ∧
        rd hostQ (localSVD hostQ diag21 2).latentOut j ≠ Dbl.num 0) ∧
    (localSVD hostQ diag21 2).explained.foldl (· + ·) 0 = Dbl.num 100 :=
  ⟨⟨by decide, by decide!, ⟨0, by decide!, by decide!⟩⟩,
    (localSVD_explained_percentages hostQ diag21 2 (by decide) (by decide!)
      ⟨0, by decide!, by decide!⟩).2.1⟩

/-- C9: for every non-empty score matrix, `localTSquared` returns exactly one value per
score row (an `n x 1` array): all zeros when `DOF <= 1`, and otherwise
`T2[i] = sum over j < q of (score[i,j] / sqrt(latent[j]))^2`, added up from `j = 0`,
where `q` is the number of eigenvalues strictly greater than
`eps(|latent[0]|) * max(DOF, p)`; for a normal-range `|latent[0]| = a` (at least
`4.4501477170144028E-308`) `eps` is `2^(e - 53)` with `2^(e - 1) <= a < 2^e`, the
spacing of doubles at that magnitude. -/
theorem localTSquared_spec (h : Host) (score : Mat) (latent_data : List Dbl)
    (latent_size DOF p : Nat) (h0 : score.size0 ≠ 0) (h1 : score.size1 ≠ 0) :
    (localTSquared h score latent_data latent_size DOF p).size0 = score.size0 ∧
    (localTSquared h score latent_data latent_size DOF p).size1 = 1 ∧
    (localTSquared h score latent_data latent_size DOF p).data.length = score.size0 ∧
    (DOF ≤ 1 → ∀ i, i < score.size0 →
      rd h (localTSquared h score latent_data latent_size DOF p).data i = 0) ∧
    (1 < DOF → ∀ i, i < score.size0 →
      rd h (localTSquared h score latent_data latent_size DOF p).data i
        = ((List.range ((List.range latent_size).filter (fun j =>
              Dbl.gt (rd h latent_data j)
                (localTSquared_eps (rd h latent_data 0)
                  * Dbl.num ((max DOF p : Nat) : ℚ)))).length).map
            (fun j => score.get h i j / Dbl.sqrt h (rd h latent_data j)
              * (score.get h i j / Dbl.sqrt h (rd h latent_data j)))).foldl (· + ·) 0) ∧
    (∀ a : ℚ, 44501477170144028 / 10 ^ 324 ≤ |a| →
      ∃ e : ℤ, (2 : ℚ) ^ (e - 1) ≤ |a| ∧ |a| < (2 : ℚ) ^ e ∧
        localTSquared_eps (Dbl.num a) = Dbl.num ((2 : ℚ) ^ (e - 53))) := by
  have hne : ¬ (score.size0 = 0 ∨ score.size1 = 0) := by
    rintro (hz | hz)
    · exact h0 hz
    · exact h1 hz
  have hacc := localTSquared_acc h score.size0
    (localTSquared_q h latent_data latent_size DOF p)
    (fun i j => rd h score.data (i + score.size0 * j) / Dbl.sqrt h (rd h latent_data j)
      * (rd h score.data (i + score.size0 * j) / Dbl.sqrt h (rd h latent_data j)))
  have hdef : localTSquared h score latent_data latent_size DOF p
      = ⟨score.size0, 1, forUp 0 (localTSquared_q h latent_data latent_size DOF p)
          (fun exponent t => forUp 0 score.size0 (fun i t =>
            wr t i (rd h t i
              + rd h score.data (i + score.size0 * exponent)
                  / Dbl.sqrt h (rd h latent_data exponent)
                * (rd h score.data (i + score.size0 * exponent)
                  / Dbl.sqrt h (rd h latent_data exponent)))) t)
          (List.replicate score.size0 0)⟩ := by
    unfold localTSquared
    rw [if_neg hne]
  rw [hdef]
  refine ⟨rfl, rfl, hacc.1, ?_, ?_, ?_⟩
  · intro hle i hi
    have hq : localTSquared_q h latent_data latent_size DOF p = 0 := by
      unfold localTSquared_q
      rw [if_neg (by omega)]
    have := hacc.2 i hi
    rw [hq] at this
    dsimp only
    rw [hq]
    exact this
  · intro hlt i hi
    have := hacc.2 i hi
    rw [localTSquared_q_eq h latent_data latent_size DOF p hlt] at this
    dsimp only
    rw [localTSquared_q_eq h latent_data latent_size DOF p hlt]
    exact this
  · intro a ha
    have hpos : (0 : ℚ) < |a| := lt_of_lt_of_le (by norm_num) ha
    refine ⟨Int.log 2 |a| + 1, ?_, ?_, ?_⟩
    · have := Int.zpow_log_le_self (b := 2) (by norm_num) hpos
      simpa using this
    · exact Int.lt_zpow_succ_log_self (b := 2) (by norm_num) |a|
    · show (if |a| < 44501477170144028 / 10 ^ 324 then _ else _) = _
      rw [if_neg (not_lt.mpr ha)]

/-- C9 (witness): the scores `diag(2, 1)` with eigenvalues 4 and 1, `DOF = 2`. -/
theorem localTSquared_spec_witness :
    (diag21.size0 ≠ 0 ∧ diag21.size1 ≠ 0) ∧
    (localTSquared hostQ diag21 [Dbl.num 4, Dbl.num 1] 2 2 2).size0 = diag21.size0 ∧
    (localTSquared hostQ diag21 [Dbl.num 4, Dbl.num 1] 2 2 2).size1 = 1 :=
  ⟨⟨by decide, by decide⟩,
    (localTSquared_spec hostQ diag21 [Dbl.num 4, Dbl.num 1] 2 2 2 (by decide) (by decide)).1,
    (localTSquared_spec hostQ diag21 [Dbl.num 4, Dbl.num 1] 2 2 2 (by decide) (by decide)).2.1⟩

/-- C10: on the 4 x 2 table `table42`, whose rows 2 and 3 hold a NaN, `local_pca` keeps
one component, so its score matrix has a single column; `pcaRed` copies three columns
all the same, and row 2 of its result is `(NaN, 7, 7)` under a host whose unwritten
memory reads `7` (`(NaN, 0, 0)` under `hostQ`): the row is kept, but not as a NaN row. -/
theorem pcaRed_nan_row_not_kept :
    table42.size1 ≤ 12 ∧ table42.rowHasNaN hostJ 2 = true ∧
    (local_pca hostJ (pcaRed_copy hostJ table42) table42.size1).scoreOut
      = ⟨4, 1, [Dbl.num 2, Dbl.num 0, Dbl.nan, Dbl.nan]⟩ ∧
    pcaRed hostJ table42
      = ⟨4, 3, [Dbl.num 2, Dbl.num 0, Dbl.nan, Dbl.nan, Dbl.num 7, Dbl.num 7, Dbl.num 7,
          Dbl.num 7, Dbl.num 7, Dbl.num 7, Dbl.num 7, Dbl.num 7]⟩ ∧
    (pcaRed hostJ table42).get hostJ 2 1 = Dbl.num 7 ∧
    (pcaRed hostJ table42).get hostJ 2 2 = Dbl.num 7 ∧
    (pcaRed hostQ table42).get hostQ 2 1 = Dbl.num 0 := by
  decide!

/-- C11: on the 2 x 2 all-zero table that `examples/main.c` passes to `pcaRed`,
`local_pca(table, 2)` returns a score matrix with a single column (two elements), and
the three columns `pcaRed` copies reach beyond it: columns 1 and 2 of the result are
whatever memory holds behind the scores (`7` under `hostJ`, `0` under `hostQ`), not
principal-component scores. -/
theorem pcaRed_example_reads_outside :
    (local_pca hostJ (pcaRed_copy hostJ zeros22) zeros22.size1).scoreOut
      = ⟨2, 1, [Dbl.num 0, Dbl.num 0]⟩ ∧
    pcaRed hostJ zeros22
      = ⟨2, 3, [Dbl.num 0, Dbl.num 0, Dbl.num 7, Dbl.num 7, Dbl.num 7, Dbl.num 7]⟩ ∧
    pcaRed hostQ zeros22
      = ⟨2, 3, [Dbl.num 0, Dbl.num 0, Dbl.num 0, Dbl.num 0, Dbl.num 0, Dbl.num 0]⟩ := by
  decide!

/-- C12: for every table in which every row contains a NaN, in particular every table
with an all-NaN column and every table with zero rows, and for every requested count
`m`, `local_pca` (a total function: there is no failure to signal) works with `DOF = 0`
and returns empty results: a coefficient matrix with `p` rows and 0 columns and a score
matrix with `n` rows and 0 columns, both without elements. -/
theorem local_pca_no_valid_row (h : Host) (X : Mat) (m : Nat)
    (hrows : ∀ i, i < X.size0 → X.rowHasNaN h i = true) :
    local_pca_DOF h X = 0 ∧
    (local_pca h X m).coeffOut.size0 = X.size1 ∧
    (local_pca h X m).coeffOut.size1 = 0 ∧
    (local_pca h X m).coeffOut.data = [] ∧
    (local_pca h X m).scoreOut.size0 = X.size0 ∧
    (local_pca h X m).scoreOut.size1 = 0 ∧
    (local_pca h X m).scoreOut.data = [] := by
  -- no row is valid
  have hfilter : (List.range X.size0).filter (X.rowHasNaN h) = List.range X.size0 :=
    List.filter_eq_self.mpr (fun i hi => hrows i (List.mem_range.mp hi))
  have hvalid : local_pca_validRows h X = 0 := by
    unfold local_pca_validRows
    rw [nRowsWithNaNs_spec, hfilter, List.length_range, Nat.sub_self]
  have hdof : local_pca_DOF h X = 0 := by
    unfold local_pca_DOF
    rw [hvalid]
    rfl
  obtain ⟨hD, hy0, hy1, hc0, hc1⟩ := local_pca_fit_shape h X
  rw [hdof] at hD
  rw [hdof, Nat.zero_min] at hy1 hc1
  -- nothing is truncated, and there is no column to normalize
  have htr : local_pca_truncate h (local_pca_fit h X) m
      = ⟨⟨(local_pca_fit h X).coeff.size0, (local_pca_fit h X).coeff.size1, []⟩,
         ⟨(local_pca_fit h X).y.size0, (local_pca_fit h X).y.size1, []⟩⟩ := by
    unfold local_pca_truncate
    rw [if_neg (by rw [hD]; exact Nat.not_lt_zero m), hc1, hy1]
    rfl
  have hout : local_pca h X m = ⟨⟨X.size1, 0, []⟩, ⟨X.size0, 0, []⟩⟩ := by
    unfold local_pca
    rw [htr]
    unfold local_pca_signs
    dsimp only
    rw [hc1, forUp_zero, hc0, hy0, hy1]
  rw [hout]
  exact ⟨hdof, rfl, rfl, rfl, rfl, rfl, rfl⟩

/-- C12 (witness): the 2 x 2 table `nancol22`, whose first column is all NaN, with two
components requested. -/
theorem local_pca_no_valid_row_witness :
    (∀ i, i < nancol22.size0 → nancol22.rowHasNaN hostQ i = true) ∧
    (local_pca hostQ nancol22 2).coeffOut = ⟨2, 0, []⟩ ∧
    (local_pca hostQ nancol22 2).scoreOut = ⟨2, 0, []⟩ := by
  have hrows : ∀ i, i < nancol22.size0 → nancol22.rowHasNaN hostQ i = true := by decide
  obtain ⟨_, h1, h2, h3, h4, h5, h6⟩ := local_pca_no_valid_row hostQ nancol22 2 hrows
  refine ⟨hrows, ?_, ?_⟩
  · calc (local_pca hostQ nancol22 2).coeffOut
        = ⟨(local_pca hostQ nancol22 2).coeffOut.size0,
            (local_pca hostQ nancol22 2).coeffOut.size1,
            (local_pca hostQ nancol22 2).coeffOut.data⟩ := rfl
      _ = ⟨2, 0, []⟩ := by rw [h1, h2, h3]; rfl
  · calc (local_pca hostQ nancol22 2).scoreOut
        = ⟨(local_pca hostQ nancol22 2).scoreOut.size0,
            (local_pca hostQ nancol22 2).scoreOut.size1,
            (local_pca hostQ nancol22 2).scoreOut.data⟩ := rfl
      _ = ⟨2, 0, []⟩ := by rw [h4, h5, h6]; rfl

/-- C13: for every `n x p` input matrix `xzsvdc` returns `k = min(n, p)` singular values
together with `U` of size `n x k` and `V` of size `p x k` (buffers of `n k` and `p k`
elements); when `n = 0` or `p = 0` the result is the empty decomposition (`k = 0`, no
singular value, `U` and `V` without columns), whatever the buffer of `A` and the host
hold: neither the bidiagonalization nor the diagonalization loop contributes. -/
theorem xzsvdc_returns (h : Host) (A : Mat) :
    (xzsvdc h A).S_size = min A.size0 A.size1 ∧
    (xzsvdc h A).S.length = min A.size0 A.size1 ∧
    (xzsvdc h A).U.size0 = A.size0 ∧
    (xzsvdc h A).U.size1 = min A.size0 A.size1 ∧
    (xzsvdc h A).U.data.length = A.size0 * min A.size0 A.size1 ∧
    (xzsvdc h A).V.size0 = A.size1 ∧
    (xzsvdc h A).V.size1 = min A.size0 A.size1 ∧
    (xzsvdc h A).V.data.length = A.size1 * min A.size0 A.size1 ∧
    (A.size0 = 0 ∨ A.size1 = 0 →
      xzsvdc h A = ⟨0, ⟨A.size0, 0, []⟩, [], ⟨A.size1, 0, []⟩⟩) := by
  obtain ⟨hS, hU0, hU1, hV0, hV1, hSl⟩ := xzsvdc_shape h A
  have hmin := ite_le_eq_min A.size0 A.size1
  refine ⟨hS, hSl, hU0, hU1, xzsvdc_U_length h A, hV0, hV1, ?_, ?_⟩
  · show (Mat.build A.size1 (if A.size0 ≤ A.size1 then A.size0 else A.size1) _).data.length = _
    rw [build_length, hmin]
  · intro h0
    have hk : (if A.size0 ≤ A.size1 then A.size0 else A.size1) = 0 := by
      rw [hmin]
      rcases h0 with h0 | h0
      · rw [h0, Nat.zero_min]
      · rw [h0, Nat.min_zero]
    unfold xzsvdc
    dsimp only
    rw [if_pos h0, hk]
    have hq : (if A.size0 > 0 then 0 else A.size0) = 0 := by split <;> omega
    rw [hq, forUp_zero, Nat.mul_zero]
    rfl

/-- C13 (witness): a matrix with no rows and three columns. -/
theorem xzsvdc_returns_witness :
    xzsvdc hostQ ⟨0, 3, []⟩ = ⟨0, ⟨0, 0, []⟩, [], ⟨3, 0, []⟩⟩ :=
  (xzsvdc_returns hostQ ⟨0, 3, []⟩).2.2.2.2.2.2.2.2 (Or.inl rfl)

/-- C17 (amended): the finalization of a singular value in `xzsvdc` (case 4) fixes the
sign of the singular value, not of the singular vectors.  Its sign step negates a
negative `s[ii]` together with column `ii` of `x` (the later `V`) and leaves every other
element of `s` and `x` and all of `U` unchanged; when `s[ii]` is not negative it changes
nothing; afterwards `s[ii]` is non-negative whenever it is a number.  The rest of case 4
is the insertion of `s[ii]` by `xzsvdc_sort` and the update of the counters: no step
looks at the elements of `U` or of `V`. -/
theorem xzsvdc_case4_sign (h : Host) (n p nmq ii : Nat) (w : SvdIter)
    (hs : ii < w.s.length) (hx : p * ii + p ≤ w.x.length) :
    xzsvdc_case4 h n p nmq ii w
      = { xzsvdc_sort h n p (nmq - ii) ii (xzsvdc_flip h p ii w) with
          qq := 0, m1 := w.m1 - 1 } ∧
    (xzsvdc_flip h p ii w).U = w.U ∧
    (Dbl.lt (rd h w.s ii) 0 = true →
      rd h (xzsvdc_flip h p ii w).s ii = -(rd h w.s ii) ∧
      (∀ k, k < p → rd h (xzsvdc_flip h p ii w).x (p * ii + k) = -(rd h w.x (p * ii + k))) ∧
      (∀ j, j ≠ ii → rd h (xzsvdc_flip h p ii w).s j = rd h w.s j) ∧
      (∀ j, (j < p * ii ∨ p * ii + p ≤ j) → rd h (xzsvdc_flip h p ii w).x j = rd h w.x j)) ∧
    (Dbl.lt (rd h w.s ii) 0 = false → xzsvdc_flip h p ii w = w) ∧
    ((rd h w.s ii).isNaN = false → Dbl.le 0 (rd h (xzsvdc_flip h p ii w).s ii) = true) := by
  refine ⟨rfl, ?_, ?_, ?_, ?_⟩
  · unfold xzsvdc_flip
    split <;> rfl
  · intro hneg
    have hflip : xzsvdc_flip h p ii w
        = { w with
            x := forUp (p * ii + 1) p (fun qjj x => wr x (qjj - 1) (-(rd h x (qjj - 1)))) w.x,
            s := wr w.s ii (-(rd h w.s ii)) } := by
      unfold xzsvdc_flip
      rw [if_pos hneg]
    rw [hflip]
    obtain ⟨hhit, hmiss⟩ := negate_segment_spec h (p * ii) p w.x hx
    exact ⟨rd_wr_eq h w.s ii _ hs, hhit, fun j hj => rd_wr_ne h w.s ii j _ (Ne.symm hj), hmiss⟩
  · intro hpos
    unfold xzsvdc_flip
    rw [if_neg (by rw [hpos]; exact Bool.false_ne_true)]
  · intro hnum
    obtain ⟨q, hq⟩ := (Dbl.isNaN_eq_false _).mp hnum
    unfold xzsvdc_flip
    by_cases hneg : Dbl.lt (rd h w.s ii) 0 = true
    · rw [if_pos hneg]
      show Dbl.le 0 (rd h (wr w.s ii (-(rd h w.s ii))) ii) = true
      rw [rd_wr_eq h w.s ii _ hs]
      rw [hq, Dbl.zero_lit, Dbl.lt_num] at hneg
      rw [hq, Dbl.neg_num, Dbl.zero_lit, Dbl.le_num]
      have hlt : q < 0 := of_decide_eq_true hneg
      exact decide_eq_true (by linarith)
    · rw [if_neg hneg]
      rw [hq, Dbl.zero_lit, Dbl.lt_num] at hneg
      rw [hq, Dbl.zero_lit, Dbl.le_num]
      have hge : ¬ q < 0 := fun hlt => hneg (decide_eq_true hlt)
      exact decide_eq_true (by linarith)

/-- C17 (witness): the state `iterNeg` with `s[0] = -3`: the sign step turns `s[0]`
into `3` and leaves `U = [1]` alone. -/
theorem xzsvdc_case4_sign_witness :
    (0 < iterNeg.s.length ∧ 1 * 0 + 1 ≤ iterNeg.x.length) ∧
    (xzsvdc_flip hostQ 1 0 iterNeg).U = iterNeg.U ∧
    (Dbl.lt (rd hostQ iterNeg.s 0) 0 = true →
      rd hostQ (xzsvdc_flip hostQ 1 0 iterNeg).s 0 = -(rd hostQ iterNeg.s 0)) :=
  ⟨⟨by decide, by decide⟩,
    (xzsvdc_case4_sign hostQ 1 1 0 0 iterNeg (by decide) (by decide)).2.1,
    fun hneg =>
      ((xzsvdc_case4_sign hostQ 1 1 0 0 iterNeg (by decide) (by decide)).2.2.1 hneg).1⟩

/-- C17 (counterexample): for the 1 x 1 matrix `[-3]` the engine returns `U = [-1]`,
`S = [3]`, `V = [1]`: the only element of the left singular vector is negative. -/
theorem xzsvdc_sign_counterexample :
    (xzsvdc hostQ neg11).U = ⟨1, 1, [Dbl.num (-1)]⟩ ∧
    (xzsvdc hostQ neg11).S = [Dbl.num 3] ∧
    (xzsvdc hostQ neg11).V = ⟨1, 1, [Dbl.num 1]⟩ ∧
    ¬ (∀ j, j < (xzsvdc hostQ neg11).U.size1 →
        (xzsvdc hostQ neg11).U.colDominantNonneg hostQ j) := by
  decide!

/-- C18: for every input matrix, whatever its elements (the argument uses only the
counters and the zeros the cases store, never a value of the matrix), the
diagonalization loop of `xzsvdc` ends after finitely many passes because its condition
`m + 1 > 0 && qq < 75` has become false: from any state whose index `m` lies inside
`e_data` at most `(76 (m+1) + 75) (m+2) + m + 1` passes are made, the state with which
`xzsvdc` leaves the loop satisfies the exit condition, no further pass would change it,
and `xzsvdc` returns the `U`, `S`, `V` read off that state. -/
theorem xzsvdc_terminates (h : Host) (A : Mat) :
    (∀ (n p nmq : Nat) (snorm : Dbl) (w : SvdIter) (fuel : Nat), w.m1 ≤ w.e.length →
      (76 * w.m1 + 75) * (w.m1 + 1) + w.m1 ≤ fuel →
      ¬ (0 < (xzsvdc_loop h n p nmq snorm fuel w).m1 ∧
         (xzsvdc_loop h n p nmq snorm fuel w).qq < 75)) ∧
    ¬ (0 < (xzsvdc_state h A).m1 ∧ (xzsvdc_state h A).qq < 75) ∧
    (∀ (n p nmq : Nat) (snorm : Dbl) (fuel : Nat),
      xzsvdc_loop h n p nmq snorm fuel (xzsvdc_state h A) = xzsvdc_state h A) ∧
    xzsvdc h A
      = ⟨if A.size0 ≤ A.size1 then A.size0 else A.size1,
         ⟨A.size0, if A.size0 ≤ A.size1 then A.size0 else A.size1, (xzsvdc_state h A).U⟩,
         (List.range (if A.size0 ≤ A.size1 then A.size0 else A.size1)).map
           (fun qjj => rd h (xzsvdc_state h A).s qjj),
         Mat.build A.size1 (if A.size0 ≤ A.size1 then A.size0 else A.size1)
           (fun ns qjj => rd h (xzsvdc_state h A).x (ns + A.size1 * qjj))⟩ := by
  have hexit : ¬ (0 < (xzsvdc_state h A).m1 ∧ (xzsvdc_state h A).qq < 75) := by
    unfold xzsvdc_state
    dsimp only
    by_cases h0 : A.size0 = 0 ∨ A.size1 = 0
    · rw [if_pos h0]
      exact fun hc => absurd hc.1 (Nat.lt_irrefl 0)
    · rw [if_neg h0]
      exact xzsvdc_main_exit h _ _ _ _ (by omega) (List.length_replicate _ _)
  exact ⟨fun n p nmq snorm w fuel he hfuel =>
      xzsvdc_loop_exit h n p nmq snorm fuel w
        (Nat.le_trans (xzsvdc_rank_le h snorm w) hfuel) he,
    hexit, fun n p nmq snorm fuel => xzsvdc_loop_stable h n p nmq snorm fuel _ hexit, rfl⟩

/-- C19: with 1-based offsets `ix0`, `iy0`, `xdotc` returns `0.0` for every `n <= 0`, and
for every `n >= 1` the sum of the products `x[ix0+k-1] * y[iy0+k-1]`, `k = 0..n-1`,
added to `0.0` one after the other from `k = 0` upward (a left fold); when the entries
are numbers this is the exact sum of the products. -/
theorem xdotc_spec (h : Host) (n : Int) (x y : List Dbl) (ix0 iy0 : Nat)
    (hix : 1 ≤ ix0) (hiy : 1 ≤ iy0) :
    (n ≤ 0 → xdotc h n x ix0 y iy0 = 0) ∧
    (1 ≤ n → xdotc h n x ix0 y iy0
      = ((List.range n.toNat).map
          (fun k => rd h x (ix0 - 1 + k) * rd h y (iy0 - 1 + k))).foldl (fun a b => a + b) 0) ∧
    (1 ≤ n → ∀ a b : Nat → ℚ,
      (∀ k, k < n.toNat → rd h x (ix0 - 1 + k) = Dbl.num (a k)) →
      (∀ k, k < n.toNat → rd h y (iy0 - 1 + k) = Dbl.num (b k)) →
      xdotc h n x ix0 y iy0 = Dbl.num (∑ k in Finset.range n.toNat, a k * b k)) := by
  have hidx : ∀ k, (fun (k : Nat) (d : Dbl) => d + rd h x (ix0 + k - 1) * rd h y (iy0 + k - 1)) k
      = (fun (k : Nat) (d : Dbl) => d + rd h x (ix0 - 1 + k) * rd h y (iy0 - 1 + k)) k := by
    intro k
    have h1 : ix0 + k - 1 = ix0 - 1 + k := by omega
    have h2 : iy0 + k - 1 = iy0 - 1 + k := by omega
    simp only [h1, h2]
  have hfold : 1 ≤ n → xdotc h n x ix0 y iy0
      = ((List.range n.toNat).map
          (fun k => rd h x (ix0 - 1 + k) * rd h y (iy0 - 1 + k))).foldl (fun a b => a + b) 0 := by
    intro hn
    unfold xdotc
    rw [if_pos hn, funext hidx]
    exact forUp_sum_eq_foldl n.toNat (fun k => rd h x (ix0 - 1 + k) * rd h y (iy0 - 1 + k)) 0
  refine ⟨?_, hfold, ?_⟩
  · intro hn
    unfold xdotc
    rw [if_neg (by omega)]
  · intro hn a b ha hb
    rw [hfold hn]
    generalize n.toNat = N at ha hb
    have hgen : ∀ N, (∀ k, k < N → rd h x (ix0 - 1 + k) = Dbl.num (a k)) →
        (∀ k, k < N → rd h y (iy0 - 1 + k) = Dbl.num (b k)) →
        ((List.range N).map
          (fun k => rd h x (ix0 - 1 + k) * rd h y (iy0 - 1 + k))).foldl (fun a b => a + b) 0
          = Dbl.num (∑ k in Finset.range N, a k * b k) := by
      intro N
      induction N with
      | zero => intro _ _; rfl
      | succ M ih =>
        intro ha hb
        rw [List.range_succ, List.map_append, List.foldl_append,
          ih (fun k hk => ha k (Nat.lt_succ_of_lt hk)) (fun k hk => hb k (Nat.lt_succ_of_lt hk)),
          Finset.sum_range_succ]
        simp only [List.map_cons, List.map_nil, List.foldl_cons, List.foldl_nil]
        rw [ha M (Nat.lt_succ_self M), hb M (Nat.lt_succ_self M)]
        rfl
    exact hgen N ha hb

/-- C19 (witness): the inner product of `(1, 2)` and `(3, 4)`, both read at offset 1. -/
theorem xdotc_spec_witness :
    (1 ≤ 1 ∧ 1 ≤ 1) ∧
    xdotc hostQ 2 [Dbl.num 1, Dbl.num 2] 1 [Dbl.num 3, Dbl.num 4] 1 = Dbl.num 11 := by
  refine ⟨⟨Nat.le_refl 1, Nat.le_refl 1⟩, ?_⟩
  rw [(xdotc_spec hostQ 2 [Dbl.num 1, Dbl.num 2] [Dbl.num 3, Dbl.num 4] 1 1
    (Nat.le_refl 1) (Nat.le_refl 1)).2.1 (by decide)]
  decide!

/-- C20: for two non-overlapping length-`n` segments of `x` at the 1-based offsets `ix0`
and `iy0`, `xrot` sets, for each `k < n`, `x[iy0+k-1]` to `c * x[iy0+k-1] - s * x[ix0+k-1]`
and `x[ix0+k-1]` to `c * x[ix0+k-1] + s * x[iy0+k-1]` (old values on the right), leaves
every other element and the length of `x` unchanged, and for every `n < 1` it changes
nothing at all. -/
theorem xrot_spec (h : Host) (n : Nat) (x : List Dbl) (ix0 iy0 : Nat) (c s : Dbl)
    (hix : 1 ≤ ix0) (hiy : 1 ≤ iy0) (hdisj : ix0 + n ≤ iy0 ∨ iy0 + n ≤ ix0)
    (hbx : ix0 + n ≤ x.length + 1) (hby : iy0 + n ≤ x.length + 1) :
    (∀ k, k < n →
      rd h (xrot h n x ix0 iy0 c s) (iy0 + k - 1)
        = c * rd h x (iy0 + k - 1) - s * rd h x (ix0 + k - 1) ∧
      rd h (xrot h n x ix0 iy0 c s) (ix0 + k - 1)
        = c * rd h x (ix0 + k - 1) + s * rd h x (iy0 + k - 1)) ∧
    (∀ j, (∀ k, k < n → j ≠ ix0 + k - 1 ∧ j ≠ iy0 + k - 1) →
      rd h (xrot h n x ix0 iy0 c s) j = rd h x j) ∧
    (xrot h n x ix0 iy0 c s).length = x.length ∧
    (∀ n' : Int, n' < 1 → xrot h n' x ix0 iy0 c s = x) := by
  have hnil : ∀ n' : Int, n' < 1 → xrot h n' x ix0 iy0 c s = x := by
    intro n' hn'
    unfold xrot
    rw [if_neg (by omega)]
  by_cases hn : 1 ≤ n
  · have hloop := xrot_loop_spec h x ix0 iy0 n c s hix hiy hdisj hbx hby n (Nat.le_refl n)
    have hrot : xrot h n x ix0 iy0 c s = forUp 0 n (fun k x =>
        wr (wr x (iy0 + k - 1) (c * rd h x (iy0 + k - 1) - s * rd h x (ix0 + k - 1)))
          (ix0 + k - 1) (c * rd h x (ix0 + k - 1) + s * rd h x (iy0 + k - 1))) x := by
      unfold xrot
      rw [if_pos (by omega), Int.toNat_ofNat]
    rw [hrot]
    exact ⟨hloop.2.1, hloop.2.2, hloop.1, hnil⟩
  · have h0 : n = 0 := by omega
    subst h0
    have hrot : xrot h ((0 : Nat) : Int) x ix0 iy0 c s = x := hnil _ (by decide)
    rw [hrot]
    exact ⟨fun k hk => absurd hk (Nat.not_lt_zero k), fun j _ => rfl, rfl, hnil⟩

/-- C20 (witness): the rotation with `c = 0`, `s = 1` applied to the segments `(1, 2)` at
offset 1 and `(3, 4)` at offset 3 of a five-element buffer. -/
theorem xrot_spec_witness :
    (1 ≤ 1 ∧ 1 ≤ 3 ∧ (1 + 2 ≤ 3 ∨ 3 + 2 ≤ 1)) ∧
    xrot hostQ 2 [Dbl.num 1, Dbl.num 2, Dbl.num 3, Dbl.num 4, Dbl.num 5] 1 3 (Dbl.num 0)
        (Dbl.num 1)
      = [Dbl.num 3, Dbl.num 4, Dbl.num (-1), Dbl.num (-2), Dbl.num 5] ∧
    rd hostQ (xrot hostQ 2 [Dbl.num 1, Dbl.num 2, Dbl.num 3, Dbl.num 4, Dbl.num 5] 1 3
        (Dbl.num 0) (Dbl.num 1)) 4
      = rd hostQ [Dbl.num 1, Dbl.num 2, Dbl.num 3, Dbl.num 4, Dbl.num 5] 4 :=
  ⟨⟨by decide, by decide, by decide⟩, by decide!,
    (xrot_spec hostQ 2 [Dbl.num 1, Dbl.num 2, Dbl.num 3, Dbl.num 4, Dbl.num 5] 1 3 (Dbl.num 0)
      (Dbl.num 1) (by decide) (by decide) (by decide) (by decide) (by decide)).2.1 4
      (fun k hk => by omega)⟩

/-- C21: for two non-overlapping length-`n` segments of `x` at the 1-based offsets `ix0`
and `iy0`, `xswap` exchanges them element by element (`x[ix0+k-1]` receives the old
`x[iy0+k-1]` and `x[iy0+k-1]` the old `x[ix0+k-1]`, for every `k < n`), leaves every other
element and the length of `x` unchanged, and for every `n <= 0` it changes nothing. -/
theorem xswap_spec (h : Host) (n : Nat) (x : List Dbl) (ix0 iy0 : Nat)
    (hix : 1 ≤ ix0) (hiy : 1 ≤ iy0) (hdisj : ix0 + n ≤ iy0 ∨ iy0 + n ≤ ix0)
    (hbx : ix0 + n ≤ x.length + 1) (hby : iy0 + n ≤ x.length + 1) :
    (∀ k, k < n →
      rd h (xswap h n x ix0 iy0) (ix0 + k - 1) = rd h x (iy0 + k - 1) ∧
      rd h (xswap h n x ix0 iy0) (iy0 + k - 1) = rd h x (ix0 + k - 1)) ∧
    (∀ j, (∀ k, k < n → j ≠ ix0 + k - 1 ∧ j ≠ iy0 + k - 1) →
      rd h (xswap h n x ix0 iy0) j = rd h x j) ∧
    (xswap h n x ix0 iy0).length = x.length ∧
    (∀ n' : Int, n' ≤ 0 → xswap h n' x ix0 iy0 = x) := by
  have hloop := xswap_loop_spec h x ix0 iy0 n hix hiy hdisj hbx hby n (Nat.le_refl n)
  have hsw : xswap h n x ix0 iy0 = forUp 0 n (fun k x =>
      wr (wr x (ix0 + k - 1) (rd h x (iy0 + k - 1))) (iy0 + k - 1) (rd h x (ix0 + k - 1)))
      x := by
    unfold xswap
    rw [Int.toNat_ofNat]
  rw [hsw]
  refine ⟨hloop.2.1, hloop.2.2, hloop.1, ?_⟩
  intro n' hn'
  unfold xswap
  have h0 : n'.toNat = 0 := by omega
  rw [h0]
  rfl

/-- C21 (witness): the segments `(1, 2)` at offset 1 and `(3, 4)` at offset 3 of a
five-element buffer. -/
theorem xswap_spec_witness :
    (1 ≤ 1 ∧ 1 ≤ 3 ∧ (1 + 2 ≤ 3 ∨ 3 + 2 ≤ 1)) ∧
    xswap hostQ 2 [Dbl.num 1, Dbl.num 2, Dbl.num 3, Dbl.num 4, Dbl.num 5] 1 3
      = [Dbl.num 3, Dbl.num 4, Dbl.num 1, Dbl.num 2, Dbl.num 5] ∧
    rd hostQ (xswap hostQ 2 [Dbl.num 1, Dbl.num 2, Dbl.num 3, Dbl.num 4, Dbl.num 5] 1 3) 4
      = rd hostQ [Dbl.num 1, Dbl.num 2, Dbl.num 3, Dbl.num 4, Dbl.num 5] 4 :=
  ⟨⟨by decide, by decide, by decide⟩, by decide!,
    (xswap_spec hostQ 2 [Dbl.num 1, Dbl.num 2, Dbl.num 3, Dbl.num 4, Dbl.num 5] 1 3
      (by decide) (by decide) (by decide) (by decide) (by decide)).2.1 4
      (fun k hk => by omega)⟩

/-- C22 (counterexample): the 15 x 12 table of zeros has 12 columns and 14 degrees of
freedom; when 13 components are requested of `local_pca`, the truncation loop (`pca.c`
lines 401-407) runs `j` up to 12 and applies the subscript `11 + 12 * 12 = 155` to the
144-element buffers `coeffOut_data` and `coeff_data`. -/
theorem local_pca_subscripts_counterexample :
    zeros1512.size1 ≤ 12 ∧ local_pca_DOF hostQ zeros1512 = 14 ∧
    (155 : Int) ∈ local_pca_subs144 hostQ zeros1512 13 ∧ ¬ ((155 : Int) < 144) := by
  decide!

/-- C22 (amended): for every table `X` with at most 12 columns and any number of
rows, and every requested component count of at most `p`, every subscript applied to the
12-element buffers (`s_data`, `e_data` and `S_data` in `xzsvdc`; `mu_data`,
`latent_data`, `latentOut_data` and `explained_data` in `local_pca` and its callees) is
at least 0 and below 12, and every subscript applied to the 144-element buffers
(`V_data` in `xzsvdc`; `coeff_data` and `coeffOut_data` in `localSVD` and `local_pca`)
is at least 0 and below 144.  This covers the call `pcaRed` makes, which requests `p`
components.  The bound on the diagonalization loop does not depend on what the buffers
hold: from every state with `m <= nmq <= 11` every subscript of every pass is in
`0 .. nmq`. -/
theorem local_pca_subscripts (h : Host) (X : Mat) (NumComponents : Nat)
    (hp : X.size1 ≤ 12) (hm : NumComponents ≤ X.size1) :
    (∀ k : Int, k ∈ xzsvdc_subs12 h X → 0 ≤ k ∧ k < 12) ∧
    (∀ k : Int, k ∈ xzsvdc_subs144 X → 0 ≤ k ∧ k < 144) ∧
    (∀ k : Int, k ∈ local_pca_subs12 h X → 0 ≤ k ∧ k < 12) ∧
    (∀ k : Int, k ∈ local_pca_subs144 h X NumComponents → 0 ≤ k ∧ k < 144) ∧
    (∀ k : Int, k ∈ pcaRed_subs12 h X → 0 ≤ k ∧ k < 12) ∧
    (∀ k : Int, k ∈ pcaRed_subs144 h X → 0 ≤ k ∧ k < 144) ∧
    (∀ (n p nmq fuel : Nat) (snorm : Dbl) (w : SvdIter), nmq < 12 → w.m1 ≤ nmq + 1 →
      ∀ k : Int, k ∈ xzsvdc_subs_loop h n p nmq snorm fuel w → 0 ≤ k ∧ k < 12) := by
  have h144 := square_le_144 X.size1 hp
  have hcast : ((X.size1 * X.size1 : Nat) : Int) ≤ 144 := by exact_mod_cast h144
  refine ⟨?_, ?_, ?_, ?_, ?_, ?_, ?_⟩
  · intro k hk
    have := xzsvdc_subs12_bound h X k hk
    omega
  · intro k hk
    have := xzsvdc_subs144_bound X k hk
    omega
  · intro k hk
    have := local_pca_subs12_bound h X k hk
    omega
  · intro k hk
    have := local_pca_subs144_bound h X NumComponents hm k hk
    omega
  · intro k hk
    have := local_pca_subs12_bound h (pcaRed_copy h X) k hk
    have hs : (pcaRed_copy h X).size1 = X.size1 := rfl
    rw [hs] at this
    omega
  · intro k hk
    have := local_pca_subs144_bound h (pcaRed_copy h X) X.size1 (Nat.le_refl _) k hk
    have hs : (pcaRed_copy h X).size1 = X.size1 := rfl
    rw [hs] at this
    omega
  · intro n p nmq fuel snorm w hnmq hw k hk
    have := xzsvdc_subs_loop_bound h n p nmq snorm fuel w hw k hk
    omega

/-- C22 (witness): the 4 x 2 table `table42`, which has two rows with a NaN, with two
components requested; its subscripts into the 144-element buffers are listed. -/
theorem local_pca_subscripts_witness :
    (table42.size1 ≤ 12 ∧ 2 ≤ table42.size1) ∧
    ((∀ k : Int, k ∈ xzsvdc_subs12 hostQ table42 → 0 ≤ k ∧ k < 12) ∧
     (∀ k : Int, k ∈ xzsvdc_subs144 table42 → 0 ≤ k ∧ k < 144) ∧
     (∀ k : Int, k ∈ local_pca_subs12 hostQ table42 → 0 ≤ k ∧ k < 12) ∧
     (∀ k : Int, k ∈ local_pca_subs144 hostQ table42 2 → 0 ≤ k ∧ k < 144) ∧
     (∀ k : Int, k ∈ pcaRed_subs12 hostQ table42 → 0 ≤ k ∧ k < 12) ∧
     (∀ k : Int, k ∈ pcaRed_subs144 hostQ table42 → 0 ≤ k ∧ k < 144) ∧
     (∀ (n p nmq fuel : Nat) (snorm : Dbl) (w : SvdIter), nmq < 12 → w.m1 ≤ nmq + 1 →
       ∀ k : Int, k ∈ xzsvdc_subs_loop hostQ n p nmq snorm fuel w → 0 ≤ k ∧ k < 12)) ∧
    local_pca_subs144 hostQ table42 2 = [0, 1, 2, 3, 0, 0, 1, 1, 0, 1, 0, 1] ∧
    xzsvdc_subs12 hostQ ⟨1, 2, [Dbl.num 3, Dbl.num 4]⟩
      = [0, 1, 0, 1, 0, 1, 0, 1, 0, 0, 1, 0, 1, 1, 0, 1, 0, 0, 0, 1, 0, 0, 0, 1, 1, 0, 0,
         1, 0] :=
  ⟨⟨by decide, by decide⟩, local_pca_subscripts hostQ table42 2 (by decide) (by decide),
    by decide!, by decide!⟩

/-- C23: in the diagonalization loop the sweep counter `qq` is reset to 0 by every pass
that takes case 4, incremented by exactly 1 by every pass that takes case 3 and left
unchanged by cases 1 and 2; the loop makes no pass once the counter has reached 75; and
hence, in the sequence of cases the loop goes through (`xzsvdc_trace`, whose length is
the number of passes made), every stretch without a case 4 holds at most 75 case-3
steps. -/
theorem xzsvdc_sweep_counter (h : Host) (n p nmq : Nat) (snorm : Dbl) :
    (∀ w : SvdIter,
      ((xzsvdc_classify h snorm w).ns = 4 → (xzsvdc_pass h n p nmq snorm w).qq = 0) ∧
      ((xzsvdc_classify h snorm w).ns = 3 → (xzsvdc_pass h n p nmq snorm w).qq = w.qq + 1) ∧
      ((xzsvdc_classify h snorm w).ns = 1 ∨ (xzsvdc_classify h snorm w).ns = 2 →
        (xzsvdc_pass h n p nmq snorm w).qq = w.qq)) ∧
    (∀ (fuel : Nat) (w : SvdIter), 75 ≤ w.qq →
      xzsvdc_loop h n p nmq snorm fuel w = w ∧ xzsvdc_trace h n p nmq snorm fuel w = []) ∧
    (∀ (fuel : Nat) (w : SvdIter),
      xzsvdc_loop h n p nmq snorm fuel w
        = Nat.iterate (xzsvdc_pass h n p nmq snorm)
            (xzsvdc_trace h n p nmq snorm fuel w).length w) ∧
    (∀ (fuel : Nat) (w : SvdIter) (a b c : List Nat),
      xzsvdc_trace h n p nmq snorm fuel w = a ++ b ++ c → 4 ∉ b → b.count 3 ≤ 75) := by
  refine ⟨?_, ?_, ?_, ?_⟩
  · intro w
    obtain ⟨c1, c2, c3, c4⟩ := xzsvdc_pass_counters h n p nmq snorm w
    exact ⟨fun hns => (c4 hns).1, fun hns => (c3 hns).1,
      fun hns => hns.elim (fun h1 => (c1 h1).1) (fun h2 => (c2 h2).1)⟩
  · intro fuel w hq
    have hexit : ¬ (0 < w.m1 ∧ w.qq < 75) := fun hc => absurd hc.2 (by omega)
    refine ⟨xzsvdc_loop_stable h n p nmq snorm fuel w hexit, ?_⟩
    cases fuel with
    | zero => rfl
    | succ f =>
      unfold xzsvdc_trace
      rw [if_neg hexit]
  · intro fuel
    induction fuel with
    | zero => intro w; rfl
    | succ f ih =>
      intro w
      unfold xzsvdc_loop xzsvdc_trace
      by_cases hc : 0 < w.m1 ∧ w.qq < 75
      · rw [if_pos hc, if_pos hc, List.length_cons, Function.iterate_succ_apply]
        exact ih _
      · rw [if_neg hc, if_neg hc]
        rfl
  · intro fuel w a b c htr h4
    by_cases hb : b = []
    · rw [hb]
      exact Nat.zero_le 75
    · rw [List.append_assoc] at htr
      obtain ⟨fuel', w', htr'⟩ := xzsvdc_trace_suffix h n p nmq snorm a fuel w (b ++ c) htr
      have := xzsvdc_trace_head h n p nmq snorm b fuel' w' c htr' h4 hb
      omega

/-- C24: on the missing-value path of `local_pca` (the table holds a NaN), a row `i` of
the table without NaN is the `r`-th fully-valid row, `r = X.validIndex h i` being the
number of rows without NaN above it, and `r` is a row of the scores `localSVD` computes
on the compact submatrix (`local_pca_compact`, which has one row per fully-valid row).
In every kept column `j` (a column of the compact scores that the truncation loop
copies, that is `j < (unsigned char)m` when `m < DOF`) the full-height score output
holds at `(i, j)` the compact score `(r, j)`, negated exactly when the sign `sgn` of
coefficient column `j` is negative, which is exactly when sign normalization negates
that coefficient column. -/
theorem local_pca_valid_rows (h : Host) (X : Mat) (m i j : Nat)
    (hnan : local_pca_noNaNs h X = false)
    (hi : i < X.size0) (hrow : X.rowHasNaN h i = false)
    (hj : j < (local_pca h X m).scoreOut.size1)
    (hk : j < (local_pca_compact h X).scoreOut.size1)
    (hc : m < local_pca_DOF h X → j < m % 256) :
    X.validIndex h i < local_pca_validRows h X ∧
    (local_pca_compact h X).scoreOut.size0 = local_pca_validRows h X ∧
    (local_pca h X m).scoreOut.get h i j
      = (if Dbl.lt (local_pca_sgn h (local_pca_truncate h (local_pca_fit h X) m).coeffOut.data
            (local_pca_truncate h (local_pca_fit h X) m).coeffOut.size0 j) 0 = true then
          -((local_pca_compact h X).scoreOut.get h (X.validIndex h i) j)
        else (local_pca_compact h X).scoreOut.get h (X.validIndex h i) j) ∧
    (∀ b_i, b_i < (local_pca h X m).coeffOut.size0 →
      (local_pca h X m).coeffOut.get h b_i j
        = (if Dbl.lt (local_pca_sgn h
              (local_pca_truncate h (local_pca_fit h X) m).coeffOut.data
              (local_pca_truncate h (local_pca_fit h X) m).coeffOut.size0 j) 0 = true then
            -((local_pca_truncate h (local_pca_fit h X) m).coeffOut.get h b_i j)
          else (local_pca_truncate h (local_pca_fit h X) m).coeffOut.get h b_i j)) := by
  obtain ⟨f1, f2, _, _, _⟩ := local_pca_fit_shape h X
  obtain ⟨_, _, t3, _⟩ := local_pca_truncate_shape h (local_pca_fit h X) m
  obtain ⟨hcg, hsg⟩ := local_pca_signs_get h X m
  have hjc : j < (local_pca_truncate h (local_pca_fit h X) m).coeffOut.size1 := by
    rw [truncate_fit_cols]; exact hj
  have hjt : j < (local_pca_truncate h (local_pca_fit h X) m).scoreOut.size1 := hj
  have hiy : i < (local_pca_fit h X).y.size0 := by rw [f2]; exact hi
  refine ⟨validIndex_lt h X i hi hrow, ?_, ?_, fun b_i hb => hcg b_i j hb hjc⟩
  · exact (localSVD_shape h _ _).2.1
  · rw [hsg i j (by rw [t3]; exact hiy) hjc,
      truncate_score_get_kept h _ m i j hiy hjt (by rw [f1]; exact hc),
      local_pca_fit_valid_row h X hnan i j hi hrow hk]

/-- C24 (witness): in `table42` row 1 is the second row without NaN. -/
theorem local_pca_valid_rows_witness :
    (local_pca_noNaNs hostQ table42 = false ∧ 1 < table42.size0 ∧
      table42.rowHasNaN hostQ 1 = false) ∧
    table42.validIndex hostQ 1 < local_pca_validRows hostQ table42 ∧
    (local_pca hostQ table42 2).scoreOut.get hostQ 1 0
      = (if Dbl.lt (local_pca_sgn hostQ
            (local_pca_truncate hostQ (local_pca_fit hostQ table42) 2).coeffOut.data
            (local_pca_truncate hostQ (local_pca_fit hostQ table42) 2).coeffOut.size0 0) 0
            = true then
          -((local_pca_compact hostQ table42).scoreOut.get hostQ
              (table42.validIndex hostQ 1) 0)
        else (local_pca_compact hostQ table42).scoreOut.get hostQ
              (table42.validIndex hostQ 1) 0) :=
  ⟨⟨by decide!, by decide, by decide!⟩,
    (local_pca_valid_rows hostQ table42 2 1 0 (by decide!) (by decide) (by decide!)
      (by decide!) (by decide!) (by decide!)).1,
    (local_pca_valid_rows hostQ table42 2 1 0 (by decide!) (by decide) (by decide!)
      (by decide!) (by decide!) (by decide!)).2.2.1⟩

/-- C25 (amended): for every table with at least one fully-valid row, the matrix that
`local_pca` hands to the SVD engine (`local_pca_svdInput`: the centered table on the
no-missing path, the submatrix of fully-valid rows of the centered table on the
missing-value path) has one row per fully-valid row and holds only numbers, and every
column `j` of it sums, in exact arithmetic, to minus the sum of the centered non-NaN
entries that the rows left out hold in column `j` (the mean subtracted from a column is
taken over all its non-NaN entries, those of rows with a NaN elsewhere included).  On
the no-missing path no row is left out and every column sums to zero. -/
theorem local_pca_svdInput_columns (h : Host) (X : Mat) (hwf : X.WellFormed)
    (hv : 1 ≤ local_pca_validRows h X) (j : Nat) (hj : j < X.size1) :
    (local_pca_fit h X).coeff
        = (localSVD h (local_pca_svdInput h X) (local_pca_DOF h X)).coeffOut ∧
    (local_pca_svdInput h X).size0 = local_pca_validRows h X ∧
    (local_pca_svdInput h X).size1 = X.size1 ∧
    (∀ i, i < X.size0 → X.rowHasNaN h i = false →
      (local_pca_svdInput h X).get h (X.validIndex h i) j
        = (local_pca_center h X).get h i j) ∧
    ((local_pca_svdInput h X).colNonNaN h j).length = local_pca_validRows h X ∧
    ((local_pca_svdInput h X).colNonNaN h j).sum
      = -(((List.range X.size0).filter (X.rowHasNaN h)).filterMap
            (fun i => ((local_pca_center h X).get h i j).toRat?)).sum ∧
    (local_pca_noNaNs h X = true → ((local_pca_svdInput h X).colNonNaN h j).sum = 0) := by
  obtain ⟨s1, s2, s3⟩ := svdInput_spec h X
  obtain ⟨i0, hi0, hrow0⟩ := exists_valid_row h X hv
  obtain ⟨_, hsum, hnan⟩ := center_column_sum h X hwf j hj
    ⟨i0, hi0, rowHasNaN_false_get h X i0 j hj hrow0⟩
  have hcol := svdInput_colNonNaN h X j hj
  have hsplit := sum_filterMap_split (List.range X.size0) (X.rowHasNaN h)
    (fun i => ((local_pca_center h X).get h i j).toRat?)
  have hsum' : ((List.range X.size0).filterMap
      (fun i => ((local_pca_center h X).get h i j).toRat?)).sum = 0 := by
    have : (local_pca_center h X).colNonNaN h j
        = (List.range X.size0).filterMap
            (fun i => ((local_pca_center h X).get h i j).toRat?) := by
      unfold Mat.colNonNaN
      rw [(center_size h X).1]
    rw [← this]; exact hsum
  have hneg : ((local_pca_svdInput h X).colNonNaN h j).sum
      = -(((List.range X.size0).filter (X.rowHasNaN h)).filterMap
            (fun i => ((local_pca_center h X).get h i j).toRat?)).sum := by
    rw [hcol]
    rw [hsum'] at hsplit
    linarith
  refine ⟨local_pca_fit_svdInput h X, s1, s2, fun i hi hrow => s3 i j hi hj hrow, ?_, hneg, ?_⟩
  · rw [hcol, filterMap_length_of_some, validRows_eq_validIndex]
    · rfl
    · intro i hmem
      obtain ⟨hi, hp⟩ := List.mem_filter.mp hmem
      have hrow : X.rowHasNaN h i = false := by
        cases hb : X.rowHasNaN h i with
        | false => rfl
        | true => rw [hb] at hp; exact absurd hp (by simp)
      have hx := rowHasNaN_false_get h X i j hj hrow
      rw [← hnan i (List.mem_range.mp hi)] at hx
      obtain ⟨q, hq⟩ := (Dbl.isNaN_eq_false _).mp hx
      exact ⟨q, by rw [hq]; rfl⟩
  · intro hno
    have hall := (nanCount_eq_zero h X).mp ((noNaNs_iff h X).mp hno)
    have hnil : (List.range X.size0).filter (X.rowHasNaN h) = [] := by
      apply List.filter_eq_nil_iff.mpr
      intro i hi hrow
      unfold Mat.rowHasNaN at hrow
      obtain ⟨c, hc, hcn⟩ := List.any_eq_true.mp hrow
      rw [hall i c (List.mem_range.mp hi) (List.mem_range.mp hc)] at hcn
      exact absurd hcn (by simp)
    rw [hneg, hnil]
    simp

/-- C25 (witness): column 0 of `table42`, whose two rows with a NaN are left out. -/
theorem local_pca_svdInput_columns_witness :
    (table42.WellFormed ∧ 1 ≤ local_pca_validRows hostQ table42 ∧ 0 < table42.size1) ∧
    (local_pca_svdInput hostQ table42).size0 = local_pca_validRows hostQ table42 ∧
    ((local_pca_svdInput hostQ table42).colNonNaN hostQ 0).sum
      = -(((List.range table42.size0).filter (table42.rowHasNaN hostQ)).filterMap
            (fun i => ((local_pca_center hostQ table42).get hostQ i 0).toRat?)).sum :=
  ⟨⟨by unfold Mat.WellFormed; decide, by decide!, by decide⟩,
    (local_pca_svdInput_columns hostQ table42 (by unfold Mat.WellFormed; decide)
      (by decide!) 0 (by decide)).2.1,
    (local_pca_svdInput_columns hostQ table42 (by unfold Mat.WellFormed; decide)
      (by decide!) 0 (by decide)).2.2.2.2.2.1⟩

/-- C25 (counterexample): `table42` has two fully-valid rows, `(2, 0)` and `(0, 1)`; the
means over the non-NaN entries of its columns are both 0, so the matrix handed to the
SVD engine is `diag(2, 1)`, whose columns sum to 2 and to 1, not to zero. -/
theorem local_pca_svdInput_counterexample :
    1 ≤ local_pca_validRows hostQ table42 ∧
    local_pca_svdInput hostQ table42 = diag21 ∧
    ((local_pca_svdInput hostQ table42).colNonNaN hostQ 0).sum = 2 ∧
    ((local_pca_svdInput hostQ table42).colNonNaN hostQ 1).sum = 1 ∧
    ¬ (∀ j, j < (local_pca_svdInput hostQ table42).size1 →
        ((local_pca_svdInput hostQ table42).colNonNaN hostQ j).sum = 0) := by
  decide!

/-- C26: in the diagonalization loop of `xzsvdc`, from any state whose deflated values
`s[m + 1 .. nmq]` are non-negative numbers in non-increasing order (at the start of the
loop there is none, `m = nmq`): a pass of case 1, 2 or 3 leaves `m` and every deflated
value as it is; a pass of case 4 that isolates a number lowers `m` by one and leaves
the deflated values, now `s[m .. nmq]`, non-negative and non-increasing; and when the
loop, run for any number of passes, ends with deflated values that are numbers, they
are non-negative and non-increasing, so that when every value has been deflated
(`m + 1 = 0`) the whole of `s[0 .. nmq]` is non-negative and sorted in descending
order. -/
theorem xzsvdc_deflated_sorted (h : Host) (n p nmq : Nat) (snorm : Dbl) (w : SvdIter)
    (hmn : w.m1 ≤ nmq + 1) (hlen : nmq < w.s.length) (ht : xzsvdc_tailSorted h nmq w) :
    (0 < w.m1 → (xzsvdc_classify h snorm w).ns ≠ 4 →
      (xzsvdc_pass h n p nmq snorm w).m1 = w.m1 ∧
      (∀ k, w.m1 ≤ k → rd h (xzsvdc_pass h n p nmq snorm w).s k = rd h w.s k) ∧
      xzsvdc_tailSorted h nmq (xzsvdc_pass h n p nmq snorm w)) ∧
    (0 < w.m1 → (xzsvdc_classify h snorm w).ns = 4 →
      (rd h w.s (w.m1 - 1)).isNaN = false →
      (xzsvdc_pass h n p nmq snorm w).m1 = w.m1 - 1 ∧
      xzsvdc_tailSorted h nmq (xzsvdc_pass h n p nmq snorm w)) ∧
    (∀ fuel, xzsvdc_tailNumbers h nmq (xzsvdc_loop h n p nmq snorm fuel w) →
      xzsvdc_tailSorted h nmq (xzsvdc_loop h n p nmq snorm fuel w) ∧
      ((xzsvdc_loop h n p nmq snorm fuel w).m1 = 0 →
        (∀ k, k ≤ nmq →
          Dbl.le 0 (rd h (xzsvdc_loop h n p nmq snorm fuel w).s k) = true) ∧
        (∀ k, k < nmq →
          Dbl.le (rd h (xzsvdc_loop h n p nmq snorm fuel w).s (k + 1))
            (rd h (xzsvdc_loop h n p nmq snorm fuel w).s k) = true))) := by
  refine ⟨fun hm hns => ?_, fun hm hns hnum => ?_, fun fuel hnum => ?_⟩
  · obtain ⟨hm1, _, hf⟩ := xzsvdc_pass_tail h n p nmq snorm w hm hns
    exact ⟨hm1, hf, xzsvdc_pass_tailSorted h n p nmq snorm w hm hmn hlen ht
      (fun hc => absurd hc hns)⟩
  · exact ⟨(xzsvdc_pass_case4 h n p nmq snorm w hm hns).1,
      xzsvdc_pass_tailSorted h n p nmq snorm w hm hmn hlen ht (fun _ => hnum)⟩
  · have hs := xzsvdc_loop_tailSorted h n p nmq snorm fuel w hmn hlen ht hnum
    refine ⟨hs, fun hz => ?_⟩
    unfold xzsvdc_tailSorted at hs
    rw [hz] at hs
    exact ⟨fun k hk => hs.1 k hk (Nat.zero_le k), fun k hk => hs.2 k hk (Nat.zero_le k)⟩

/-- C26 (witness): the state `iterSorted3` (`s = [-1, 3, 2]`, `m = 0`, the values `3`
and `2` deflated and in order) is reached from `iterStart3` by two passes; the next pass
is case 4, which makes `s[0]` positive and moves it behind the two deflated values:
`s = [3, 2, 1]`, `m + 1 = 0`, and every value is at least its successor. -/
theorem xzsvdc_deflated_sorted_witness :
    (iterSorted3.m1 ≤ 2 + 1 ∧ 2 < iterSorted3.s.length ∧
      xzsvdc_tailSorted hostQ 2 iterSorted3) ∧
    ((xzsvdc_loop hostQ 3 3 2 (Dbl.num 3) 2 iterStart3).s = iterSorted3.s ∧
      (xzsvdc_loop hostQ 3 3 2 (Dbl.num 3) 2 iterStart3).m1 = iterSorted3.m1) ∧
    (xzsvdc_pass hostQ 3 3 2 (Dbl.num 3) iterSorted3).s = [Dbl.num 3, Dbl.num 2, Dbl.num 1] ∧
    ((xzsvdc_pass hostQ 3 3 2 (Dbl.num 3) iterSorted3).m1 = iterSorted3.m1 - 1 ∧
      xzsvdc_tailSorted hostQ 2 (xzsvdc_pass hostQ 3 3 2 (Dbl.num 3) iterSorted3)) ∧
    Dbl.le (rd hostQ (xzsvdc_loop hostQ 3 3 2 (Dbl.num 3) 1 iterSorted3).s 1)
      (rd hostQ (xzsvdc_loop hostQ 3 3 2 (Dbl.num 3) 1 iterSorted3).s 0) = true ∧
    Dbl.le (rd hostQ (xzsvdc_loop hostQ 3 3 2 (Dbl.num 3) 1 iterSorted3).s 2)
      (rd hostQ (xzsvdc_loop hostQ 3 3 2 (Dbl.num 3) 1 iterSorted3).s 1) = true :=
  ⟨⟨by decide, by decide, by decide!⟩, ⟨by decide!, by decide!⟩, by decide!,
    (xzsvdc_deflated_sorted hostQ 3 3 2 (Dbl.num 3) iterSorted3 (by decide) (by decide)
      (by decide!)).2.1 (by decide) (by decide!) (by decide!),
    (((xzsvdc_deflated_sorted hostQ 3 3 2 (Dbl.num 3) iterSorted3 (by decide) (by decide)
      (by decide!)).2.2 1 (by decide!)).2 (by decide!)).2 0 (by decide),
    (((xzsvdc_deflated_sorted hostQ 3 3 2 (Dbl.num 3) iterSorted3 (by decide) (by decide)
      (by decide!)).2.2 1 (by decide!)).2 (by decide!)).2 1 (by decide)⟩

/-- C27: in every pass of the diagonalization loop (`m = m1 - 1`), the first scan yields
the largest index `ii` in `1..m` whose `e[ii-1]` passes the test
`|e[ii-1]| <= eps (|s[ii-1]| + |s[ii]|)`, or `|e[ii-1]| <= 1.0020841800044864e-292`, or
`qq > 20` and `|e[ii-1]| <= eps snorm` (`xzsvdc_negligible`), and sets that `e[ii-1]` to
exactly `0`, changing nothing else; it yields `ii = 0` and leaves `e` alone when no index
passes; and case 4 is selected exactly when `ii = m`. -/
theorem xzsvdc_first_scan (h : Host) (snorm : Dbl) (w : SvdIter) :
    xzsvdc_split h snorm w ≤ w.m1 - 1 ∧
    (0 < xzsvdc_split h snorm w →
      xzsvdc_negligible h w.s w.e w.qq snorm (xzsvdc_split h snorm w) ∧
      (xzsvdc_classify h snorm w).e = wr w.e (xzsvdc_split h snorm w - 1) 0 ∧
      (xzsvdc_split h snorm w - 1 < w.e.length →
        rd h (xzsvdc_classify h snorm w).e (xzsvdc_split h snorm w - 1) = Dbl.num 0)) ∧
    (∀ j, xzsvdc_split h snorm w < j → j ≤ w.m1 - 1 →
      ¬ xzsvdc_negligible h w.s w.e w.qq snorm j) ∧
    (xzsvdc_split h snorm w = 0 → (xzsvdc_classify h snorm w).e = w.e) ∧
    ((xzsvdc_classify h snorm w).ns = 4 ↔ xzsvdc_split h snorm w = w.m1 - 1) := by
  obtain ⟨hpos, hzero, hmax⟩ := xzsvdc_scanE_spec h w.s w.qq snorm (w.m1 - 1) w.e
  have hce : (xzsvdc_classify h snorm w).e = (xzsvdc_scanE h w.s w.qq snorm (w.m1 - 1) w.e).2 := by
    unfold xzsvdc_classify
    dsimp only
    split
    · rfl
    · split
      · rfl
      · split <;> rfl
  obtain ⟨_, h4, hrest⟩ := xzsvdc_classify_spec h snorm w
  refine ⟨xzsvdc_split_le h snorm w, ?_, hmax, fun h0 => by rw [hce]; exact hzero h0, ?_⟩
  · intro hp
    obtain ⟨hn, he⟩ := hpos hp
    refine ⟨hn, by rw [hce]; exact he, ?_⟩
    intro hlt
    rw [hce, he]
    show rd h (wr w.e (xzsvdc_split h snorm w - 1) 0) (xzsvdc_split h snorm w - 1) = Dbl.num 0
    rw [rd_wr_eq h w.e _ 0 hlt]
    exact Dbl.zero_lit
  · constructor
    · intro hns
      by_contra hne
      rcases hrest hne with ⟨h1, _⟩ | ⟨h2, _⟩ | ⟨h3, _⟩
      · rw [h1] at hns; exact absurd hns (by decide)
      · rw [h2] at hns; exact absurd hns (by decide)
      · rw [h3] at hns; exact absurd hns (by decide)
    · exact h4

/-- C30: for every kept component `j`, the sign normalization of `local_pca` negates score
column `j` exactly when it negates coefficient column `j` (when the sign `sgn` of the
column is negative) and otherwise changes neither; so every product
`score[r, j] * coeff[i, j]`, and with it every entry `(r, i)` of the reconstruction
`score * coeff^T` (the products added up over the kept components), is the same before
normalization (`local_pca_truncate`) and after it (`local_pca`). -/
theorem local_pca_signs_product (h : Host) (X : Mat) (m : Nat) (j : Nat)
    (hj : j < (local_pca h X m).coeffOut.size1) :
    ((Dbl.lt (local_pca_sgn h (local_pca_truncate h (local_pca_fit h X) m).coeffOut.data
          (local_pca_truncate h (local_pca_fit h X) m).coeffOut.size0 j) 0 = true ∧
        (∀ i, i < (local_pca h X m).coeffOut.size0 →
          (local_pca h X m).coeffOut.get h i j
            = -((local_pca_truncate h (local_pca_fit h X) m).coeffOut.get h i j)) ∧
        (∀ r, r < (local_pca h X m).scoreOut.size0 →
          (local_pca h X m).scoreOut.get h r j
            = -((local_pca_truncate h (local_pca_fit h X) m).scoreOut.get h r j))) ∨
      (Dbl.lt (local_pca_sgn h (local_pca_truncate h (local_pca_fit h X) m).coeffOut.data
          (local_pca_truncate h (local_pca_fit h X) m).coeffOut.size0 j) 0 = false ∧
        (∀ i, i < (local_pca h X m).coeffOut.size0 →
          (local_pca h X m).coeffOut.get h i j
            = (local_pca_truncate h (local_pca_fit h X) m).coeffOut.get h i j) ∧
        (∀ r, r < (local_pca h X m).scoreOut.size0 →
          (local_pca h X m).scoreOut.get h r j
            = (local_pca_truncate h (local_pca_fit h X) m).scoreOut.get h r j))) ∧
    (∀ r, r < (local_pca h X m).scoreOut.size0 → ∀ i, i < (local_pca h X m).coeffOut.size0 →
      (local_pca h X m).scoreOut.get h r j * (local_pca h X m).coeffOut.get h i j
        = (local_pca_truncate h (local_pca_fit h X) m).scoreOut.get h r j
          * (local_pca_truncate h (local_pca_fit h X) m).coeffOut.get h i j) ∧
    (∀ r, r < (local_pca h X m).scoreOut.size0 → ∀ i, i < (local_pca h X m).coeffOut.size0 →
      ((List.range (local_pca h X m).coeffOut.size1).map (fun c =>
          (local_pca h X m).scoreOut.get h r c * (local_pca h X m).coeffOut.get h i c)).foldl
          (fun a b => a + b) 0
        = ((List.range (local_pca h X m).coeffOut.size1).map (fun c =>
          (local_pca_truncate h (local_pca_fit h X) m).scoreOut.get h r c
            * (local_pca_truncate h (local_pca_fit h X) m).coeffOut.get h i c)).foldl
          (fun a b => a + b) 0) := by
  obtain ⟨hc, hs⟩ := local_pca_signs_get h X m
  have hprod : ∀ c, c < (local_pca h X m).coeffOut.size1 →
      ∀ r, r < (local_pca h X m).scoreOut.size0 → ∀ i, i < (local_pca h X m).coeffOut.size0 →
      (local_pca h X m).scoreOut.get h r c * (local_pca h X m).coeffOut.get h i c
        = (local_pca_truncate h (local_pca_fit h X) m).scoreOut.get h r c
          * (local_pca_truncate h (local_pca_fit h X) m).coeffOut.get h i c := by
    intro c hcK r hr i hi
    rw [hc i c hi hcK, hs r c hr hcK]
    split
    · exact Dbl.mul_neg_both _ _
    · rfl
  refine ⟨?_, hprod j hj, ?_⟩
  · by_cases hneg : Dbl.lt (local_pca_sgn h
        (local_pca_truncate h (local_pca_fit h X) m).coeffOut.data
        (local_pca_truncate h (local_pca_fit h X) m).coeffOut.size0 j) 0 = true
    · left
      refine ⟨hneg, fun i hi => ?_, fun r hr => ?_⟩
      · rw [hc i j hi hj, if_pos hneg]
      · rw [hs r j hr hj, if_pos hneg]
    · right
      refine ⟨by simpa using hneg, fun i hi => ?_, fun r hr => ?_⟩
      · rw [hc i j hi hj, if_neg hneg]
      · rw [hs r j hr hj, if_neg hneg]
  · intro r hr i hi
    congr 1
    apply List.map_congr_left
    intro c hcm
    exact hprod c (List.mem_range.mp hcm) r hr i hi

/-- C30 (witness): the first kept component of `table42`, score row 0 and coefficient
row 0. -/
theorem local_pca_signs_product_witness :
    0 < (local_pca hostQ table42 2).coeffOut.size1 ∧
    (local_pca hostQ table42 2).scoreOut.get hostQ 0 0
        * (local_pca hostQ table42 2).coeffOut.get hostQ 0 0
      = (local_pca_truncate hostQ (local_pca_fit hostQ table42) 2).scoreOut.get hostQ 0 0
        * (local_pca_truncate hostQ (local_pca_fit hostQ table42) 2).coeffOut.get hostQ 0 0 :=
  ⟨by decide!,
    (local_pca_signs_product hostQ table42 2 0 (by decide!)).2.1 0 (by decide!) 0
      (by decide!)⟩

/-- C31: for every `c` and `s` with `c^2 + s^2 = 1` and two non-overlapping length-`n`
segments of `x` at the 1-based offsets `ix0` and `iy0`, `xrot` preserves
`x[ix0+k-1]^2 + x[iy0+k-1]^2` for every `k < n` (a pair of numbers stays a pair of
numbers; with a NaN in the pair both sums are NaN), and so it preserves the sum of the
squared Euclidean norms of the two segments. -/
theorem xrot_preserves_norm (h : Host) (n : Nat) (x : List Dbl) (ix0 iy0 : Nat) (c s : Dbl)
    (hcs : c * c + s * s = Dbl.num 1)
    (hix : 1 ≤ ix0) (hiy : 1 ≤ iy0) (hdisj : ix0 + n ≤ iy0 ∨ iy0 + n ≤ ix0)
    (hbx : ix0 + n ≤ x.length + 1) (hby : iy0 + n ≤ x.length + 1) :
    (∀ k, k < n →
      rd h (xrot h n x ix0 iy0 c s) (ix0 + k - 1) * rd h (xrot h n x ix0 iy0 c s) (ix0 + k - 1)
          + rd h (xrot h n x ix0 iy0 c s) (iy0 + k - 1)
            * rd h (xrot h n x ix0 iy0 c s) (iy0 + k - 1)
        = rd h x (ix0 + k - 1) * rd h x (ix0 + k - 1)
          + rd h x (iy0 + k - 1) * rd h x (iy0 + k - 1)) ∧
    (∀ k, k < n → ∀ a b : ℚ, rd h x (ix0 + k - 1) = Dbl.num a →
      rd h x (iy0 + k - 1) = Dbl.num b →
      ∃ a1 b1 : ℚ, rd h (xrot h n x ix0 iy0 c s) (ix0 + k - 1) = Dbl.num a1 ∧
        rd h (xrot h n x ix0 iy0 c s) (iy0 + k - 1) = Dbl.num b1 ∧
        a1 ^ 2 + b1 ^ 2 = a ^ 2 + b ^ 2) ∧
    segmentNormSq h (xrot h n x ix0 iy0 c s) ix0 n
        + segmentNormSq h (xrot h n x ix0 iy0 c s) iy0 n
      = segmentNormSq h x ix0 n + segmentNormSq h x iy0 n := by
  have hpair : ∀ k, k < n →
      rd h (xrot h n x ix0 iy0 c s) (ix0 + k - 1) * rd h (xrot h n x ix0 iy0 c s) (ix0 + k - 1)
          + rd h (xrot h n x ix0 iy0 c s) (iy0 + k - 1)
            * rd h (xrot h n x ix0 iy0 c s) (iy0 + k - 1)
        = rd h x (ix0 + k - 1) * rd h x (ix0 + k - 1)
          + rd h x (iy0 + k - 1) * rd h x (iy0 + k - 1) := by
    intro k hk
    obtain ⟨gy, gx⟩ := xrot_get h n x ix0 iy0 c s hix hiy hdisj hbx hby k hk
    rw [gx, gy]
    exact rotation_sq c s _ _ hcs
  refine ⟨hpair, ?_, ?_⟩
  · intro k hk a b ha hb
    obtain ⟨cq, sq, hc, hs, hq⟩ := rotation_numbers c s hcs
    subst hc
    subst hs
    obtain ⟨gy, gx⟩ := xrot_get h n x ix0 iy0 (Dbl.num cq) (Dbl.num sq) hix hiy hdisj hbx
      hby k hk
    rw [ha, hb, Dbl.mul_num, Dbl.mul_num] at gy gx
    rw [Dbl.sub_num] at gy
    rw [Dbl.add_num] at gx
    refine ⟨_, _, gx, gy, ?_⟩
    linear_combination (a ^ 2 + b ^ 2) * hq
  · rw [segmentNormSq_pair, segmentNormSq_pair]
    congr 1
    apply List.map_congr_left
    intro k hkm
    exact hpair k (List.mem_range.mp hkm)

/-- C31 (witness): the rotation with `c = 3/5`, `s = 4/5` applied to the segments
`(1, 2)` at offset 1 and `(3, 4)` at offset 3 of a five-element buffer; the squared
norms sum to 30 before and after. -/
theorem xrot_preserves_norm_witness :
    (Dbl.num (3 / 5) * Dbl.num (3 / 5) + Dbl.num (4 / 5) * Dbl.num (4 / 5) = Dbl.num 1 ∧
      1 ≤ 1 ∧ 1 ≤ 3 ∧ (1 + 2 ≤ 3 ∨ 3 + 2 ≤ 1) ∧ 1 + 2 ≤ 5 + 1 ∧ 3 + 2 ≤ 5 + 1) ∧
    xrot hostQ 2 [Dbl.num 1, Dbl.num 2, Dbl.num 3, Dbl.num 4, Dbl.num 5] 1 3
        (Dbl.num (3 / 5)) (Dbl.num (4 / 5))
      = [Dbl.num 3, Dbl.num (22 / 5), Dbl.num 1, Dbl.num (4 / 5), Dbl.num 5] ∧
    segmentNormSq hostQ [Dbl.num 1, Dbl.num 2, Dbl.num 3, Dbl.num 4, Dbl.num 5] 1 2
        + segmentNormSq hostQ [Dbl.num 1, Dbl.num 2, Dbl.num 3, Dbl.num 4, Dbl.num 5] 3 2
      = Dbl.num 30 ∧
    segmentNormSq hostQ (xrot hostQ 2 [Dbl.num 1, Dbl.num 2, Dbl.num 3, Dbl.num 4, Dbl.num 5]
          1 3 (Dbl.num (3 / 5)) (Dbl.num (4 / 5))) 1 2
        + segmentNormSq hostQ (xrot hostQ 2
          [Dbl.num 1, Dbl.num 2, Dbl.num 3, Dbl.num 4, Dbl.num 5] 1 3 (Dbl.num (3 / 5))
          (Dbl.num (4 / 5))) 3 2
      = segmentNormSq hostQ [Dbl.num 1, Dbl.num 2, Dbl.num 3, Dbl.num 4, Dbl.num 5] 1 2
        + segmentNormSq hostQ [Dbl.num 1, Dbl.num 2, Dbl.num 3, Dbl.num 4, Dbl.num 5] 3 2 :=
  ⟨⟨by decide!, by decide, by decide, by decide, by decide, by decide⟩, by decide!, by decide!,
    (xrot_preserves_norm hostQ 2 [Dbl.num 1, Dbl.num 2, Dbl.num 3, Dbl.num 4, Dbl.num 5] 1 3
      (Dbl.num (3 / 5)) (Dbl.num (4 / 5)) (by decide!) (by decide) (by decide) (by decide)
      (by decide) (by decide)).2.2⟩

/-! ## Further properties -/

/-- For every input table with `n` rows, `pcaRed` returns a matrix with exactly 3 columns
and exactly `n` rows (`3 n` elements); a row that had missing values is NaN in every
output column that is a score column of `local_pca` (for a table of the declared input
type, at most 12 columns).  The other output columns are read from outside the score
matrix. -/
theorem pcaRed_shape (h : Host) (data : Mat) :
    (pcaRed h data).size0 = data.size0 ∧
    (pcaRed h data).size1 = 3 ∧
    (pcaRed h data).data.length = data.size0 * 3 ∧
    (data.size1 ≤ 12 → ∀ i, i < data.size0 → data.rowHasNaN h i = true →
      ∀ j, j < 3 → j < (local_pca h (pcaRed_copy h data) data.size1).scoreOut.size1 →
        (pcaRed h data).get h i j = Dbl.nan) := by
  have hrows : (local_pca h (pcaRed_copy h data) data.size1).scoreOut.size0 = data.size0 := by
    show (local_pca_truncate h (local_pca_fit h (pcaRed_copy h data)) data.size1).scoreOut.size0
      = _
    rw [(local_pca_truncate_shape h _ _).2.2.1, (local_pca_fit_shape h _).2.1]
    rfl
  refine ⟨hrows, rfl, ?_, ?_⟩
  · show (Mat.build _ 3 _).data.length = _
    rw [build_length, hrows]
  · intro hp i hi hrow j hj3 hj
    show (Mat.build _ 3 _).get h i j = _
    rw [build_get h _ _ _ i j (by rw [hrows]; exact hi) hj3]
    exact (nan_rows_stay_nan h (pcaRed_copy h data) data.size1 (Nat.le_refl _) hp).2 i hi
      (by rw [pcaRed_copy_rowHasNaN h data i hi]; exact hrow) j hj

/-- In exact arithmetic, where no norm overflows and no value is infinite: for every
matrix with more columns than rows (`1 <= n < p`), `xzsvdc` enters its pre-scaling pass
with `m = n` and `s[n]` exactly zero (the zero of line 238), with `s` and `e` free of NaN
when the matrix holds `n * p` numbers and the square root of the host is never negative,
and the state it ends with is the loop run on the pre-scaled state.  For every such
state whose `s` and `e` hold no NaN, with buffers of any length: the pre-scaling pass
and every pass of the diagonalization loop work only on columns of `U` below `n` (an
element of `U` at or beyond offset `n * n` is never changed), `s[n]` is exactly zero
after pre-scaling and in every state the loop reaches with `m` still equal to `n`, and
in such a state the classification selects case 1 or case 4, never case 2 or 3. -/
theorem xzsvdc_wide_columns (h : Host) (A : Mat) (hn : 1 ≤ A.size0)
    (hnp : A.size0 < A.size1) :
    (A.size0 < (xzsvdc_bidiagonal h A).s.length ∧
      A.size0 ≤ (xzsvdc_bidiagonal h A).e.length ∧
      rd h (xzsvdc_bidiagonal h A).s A.size0 = Dbl.num 0 ∧
      ((∀ x, 0 ≤ h.sqrt x) → A.data.length = A.size0 * A.size1 → nanFree A.data →
        nanFree (xzsvdc_bidiagonal h A).s ∧ nanFree (xzsvdc_bidiagonal h A).e)) ∧
    xzsvdc_state h A
      = xzsvdc_loop h A.size0 A.size1 A.size0
          (xzsvdc_prescaled h A.size0 A.size1 A.size0 (xzsvdc_bidiagonal h A)).snorm
          (xzsvdc_fuel (A.size0 + 1))
          ⟨(xzsvdc_prescaled h A.size0 A.size1 A.size0 (xzsvdc_bidiagonal h A)).U,
            (xzsvdc_prescaled h A.size0 A.size1 A.size0 (xzsvdc_bidiagonal h A)).x,
            (xzsvdc_prescaled h A.size0 A.size1 A.size0 (xzsvdc_bidiagonal h A)).s,
            (xzsvdc_prescaled h A.size0 A.size1 A.size0 (xzsvdc_bidiagonal h A)).e,
            A.size0 + 1, 0⟩ ∧
    (∀ sc0 : SvdScale, nanFree sc0.s → nanFree sc0.e → A.size0 < sc0.s.length →
      A.size0 ≤ sc0.e.length → rd h sc0.s A.size0 = Dbl.num 0 →
      rd h (xzsvdc_prescaled h A.size0 A.size1 A.size0 sc0).s A.size0 = Dbl.num 0 ∧
      (∀ j, A.size0 * A.size0 ≤ j →
        rd h (xzsvdc_prescaled h A.size0 A.size1 A.size0 sc0).U j = rd h sc0.U j) ∧
      (∀ (snorm : Dbl) (fuel : Nat),
        (∀ j, A.size0 * A.size0 ≤ j →
          rd h (xzsvdc_loop h A.size0 A.size1 A.size0 snorm fuel
              ⟨(xzsvdc_prescaled h A.size0 A.size1 A.size0 sc0).U,
                (xzsvdc_prescaled h A.size0 A.size1 A.size0 sc0).x,
                (xzsvdc_prescaled h A.size0 A.size1 A.size0 sc0).s,
                (xzsvdc_prescaled h A.size0 A.size1 A.size0 sc0).e, A.size0 + 1, 0⟩).U j
            = rd h sc0.U j) ∧
        ((xzsvdc_loop h A.size0 A.size1 A.size0 snorm fuel
              ⟨(xzsvdc_prescaled h A.size0 A.size1 A.size0 sc0).U,
                (xzsvdc_prescaled h A.size0 A.size1 A.size0 sc0).x,
                (xzsvdc_prescaled h A.size0 A.size1 A.size0 sc0).s,
                (xzsvdc_prescaled h A.size0 A.size1 A.size0 sc0).e, A.size0 + 1, 0⟩).m1
            = A.size0 + 1 →
          rd h (xzsvdc_loop h A.size0 A.size1 A.size0 snorm fuel
              ⟨(xzsvdc_prescaled h A.size0 A.size1 A.size0 sc0).U,
                (xzsvdc_prescaled h A.size0 A.size1 A.size0 sc0).x,
                (xzsvdc_prescaled h A.size0 A.size1 A.size0 sc0).s,
                (xzsvdc_prescaled h A.size0 A.size1 A.size0 sc0).e, A.size0 + 1, 0⟩).s
            A.size0 = Dbl.num 0 ∧
          ((xzsvdc_classify h snorm (xzsvdc_loop h A.size0 A.size1 A.size0 snorm fuel
              ⟨(xzsvdc_prescaled h A.size0 A.size1 A.size0 sc0).U,
                (xzsvdc_prescaled h A.size0 A.size1 A.size0 sc0).x,
                (xzsvdc_prescaled h A.size0 A.size1 A.size0 sc0).s,
                (xzsvdc_prescaled h A.size0 A.size1 A.size0 sc0).e, A.size0 + 1, 0⟩)).ns = 1 ∨
           (xzsvdc_classify h snorm (xzsvdc_loop h A.size0 A.size1 A.size0 snorm fuel
              ⟨(xzsvdc_prescaled h A.size0 A.size1 A.size0 sc0).U,
                (xzsvdc_prescaled h A.size0 A.size1 A.size0 sc0).x,
                (xzsvdc_prescaled h A.size0 A.size1 A.size0 sc0).s,
                (xzsvdc_prescaled h A.size0 A.size1 A.size0 sc0).e, A.size0 + 1, 0⟩)).ns
              = 4)))) := by
  obtain ⟨b1, b2, b3⟩ := xzsvdc_bidiagonal_wide h A hnp
  refine ⟨⟨by omega, by omega, b3, fun hsq hwf hA => xzsvdc_bidiagonal_num h hsq A hn hwf hA⟩,
    xzsvdc_state_wide h A hn hnp, ?_⟩
  intro sc0 hs he hsl hel hz
  obtain ⟨z1, u1⟩ := xzsvdc_prescaled_zero h A.size0 A.size1 A.size0 sc0 hs he hsl hel hz
  refine ⟨z1, u1, fun snorm fuel => ?_⟩
  obtain ⟨l1, l2, l3⟩ := xzsvdc_loop_wide h A.size0 A.size1 A.size0 snorm fuel
    ⟨(xzsvdc_prescaled h A.size0 A.size1 A.size0 sc0).U,
      (xzsvdc_prescaled h A.size0 A.size1 A.size0 sc0).x,
      (xzsvdc_prescaled h A.size0 A.size1 A.size0 sc0).s,
      (xzsvdc_prescaled h A.size0 A.size1 A.size0 sc0).e, A.size0 + 1, 0⟩
    (Nat.le_refl _) (fun _ => z1)
  refine ⟨fun j hj => (l1 j hj).trans (u1 j hj), fun hfull => ⟨l3 hfull, ?_⟩⟩
  have hz' := l3 hfull
  rcases xzsvdc_classify_zero h snorm _ (by rw [hfull]; exact Nat.succ_pos _)
    (by rw [hfull, Nat.add_sub_cancel]; exact hz') with c4 | ⟨c1, _⟩
  · exact Or.inr c4
  · exact Or.inl c1

/-- The previous theorem at the 1 x 2 matrix `row34`; the state handed to the
pre-scaling pass holds no NaN, and `s[1]` is zero after the pass. -/
theorem xzsvdc_wide_columns_witness :
    (1 ≤ row34.size0 ∧ row34.size0 < row34.size1) ∧
    (nanFree (xzsvdc_bidiagonal hostQ row34).s ∧ nanFree (xzsvdc_bidiagonal hostQ row34).e) ∧
    rd hostQ (xzsvdc_bidiagonal hostQ row34).s row34.size0 = Dbl.num 0 ∧
    rd hostQ (xzsvdc_prescaled hostQ row34.size0 row34.size1 row34.size0
        (xzsvdc_bidiagonal hostQ row34)).s row34.size0 = Dbl.num 0 :=
  ⟨⟨by decide, by decide⟩,
    (xzsvdc_wide_columns hostQ row34 (by decide) (by decide)).1.2.2.2 hostQ_sqrt_nonneg
      (by decide) (by decide!),
    (xzsvdc_wide_columns hostQ row34 (by decide) (by decide)).1.2.2.1,
    ((xzsvdc_wide_columns hostQ row34 (by decide) (by decide)).2.2
      (xzsvdc_bidiagonal hostQ row34) (by decide!) (by decide!) (by decide!) (by decide!)
      (by decide!)).1⟩

/-- Case 2 has no guard of its own on the column of `U` it rotates (cases 3 and 4 and
the pre-scaling pass test the column index against `n`): in the state `iterWideNaN`,
where `m = n = 1` and `s[n]` is NaN instead of zero, the second scan stops at `s[0]`,
the pass is case 2 with `ii = 1`, and it rotates column `n` of `U`; the element at
offset `n * n = 1` is overwritten. -/
theorem xzsvdc_case2_unguarded :
    (xzsvdc_classify hostQ (Dbl.num (10 ^ 17)) iterWideNaN).ns = 2 ∧
    (xzsvdc_classify hostQ (Dbl.num (10 ^ 17)) iterWideNaN).ii = 1 ∧
    rd hostQ iterWideNaN.U 1 = Dbl.num 5 ∧
    rd hostQ (xzsvdc_pass hostQ 1 2 1 (Dbl.num (10 ^ 17)) iterWideNaN).U 1 = Dbl.nan ∧
    (xzsvdc_pass hostQ 1 2 1 (Dbl.num (10 ^ 17)) iterWideNaN).s = [Dbl.num 0, Dbl.nan] := by
  decide!

/-- Whenever `local_pca` returns at least three score columns for the table, every
element `pcaRed` copies lies inside the score matrix and output column `j` of `pcaRed`
is score column `j`, for `j = 0, 1, 2`. -/
theorem pcaRed_copies_scores (h : Host) (data : Mat)
    (h3 : 3 ≤ (local_pca h (pcaRed_copy h data) data.size1).scoreOut.size1)
    (i : Nat) (hi : i < data.size0) (j : Nat) (hj : j < 3) :
    i + (local_pca h (pcaRed_copy h data) data.size1).scoreOut.size0 * j
      < (local_pca h (pcaRed_copy h data) data.size1).scoreOut.data.length ∧
    (pcaRed h data).get h i j
      = (local_pca h (pcaRed_copy h data) data.size1).scoreOut.get h i j := by
  have hrows := pcaRed_score_rows h data
  have hwf := local_pca_score_wellFormed h (pcaRed_copy h data) data.size1
  unfold Mat.WellFormed at hwf
  constructor
  · rw [hwf]
    exact cell_lt _ _ i j (by rw [hrows]; exact hi) (Nat.lt_of_lt_of_le hj h3)
  · show (Mat.build _ 3 _).get h i j = _
    rw [build_get h _ _ _ i j (by rw [hrows]; exact hi) hj]
    rfl

/-- The previous theorem at the 4 x 3 all-zero table, for which three components are kept. -/
theorem pcaRed_copies_scores_witness :
    3 ≤ (local_pca hostQ (pcaRed_copy hostQ zeros43) zeros43.size1).scoreOut.size1 ∧
    (pcaRed hostQ zeros43).get hostQ 3 2
      = (local_pca hostQ (pcaRed_copy hostQ zeros43) zeros43.size1).scoreOut.get hostQ 3 2 :=
  ⟨by decide!, (pcaRed_copies_scores hostQ zeros43 (by decide!) 3 (by decide) 2 (by decide)).2⟩

/-- The absolute floor of the deflation test: for the 1 x 2 matrix `[t, t]` with
`t = 2^(-1000)` the first scan finds `|e[0]| = t <= 1.0020841800044864E-292` and sets
`e[0]` to zero, so the engine returns `S = [t]`, `U = [1]`, `V = [1, 0]`, and
`U diag(S) V^T = [t, 0]` misses the second entry of the matrix; for `[3, 4]` it returns
the exact decomposition `S = [5]`, `V = [3/5, 4/5]`. -/
theorem xzsvdc_floor_example :
    (xzsvdc hostQ tiny12).U = ⟨1, 1, [Dbl.num 1]⟩ ∧
    (xzsvdc hostQ tiny12).S = [Dbl.num (1 / 2 ^ 1000)] ∧
    (xzsvdc hostQ tiny12).V = ⟨2, 1, [Dbl.num 1, Dbl.num 0]⟩ ∧
    (xzsvdc hostQ row34).U = ⟨1, 1, [Dbl.num 1]⟩ ∧
    (xzsvdc hostQ row34).S = [Dbl.num 5] ∧
    (xzsvdc hostQ row34).V = ⟨2, 1, [Dbl.num (3 / 5), Dbl.num (4 / 5)]⟩ := by
  decide!
